import Mathlib

/-! Chunked file carving: a shallow embedding of the scanning and carving engine.

The development embeds five translation units of the repository:

* `file_signature.cpp`: the signature registry and the byte matchers
  (`detect_header`, `find_pattern`);
* `chunk_reader.cpp`: the streaming reader with its retained overlap tail
  (`read_chunk`) and the random-access read (`read_at_position`);
* `file_carver.cpp`: the carving engine (`carve_file_types`, `process_chunk`,
  `find_footer`, `extract_file`, `generate_unique_filename`);
* `command_line_parser.cpp`: the argument loop of `parse`, `validate_config`,
  `parse_size_argument` and `split_string`;
* `main.cpp`: `configure_carver` and the flow of `main` from the parsed
  configuration to the carve.

Conventions of the embedding.

* A byte is a natural number; the input file is a list of bytes.
* `size_t` values are natural numbers.  File lengths and cursor positions are
  stream offsets, so an offset plus an in-window index never wraps.  The two
  places where a 64-bit wrap can happen are modelled with an explicit
  `% 2 ^ 64`: the sum `start_offset + search_window_` (the search window is a
  free configuration value) and the difference `end_offset - start_offset`.
* A `double` is the exact rational it denotes.  `to_double` rounds a rational
  to binary64 (53-bit significand, round to nearest, ties to even), and
  `get_progress` applies it to each conversion and each operation it performs.
* Stateful code is explicit state passing.  The file system and the
  function-local static counter map of `generate_unique_filename` live in a
  `World` value that the engine threads through.
* The scan loop of `process_chunk` computes its bound as `chunk_size - 4` in
  `size_t`.  For a window shorter than four bytes this wraps around and the
  loop reads far beyond the buffer; that run has no defined result and is the
  fault `Fault.undefined_behaviour`.
* The main loop of `carve_file_types` is a `while`; it is embedded with fuel,
  and `file_size_ + 1` iterations are shown to be enough.
-/

namespace Carving

/-- Byte of the input (a `uint8_t` value). -/
abbrev Byte := Nat

/-- Largest `size_t` value, the "not found" sentinel of the matchers. -/
def SIZE_MAX : Nat := 2 ^ 64 - 1

/-! ## file_signature.h / file_signature.cpp -/

/-- File signature descriptor (`struct FileSignature`). -/
structure FileSignature where
  name : String
  extension : String
  header : List Byte
  footer : List Byte
  max_size : Nat
  has_footer : Bool
deriving DecidableEq

/-- Built-in registry in insertion order
(`FileSignatureDetector::initialize_common_signatures`). -/
def initialize_common_signatures : List FileSignature :=
  [ ⟨"JPEG", ".jpg", [0xFF, 0xD8, 0xFF], [0xFF, 0xD9], 0, true⟩,
    ⟨"PNG", ".png", [0x89, 0x50, 0x4E, 0x47, 0x0D, 0x0A, 0x1A, 0x0A],
      [0x49, 0x45, 0x4E, 0x44, 0xAE, 0x42, 0x60, 0x82], 0, true⟩,
    ⟨"GIF87a", ".gif", [0x47, 0x49, 0x46, 0x38, 0x37, 0x61], [0x00, 0x3B], 0, true⟩,
    ⟨"GIF89a", ".gif", [0x47, 0x49, 0x46, 0x38, 0x39, 0x61], [0x00, 0x3B], 0, true⟩,
    ⟨"PDF", ".pdf", [0x25, 0x50, 0x44, 0x46, 0x2D], [0x25, 0x25, 0x45, 0x4F, 0x46], 0, true⟩,
    ⟨"ZIP", ".zip", [0x50, 0x4B, 0x03, 0x04], [0x50, 0x4B, 0x05, 0x06], 0, true⟩,
    ⟨"RAR", ".rar", [0x52, 0x61, 0x72, 0x21, 0x1A, 0x07, 0x00], [], 0, false⟩,
    ⟨"7ZIP", ".7z", [0x37, 0x7A, 0xBC, 0xAF, 0x27, 0x1C], [], 0, false⟩,
    ⟨"DOCX", ".docx", [0x50, 0x4B, 0x03, 0x04, 0x14, 0x00, 0x06, 0x00], [], 0, false⟩,
    ⟨"MP3", ".mp3", [0x49, 0x44, 0x33], [], 0, false⟩,
    ⟨"MP3_ALT", ".mp3", [0xFF, 0xFB], [], 0, false⟩,
    ⟨"MP4", ".mp4", [0x00, 0x00, 0x00, 0x20, 0x66, 0x74, 0x79, 0x70], [], 0, false⟩,
    ⟨"AVI", ".avi", [0x52, 0x49, 0x46, 0x46], [], 0, false⟩,
    ⟨"BMP", ".bmp", [0x42, 0x4D], [], 0, false⟩,
    ⟨"TIFF_LE", ".tiff", [0x49, 0x49, 0x2A, 0x00], [], 0, false⟩,
    ⟨"TIFF_BE", ".tiff", [0x4D, 0x4D, 0x00, 0x2A], [], 0, false⟩,
    ⟨"DOC", ".doc", [0xD0, 0xCF, 0x11, 0xE0, 0xA1, 0xB1, 0x1A, 0xE1], [], 0, false⟩,
    ⟨"EXE", ".exe", [0x4D, 0x5A], [], 0, false⟩,
    ⟨"SQLITE", ".db",
      [0x53, 0x51, 0x4C, 0x69, 0x74, 0x65, 0x20, 0x66, 0x6F, 0x72, 0x6D, 0x61, 0x74, 0x20,
        0x33, 0x00], [], 0, false⟩ ]

/-- Registry append (`FileSignatureDetector::add_signature`); the name index is
not needed by the scan and is not kept. -/
def add_signature (signatures : List FileSignature) (signature : FileSignature) :
    List FileSignature :=
  signatures ++ [signature]

/-- First signature, in registry order, whose header fits in `size` bytes and
equals the bytes at `data` (`FileSignatureDetector::detect_header`); `none` is
the null pointer.  `data` is the memory starting at the pointer argument. -/
def detect_header (signatures : List FileSignature) (data : List Byte) (size : Nat) :
    Option FileSignature :=
  signatures.find? (fun sig => decide (size ≥ sig.header.length) && sig.header.isPrefixOf data)

/-- Loop of `find_pattern`: `k` candidate positions remain, starting at `i`. -/
def find_pattern_loop (data pattern : List Byte) : Nat → Nat → Nat
  | _, 0 => SIZE_MAX
  | i, k + 1 =>
    if pattern.isPrefixOf (data.drop i) then i else find_pattern_loop data pattern (i + 1) k

/-- Leftmost occurrence of `pattern` in the first `size` bytes of `data`, or
`SIZE_MAX` (`FileSignatureDetector::find_pattern`). -/
def find_pattern (data : List Byte) (size : Nat) (pattern : List Byte) : Nat :=
  if pattern.isEmpty || decide (size < pattern.length) then SIZE_MAX
  else find_pattern_loop data pattern 0 (size - pattern.length + 1)

/-- Registry state (`class FileSignatureDetector`): the scan list
`signatures_` and the name index `name_to_index_`, the `unordered_map` kept as
the finite map it represents. -/
structure FileSignatureDetector where
  signatures_ : List FileSignature
  name_to_index_ : String → Option Nat

namespace FileSignatureDetector

/-- Members as default-constructed, before the constructor body runs. -/
def empty : FileSignatureDetector := ⟨[], fun _ => none⟩

/-- Method `FileSignatureDetector::add_signature`: `push_back`, then
`name_to_index_[signature.name] = signatures_.size() - 1`. -/
def add_signature (d : FileSignatureDetector) (signature : FileSignature) :
    FileSignatureDetector :=
  let pushed := d.signatures_ ++ [signature]
  { signatures_ := pushed,
    name_to_index_ := fun k =>
      if k = signature.name then some (pushed.length - 1) else d.name_to_index_ k }

/-- Method `FileSignatureDetector::initialize_common_signatures`: one
`add_signature` call per built-in entry, in source order. -/
def initialize_common_signatures (d : FileSignatureDetector) : FileSignatureDetector :=
  Carving.initialize_common_signatures.foldl add_signature d

/-- Constructor `FileSignatureDetector()`. -/
def new : FileSignatureDetector := empty.initialize_common_signatures

/-- Method `FileSignatureDetector::get_signatures`. -/
def get_signatures (d : FileSignatureDetector) : List FileSignature := d.signatures_

/-- Method `FileSignatureDetector::detect_header`. -/
def detect_header (d : FileSignatureDetector) (data : List Byte) (size : Nat) :
    Option FileSignature :=
  Carving.detect_header d.signatures_ data size

/-- Method `FileSignatureDetector::get_signature`; `none` is the null pointer.
The stored index is read with `signatures_[it->second]`. -/
def get_signature (d : FileSignatureDetector) (name : String) : Option FileSignature :=
  match d.name_to_index_ name with
  | none => none
  | some i => d.signatures_[i]?

end FileSignatureDetector

/-! ## chunk_reader.h / chunk_reader.cpp -/

/-! Arithmetic of `double`, as `get_progress` uses it. -/

/-- Rounding of a rational to the nearest integer, ties to the even one
(`roundTiesToEven` of IEEE 754). -/
def round_half_even (x : ℚ) : ℤ :=
  if x - ⌊x⌋ < 1 / 2 then ⌊x⌋
  else if x - ⌊x⌋ > 1 / 2 then ⌊x⌋ + 1
  else if ⌊x⌋ % 2 = 0 then ⌊x⌋ else ⌊x⌋ + 1

/-- Exponent of the binade of `x` in binary64: the floor of the binary
logarithm of the magnitude, not below the exponent -1022 of the subnormals. -/
def binade (x : ℚ) : ℤ := max (Int.log 2 |x|) (-1022)

/-- Value of the `double` nearest to `x`: IEEE 754 binary64 with its 53-bit
significand, rounded to nearest, ties to even.  Overflow is not modelled, so
the value is that of the machine for magnitudes below `2 ^ 1024`. -/
def to_double (x : ℚ) : ℚ :=
  (round_half_even (x / 2 ^ (binade x - 52)) : ℚ) * 2 ^ (binade x - 52)

/-- Reader state (`class ChunkReader`).  `file_` is the content of the open
stream; `filename_` and the unused `buffer_` are not kept. -/
structure ChunkReader where
  file_ : List Byte
  file_size_ : Nat
  current_position_ : Nat
  chunk_size_ : Nat
  is_open_ : Bool
  overlap_buffer_ : List Byte
  overlap_size_ : Nat
  total_bytes_read_ : Nat
  chunks_read_ : Nat

namespace ChunkReader

/-- Constructor `ChunkReader(chunk_size, overlap_size)`; the C++ defaults are
65536 and 4096. -/
def new (chunk_size overlap_size : Nat) : ChunkReader :=
  { file_ := [], file_size_ := 0, current_position_ := 0, chunk_size_ := chunk_size,
    is_open_ := false, overlap_buffer_ := [], overlap_size_ := overlap_size,
    total_bytes_read_ := 0, chunks_read_ := 0 }

/-- Method `ChunkReader::close`. -/
def close (r : ChunkReader) : ChunkReader :=
  { r with file_ := [], is_open_ := false, overlap_buffer_ := [], file_size_ := 0,
           current_position_ := 0 }

/-- Method `ChunkReader::open`; `content` is what the named file holds, `none`
when it cannot be opened. -/
def «open» (r : ChunkReader) (content : Option (List Byte)) : Bool × ChunkReader :=
  match content with
  | none => (false, r.close)
  | some bytes =>
    (true, { r.close with file_ := bytes, is_open_ := true, current_position_ := 0,
                          total_bytes_read_ := 0, chunks_read_ := 0,
                          file_size_ := bytes.length })

/-- Method `ChunkReader::is_eof`. -/
def is_eof (r : ChunkReader) : Bool :=
  !r.is_open_ || decide (r.current_position_ ≥ r.file_size_)

/-- Method `ChunkReader::tell`. -/
def tell (r : ChunkReader) : Nat := r.current_position_

/-- Method `ChunkReader::get_file_size`. -/
def get_file_size (r : ChunkReader) : Nat := r.file_size_

/-- Bytes delivered by `seekg(position)` followed by `read(_, n)` on the stream
(`gcount` is the length of the result). -/
def stream_read (r : ChunkReader) (position n : Nat) : List Byte :=
  (r.file_.drop position).take n

/-- Effect of `std::vector::resize(n)` on the content `v`: truncation, or
extension with zero bytes. -/
def resize (v : List Byte) (n : Nat) : List Byte :=
  (v ++ List.replicate (n - v.length) 0).take n

/-- Method `ChunkReader::read_chunk`.  Returns the boolean result, the output
vector `data`, `bytes_read` and the new reader state. -/
def read_chunk (r : ChunkReader) (data : List Byte) : Bool × List Byte × Nat × ChunkReader :=
  if !r.is_open_ then (false, data, 0, r)
  else if r.is_eof then (false, data, 0, r)
  else
    let bytes_to_read := min r.chunk_size_ (r.file_size_ - r.current_position_)
    let with_overlap : Bool := decide (r.current_position_ > 0) && !r.overlap_buffer_.isEmpty
    let head : List Byte := if with_overlap then r.overlap_buffer_ else []
    let total_size := bytes_to_read + head.length
    let resized := resize data total_size
    let fresh := r.stream_read r.current_position_ bytes_to_read
    let new_bytes_read := fresh.length
    -- the vector after the overlap copy and the stream read into it
    let filled := head ++ fresh ++ resized.drop (head.length + new_bytes_read)
    let bytes_read := head.length + new_bytes_read
    let current_position := r.current_position_ + new_bytes_read
    let overlap : List Byte :=
      if new_bytes_read ≥ r.overlap_size_ ∧ current_position < r.file_size_ then
        filled.drop (bytes_read - r.overlap_size_)
      else []
    (decide (bytes_read > 0), resize filled bytes_read, bytes_read,
      { r with current_position_ := current_position,
               total_bytes_read_ := r.total_bytes_read_ + new_bytes_read,
               chunks_read_ := r.chunks_read_ + 1,
               overlap_buffer_ := overlap })

/-- Method `ChunkReader::read_at_position`: the returned count and the output
vector.  The stream position it moves is re-set by every `read_chunk`, so the
reader state is unchanged. -/
def read_at_position (r : ChunkReader) (position size : Nat) (data : List Byte) :
    Nat × List Byte :=
  if !r.is_open_ || decide (position ≥ r.file_size_) then (0, data)
  else
    let bytes_to_read := min size (r.file_size_ - position)
    let resized := resize data bytes_to_read
    let got := r.stream_read position bytes_to_read
    (got.length, got ++ resized.drop got.length)

/-- Method `ChunkReader::seek`: the boolean result and the new reader state. -/
def seek (r : ChunkReader) (position : Nat) : Bool × ChunkReader :=
  if !r.is_open_ then (false, r)
  else
    let clamped := if position > r.file_size_ then r.file_size_ else position
    (true, { r with current_position_ := clamped, overlap_buffer_ := [] })

/-- Method `ChunkReader::get_progress`: `0.0` for an empty file, otherwise
`(static_cast<double>(current_position_) / file_size_) * 100.0`.  Both
operands are converted to `double`, and the quotient and the product are each
rounded to `double`; the result is the exact value of the `double` returned. -/
def get_progress (r : ChunkReader) : ℚ :=
  if r.file_size_ = 0 then 0
  else to_double (to_double (to_double (r.current_position_ : ℚ)
    / to_double (r.file_size_ : ℚ)) * 100)

/-- Method `ChunkReader::set_chunk_size`. -/
def set_chunk_size (r : ChunkReader) (new_chunk_size : Nat) : ChunkReader :=
  { r with chunk_size_ := new_chunk_size }

/-- Method `ChunkReader::set_overlap_size`. -/
def set_overlap_size (r : ChunkReader) (new_overlap_size : Nat) : ChunkReader :=
  { r with overlap_size_ := new_overlap_size }

end ChunkReader

/-- Reader together with the get position of its `std::ifstream file_`: the
piece of state that `seekg` and `read` move.  `ChunkReader` leaves it out; the
methods below are the same C++ methods with the stream position explicit. -/
structure StreamReader where
  reader : ChunkReader
  get_position : Nat

namespace StreamReader

/-- Stream operation `file_.seekg(position)`. -/
def seekg (s : StreamReader) (position : Nat) : StreamReader :=
  { s with get_position := position }

/-- Stream operation `file_.read(buffer, n)`: the bytes delivered, taken at
the get position, which advances by their number (`gcount`). -/
def read (s : StreamReader) (n : Nat) : List Byte × StreamReader :=
  let got := (s.reader.file_.drop s.get_position).take n
  (got, { s with get_position := s.get_position + got.length })

/-- Method `ChunkReader::open` with the stream position: a freshly opened
stream is at 0, and `calculate_file_size` restores the position it found. -/
def «open» (s : StreamReader) (content : Option (List Byte)) : Bool × StreamReader :=
  ((s.reader.open content).1, ⟨(s.reader.open content).2, 0⟩)

/-- Method `ChunkReader::seek` with the stream position, which it leaves alone. -/
def seek (s : StreamReader) (position : Nat) : Bool × StreamReader :=
  ((s.reader.seek position).1, { s with reader := (s.reader.seek position).2 })

/-- Method `ChunkReader::read_at_position` with the stream position. -/
def read_at_position (s : StreamReader) (position size : Nat) (data : List Byte) :
    Nat × List Byte × StreamReader :=
  if !s.reader.is_open_ || decide (position ≥ s.reader.file_size_) then (0, data, s)
  else
    let bytes_to_read := min size (s.reader.file_size_ - position)
    let resized := ChunkReader.resize data bytes_to_read
    let rd := (s.seekg position).read bytes_to_read
    (rd.1.length, rd.1 ++ resized.drop rd.1.length, rd.2)

/-- Method `ChunkReader::read_chunk` with the stream position. -/
def read_chunk (s : StreamReader) (data : List Byte) : Bool × List Byte × Nat × StreamReader :=
  if !s.reader.is_open_ then (false, data, 0, s)
  else if s.reader.is_eof then (false, data, 0, s)
  else
    let r := s.reader
    let bytes_to_read := min r.chunk_size_ (r.file_size_ - r.current_position_)
    let with_overlap : Bool := decide (r.current_position_ > 0) && !r.overlap_buffer_.isEmpty
    let head : List Byte := if with_overlap then r.overlap_buffer_ else []
    let total_size := bytes_to_read + head.length
    let resized := ChunkReader.resize data total_size
    let rd := (s.seekg r.current_position_).read bytes_to_read
    let fresh := rd.1
    let new_bytes_read := fresh.length
    let filled := head ++ fresh ++ resized.drop (head.length + new_bytes_read)
    let bytes_read := head.length + new_bytes_read
    let current_position := r.current_position_ + new_bytes_read
    let overlap : List Byte :=
      if new_bytes_read ≥ r.overlap_size_ ∧ current_position < r.file_size_ then
        filled.drop (bytes_read - r.overlap_size_)
      else []
    (decide (bytes_read > 0), ChunkReader.resize filled bytes_read, bytes_read,
      { rd.2 with
          reader := { r with current_position_ := current_position,
                             total_bytes_read_ := r.total_bytes_read_ + new_bytes_read,
                             chunks_read_ := r.chunks_read_ + 1,
                             overlap_buffer_ := overlap } })

end StreamReader

/-! ## file_carver.h / file_carver.cpp -/

/-- Engine output record (`struct CarvedFile`). -/
structure CarvedFile where
  filename : String
  type : String
  start_offset : Nat
  end_offset : Nat
  file_size : Nat
  has_valid_footer : Bool
  extracted : Bool
deriving DecidableEq

/-- File-system operation performed by the engine. -/
inductive DiskEvent where
  | create_directories (path : String)
  | create (path : String)
  | write (path : String) (bytes : List Byte)
  | remove (path : String)
deriving DecidableEq

/-- Process-wide state outside the engine object: whether an output file can be
created at a path, the static counter map of `generate_unique_filename`, and
the file-system operations performed so far (oldest first). -/
structure World where
  can_create : String → Bool
  counters : List (String × Nat)
  disk_log : List DiskEvent

/-- Engine state (`class FileCarver`); the progress callback only observes. -/
structure FileCarver where
  signatures : List FileSignature
  chunk_reader_ : ChunkReader
  output_directory_ : String
  carved_files_ : List CarvedFile
  min_file_size_ : Nat
  max_file_size_ : Nat
  extract_files_ : Bool
  use_footers_ : Bool
  search_window_ : Nat
  files_found_ : Nat
  files_extracted_ : Nat
  bytes_processed_ : Nat
  world : World

/-- Run without a defined result. -/
inductive Fault where
  | undefined_behaviour
  | out_of_fuel
deriving DecidableEq

namespace FileCarver

/-- Constructor `FileCarver(output_dir)`: default configuration, the built-in
registry and a reader with the default chunk and overlap sizes. -/
def new (output_dir : String) (w : World) : FileCarver :=
  { signatures := initialize_common_signatures,
    chunk_reader_ := ChunkReader.new 65536 4096,
    output_directory_ := output_dir,
    carved_files_ := [],
    min_file_size_ := 512,
    max_file_size_ := 0,
    extract_files_ := true,
    use_footers_ := true,
    search_window_ := 1024 * 1024,
    files_found_ := 0,
    files_extracted_ := 0,
    bytes_processed_ := 0,
    world := { w with disk_log := w.disk_log ++ [DiskEvent.create_directories output_dir] } }

/-- Setter `set_min_file_size`. -/
def set_min_file_size (c : FileCarver) (min_size : Nat) : FileCarver :=
  { c with min_file_size_ := min_size }

/-- Setter `set_max_file_size`. -/
def set_max_file_size (c : FileCarver) (max_size : Nat) : FileCarver :=
  { c with max_file_size_ := max_size }

/-- Setter `set_extract_files`. -/
def set_extract_files (c : FileCarver) (extract : Bool) : FileCarver :=
  { c with extract_files_ := extract }

/-- Setter `set_use_footers`. -/
def set_use_footers (c : FileCarver) (use_footers : Bool) : FileCarver :=
  { c with use_footers_ := use_footers }

/-- Setter `set_search_window`. -/
def set_search_window (c : FileCarver) (window_size : Nat) : FileCarver :=
  { c with search_window_ := window_size }

/-- Method `add_custom_signature`. -/
def add_custom_signature (c : FileCarver) (signature : FileSignature) : FileCarver :=
  { c with signatures := add_signature c.signatures signature }

/-- Method `clear_results`. -/
def clear_results (c : FileCarver) : FileCarver :=
  { c with carved_files_ := [], files_found_ := 0, files_extracted_ := 0,
           bytes_processed_ := 0 }

/-- Method `find_footer` (the signature pointer is never null at the call). -/
def find_footer (c : FileCarver) (start_offset : Nat) (signature : FileSignature)
    (max_search_size : Nat) : Nat :=
  if !signature.has_footer then SIZE_MAX
  else
    let rd := c.chunk_reader_.read_at_position start_offset max_search_size []
    if rd.1 = 0 then SIZE_MAX
    else
      let footer_pos := find_pattern rd.2 rd.1 signature.footer
      if footer_pos ≠ SIZE_MAX then start_offset + footer_pos else SIZE_MAX

/-- End offset and footer flag of a candidate (`process_chunk`, from the
declaration of `end_offset` to the clamp against the file size). -/
def determine_end (c : FileCarver) (signature : FileSignature) (start_offset : Nat) :
    Nat × Bool :=
  let found : Nat × Bool :=
    if c.use_footers_ && signature.has_footer then
      let footer_pos := c.find_footer start_offset signature c.search_window_
      if footer_pos ≠ SIZE_MAX then (footer_pos + signature.footer.length, true)
      else ((start_offset + c.search_window_) % 2 ^ 64, false)
    else ((start_offset + c.search_window_) % 2 ^ 64, false)
  if found.1 > c.chunk_reader_.get_file_size then (c.chunk_reader_.get_file_size, found.2)
  else found

/-- Decimal rendering under `setfill('0')` and `setw(6)`. -/
def pad6 (n : Nat) : String :=
  String.mk (List.replicate (6 - (Nat.repr n).length) '0') ++ Nat.repr n

/-- Lookup in the static counter map (`counters[base_name]`, 0 when absent). -/
def counter_get (m : List (String × Nat)) (k : String) : Nat :=
  (m.lookup k).getD 0

/-- Store into the static counter map. -/
def counter_set (m : List (String × Nat)) (k : String) (v : Nat) : List (String × Nat) :=
  (k, v) :: m.filter (fun p => p.1 != k)

/-- Method `generate_unique_filename`: the name and the updated counter map. -/
def generate_unique_filename (m : List (String × Nat)) (base_name extension : String) :
    String × List (String × Nat) :=
  let counter := counter_get m base_name
  (base_name ++ "_" ++ pad6 counter ++ extension, counter_set m base_name (counter + 1))

/-- Method `validate_carved_file`. -/
def validate_carved_file (_c : FileCarver) (_carved_file : CarvedFile) : Bool := true

/-- Method `extract_file`: the result and the world after the file operations. -/
def extract_file (c : FileCarver) (carved_file : CarvedFile) : Bool × World :=
  let output_path := c.output_directory_ ++ "/" ++ carved_file.filename
  if !c.world.can_create output_path then (false, c.world)
  else
    let opened : World :=
      { c.world with disk_log := c.world.disk_log ++ [DiskEvent.create output_path] }
    let rd := c.chunk_reader_.read_at_position carved_file.start_offset carved_file.file_size []
    if rd.1 = 0 then
      (false, { opened with disk_log := opened.disk_log ++ [DiskEvent.remove output_path] })
    else
      (true, { opened with
                 disk_log := opened.disk_log ++ [DiskEvent.write output_path (rd.2.take rd.1)] })

/-- Tail of the scan-loop body of `process_chunk`: the candidate passed the
size checks; build the record, name it, extract it if configured, append it. -/
def emit_candidate (c : FileCarver) (signature : FileSignature)
    (start_offset end_offset file_size : Nat) (has_valid_footer : Bool) : FileCarver :=
  let named := generate_unique_filename c.world.counters signature.name signature.extension
  let c1 : FileCarver := { c with world := { c.world with counters := named.2 } }
  let carved_file : CarvedFile :=
    { filename := named.1, type := signature.name, start_offset := start_offset,
      end_offset := end_offset, file_size := file_size,
      has_valid_footer := has_valid_footer, extracted := false }
  if c1.validate_carved_file carved_file then
    if c1.extract_files_ then
      let ex := c1.extract_file carved_file
      { c1 with world := ex.2,
                files_extracted_ := if ex.1 then c1.files_extracted_ + 1
                                    else c1.files_extracted_,
                carved_files_ := c1.carved_files_ ++ [{ carved_file with extracted := ex.1 }],
                files_found_ := c1.files_found_ + 1 }
    else
      { c1 with carved_files_ := c1.carved_files_ ++ [carved_file],
                files_found_ := c1.files_found_ + 1 }
  else c1

/-- Body of the scan loop of `process_chunk` at window index `i`. -/
def process_position (data : List Byte) (chunk_size file_offset : Nat)
    (file_types : List String) (c : FileCarver) (i : Nat) : FileCarver :=
  match detect_header c.signatures (data.drop i) (chunk_size - i) with
  | none => c
  | some signature =>
    if !file_types.isEmpty && !file_types.contains signature.name then c
    else
      let start_offset := file_offset + i
      let ended := c.determine_end signature start_offset
      let end_offset := ended.1
      let has_valid_footer := ended.2
      let file_size := (end_offset + 2 ^ 64 - start_offset) % 2 ^ 64
      if file_size < c.min_file_size_ then c
      else if c.max_file_size_ > 0 ∧ file_size > c.max_file_size_ then c
      else c.emit_candidate signature start_offset end_offset file_size has_valid_footer

/-- Method `process_chunk`.  The bound `chunk_size - 4` is a `size_t`
difference: below four bytes it wraps and the loop leaves the buffer. -/
def process_chunk (c : FileCarver) (data : List Byte) (chunk_size file_offset : Nat)
    (file_types : List String) : Except Fault FileCarver :=
  if chunk_size < 4 then Except.error Fault.undefined_behaviour
  else
    Except.ok ((List.range (chunk_size - 4 + 1)).foldl
      (process_position data chunk_size file_offset file_types) c)

/-- Main `while` loop of `carve_file_types`, with `fuel` iterations allowed;
`chunk_data` is the vector reused across iterations. -/
def carve_loop (file_types : List String) :
    Nat → FileCarver → List Byte → Nat → Except Fault FileCarver
  | 0, _, _, _ => Except.error Fault.out_of_fuel
  | fuel + 1, c, chunk_data, file_offset =>
    let rc := c.chunk_reader_.read_chunk chunk_data
    let c0 : FileCarver := { c with chunk_reader_ := rc.2.2.2 }
    if rc.1 then
      match c0.process_chunk rc.2.1 rc.2.2.1 file_offset file_types with
      | Except.error e => Except.error e
      | Except.ok c1 =>
        carve_loop file_types fuel
          { c1 with bytes_processed_ := c1.bytes_processed_ + rc.2.2.1 }
          rc.2.1 c1.chunk_reader_.tell
    else Except.ok c0

/-- Method `carve_file_types`; `input` is the content of `input_file`, `none`
when the file cannot be opened. -/
def carve_file_types (c : FileCarver) (input : Option (List Byte)) (file_types : List String) :
    Except Fault (Bool × FileCarver) :=
  let c := c.clear_results
  let op := c.chunk_reader_.open input
  let c : FileCarver := { c with chunk_reader_ := op.2 }
  if !op.1 then Except.ok (false, c)
  else
    match carve_loop file_types (c.chunk_reader_.file_size_ + 1) c [] 0 with
    | Except.error e => Except.error e
    | Except.ok c1 => Except.ok (true, { c1 with chunk_reader_ := c1.chunk_reader_.close })

/-- Method `carve_file`. -/
def carve_file (c : FileCarver) (input : Option (List Byte)) : Except Fault (Bool × FileCarver) :=
  c.carve_file_types input []

/-- Method `get_carved_files`. -/
def get_carved_files (c : FileCarver) : List CarvedFile := c.carved_files_

/-- Method `get_statistics`: files found, files extracted, bytes processed. -/
def get_statistics (c : FileCarver) : Nat × Nat × Nat :=
  (c.files_found_, c.files_extracted_, c.bytes_processed_)

/-- Bound of the scan loop of `process_chunk`: `chunk_size - 4` in `size_t`. -/
def scan_loop_bound (chunk_size : Nat) : Nat := (chunk_size + 2 ^ 64 - 4) % 2 ^ 64

/-- Size argument of the `detect_header` call at index `i` of the scan loop:
`chunk_size - i` in `size_t`. -/
def detect_size (chunk_size i : Nat) : Nat := (chunk_size + 2 ^ 64 - i) % 2 ^ 64

end FileCarver

/-! ## command_line_parser.h / main.cpp -/

/-- Application configuration (`struct CarverConfig`). -/
structure CarverConfig where
  input_file : String
  output_directory : String
  file_types : List String
  min_file_size : Nat
  max_file_size : Nat
  chunk_size : Nat
  overlap_size : Nat
  search_window : Nat
  extract_files : Bool
  use_footers : Bool
  verbose : Bool
  generate_report : Bool
  generate_csv : Bool
  report_file : String
  csv_file : String

/-- Default member initialisers of `struct CarverConfig`. -/
def CarverConfig.default : CarverConfig :=
  { input_file := "", output_directory := "output", file_types := [], min_file_size := 512,
    max_file_size := 0, chunk_size := 65536, overlap_size := 4096, search_window := 1048576,
    extract_files := true, use_footers := true, verbose := false, generate_report := true,
    generate_csv := false, report_file := "carving_report.txt",
    csv_file := "carving_report.csv" }

/-- Function `configure_carver` of `main.cpp`: the five setter calls.  The
progress callback it installs and its log lines only observe. -/
def configure_carver (carver : FileCarver) (config : CarverConfig) : FileCarver :=
  ((((carver.set_min_file_size config.min_file_size).set_max_file_size
    config.max_file_size).set_extract_files config.extract_files).set_use_footers
    config.use_footers).set_search_window config.search_window

/-! ## Derived notions used in the statements -/

/-- Prefix test of the specification (`starts_with(buf, pattern)`): true iff
`len(buf) >= len(pattern)` and the first `len(pattern)` bytes of `buf` equal
`pattern`. -/
def starts_with (buf pattern : List Byte) : Bool :=
  decide (buf.length ≥ pattern.length) && decide (buf.take pattern.length = pattern)

/-- Pattern `pattern` occurs in `buf` at index `i`:
`i + len(pattern) <= len(buf)` and `buf[i .. i + len(pattern)) = pattern`. -/
def occurs_at (buf pattern : List Byte) (i : Nat) : Prop :=
  i + pattern.length ≤ buf.length ∧ (buf.drop i).take pattern.length = pattern

/-- Built-in signature set as the specification lists it: name, header bytes,
footer bytes and the `has_footer` flag, in the canonical scan order. -/
def builtin_signature_set : List (String × List Byte × List Byte × Bool) :=
  [ ("JPEG", [0xFF, 0xD8, 0xFF], [0xFF, 0xD9], true),
    ("PNG", [0x89, 0x50, 0x4E, 0x47, 0x0D, 0x0A, 0x1A, 0x0A],
      [0x49, 0x45, 0x4E, 0x44, 0xAE, 0x42, 0x60, 0x82], true),
    ("GIF87a", [0x47, 0x49, 0x46, 0x38, 0x37, 0x61], [0x00, 0x3B], true),
    ("GIF89a", [0x47, 0x49, 0x46, 0x38, 0x39, 0x61], [0x00, 0x3B], true),
    ("PDF", [0x25, 0x50, 0x44, 0x46, 0x2D], [0x25, 0x25, 0x45, 0x4F, 0x46], true),
    ("ZIP", [0x50, 0x4B, 0x03, 0x04], [0x50, 0x4B, 0x05, 0x06], true),
    ("RAR", [0x52, 0x61, 0x72, 0x21, 0x1A, 0x07, 0x00], [], false),
    ("7ZIP", [0x37, 0x7A, 0xBC, 0xAF, 0x27, 0x1C], [], false),
    ("DOCX", [0x50, 0x4B, 0x03, 0x04, 0x14, 0x00, 0x06, 0x00], [], false),
    ("MP3", [0x49, 0x44, 0x33], [], false),
    ("MP3_ALT", [0xFF, 0xFB], [], false),
    ("MP4", [0x00, 0x00, 0x00, 0x20, 0x66, 0x74, 0x79, 0x70], [], false),
    ("AVI", [0x52, 0x49, 0x46, 0x46], [], false),
    ("BMP", [0x42, 0x4D], [], false),
    ("TIFF_LE", [0x49, 0x49, 0x2A, 0x00], [], false),
    ("TIFF_BE", [0x4D, 0x4D, 0x00, 0x2A], [], false),
    ("DOC", [0xD0, 0xCF, 0x11, 0xE0, 0xA1, 0xB1, 0x1A, 0xE1], [], false),
    ("EXE", [0x4D, 0x5A], [], false),
    ("SQLITE", "SQLite format 3".toList.map Char.toNat ++ [0], [], false) ]

/-- Listed part of a signature: name, header, footer and `has_footer`. -/
def FileSignature.listed (s : FileSignature) : String × List Byte × List Byte × Bool :=
  (s.name, s.header, s.footer, s.has_footer)

/-- Registries that the program can build: the default-constructed members,
then `add_signature` calls (those of the constructor and later ones). -/
inductive FileSignatureDetector.Built : FileSignatureDetector → Prop
  | empty : FileSignatureDetector.Built FileSignatureDetector.empty
  | add (d : FileSignatureDetector) (signature : FileSignature) :
      FileSignatureDetector.Built d → FileSignatureDetector.Built (d.add_signature signature)

/-- Number that a list of decimal digit characters denotes. -/
def decimal_value (l : List Char) : Nat :=
  l.foldl (fun a c => 10 * a + (c.toNat - 48)) 0

/-- Observable core of a record: type, start, end, size and footer flag. -/
def CarvedFile.core (r : CarvedFile) : String × Nat × Nat × Nat × Bool :=
  (r.type, r.start_offset, r.end_offset, r.file_size, r.has_valid_footer)

/-- Candidate that passed the type and size filters at a window index. -/
structure Hit where
  signature : FileSignature
  start_offset : Nat
  end_offset : Nat
  file_size : Nat
  has_valid_footer : Bool

/-- Observable core of a candidate, as `CarvedFile.core`. -/
def Hit.core (h : Hit) : String × Nat × Nat × Nat × Bool :=
  (h.signature.name, h.start_offset, h.end_offset, h.file_size, h.has_valid_footer)

/-- One iteration of the main loop: the arguments `process_chunk` receives and
the reader state left by the `read_chunk` before it. -/
structure Call where
  data : List Byte
  chunk_size : Nat
  file_offset : Nat
  reader : ChunkReader

/-- Reader side of the main loop of `carve_file_types`: the successive
`process_chunk` calls and the reader state at the end.  The loop stops with a
fault at the first window shorter than four bytes. -/
def chunk_calls : Nat → ChunkReader → List Byte → Nat → Except Fault (List Call × ChunkReader)
  | 0, _, _, _ => Except.error Fault.out_of_fuel
  | fuel + 1, r, chunk_data, file_offset =>
    let rc := r.read_chunk chunk_data
    if rc.1 then
      if rc.2.2.1 < 4 then Except.error Fault.undefined_behaviour
      else
        match chunk_calls fuel rc.2.2.2 rc.2.1 rc.2.2.2.tell with
        | Except.error e => Except.error e
        | Except.ok rest => Except.ok (⟨rc.2.1, rc.2.2.1, file_offset, rc.2.2.2⟩ :: rest.1, rest.2)
    else Except.ok ([], rc.2.2.2)

/-- Reader state with cursor, retained tail and statistics reset. -/
def ChunkReader.base (r : ChunkReader) : ChunkReader :=
  { r with current_position_ := 0, overlap_buffer_ := [], total_bytes_read_ := 0,
           chunks_read_ := 0 }

/-- Reader is open on `input`: the stream holds `input` and the recorded size
is its length (the state `open` establishes and no method but `close` leaves). -/
def ChunkReader.OpenOn (r : ChunkReader) (input : List Byte) : Prop :=
  r.is_open_ = true ∧ r.file_ = input ∧ r.file_size_ = input.length

/-- Reader opened on `input` with chunk size `cs` and overlap size `os`, its
cursor at `pos`, retaining the `k` bytes before the cursor. -/
def reader_at (input : List Byte) (cs os pos k tb cr : Nat) : ChunkReader :=
  { file_ := input, file_size_ := input.length, current_position_ := pos, chunk_size_ := cs,
    is_open_ := true, overlap_buffer_ := (input.drop (pos - k)).take k, overlap_size_ := os,
    total_bytes_read_ := tb, chunks_read_ := cr }

/-- Reader `r0` after a successful `open` on a file that holds `input`. -/
def ChunkReader.opened (r0 : ChunkReader) (input : List Byte) : ChunkReader :=
  (r0.open (some input)).2

/-- Reader state and output vector after `n` successive `read_chunk` calls,
starting from reader `r` and vector `d`. -/
def ChunkReader.after_reads (r : ChunkReader) (d : List Byte) : Nat → ChunkReader × List Byte
  | 0 => (r, d)
  | n + 1 =>
    (((ChunkReader.after_reads r d n).1.read_chunk (ChunkReader.after_reads r d n).2).2.2.2,
      ((ChunkReader.after_reads r d n).1.read_chunk (ChunkReader.after_reads r d n).2).2.1)

/-- Absolute offset at which the next window of the reader starts: the cursor
minus the length of the retained tail. -/
def ChunkReader.window_start (r : ChunkReader) : Nat :=
  r.current_position_ - r.overlap_buffer_.length

/-- Result of the `(n + 1)`-th of a series of `read_chunk` calls. -/
def ChunkReader.nth_read (r : ChunkReader) (d : List Byte) (n : Nat) :
    Bool × List Byte × Nat × ChunkReader :=
  (ChunkReader.after_reads r d n).1.read_chunk (ChunkReader.after_reads r d n).2

/-- Reader states reachable from `open` on `input` by `read_chunk`,
`read_at_position` and `seek`, from a reader constructed or left as `r0`. -/
inductive StreamReader.Reachable (r0 : StreamReader) (input : List Byte) : StreamReader → Prop
  | opened : StreamReader.Reachable r0 input (r0.open (some input)).2
  | read_chunk (s : StreamReader) (d : List Byte) :
      StreamReader.Reachable r0 input s → StreamReader.Reachable r0 input (s.read_chunk d).2.2.2
  | read_at_position (s : StreamReader) (position size : Nat) (d : List Byte) :
      StreamReader.Reachable r0 input s →
      StreamReader.Reachable r0 input (s.read_at_position position size d).2.2
  | seek (s : StreamReader) (position : Nat) :
      StreamReader.Reachable r0 input s → StreamReader.Reachable r0 input (s.seek position).2

namespace FileCarver

/-- Decision part of the scan-loop body: the candidate that `process_position`
emits at index `i`, if any. -/
def scan_hit (c : FileCarver) (data : List Byte) (chunk_size file_offset : Nat)
    (file_types : List String) (i : Nat) : Option Hit :=
  match detect_header c.signatures (data.drop i) (chunk_size - i) with
  | none => none
  | some signature =>
    if !file_types.isEmpty && !file_types.contains signature.name then none
    else
      let ended := c.determine_end signature (file_offset + i)
      let file_size := (ended.1 + 2 ^ 64 - (file_offset + i)) % 2 ^ 64
      if file_size < c.min_file_size_ then none
      else if c.max_file_size_ > 0 ∧ file_size > c.max_file_size_ then none
      else some ⟨signature, file_offset + i, ended.1, file_size, ended.2⟩

/-- Candidates emitted by one `process_chunk` call, in scan order. -/
def scan_window (c : FileCarver) (file_types : List String) (data : List Byte)
    (chunk_size file_offset : Nat) : List Hit :=
  (List.range (chunk_size - 4 + 1)).filterMap (c.scan_hit data chunk_size file_offset file_types)

/-- Engine state with the parts a scan changes reset: what is left is the
configuration, the registry and the open file. -/
def frame (c : FileCarver) : FileCarver :=
  { c with carved_files_ := [], files_found_ := 0, files_extracted_ := 0, bytes_processed_ := 0,
           world := ⟨fun _ => false, [], []⟩,
           chunk_reader_ := c.chunk_reader_.base }

/-- Engine state at the entry of the main loop of `carve_file_types`, for an
input that opens: results cleared, reader opened on `input`. -/
def started (c : FileCarver) (input : List Byte) : FileCarver :=
  { c.clear_results with
      chunk_reader_ := (c.clear_results.chunk_reader_.open (some input)).2 }

/-- Records held by the engine after a call (`get_carved_files`); a faulting
run hands nothing back. -/
def carved_after (x : Except Fault (Bool × FileCarver)) : List CarvedFile :=
  match x with
  | Except.ok p => p.2.get_carved_files
  | Except.error _ => []

/-- Effect of one loop iteration on the engine, given the call. -/
def apply_call (file_types : List String) (c : FileCarver) (call : Call) : FileCarver :=
  let c0 : FileCarver := { c with chunk_reader_ := call.reader }
  let c1 := (List.range (call.chunk_size - 4 + 1)).foldl
    (process_position call.data call.chunk_size call.file_offset file_types) c0
  { c1 with bytes_processed_ := c1.bytes_processed_ + call.chunk_size }

/-- Agreement of the statistics with the result list. -/
def StatsAgree (st : FileCarver) : Prop :=
  st.files_found_ = st.carved_files_.length ∧
  st.files_extracted_ = (st.carved_files_.filter (fun r => r.extracted)).length ∧
  (st.extract_files_ = false → ∀ r ∈ st.carved_files_, r.extracted = false)

end FileCarver

/-- Data written to output files, in order: the `write` operations of a log. -/
def writes (log : List DiskEvent) : List (String × List Byte) :=
  log.filterMap (fun ev =>
    match ev with
    | DiskEvent.write path bytes => some (path, bytes)
    | _ => none)

/-! ## command_line_parser.cpp: argument parsing, and the flow of main.cpp -/

/-- Characters of the set `" \t"` that `split_string` trims. -/
def is_blank (c : Char) : Bool := c == ' ' || c == '\t'

/-- Items that successive `std::getline(ss, item, delimiter)` calls deliver:
`item` holds (reversed) the characters read since the last delimiter.  At the
end of the stream a non-empty item is delivered and an empty one is not (the
extraction fails). -/
def getline_items (delimiter : Char) : List Char → List Char → List (List Char)
  | [], [] => []
  | [], c :: item => [(c :: item).reverse]
  | c :: cs, item =>
    if c = delimiter then item.reverse :: getline_items delimiter cs []
    else getline_items delimiter cs (c :: item)

/-- The two `erase` calls of `split_string`: leading and trailing blanks go. -/
def trim_blanks (item : List Char) : List Char :=
  ((item.dropWhile is_blank).reverse.dropWhile is_blank).reverse

/-- Method `CommandLineParser::split_string`: the items are trimmed, empty ones
are dropped, and the rest are converted to upper case (`::toupper`, C locale). -/
def split_string (str : String) (delimiter : Char) : List String :=
  (((getline_items delimiter str.toList []).map trim_blanks).filter
    (fun item => !item.isEmpty)).map (fun item => String.mk (item.map Char.toUpper))

/-- White space that `strtoull` skips (`isspace` in the C locale). -/
def is_space (c : Char) : Bool :=
  c == ' ' || c == '\t' || c == '\n' || c == '\x0b' || c == '\x0c' || c == '\r'

/-- Conversion `std::stoull(str)` (base 10): leading white space, an optional
sign, then digits; `none` when it throws (no digits, or a value above
`ULLONG_MAX`).  A minus sign negates the value in `unsigned long long`. -/
def stoull (str : List Char) : Option Nat :=
  let body := str.dropWhile is_space
  let negative := body.head? == some '-'
  let unsigned_part :=
    match body with
    | '+' :: t => t
    | '-' :: t => t
    | _ => body
  let digits := unsigned_part.takeWhile Char.isDigit
  if digits.isEmpty then none
  else if decimal_value digits > 2 ^ 64 - 1 then none
  else some (if negative then (2 ^ 64 - decimal_value digits) % 2 ^ 64 else decimal_value digits)

/-- Method `CommandLineParser::parse_size_argument`: the value stored, `none`
when the method returns false.  The product is a `size_t` product. -/
def parse_size_argument (arg : String) : Option Nat :=
  let str := arg.toList
  let last_char := str.getLast?.map Char.toLower
  let multiplier : Nat :=
    if last_char = some 'k' then 1024
    else if last_char = some 'm' then 1024 * 1024
    else if last_char = some 'g' then 1024 * 1024 * 1024
    else 1
  let digits_part :=
    if last_char = some 'k' ∨ last_char = some 'm' ∨ last_char = some 'g' then str.dropLast
    else str
  (stoull digits_part).map (fun v => (v * multiplier) % 2 ^ 64)

/-- Argument loop of `CommandLineParser::parse` over `argv[1 ..]`: the
configuration when the loop runs to its end, `none` when it returns false. -/
def parse_arguments : List String → CarverConfig → Option CarverConfig
  | [], config => some config
  | arg :: rest, config =>
    if arg = "-h" ∨ arg = "--help" then none
    else if arg = "-v" ∨ arg = "--version" then none
    else if arg = "-i" ∨ arg = "--input" then
      match rest with
      | [] => none
      | value :: rest => parse_arguments rest { config with input_file := value }
    else if arg = "-o" ∨ arg = "--output" then
      match rest with
      | [] => none
      | value :: rest => parse_arguments rest { config with output_directory := value }
    else if arg = "-t" ∨ arg = "--types" then
      match rest with
      | [] => none
      | value :: rest => parse_arguments rest { config with file_types := split_string value ',' }
    else if arg = "--min-size" then
      match rest with
      | [] => none
      | value :: rest =>
        match parse_size_argument value with
        | none => none
        | some v => parse_arguments rest { config with min_file_size := v }
    else if arg = "--max-size" then
      match rest with
      | [] => none
      | value :: rest =>
        match parse_size_argument value with
        | none => none
        | some v => parse_arguments rest { config with max_file_size := v }
    else if arg = "--chunk-size" then
      match rest with
      | [] => none
      | value :: rest =>
        match parse_size_argument value with
        | none => none
        | some v => parse_arguments rest { config with chunk_size := v }
    else if arg = "--overlap-size" then
      match rest with
      | [] => none
      | value :: rest =>
        match parse_size_argument value with
        | none => none
        | some v => parse_arguments rest { config with overlap_size := v }
    else if arg = "--search-window" then
      match rest with
      | [] => none
      | value :: rest =>
        match parse_size_argument value with
        | none => none
        | some v => parse_arguments rest { config with search_window := v }
    else if arg = "--no-extract" then parse_arguments rest { config with extract_files := false }
    else if arg = "--no-footers" then parse_arguments rest { config with use_footers := false }
    else if arg = "--verbose" then parse_arguments rest { config with verbose := true }
    else if arg = "--no-report" then parse_arguments rest { config with generate_report := false }
    else if arg = "--csv" then parse_arguments rest { config with generate_csv := true }
    else if arg = "--report-file" then
      match rest with
      | [] => none
      | value :: rest => parse_arguments rest { config with report_file := value }
    else if arg = "--csv-file" then
      match rest with
      | [] => none
      | value :: rest => parse_arguments rest { config with csv_file := value }
    else if arg.toList.head? = some '-' then none
    else if config.input_file.isEmpty then parse_arguments rest { config with input_file := arg }
    else none

/-- Method `CommandLineParser::validate_config`; `file_exists` is
`fs::exists` on the file system of the run. -/
def validate_config (config : CarverConfig) (file_exists : String → Bool) : Bool :=
  if config.input_file.isEmpty then false
  else if !file_exists config.input_file then false
  else if config.chunk_size < 1024 then false
  else if config.overlap_size ≥ config.chunk_size then false
  else if config.max_file_size > 0 ∧ config.min_file_size > config.max_file_size then false
  else true

/-- Method `CommandLineParser::parse` on `argv` (program name first): the
configuration held by the parser when it returns true, `none` when it returns
false. -/
def parse (argv : List String) (file_exists : String → Bool) : Option CarverConfig :=
  if argv.length < 2 then none
  else
    match parse_arguments argv.tail CarverConfig.default with
    | none => none
    | some config => if validate_config config file_exists then some config else none

/-- Function `main` of `main.cpp`: the exit code and the engine after the
carve, `none` when no engine was constructed.  `file_exists` is `fs::exists`,
`content` gives what a named file holds (`none` when it cannot be opened) and
`can_create_directories` tells whether `fs::create_directories` succeeds on a
path.  After a successful `parse`, the `try` block creates the output directory
when it does not exist; a failure there throws, and the `catch` block returns 1
with no engine constructed.  Otherwise the engine is constructed, configured
and run; a false result of the carve gives exit code 1, a true one 0.  The
logger, the statistics display and the report files are not kept. -/
def main (argv : List String) (file_exists : String → Bool)
    (content : String → Option (List Byte)) (can_create_directories : String → Bool)
    (w : World) : Except Fault (Nat × Option FileCarver) :=
  match parse argv file_exists with
  | none => Except.ok (1, none)
  | some config =>
    if !file_exists config.output_directory && !can_create_directories config.output_directory
    then Except.ok (1, none)
    else
      let w1 : World :=
        if file_exists config.output_directory then w
        else { w with disk_log :=
                w.disk_log ++ [DiskEvent.create_directories config.output_directory] }
      let carver := configure_carver (FileCarver.new config.output_directory w1) config
      let carved :=
        if config.file_types.isEmpty then carver.carve_file (content config.input_file)
        else carver.carve_file_types (content config.input_file) config.file_types
      match carved with
      | Except.error e => Except.error e
      | Except.ok (success, carver) => Except.ok (if success then 0 else 1, some carver)

/-- Type names that `print_help` lists under `TIPOS DE ARQUIVO SUPORTADOS`. -/
def help_supported_types : List String :=
  ["JPEG", "PNG", "GIF87a", "GIF89a", "PDF", "ZIP", "RAR", "7ZIP", "DOCX",
    "MP3", "MP4", "AVI", "BMP", "TIFF_LE", "TIFF_BE", "DOC", "EXE", "SQLITE"]

/-! ## The scan range -/

/-- Header hits of the scan loop of `process_chunk` on a window of `chunk_size`
bytes: the indices `0 .. chunk_size - 4` at which `detect_header(data + i,
chunk_size - i)` returns a signature, with that signature. -/
def header_hits (signatures : List FileSignature) (data : List Byte) (chunk_size : Nat) :
    List (Nat × FileSignature) :=
  (List.range (chunk_size - 4 + 1)).filterMap (fun i =>
    (detect_header signatures (data.drop i) (chunk_size - i)).map (fun sig => (i, sig)))

/-- Header hits of the scan that the specification calls equivalent: every
offset `0 .. len(buf) - 1`, and at each the first signature `S` in insertion
order with `starts_with(buf[i..], S.header)`, whose length check rejects
headers that do not fit in the remaining tail. -/
def header_hits_every_offset (signatures : List FileSignature) (buf : List Byte) :
    List (Nat × FileSignature) :=
  (List.range buf.length).filterMap (fun i =>
    (signatures.find? (fun S => starts_with (buf.drop i) S.header)).map (fun sig => (i, sig)))

/-! ## Concrete inputs and configurations used as instances -/

/-- World in which every output file can be created, with fresh counters. -/
def quiet_world : World := ⟨fun _ => true, [], []⟩

/-- Scenario S1 of the specification: a JPEG in noise (19 bytes). -/
def scenario_S1 : List Byte :=
  [0xAA, 0xBB, 0xCC, 0xFF, 0xD8, 0xFF, 0xE0, 0x00, 0x10, 0x4A, 0x46, 0x49, 0x46, 0x00, 0x01,
    0xFF, 0xD9, 0xDE, 0xAD]

/-- Engine with the default configuration except `min_file_size = 1`. -/
def small_files_carver : FileCarver :=
  (FileCarver.new "out" quiet_world).set_min_file_size 1

/-- A JPEG of four bytes, the PNG header and a second JPEG of four bytes. -/
def mixed_types_input : List Byte :=
  [0xFF, 0xD8, 0xFF, 0xD9, 0x89, 0x50, 0x4E, 0x47, 0x0D, 0x0A, 0x1A, 0x0A, 0xFF, 0xD8, 0xFF, 0xD9]

/-- The record carved from `scenario_S1`. -/
def record_S1 : CarvedFile :=
  { filename := "JPEG_000000.jpg", type := "JPEG", start_offset := 3, end_offset := 17,
    file_size := 14, has_valid_footer := true, extracted := true }

/-- The JPEG entry of the built-in registry. -/
def jpeg_signature : FileSignature := ⟨"JPEG", ".jpg", [0xFF, 0xD8, 0xFF], [0xFF, 0xD9], 0, true⟩

/-- Engine state a call leaves behind; `fallback` stands in after a fault. -/
def state_after (x : Except Fault (Bool × FileCarver)) (fallback : FileCarver) : FileCarver :=
  match x with
  | Except.ok p => p.2
  | Except.error _ => fallback

/-- Engine as constructed, with the default configuration. -/
def default_carver : FileCarver := FileCarver.new "out" quiet_world

/-- The MP3 (`ID3`) entry of the built-in registry. -/
def mp3_signature : FileSignature := ⟨"MP3", ".mp3", [0x49, 0x44, 0x33], [], 0, false⟩

/-- Filler bytes `AA` around the three bytes `49 44 33` (`ID3`): `a` bytes of
filler, the header, `b` bytes of filler. -/
def id3_in_filler (a b : Nat) : List Byte :=
  List.replicate a 0xAA ++ ([0x49, 0x44, 0x33] ++ List.replicate b 0xAA)

/-- Input of 131672 bytes read in three windows: filler `AA` everywhere except
the three bytes `49 44 33` (`ID3`) at absolute offset 126976, which is the
first byte of the tail the reader retains after its second read. -/
def three_window_input : List Byte := id3_in_filler 126976 4693

/-- The PNG entry of the built-in registry. -/
def png_signature : FileSignature :=
  ⟨"PNG", ".png", [0x89, 0x50, 0x4E, 0x47, 0x0D, 0x0A, 0x1A, 0x0A],
    [0x49, 0x45, 0x4E, 0x44, 0xAE, 0x42, 0x60, 0x82], 0, true⟩

/-- Input of scenario S2: the PNG header followed by `tail`. -/
def scenario_S2 (tail : List Byte) : List Byte := png_signature.header ++ tail

/-- Engine of scenario S2: the default configuration except
`search_window = 256` and `min_file_size = 1`. -/
def window_256_carver : FileCarver :=
  ((FileCarver.new "out" quiet_world).set_search_window 256).set_min_file_size 1

/-- Filler bytes `AA` with the PNG header at offset `a`, followed by `b` more
filler bytes. -/
def png_in_filler (a b : Nat) : List Byte :=
  List.replicate a 0xAA ++ (png_signature.header ++ List.replicate b 0xAA)

/-- Filler bytes `AA` with the PNG header at offset `a`, the PNG footer `b`
bytes after the end of the header, and `c` more filler bytes. -/
def png_iend_in_filler (a b c : Nat) : List Byte :=
  List.replicate a 0xAA ++ (png_signature.header ++
    (List.replicate b 0xAA ++ (png_signature.footer ++ List.replicate c 0xAA)))

/-- Input of 128 KiB whose only PNG header starts at 65533, three bytes before
the first read-unit boundary; the PNG footer does not occur. -/
def straddle_input : List Byte := png_in_filler 65533 65531

/-- Input of 128 KiB whose only PNG header starts at 65533 and whose PNG
footer starts at 69629. -/
def straddle_input_with_footer : List Byte := png_iend_in_filler 65533 4088 61435

/-- The ZIP entry of the built-in registry. -/
def zip_signature : FileSignature :=
  ⟨"ZIP", ".zip", [0x50, 0x4B, 0x03, 0x04], [0x50, 0x4B, 0x05, 0x06], 0, true⟩

/-- The DOCX entry of the built-in registry. -/
def docx_signature : FileSignature :=
  ⟨"DOCX", ".docx", [0x50, 0x4B, 0x03, 0x04, 0x14, 0x00, 0x06, 0x00], [], 0, false⟩

/-- Configuration accepted by `validate_config` that asks for a chunk size of
1024 bytes and an overlap size of 16 bytes (`--chunk-size 1024 --overlap-size 16`). -/
def small_chunk_config : CarverConfig :=
  { CarverConfig.default with chunk_size := 1024, overlap_size := 16 }

/-- The PDF entry of the built-in registry. -/
def pdf_signature : FileSignature :=
  ⟨"PDF", ".pdf", [0x25, 0x50, 0x44, 0x46, 0x2D], [0x25, 0x25, 0x45, 0x4F, 0x46], 0, true⟩

/-- Scenario S3 of the specification in 18 bytes: a PDF (`%PDF-` at 0, `%%EOF`
at 13) that contains a JPEG (`FF D8 FF` at 6, `FF D9` at 10), filler `AA`. -/
def scenario_S3 : List Byte :=
  [0x25, 0x50, 0x44, 0x46, 0x2D, 0xAA, 0xFF, 0xD8, 0xFF, 0xAA, 0xFF, 0xD9, 0xAA,
    0x25, 0x25, 0x45, 0x4F, 0x46]

/-- A GIF87a file of nine bytes: the header `GIF87a`, one byte, the footer `00 3B`. -/
def gif87a_file : List Byte := [0x47, 0x49, 0x46, 0x38, 0x37, 0x61, 0x01, 0x00, 0x3B]

/-- Filler bytes `AA` around a PDF that contains a JPEG: `%PDF-`, `a` bytes of
filler, the JPEG `FF D8 FF AA FF D9`, `c` bytes of filler, `%%EOF`. -/
def nested_in_filler (a c : Nat) : List Byte :=
  [0x25, 0x50, 0x44, 0x46, 0x2D] ++ (List.replicate a 0xAA ++
    ([0xFF, 0xD8, 0xFF, 0xAA, 0xFF, 0xD9] ++ (List.replicate c 0xAA ++
      [0x25, 0x25, 0x45, 0x4F, 0x46])))

/-- Input of 80000 bytes read in two windows: a PDF (`%PDF-` at 0, `%%EOF` at
79995) that contains a JPEG (`FF D8 FF` at 62000, `FF D9` at 62004), filler
`AA`.  The JPEG lies in the tail the reader retains after its first read. -/
def nested_two_window_input : List Byte := nested_in_filler 61995 17989

/-- Bytes of `nested_in_filler` that start no header of the built-in registry
and neither the PDF nor the JPEG footer. -/
def inert (b : Byte) : Prop :=
  b = 0x44 ∨ b = 0x46 ∨ b = 0x2D ∨ b = 0xAA ∨ b = 0xD8 ∨ b = 0xD9 ∨ b = 0x45 ∨ b = 0x4F

/-- Reader with chunk size 4 and overlap size 2 over ten bytes, after its
first read: cursor 4, retaining the bytes at offsets 2 and 3. -/
def ten_byte_reader : ChunkReader :=
  reader_at [10, 11, 12, 13, 14, 15, 16, 17, 18, 19] 4 2 4 2 4 1

/-! ## Basic facts about the scan-loop body -/

namespace FileCarver

theorem process_position_eq (data : List Byte) (n off : Nat) (types : List String)
    (c : FileCarver) (i : Nat) :
    process_position data n off types c i =
      match c.scan_hit data n off types i with
      | none => c
      | some h => c.emit_candidate h.signature h.start_offset h.end_offset h.file_size
                    h.has_valid_footer := by
  unfold process_position scan_hit
  cases detect_header c.signatures (data.drop i) (n - i) with
  | none => rfl
  | some sig =>
    simp only []
    split
    · rfl
    · split
      · rfl
      · split <;> rfl

theorem scan_hit_frame (c : FileCarver) (data : List Byte) (n off : Nat) (types : List String)
    (i : Nat) : c.frame.scan_hit data n off types i = c.scan_hit data n off types i := rfl

theorem scan_hit_congr {c c' : FileCarver} (h : c'.frame = c.frame) (data : List Byte)
    (n off : Nat) (types : List String) (i : Nat) :
    c'.scan_hit data n off types i = c.scan_hit data n off types i := by
  rw [← scan_hit_frame c', h, scan_hit_frame]

theorem emit_candidate_frame (c : FileCarver) (sig : FileSignature) (s e fs : Nat) (b : Bool) :
    (c.emit_candidate sig s e fs b).frame = c.frame := by
  unfold emit_candidate
  simp only [validate_carved_file, if_true]
  split <;> rfl

theorem emit_candidate_reader (c : FileCarver) (sig : FileSignature) (s e fs : Nat) (b : Bool) :
    (c.emit_candidate sig s e fs b).chunk_reader_ = c.chunk_reader_ := by
  unfold emit_candidate
  simp only [validate_carved_file, if_true]
  split <;> rfl

theorem emit_candidate_cores (c : FileCarver) (sig : FileSignature) (s e fs : Nat) (b : Bool) :
    (c.emit_candidate sig s e fs b).carved_files_.map CarvedFile.core =
      c.carved_files_.map CarvedFile.core ++ [(sig.name, s, e, fs, b)] := by
  unfold emit_candidate
  simp only [validate_carved_file, if_true]
  split <;> simp [CarvedFile.core]

theorem emit_candidate_found (c : FileCarver) (sig : FileSignature) (s e fs : Nat) (b : Bool) :
    (c.emit_candidate sig s e fs b).files_found_ = c.files_found_ + 1 := by
  unfold emit_candidate
  simp only [validate_carved_file, if_true]
  split <;> rfl

/-- Scanning a list of indices: frame, reader, cores and count. -/
theorem foldl_process_position (data : List Byte) (n off : Nat) (types : List String)
    (is : List Nat) (c : FileCarver) :
    ((is.foldl (process_position data n off types) c).frame = c.frame) ∧
    ((is.foldl (process_position data n off types) c).chunk_reader_ = c.chunk_reader_) ∧
    ((is.foldl (process_position data n off types) c).carved_files_.map CarvedFile.core =
      c.carved_files_.map CarvedFile.core ++
        (is.filterMap (c.scan_hit data n off types)).map Hit.core) ∧
    ((is.foldl (process_position data n off types) c).files_found_ =
      c.files_found_ + (is.filterMap (c.scan_hit data n off types)).length) := by
  induction is generalizing c with
  | nil => simp
  | cons i rest ih =>
    simp only [List.foldl_cons, List.filterMap_cons]
    have hstep := process_position_eq data n off types c i
    cases hh : c.scan_hit data n off types i with
    | none =>
      rw [hh] at hstep
      simp only [] at hstep
      rw [hstep]
      exact ih c
    | some h =>
      rw [hh] at hstep
      simp only [] at hstep
      rw [hstep]
      obtain ⟨h1, h2, h3, h4⟩ := ih (c.emit_candidate h.signature h.start_offset h.end_offset
        h.file_size h.has_valid_footer)
      have hf := emit_candidate_frame c h.signature h.start_offset h.end_offset
        h.file_size h.has_valid_footer
      have hcongr : (c.emit_candidate h.signature h.start_offset h.end_offset
          h.file_size h.has_valid_footer).scan_hit data n off types = c.scan_hit data n off types := by
        funext j
        exact scan_hit_congr hf data n off types j
      rw [hcongr] at h3 h4
      refine ⟨h1.trans hf, h2.trans (emit_candidate_reader _ _ _ _ _ _), ?_, ?_⟩
      · rw [h3, emit_candidate_cores]
        simp [Hit.core]
      · rw [h4, emit_candidate_found]
        simp only [List.length_cons]
        omega

theorem foldl_process_position_reader (data : List Byte) (n off : Nat) (types : List String)
    (is : List Nat) (c : FileCarver) :
    (is.foldl (process_position data n off types) c).chunk_reader_ = c.chunk_reader_ := by
  induction is generalizing c with
  | nil => rfl
  | cons i rest ih =>
    rw [List.foldl_cons, ih, process_position_eq]
    cases c.scan_hit data n off types i with
    | none => rfl
    | some h => exact emit_candidate_reader _ _ _ _ _ _

theorem apply_call_reader (types : List String) (c : FileCarver) (call : Call) :
    (apply_call types c call).chunk_reader_ = call.reader := by
  unfold apply_call
  exact foldl_process_position_reader _ _ _ _ _ _

theorem carve_loop_succ (types : List String) (fuel : Nat) (c : FileCarver) (d : List Byte)
    (off : Nat) :
    carve_loop types (fuel + 1) c d off =
      if (c.chunk_reader_.read_chunk d).1 then
        if (c.chunk_reader_.read_chunk d).2.2.1 < 4 then Except.error Fault.undefined_behaviour
        else carve_loop types fuel
          (apply_call types c ⟨(c.chunk_reader_.read_chunk d).2.1,
            (c.chunk_reader_.read_chunk d).2.2.1, off, (c.chunk_reader_.read_chunk d).2.2.2⟩)
          (c.chunk_reader_.read_chunk d).2.1 (c.chunk_reader_.read_chunk d).2.2.2.tell
      else Except.ok { c with chunk_reader_ := (c.chunk_reader_.read_chunk d).2.2.2 } := by
  rw [carve_loop]
  cases (c.chunk_reader_.read_chunk d).1 with
  | false => rfl
  | true =>
    simp only [if_true, process_chunk]
    by_cases hn : (c.chunk_reader_.read_chunk d).2.2.1 < 4
    · rw [if_pos hn, if_pos hn]
    · rw [if_neg hn, if_neg hn]
      exact congrArg (carve_loop types fuel _ _)
        (congrArg ChunkReader.tell (foldl_process_position_reader _ _ _ _ _ _))

/-- The main loop is the reader loop followed by the per-call effects. -/
theorem carve_loop_eq (types : List String) (fuel : Nat) (c : FileCarver) (d : List Byte)
    (off : Nat) :
    carve_loop types fuel c d off =
      match chunk_calls fuel c.chunk_reader_ d off with
      | Except.error e => Except.error e
      | Except.ok res =>
        Except.ok { (res.1.foldl (apply_call types) c) with chunk_reader_ := res.2 } := by
  induction fuel generalizing c d off with
  | zero => rfl
  | succ fuel ih =>
    rw [carve_loop_succ, chunk_calls]
    simp only []
    cases (c.chunk_reader_.read_chunk d).1 with
    | false => rfl
    | true =>
      simp only [if_true]
      by_cases hn : (c.chunk_reader_.read_chunk d).2.2.1 < 4
      · rw [if_pos hn, if_pos hn]
      · rw [if_neg hn, if_neg hn, ih, apply_call_reader]
        cases chunk_calls fuel (c.chunk_reader_.read_chunk d).2.2.2
            (c.chunk_reader_.read_chunk d).2.1 (c.chunk_reader_.read_chunk d).2.2.2.tell with
        | error e => rfl
        | ok res => rfl

end FileCarver

/-! ## The reader on an opened input -/

theorem slice_length (input : List Byte) (a n : Nat) (h : a + n ≤ input.length) :
    ((input.drop a).take n).length = n := by
  simp only [List.length_take, List.length_drop]
  omega

theorem slice_append (input : List Byte) (a k m : Nat) :
    (input.drop a).take k ++ (input.drop (a + k)).take m = (input.drop a).take (k + m) := by
  rw [List.take_add, List.drop_drop]

theorem slice_drop (input : List Byte) (a n j : Nat) :
    ((input.drop a).take n).drop j = (input.drop (a + j)).take (n - j) := by
  rw [List.drop_take, List.drop_drop]

theorem resize_length (v : List Byte) (n : Nat) : (ChunkReader.resize v n).length = n := by
  unfold ChunkReader.resize
  rw [List.length_take, List.length_append, List.length_replicate]
  omega

theorem resize_drop (v : List Byte) (n j : Nat) (h : n ≤ j) :
    (ChunkReader.resize v n).drop j = [] :=
  List.drop_eq_nil_of_le (by rw [resize_length]; exact h)

theorem resize_of_length (v : List Byte) (n : Nat) (h : v.length = n) :
    ChunkReader.resize v n = v := by
  unfold ChunkReader.resize
  rw [h, Nat.sub_self, List.replicate_zero, List.append_nil]
  exact List.take_of_length_le (by omega)

theorem read_chunk_reader_at (input : List Byte) (cs os pos k tb cr : Nat) (d : List Byte)
    (hpos : pos < input.length) (hk : k ≤ pos) :
    (reader_at input cs os pos k tb cr).read_chunk d =
      (decide (k + min cs (input.length - pos) > 0),
        (input.drop (pos - k)).take (k + min cs (input.length - pos)),
        k + min cs (input.length - pos),
        reader_at input cs os (pos + min cs (input.length - pos))
          (if os ≤ min cs (input.length - pos) ∧ pos + min cs (input.length - pos) < input.length
            then os else 0)
          (tb + min cs (input.length - pos)) (cr + 1)) := by
  have hov : ((input.drop (pos - k)).take k).length = k := slice_length input _ _ (by omega)
  have hfresh : ((input.drop pos).take (min cs (input.length - pos))).length
      = min cs (input.length - pos) := slice_length input _ _ (by omega)
  have hhead : (if (decide (pos > 0) && !((input.drop (pos - k)).take k).isEmpty) = true
      then (input.drop (pos - k)).take k else []) = (input.drop (pos - k)).take k := by
    split
    · rfl
    · rename_i hc
      by_cases hk0 : k = 0
      · subst hk0; simp
      · exfalso
        apply hc
        have : ((input.drop (pos - k)).take k) ≠ [] := by
          intro h0
          rw [h0] at hov
          simp at hov
          omega
        simp [List.isEmpty_iff, this]
        omega
  have hfilled : (input.drop (pos - k)).take k ++ (input.drop pos).take (min cs (input.length - pos))
      = (input.drop (pos - k)).take (k + min cs (input.length - pos)) := by
    have := slice_append input (pos - k) k (min cs (input.length - pos))
    rwa [Nat.sub_add_cancel hk] at this
  have hlen : ((input.drop (pos - k)).take (k + min cs (input.length - pos))).length
      = k + min cs (input.length - pos) := slice_length input _ _ (by omega)
  have hpad : (ChunkReader.resize d (min cs (input.length - pos) + k)).drop
      (k + min cs (input.length - pos)) = [] := resize_drop _ _ _ (by omega)
  unfold ChunkReader.read_chunk
  simp only [reader_at, ChunkReader.is_eof, ChunkReader.stream_read, hhead, hfresh, hov,
    hpad, List.append_nil, hfilled]
  have hnot : ¬ (pos ≥ input.length) := by omega
  simp only [Bool.not_true, Bool.false_eq_true, if_false, Bool.false_or, decide_eq_true_eq, hnot]
  rw [resize_of_length _ _ hlen]
  refine Prod.ext rfl (Prod.ext rfl (Prod.ext rfl ?_))
  simp only []
  congr 1
  split
  · rename_i hc
    rw [slice_drop]
    have h1 : pos - k + (k + min cs (input.length - pos) - os)
        = pos + min cs (input.length - pos) - os := by omega
    have h2 : k + min cs (input.length - pos) - (k + min cs (input.length - pos) - os) = os := by
      omega
    rw [h1, h2]
  · simp

theorem read_chunk_base (r : ChunkReader) (d : List Byte) :
    (r.read_chunk d).2.2.2.base = r.base := by
  unfold ChunkReader.read_chunk
  split
  · rfl
  · split <;> rfl

theorem chunk_calls_succ (fuel : Nat) (r : ChunkReader) (d : List Byte) (off : Nat) :
    chunk_calls (fuel + 1) r d off =
      if (r.read_chunk d).1 then
        if (r.read_chunk d).2.2.1 < 4 then Except.error Fault.undefined_behaviour
        else
          match chunk_calls fuel (r.read_chunk d).2.2.2 (r.read_chunk d).2.1
              (r.read_chunk d).2.2.2.tell with
          | Except.error e => Except.error e
          | Except.ok rest =>
            Except.ok (⟨(r.read_chunk d).2.1, (r.read_chunk d).2.2.1, off,
              (r.read_chunk d).2.2.2⟩ :: rest.1, rest.2)
      else Except.ok ([], (r.read_chunk d).2.2.2) := rfl

theorem chunk_calls_base (fuel : Nat) (r : ChunkReader) (d : List Byte) (off : Nat)
    (res : List Call × ChunkReader) (h : chunk_calls fuel r d off = Except.ok res) :
    (∀ call ∈ res.1, call.reader.base = r.base) ∧ res.2.base = r.base := by
  induction fuel generalizing r d off res with
  | zero => simp [chunk_calls] at h
  | succ fuel ih =>
    rw [chunk_calls_succ] at h
    split at h
    · split at h
      · simp at h
      · cases hrec : chunk_calls fuel (r.read_chunk d).2.2.2 (r.read_chunk d).2.1
            (r.read_chunk d).2.2.2.tell with
        | error e => rw [hrec] at h; simp at h
        | ok rest =>
          rw [hrec] at h
          simp only [Except.ok.injEq] at h
          obtain ⟨h1, h2⟩ := ih _ _ _ _ hrec
          subst h
          refine ⟨?_, h2.trans (read_chunk_base r d)⟩
          intro call hc
          simp only [List.mem_cons] at hc
          rcases hc with hc | hc
          · subst hc; exact read_chunk_base r d
          · exact (h1 call hc).trans (read_chunk_base r d)
    · simp only [Except.ok.injEq] at h
      subst h
      exact ⟨by simp, read_chunk_base r d⟩

/-- More fuel does not change a completed reader loop. -/
theorem chunk_calls_mono (fuel extra : Nat) (r : ChunkReader) (d : List Byte) (off : Nat)
    (res : List Call × ChunkReader) (h : chunk_calls fuel r d off = Except.ok res) :
    chunk_calls (fuel + extra) r d off = Except.ok res := by
  induction fuel generalizing r d off res with
  | zero => simp [chunk_calls] at h
  | succ fuel ih =>
    have e : fuel + 1 + extra = (fuel + extra) + 1 := by omega
    rw [e, chunk_calls_succ]
    rw [chunk_calls_succ] at h
    split
    · rename_i h1
      rw [if_pos h1] at h
      split
      · rename_i h2
        rw [if_pos h2] at h
        exact h
      · rename_i h2
        rw [if_neg h2] at h
        cases hrec : chunk_calls fuel (r.read_chunk d).2.2.2 (r.read_chunk d).2.1
            (r.read_chunk d).2.2.2.tell with
        | error e => rw [hrec] at h; simp at h
        | ok rest =>
          rw [hrec] at h
          rw [ih _ _ _ _ hrec]
          exact h
    · rename_i h1
      rw [if_neg h1] at h
      exact h

/-! ## The main loop as a fold over the reader's calls -/

namespace FileCarver

theorem apply_call_spec (types : List String) (c : FileCarver) (call : Call)
    (hb : call.reader.base = c.chunk_reader_.base) :
    (apply_call types c call).frame = c.frame ∧
    (apply_call types c call).carved_files_.map CarvedFile.core =
      c.carved_files_.map CarvedFile.core ++
        (c.scan_window types call.data call.chunk_size call.file_offset).map Hit.core ∧
    (apply_call types c call).files_found_ =
      c.files_found_ + (c.scan_window types call.data call.chunk_size call.file_offset).length := by
  have hf : ({ c with chunk_reader_ := call.reader } : FileCarver).frame = c.frame := by
    simp only [frame, hb]
  obtain ⟨h1, -, h3, h4⟩ := foldl_process_position call.data call.chunk_size call.file_offset
    types (List.range (call.chunk_size - 4 + 1)) { c with chunk_reader_ := call.reader }
  have hcongr : ({ c with chunk_reader_ := call.reader } : FileCarver).scan_hit call.data
      call.chunk_size call.file_offset types
      = c.scan_hit call.data call.chunk_size call.file_offset types := by
    funext j
    exact scan_hit_congr hf _ _ _ _ j
  rw [hcongr] at h3 h4
  exact ⟨h1.trans hf, h3, h4⟩

theorem foldl_apply_call_spec (types : List String) (calls : List Call) (c : FileCarver)
    (hb : ∀ call ∈ calls, call.reader.base = c.chunk_reader_.base) :
    (calls.foldl (apply_call types) c).frame = c.frame ∧
    (calls.foldl (apply_call types) c).carved_files_.map CarvedFile.core =
      c.carved_files_.map CarvedFile.core ++
        calls.flatMap (fun call =>
          (c.scan_window types call.data call.chunk_size call.file_offset).map Hit.core) ∧
    (calls.foldl (apply_call types) c).files_found_ =
      c.files_found_ + (calls.flatMap (fun call =>
          (c.scan_window types call.data call.chunk_size call.file_offset).map Hit.core)).length := by
  induction calls generalizing c with
  | nil => simp
  | cons call rest ih =>
    obtain ⟨a1, a2, a3⟩ := apply_call_spec types c call (hb call (List.mem_cons_self _ _))
    have hbase : (apply_call types c call).chunk_reader_.base = c.chunk_reader_.base := by
      rw [apply_call_reader]
      exact hb call (List.mem_cons_self _ _)
    obtain ⟨b1, b2, b3⟩ := ih (apply_call types c call) (by
      intro call2 h2
      rw [hbase]
      exact hb call2 (List.mem_cons_of_mem _ h2))
    have hsw : ∀ (dta : List Byte) (n off : Nat),
        (apply_call types c call).scan_window types dta n off = c.scan_window types dta n off := by
      intro dta n off
      unfold scan_window
      congr 1
      funext j
      exact scan_hit_congr a1 _ _ _ _ j
    simp only [hsw] at b2 b3
    refine ⟨b1.trans a1, ?_, ?_⟩
    · rw [List.foldl_cons, b2, a2]
      simp
    · rw [List.foldl_cons, b3, a3]
      simp
      omega

theorem started_reader (c : FileCarver) (input : List Byte) :
    (c.started input).chunk_reader_ =
      reader_at input c.chunk_reader_.chunk_size_ c.chunk_reader_.overlap_size_ 0 0 0 0 := by
  simp [started, clear_results, ChunkReader.open, ChunkReader.close, reader_at]

/-- A carve of an input that opens: the reader loop, then the per-call effects. -/
theorem carve_file_types_some (c : FileCarver) (input : List Byte) (types : List String) :
    c.carve_file_types (some input) types =
      match chunk_calls (input.length + 1)
          (reader_at input c.chunk_reader_.chunk_size_ c.chunk_reader_.overlap_size_ 0 0 0 0)
          [] 0 with
      | Except.error e => Except.error e
      | Except.ok res =>
        Except.ok (true,
          { (res.1.foldl (apply_call types) (c.started input)) with
              chunk_reader_ := res.2.close }) := by
  have h : c.carve_file_types (some input) types =
      match carve_loop types (input.length + 1) (c.started input) [] 0 with
      | Except.error e => Except.error e
      | Except.ok c1 => Except.ok (true, { c1 with chunk_reader_ := c1.chunk_reader_.close }) := rfl
  rw [h, carve_loop_eq, started_reader]
  cases chunk_calls (input.length + 1)
      (reader_at input c.chunk_reader_.chunk_size_ c.chunk_reader_.overlap_size_ 0 0 0 0) [] 0 with
  | error e => rfl
  | ok res => rfl

/-- Cores of the records of a completed carve, call by call. -/
theorem carve_file_types_cores (c : FileCarver) (input : List Byte) (types : List String)
    (b : Bool) (c' : FileCarver) (h : c.carve_file_types (some input) types = Except.ok (b, c')) :
    ∃ res, chunk_calls (input.length + 1)
        (reader_at input c.chunk_reader_.chunk_size_ c.chunk_reader_.overlap_size_ 0 0 0 0)
        [] 0 = Except.ok res ∧ b = true ∧
      c'.carved_files_.map CarvedFile.core =
        res.1.flatMap (fun call => ((c.started input).scan_window types call.data
          call.chunk_size call.file_offset).map Hit.core) ∧
      c'.files_found_ = c'.carved_files_.length := by
  rw [carve_file_types_some] at h
  cases hc : chunk_calls (input.length + 1)
      (reader_at input c.chunk_reader_.chunk_size_ c.chunk_reader_.overlap_size_ 0 0 0 0) [] 0 with
  | error e => rw [hc] at h; simp at h
  | ok res =>
    rw [hc] at h
    simp only [Except.ok.injEq, Prod.mk.injEq] at h
    obtain ⟨hb, hc'⟩ := h
    have hbase := (chunk_calls_base _ _ _ _ _ hc).1
    rw [← started_reader] at hbase
    obtain ⟨-, h2, h3⟩ := foldl_apply_call_spec types res.1 (c.started input) hbase
    refine ⟨res, rfl, hb.symm, ?_, ?_⟩
    · rw [← hc']
      simpa [started, clear_results] using h2
    · have hl : c'.carved_files_.length = (c'.carved_files_.map CarvedFile.core).length := by simp
      rw [hl, ← hc']
      simp only []
      rw [h2, h3]
      simp [started, clear_results]

end FileCarver

/-! ## Matchers, random-access reads and the end of a candidate -/

theorem reader_at_openOn (input : List Byte) (cs os pos k tb cr : Nat) :
    (reader_at input cs os pos k tb cr).OpenOn input := ⟨rfl, rfl, rfl⟩

theorem read_at_position_open (r : ChunkReader) (input : List Byte) (h : r.OpenOn input)
    (p size : Nat) (d : List Byte) (hp : p < input.length) :
    r.read_at_position p size d =
      (min size (input.length - p), (input.drop p).take (min size (input.length - p))) := by
  obtain ⟨h1, h2, h3⟩ := h
  have hlen : ((input.drop p).take (min size (input.length - p))).length
      = min size (input.length - p) := slice_length input _ _ (by omega)
  have hpad : (ChunkReader.resize d (min size (input.length - p))).drop
      (min size (input.length - p)) = [] := resize_drop _ _ _ (le_refl _)
  unfold ChunkReader.read_at_position
  have hnot : ¬ (p ≥ input.length) := by omega
  simp only [h1, h3, ChunkReader.stream_read, h2, hlen, hpad,
    List.append_nil, Bool.not_true, Bool.false_or, decide_eq_true_eq, hnot, if_false]

theorem read_at_position_eof (r : ChunkReader) (input : List Byte) (h : r.OpenOn input)
    (p size : Nat) (d : List Byte) (hp : input.length ≤ p) :
    r.read_at_position p size d = (0, d) := by
  obtain ⟨h1, h2, h3⟩ := h
  unfold ChunkReader.read_at_position
  simp [h3, hp]

theorem isPrefixOf_iff_take (p l : List Byte) :
    p.isPrefixOf l = true ↔ l.take p.length = p := by
  rw [List.isPrefixOf_iff_prefix, List.prefix_iff_eq_take]
  exact eq_comm

theorem find_pattern_loop_spec (data pat : List Byte) (i k : Nat) :
    (find_pattern_loop data pat i k = SIZE_MAX ∧
        ∀ j, i ≤ j → j < i + k → pat.isPrefixOf (data.drop j) = false) ∨
    (i ≤ find_pattern_loop data pat i k ∧ find_pattern_loop data pat i k < i + k ∧
      pat.isPrefixOf (data.drop (find_pattern_loop data pat i k)) = true ∧
      ∀ j, i ≤ j → j < find_pattern_loop data pat i k → pat.isPrefixOf (data.drop j) = false) := by
  induction k generalizing i with
  | zero =>
    left
    refine ⟨rfl, ?_⟩
    intro j h1 h2
    omega
  | succ k ih =>
    rw [find_pattern_loop]
    by_cases hp : pat.isPrefixOf (data.drop i) = true
    · right
      rw [if_pos hp]
      refine ⟨le_refl _, by omega, hp, ?_⟩
      intro j h1 h2
      omega
    · rw [if_neg hp]
      have hp' : pat.isPrefixOf (data.drop i) = false := Bool.eq_false_iff.mpr hp
      rcases ih (i + 1) with ⟨h1, h2⟩ | ⟨h1, h2, h3, h4⟩
      · left
        refine ⟨h1, ?_⟩
        intro j hj1 hj2
        by_cases hji : j = i
        · subst hji; exact hp'
        · exact h2 j (by omega) (by omega)
      · right
        refine ⟨by omega, by omega, h3, ?_⟩
        intro j hj1 hj2
        by_cases hji : j = i
        · subst hji; exact hp'
        · exact h4 j (by omega) hj2

/-- A found index of `find_pattern` is a leftmost occurrence inside `size`. -/
theorem find_pattern_found (data : List Byte) (size : Nat) (pat : List Byte)
    (h : find_pattern data size pat ≠ SIZE_MAX) :
    pat ≠ [] ∧ find_pattern data size pat + pat.length ≤ size ∧
      pat.isPrefixOf (data.drop (find_pattern data size pat)) = true ∧
      ∀ j, j < find_pattern data size pat → pat.isPrefixOf (data.drop j) = false := by
  unfold find_pattern at h ⊢
  by_cases hc : (pat.isEmpty || decide (size < pat.length)) = true
  · rw [if_pos hc] at h
    exact absurd rfl h
  · rw [if_neg hc] at h ⊢
    simp only [Bool.or_eq_true, List.isEmpty_iff, decide_eq_true_eq, not_or, not_lt] at hc
    rcases find_pattern_loop_spec data pat 0 (size - pat.length + 1) with ⟨h1, -⟩ | ⟨-, h2, h3, h4⟩
    · exact absurd h1 h
    · refine ⟨hc.1, by omega, h3, ?_⟩
      intro j hj
      exact h4 j (Nat.zero_le _) hj

namespace FileCarver

/-- A footer position found by `find_footer` is a real occurrence of the footer
inside the file, at or after the start and within the search window. -/
theorem find_footer_found (c : FileCarver) (input : List Byte)
    (ho : c.chunk_reader_.OpenOn input) (s : Nat) (sig : FileSignature) (sw : Nat)
    (h : c.find_footer s sig sw ≠ SIZE_MAX) :
    s < input.length ∧ s ≤ c.find_footer s sig sw ∧
      c.find_footer s sig sw + sig.footer.length ≤ input.length ∧
      c.find_footer s sig sw + sig.footer.length ≤ s + sw ∧
      (input.drop (c.find_footer s sig sw)).take sig.footer.length = sig.footer ∧
      sig.has_footer = true ∧ sig.footer ≠ [] := by
  unfold find_footer at h ⊢
  by_cases hf : sig.has_footer = true
  swap
  · simp [hf] at h
  simp only [hf, Bool.not_true, Bool.false_eq_true, if_false] at h ⊢
  by_cases hs : s < input.length
  swap
  · rw [read_at_position_eof _ input ho _ _ _ (by omega)] at h
    simp at h
  rw [read_at_position_open _ input ho _ _ _ hs] at h ⊢
  simp only [] at h ⊢
  by_cases h0 : min sw (input.length - s) = 0
  · simp [h0] at h
  rw [if_neg h0] at h ⊢
  by_cases hfp : find_pattern ((input.drop s).take (min sw (input.length - s)))
      (min sw (input.length - s)) sig.footer = SIZE_MAX
  · simp [hfp] at h
  simp only [ne_eq, hfp, not_false_eq_true, if_true] at h ⊢
  obtain ⟨p1, p2, p3, -⟩ := find_pattern_found _ _ _ hfp
  refine ⟨hs, by omega, by omega, by omega, ?_, trivial, p1⟩
  rw [isPrefixOf_iff_take, slice_drop, List.take_take] at p3
  rw [min_eq_left (by omega)] at p3
  exact p3

theorem started_openOn (c : FileCarver) (input : List Byte) :
    (c.started input).chunk_reader_.OpenOn input := by
  rw [started_reader]
  exact reader_at_openOn _ _ _ _ _ _ _

theorem determine_end_footer (c : FileCarver) (sig : FileSignature) (s : Nat)
    (hb : (c.use_footers_ && sig.has_footer) = true)
    (hf : c.find_footer s sig c.search_window_ ≠ SIZE_MAX) :
    c.determine_end sig s =
      (min (c.find_footer s sig c.search_window_ + sig.footer.length) c.chunk_reader_.file_size_,
        true) := by
  unfold determine_end
  simp only [hb, if_true, hf, ne_eq, not_false_eq_true, ChunkReader.get_file_size]
  split
  · rw [min_eq_right (by omega)]
  · rw [min_eq_left (by omega)]

theorem determine_end_window (c : FileCarver) (sig : FileSignature) (s : Nat)
    (hb : (c.use_footers_ && sig.has_footer) = true →
      c.find_footer s sig c.search_window_ = SIZE_MAX) :
    c.determine_end sig s =
      (min ((s + c.search_window_) % 2 ^ 64) c.chunk_reader_.file_size_, false) := by
  unfold determine_end
  by_cases hu : (c.use_footers_ && sig.has_footer) = true
  · simp only [hu, if_true, hb hu, ne_eq, not_true_eq_false, if_false, ChunkReader.get_file_size]
    split
    · rw [min_eq_right (by omega)]
    · rw [min_eq_left (by omega)]
  · simp only [hu, Bool.false_eq_true, if_false, ChunkReader.get_file_size]
    split
    · rw [min_eq_right (by omega)]
    · rw [min_eq_left (by omega)]

/-- What `determine_end` returns on an open file. -/
theorem determine_end_spec (c : FileCarver) (input : List Byte)
    (ho : c.chunk_reader_.OpenOn input) (sig : FileSignature) (s : Nat) :
    (c.determine_end sig s).1 ≤ input.length ∧
    ((c.determine_end sig s).2 = true →
      c.use_footers_ = true ∧ sig.has_footer = true ∧ sig.footer ≠ [] ∧ s < input.length ∧
      s + sig.footer.length ≤ (c.determine_end sig s).1 ∧
      (c.determine_end sig s).1 ≤ s + c.search_window_ ∧
      (input.drop ((c.determine_end sig s).1 - sig.footer.length)).take sig.footer.length
        = sig.footer) ∧
    ((c.determine_end sig s).2 = false →
      (c.determine_end sig s).1 = min ((s + c.search_window_) % 2 ^ 64) input.length) := by
  have hsz : c.chunk_reader_.file_size_ = input.length := ho.2.2
  by_cases hb : (c.use_footers_ && sig.has_footer) = true ∧
      c.find_footer s sig c.search_window_ ≠ SIZE_MAX
  · rw [determine_end_footer c sig s hb.1 hb.2, hsz]
    obtain ⟨f1, f2, f3, f4, f5, f6, f7⟩ := find_footer_found c input ho s sig _ hb.2
    have hu := hb.1
    simp only [Bool.and_eq_true] at hu
    rw [min_eq_left f3]
    refine ⟨f3, ?_, by simp⟩
    intro _
    refine ⟨hu.1, f6, f7, f1, by omega, f4, ?_⟩
    rw [Nat.add_sub_cancel]
    exact f5
  · rw [determine_end_window c sig s (by
      intro hu
      by_contra hne
      exact hb ⟨hu, hne⟩), hsz]
    exact ⟨Nat.min_le_right _ _, by simp, fun _ => rfl⟩

/-- Without a wrap of the window sum the end does not precede a start inside the file. -/
theorem determine_end_ge (c : FileCarver) (input : List Byte)
    (ho : c.chunk_reader_.OpenOn input) (sig : FileSignature) (s : Nat)
    (hs : s < input.length) (hw : s + c.search_window_ < 2 ^ 64) :
    s ≤ (c.determine_end sig s).1 := by
  obtain ⟨-, h2, h3⟩ := determine_end_spec c input ho sig s
  cases hb : (c.determine_end sig s).2 with
  | true =>
    have := (h2 hb).2.2.2.2.1
    omega
  | false =>
    rw [h3 hb, Nat.mod_eq_of_lt hw]
    omega

/-- Reading of a successful `scan_hit`. -/
theorem scan_hit_some (c : FileCarver) (data : List Byte) (n off : Nat) (types : List String)
    (i : Nat) (h : Hit) (hh : c.scan_hit data n off types i = some h) :
    detect_header c.signatures (data.drop i) (n - i) = some h.signature ∧
    (types = [] ∨ h.signature.name ∈ types) ∧
    h.start_offset = off + i ∧
    h.end_offset = (c.determine_end h.signature (off + i)).1 ∧
    h.has_valid_footer = (c.determine_end h.signature (off + i)).2 ∧
    h.file_size = (h.end_offset + 2 ^ 64 - h.start_offset) % 2 ^ 64 ∧
    c.min_file_size_ ≤ h.file_size ∧
    (c.max_file_size_ = 0 ∨ h.file_size ≤ c.max_file_size_) := by
  unfold scan_hit at hh
  cases hd : detect_header c.signatures (data.drop i) (n - i) with
  | none => rw [hd] at hh; simp at hh
  | some sig =>
    rw [hd] at hh
    simp only [] at hh
    split at hh
    · simp at hh
    · rename_i hty
      split at hh
      · simp at hh
      · rename_i hmin
        split at hh
        · simp at hh
        · rename_i hmax
          simp only [Option.some.injEq] at hh
          subst hh
          refine ⟨rfl, ?_, rfl, rfl, rfl, rfl, Nat.le_of_not_lt hmin, ?_⟩
          · by_cases ht : types = []
            · exact Or.inl ht
            · right
              by_contra hnm
              apply hty
              simp [List.isEmpty_iff, ht, hnm]
          · by_cases hm0 : c.max_file_size_ = 0
            · exact Or.inl hm0
            · right
              by_contra hgt
              exact hmax ⟨Nat.pos_of_ne_zero hm0, Nat.lt_of_not_le hgt⟩

end FileCarver

theorem chunk_calls_size (fuel : Nat) (r : ChunkReader) (d : List Byte) (off : Nat)
    (res : List Call × ChunkReader) (h : chunk_calls fuel r d off = Except.ok res) :
    ∀ call ∈ res.1, 4 ≤ call.chunk_size := by
  induction fuel generalizing r d off res with
  | zero => simp [chunk_calls] at h
  | succ fuel ih =>
    rw [chunk_calls_succ] at h
    split at h
    · split at h
      · simp at h
      · rename_i hn
        cases hrec : chunk_calls fuel (r.read_chunk d).2.2.2 (r.read_chunk d).2.1
            (r.read_chunk d).2.2.2.tell with
        | error e => rw [hrec] at h; simp at h
        | ok rest =>
          rw [hrec] at h
          simp only [Except.ok.injEq] at h
          subst h
          intro call hc
          simp only [List.mem_cons] at hc
          rcases hc with hc | hc
          · subst hc
            exact Nat.le_of_not_lt hn
          · exact ih _ _ _ _ hrec call hc
    · simp only [Except.ok.injEq] at h
      subst h
      simp

namespace FileCarver

/-- Every record of a completed carve comes from a successful `scan_hit` in one
of the windows handed to `process_chunk`. -/
theorem carved_after_origin (c : FileCarver) (input : List Byte) (types : List String)
    (r : CarvedFile) (hr : r ∈ carved_after (c.carve_file_types (some input) types)) :
    ∃ res call i h, chunk_calls (input.length + 1)
        (reader_at input c.chunk_reader_.chunk_size_ c.chunk_reader_.overlap_size_ 0 0 0 0)
        [] 0 = Except.ok res ∧ call ∈ res.1 ∧ i + 4 ≤ call.chunk_size ∧
      (c.started input).scan_hit call.data call.chunk_size call.file_offset types i = some h ∧
      r.core = h.core := by
  cases hc : c.carve_file_types (some input) types with
  | error e => rw [hc] at hr; simp [carved_after] at hr
  | ok p =>
    rw [hc] at hr
    obtain ⟨res, h1, -, h3, -⟩ := carve_file_types_cores c input types p.1 p.2 hc
    have hmem : r.core ∈ p.2.carved_files_.map CarvedFile.core :=
      List.mem_map_of_mem _ hr
    rw [h3, List.mem_flatMap] at hmem
    obtain ⟨call, hcall, hm⟩ := hmem
    rw [List.mem_map] at hm
    obtain ⟨h, hh, hcore⟩ := hm
    unfold scan_window at hh
    rw [List.mem_filterMap] at hh
    obtain ⟨i, hi, hs⟩ := hh
    rw [List.mem_range] at hi
    have h4 := chunk_calls_size _ _ _ _ _ h1 call hcall
    exact ⟨res, call, i, h, h1, hcall, by omega, hs, hcore.symm⟩

theorem carve_file_types_none (c : FileCarver) (types : List String) :
    carved_after (c.carve_file_types none types) = [] := rfl


theorem carved_after_S1 :
    carved_after (small_files_carver.carve_file_types (some scenario_S1) []) = [record_S1] := rfl


theorem process_position_pass (data : List Byte) (n off : Nat) (types : List String)
    (c : FileCarver) (i : Nat) (sig : FileSignature)
    (hd : detect_header c.signatures (data.drop i) (n - i) = some sig)
    (ht : types = [] ∨ sig.name ∈ types) :
    process_position data n off types c i =
      if c.min_file_size_ ≤ ((c.determine_end sig (off + i)).1 + 2 ^ 64 - (off + i)) % 2 ^ 64 ∧
          (c.max_file_size_ = 0 ∨
            ((c.determine_end sig (off + i)).1 + 2 ^ 64 - (off + i)) % 2 ^ 64 ≤ c.max_file_size_)
      then c.emit_candidate sig (off + i) (c.determine_end sig (off + i)).1
        (((c.determine_end sig (off + i)).1 + 2 ^ 64 - (off + i)) % 2 ^ 64)
        (c.determine_end sig (off + i)).2
      else c := by
  have hty : ¬ ((!types.isEmpty && !types.contains sig.name) = true) := by
    rcases ht with ht | ht
    · simp [ht]
    · simp [ht]
  unfold process_position
  rw [hd]
  simp only []
  rw [if_neg hty]
  by_cases hmin : ((c.determine_end sig (off + i)).1 + 2 ^ 64 - (off + i)) % 2 ^ 64
      < c.min_file_size_
  · rw [if_pos hmin, if_neg (by omega)]
  · rw [if_neg hmin]
    by_cases hmax : c.max_file_size_ > 0 ∧
        ((c.determine_end sig (off + i)).1 + 2 ^ 64 - (off + i)) % 2 ^ 64 > c.max_file_size_
    · rw [if_pos hmax, if_neg (by omega)]
    · rw [if_neg hmax, if_pos (by omega)]

theorem emit_candidate_append (c : FileCarver) (sig : FileSignature) (s e fs : Nat) (b : Bool) :
    ∃ r, (c.emit_candidate sig s e fs b).carved_files_ = c.carved_files_ ++ [r] ∧
      r.core = (sig.name, s, e, fs, b) := by
  unfold emit_candidate
  simp only [validate_carved_file, if_true]
  split
  · exact ⟨_, rfl, rfl⟩
  · exact ⟨_, rfl, rfl⟩

end FileCarver

theorem read_chunk_reader_at_eof (input : List Byte) (cs os pos k tb cr : Nat) (d : List Byte)
    (hpos : input.length ≤ pos) :
    (reader_at input cs os pos k tb cr).read_chunk d =
      (false, d, 0, reader_at input cs os pos k tb cr) := by
  unfold ChunkReader.read_chunk
  simp [reader_at, ChunkReader.is_eof, hpos]

/-- An input of at least four bytes that fits in one chunk is handed to
`process_chunk` once, whole, at offset 0. -/
theorem chunk_calls_single (input : List Byte) (cs os : Nat) (h4 : 4 ≤ input.length)
    (hcs : input.length ≤ cs) :
    chunk_calls (input.length + 1) (reader_at input cs os 0 0 0 0) [] 0 =
      Except.ok ([⟨input, input.length, 0, reader_at input cs os input.length 0 input.length 1⟩],
        reader_at input cs os input.length 0 input.length 1) := by
  obtain ⟨m, hm⟩ : ∃ m, input.length = m + 1 := ⟨input.length - 1, by omega⟩
  have hmin : min cs (input.length - 0) = input.length := by
    rw [Nat.sub_zero]; exact min_eq_right hcs
  have hstep := read_chunk_reader_at input cs os 0 0 0 0 [] (by omega) (le_refl _)
  rw [hmin] at hstep
  simp only [Nat.zero_add, Nat.sub_zero, List.drop_zero, List.take_length, lt_self_iff_false,
    and_false, if_false] at hstep
  have hfuel : input.length + 1 = m + 1 + 1 := by omega
  rw [hfuel, chunk_calls_succ, hstep]
  simp only []
  have hpos : decide (input.length > 0) = true := by simp; omega
  rw [hpos, if_pos rfl, if_neg (by omega), chunk_calls_succ,
    read_chunk_reader_at_eof input cs os input.length 0 input.length 1 input (le_refl _)]
  rfl

/-- Calls made for an input that fits in one chunk: at most the one above. -/
theorem chunk_calls_one_window (input : List Byte) (cs os : Nat) (hcs : input.length ≤ cs)
    (res : List Call × ChunkReader)
    (h : chunk_calls (input.length + 1) (reader_at input cs os 0 0 0 0) [] 0 = Except.ok res) :
    ∀ call ∈ res.1, call.file_offset = 0 ∧ call.chunk_size = input.length ∧ call.data = input := by
  by_cases h4 : 4 ≤ input.length
  · rw [chunk_calls_single input cs os h4 hcs] at h
    simp only [Except.ok.injEq] at h
    subst h
    intro call hc
    simp only [List.mem_singleton] at hc
    subst hc
    exact ⟨rfl, rfl, rfl⟩
  · by_cases h0 : input.length = 0
    · rw [h0, chunk_calls_succ,
        read_chunk_reader_at_eof input cs os 0 0 0 0 [] (by omega)] at h
      simp only [Bool.false_eq_true, if_false, Except.ok.injEq] at h
      subst h
      simp
    · exfalso
      have hmin : min cs (input.length - 0) = input.length := by
        rw [Nat.sub_zero]; exact min_eq_right hcs
      have hstep := read_chunk_reader_at input cs os 0 0 0 0 [] (by omega) (le_refl _)
      rw [hmin] at hstep
      simp only [Nat.zero_add] at hstep
      have hpos : decide (input.length > 0) = true := by simp; omega
      rw [chunk_calls_succ, hstep] at h
      simp only [hpos, if_true] at h
      rw [if_pos (by omega)] at h
      simp at h

namespace FileCarver

theorem scan_hit_single_type (c : FileCarver) (data : List Byte) (n off : Nat) (T : String)
    (i : Nat) :
    c.scan_hit data n off [T] i =
      (c.scan_hit data n off [] i).filter (fun h => h.signature.name == T) := by
  unfold scan_hit
  cases detect_header c.signatures (data.drop i) (n - i) with
  | none => rfl
  | some sig =>
    simp only [List.isEmpty_cons, Bool.not_false, Bool.true_and, List.isEmpty_nil, Bool.not_true,
      Bool.false_and, Bool.false_eq_true, if_false]
    by_cases hT : sig.name = T
    · have hc : ([T].contains sig.name) = true := by simp [hT]
      simp only [hc, Bool.not_true, Bool.false_eq_true, if_false]
      split
      · rfl
      · split
        · rfl
        · simp [Option.filter, hT]
    · have hc : ([T].contains sig.name) = false := by simp [hT]
      simp only [hc, Bool.not_false, if_true]
      split
      · rfl
      · split
        · rfl
        · simp [Option.filter, hT]

theorem scan_window_single_type (c : FileCarver) (data : List Byte) (n off : Nat) (T : String) :
    (c.scan_window [T] data n off).map Hit.core =
      ((c.scan_window [] data n off).map Hit.core).filter (fun x => x.1 == T) := by
  unfold scan_window
  have hf : c.scan_hit data n off [T] =
      fun i => (c.scan_hit data n off [] i).filter (fun h => h.signature.name == T) := by
    funext i
    exact scan_hit_single_type c data n off T i
  rw [hf, ← List.filter_filterMap, List.filter_map]
  rfl


/-- Invariant principle for the scan of one window. -/
theorem foldl_process_position_inv (P : FileCarver → Prop) (base : FileCarver)
    (data : List Byte) (n off : Nat) (types : List String)
    (hstep : ∀ st i h, st.frame = base.frame → P st →
      st.scan_hit data n off types i = some h →
      P (st.emit_candidate h.signature h.start_offset h.end_offset h.file_size
        h.has_valid_footer))
    (is : List Nat) (st : FileCarver) (hf : st.frame = base.frame) (hP : P st) :
    P (is.foldl (process_position data n off types) st) := by
  induction is generalizing st with
  | nil => exact hP
  | cons i rest ih =>
    rw [List.foldl_cons, process_position_eq]
    cases hh : st.scan_hit data n off types i with
    | none => exact ih st hf hP
    | some h =>
      exact ih _ ((emit_candidate_frame _ _ _ _ _ _).trans hf) (hstep st i h hf hP hh)

/-- Invariant principle for a whole carve: a property of the engine state that
ignores the reader and the byte counter, holds at loop entry and is kept by
every emission, holds when the carve completes. -/
theorem carve_file_types_inv (P : FileCarver → Prop) (c : FileCarver) (input : List Byte)
    (types : List String)
    (hreader : ∀ st r, P st → P { st with chunk_reader_ := r })
    (hbytes : ∀ st k, P st → P { st with bytes_processed_ := k })
    (hstep : ∀ st data n off i h, st.frame = (c.started input).frame → P st →
      st.scan_hit data n off types i = some h →
      P (st.emit_candidate h.signature h.start_offset h.end_offset h.file_size
        h.has_valid_footer))
    (h0 : P (c.started input))
    (b : Bool) (c' : FileCarver)
    (h : c.carve_file_types (some input) types = Except.ok (b, c')) : P c' := by
  rw [carve_file_types_some] at h
  cases hc : chunk_calls (input.length + 1)
      (reader_at input c.chunk_reader_.chunk_size_ c.chunk_reader_.overlap_size_ 0 0 0 0)
      [] 0 with
  | error e => rw [hc] at h; simp at h
  | ok res =>
    rw [hc] at h
    simp only [Except.ok.injEq, Prod.mk.injEq] at h
    rw [← h.2]
    apply hreader
    have hbase := (chunk_calls_base _ _ _ _ _ hc).1
    rw [← started_reader] at hbase
    have key : ∀ (calls : List Call) (st : FileCarver),
        (∀ call ∈ calls, call.reader.base = (c.started input).chunk_reader_.base) →
        st.frame = (c.started input).frame → P st →
        (calls.foldl (apply_call types) st).frame = (c.started input).frame ∧
          P (calls.foldl (apply_call types) st) := by
      intro calls
      induction calls with
      | nil => intro st _ hf hP; exact ⟨hf, hP⟩
      | cons call rest ih =>
        intro st hb hf hP
        rw [List.foldl_cons]
        have hfr : st.chunk_reader_.base = (c.started input).chunk_reader_.base := by
          have := congrArg FileCarver.chunk_reader_ hf
          exact this
        have hcb : call.reader.base = st.chunk_reader_.base := by
          rw [hfr]; exact hb call (List.mem_cons_self _ _)
        have hf1 : (apply_call types st call).frame = (c.started input).frame :=
          ((apply_call_spec types st call hcb).1).trans hf
        have hf0 : ({ st with chunk_reader_ := call.reader } : FileCarver).frame
            = (c.started input).frame := by
          rw [← hf]
          simp only [frame, hcb]
        have hP1 : P (apply_call types st call) := by
          unfold apply_call
          apply hbytes
          exact foldl_process_position_inv P (c.started input) call.data call.chunk_size
            call.file_offset types (fun st i h => hstep st call.data call.chunk_size
              call.file_offset i h) _ _ hf0 (hreader st call.reader hP)
        exact ih _ (fun call2 h2 => hb call2 (List.mem_cons_of_mem _ h2)) hf1 hP1
    exact (key res.1 (c.started input) hbase rfl h0).2

end FileCarver

theorem openOn_of_base (r r' : ChunkReader) (input : List Byte) (h : r.base = r'.base)
    (ho : r'.OpenOn input) : r.OpenOn input := by
  obtain ⟨h1, h2, h3⟩ := ho
  have e1 : r.is_open_ = r'.is_open_ := by
    have := congrArg ChunkReader.is_open_ h
    exact this
  have e2 : r.file_ = r'.file_ := by
    have := congrArg ChunkReader.file_ h
    exact this
  have e3 : r.file_size_ = r'.file_size_ := by
    have := congrArg ChunkReader.file_size_ h
    exact this
  exact ⟨e1.trans h1, e2.trans h2, e3.trans h3⟩

namespace FileCarver

/-- Effect of an emission on the result list and on the data written to disk. -/
theorem emit_candidate_effect (st : FileCarver) (sig : FileSignature) (s e fs : Nat) (b : Bool) :
    ∃ ex : Bool,
      (st.emit_candidate sig s e fs b).carved_files_ = st.carved_files_ ++
        [⟨(generate_unique_filename st.world.counters sig.name sig.extension).1, sig.name, s, e,
          fs, b, ex⟩] ∧
      writes (st.emit_candidate sig s e fs b).world.disk_log = writes st.world.disk_log ++
        (if ex then
          [(st.output_directory_ ++ "/" ++
              (generate_unique_filename st.world.counters sig.name sig.extension).1,
            (st.chunk_reader_.read_at_position s fs []).2.take
              (st.chunk_reader_.read_at_position s fs []).1)]
        else []) ∧
      (ex = true → (st.chunk_reader_.read_at_position s fs []).1 ≠ 0) := by
  unfold emit_candidate
  simp only [validate_carved_file, if_true]
  by_cases hx : st.extract_files_ = true
  · simp only [hx, if_true, extract_file]
    by_cases hcc : st.world.can_create (st.output_directory_ ++ "/" ++
        (generate_unique_filename st.world.counters sig.name sig.extension).1) = true
    · simp only [hcc, Bool.not_true, Bool.false_eq_true, if_false]
      by_cases h0 : (st.chunk_reader_.read_at_position s fs []).1 = 0
      · refine ⟨false, ?_, ?_, by simp⟩
        · simp [h0]
        · simp [h0, writes, List.filterMap_append]
      · refine ⟨true, ?_, ?_, fun _ => h0⟩
        · simp [h0]
        · simp [h0, writes, List.filterMap_append]
    · refine ⟨false, ?_, ?_, by simp⟩
      · simp [hcc]
      · simp [hcc]
  · refine ⟨false, ?_, ?_, by simp⟩
    · simp [hx]
    · simp [hx]

end FileCarver

theorem filterMap_range_single {β : Type} (g : Nat → Option β) (m p : Nat) (b : β)
    (hp : p < m) (hg : g p = some b) (hne : ∀ i, i < m → i ≠ p → g i = none) :
    (List.range m).filterMap g = [b] := by
  induction m with
  | zero => omega
  | succ m ih =>
    rw [List.range_succ, List.filterMap_append]
    by_cases hpm : p = m
    · subst hpm
      have hnil : (List.range p).filterMap g = [] := by
        rw [List.filterMap_eq_nil_iff]
        intro a ha
        rw [List.mem_range] at ha
        exact hne a (by omega) (by omega)
      rw [hnil]
      simp [hg]
    · rw [ih (by omega) (fun i hi hip => hne i (by omega) hip)]
      have : g m = none := hne m (by omega) (fun e => hpm e.symm)
      simp [this]

/-- Calls made for an input that fits in one chunk: none, or the whole input
at offset 0. -/
theorem chunk_calls_one_window_cases (input : List Byte) (cs os : Nat)
    (hcs : input.length ≤ cs) (res : List Call × ChunkReader)
    (h : chunk_calls (input.length + 1) (reader_at input cs os 0 0 0 0) [] 0 = Except.ok res) :
    res.1 = [] ∨ (4 ≤ input.length ∧ ∃ rd, res.1 = [⟨input, input.length, 0, rd⟩]) := by
  by_cases h4 : 4 ≤ input.length
  · rw [chunk_calls_single input cs os h4 hcs] at h
    simp only [Except.ok.injEq] at h
    subst h
    exact Or.inr ⟨h4, _, rfl⟩
  · left
    by_cases h0 : input.length = 0
    · rw [h0, chunk_calls_succ,
        read_chunk_reader_at_eof input cs os 0 0 0 0 [] (by omega)] at h
      simp only [Bool.false_eq_true, if_false, Except.ok.injEq] at h
      subst h
      rfl
    · exfalso
      have hmin : min cs (input.length - 0) = input.length := by
        rw [Nat.sub_zero]; exact min_eq_right hcs
      have hstep := read_chunk_reader_at input cs os 0 0 0 0 [] (by omega) (le_refl _)
      rw [hmin] at hstep
      simp only [Nat.zero_add] at hstep
      have hpos : decide (input.length > 0) = true := by simp; omega
      rw [chunk_calls_succ, hstep] at h
      simp only [hpos, if_true] at h
      rw [if_pos (by omega)] at h
      simp at h

namespace FileCarver

theorem scan_hit_start (c : FileCarver) (data : List Byte) (n off : Nat) (types : List String)
    (i : Nat) (h : Hit) (hh : c.scan_hit data n off types i = some h) :
    h.start_offset = off + i := (scan_hit_some c data n off types i h hh).2.2.1

/-- Within one window the emitted candidates have strictly increasing starts. -/
theorem scan_window_sorted (c : FileCarver) (types : List String) (data : List Byte)
    (n off : Nat) :
    (c.scan_window types data n off).Pairwise
      (fun a b => a.start_offset < b.start_offset) := by
  unfold scan_window
  refine List.Pairwise.filterMap _ ?_ (List.pairwise_lt_range _)
  intro i j hij a ha b hb
  rw [scan_hit_start c _ _ _ _ _ _ ha, scan_hit_start c _ _ _ _ _ _ hb]
  omega

theorem foldl_process_position_append (data : List Byte) (n off : Nat) (types : List String)
    (is : List Nat) (c : FileCarver) :
    ∃ new, (is.foldl (process_position data n off types) c).carved_files_ =
        c.carved_files_ ++ new ∧
      new.map CarvedFile.core = (is.filterMap (c.scan_hit data n off types)).map Hit.core := by
  induction is generalizing c with
  | nil => exact ⟨[], by simp, by simp⟩
  | cons i rest ih =>
    rw [List.foldl_cons, List.filterMap_cons, process_position_eq]
    cases hh : c.scan_hit data n off types i with
    | none => exact ih c
    | some h =>
      simp only []
      obtain ⟨new, h1, h2⟩ := ih (c.emit_candidate h.signature h.start_offset h.end_offset
        h.file_size h.has_valid_footer)
      obtain ⟨r, r1, r2⟩ := emit_candidate_append c h.signature h.start_offset h.end_offset
        h.file_size h.has_valid_footer
      have hcongr : (c.emit_candidate h.signature h.start_offset h.end_offset
          h.file_size h.has_valid_footer).scan_hit data n off types
          = c.scan_hit data n off types := by
        funext j
        exact scan_hit_congr (emit_candidate_frame _ _ _ _ _ _) data n off types j
      rw [hcongr] at h2
      refine ⟨r :: new, ?_, ?_⟩
      · rw [h1, r1]; simp
      · simp [h2, r2, Hit.core]

/-- Cores of the records of a carve of an input that fits in one chunk. -/
theorem carved_after_one_window (c : FileCarver) (input : List Byte) (types : List String)
    (hcs : input.length ≤ c.chunk_reader_.chunk_size_) :
    (carved_after (c.carve_file_types (some input) types)).map CarvedFile.core = [] ∨
    (4 ≤ input.length ∧
      (carved_after (c.carve_file_types (some input) types)).map CarvedFile.core =
        ((c.started input).scan_window types input input.length 0).map Hit.core) := by
  cases hc : c.carve_file_types (some input) types with
  | error e => left; rfl
  | ok p =>
    obtain ⟨res, h1, -, h3, -⟩ := carve_file_types_cores c input types p.1 p.2 hc
    show p.2.carved_files_.map CarvedFile.core = [] ∨ (_ ∧
      p.2.carved_files_.map CarvedFile.core = _)
    rcases chunk_calls_one_window_cases input _ _ hcs res h1 with hnil | ⟨h4, rd, hone⟩
    · left; rw [h3, hnil]; rfl
    · right; refine ⟨h4, ?_⟩; rw [h3, hone]; simp


theorem scan_hit_of_pass (c : FileCarver) (data : List Byte) (n off : Nat)
    (types : List String) (i : Nat) (sig : FileSignature)
    (hd : detect_header c.signatures (data.drop i) (n - i) = some sig)
    (ht : types = [] ∨ sig.name ∈ types)
    (hs : c.min_file_size_ ≤ ((c.determine_end sig (off + i)).1 + 2 ^ 64 - (off + i)) % 2 ^ 64 ∧
      (c.max_file_size_ = 0 ∨
        ((c.determine_end sig (off + i)).1 + 2 ^ 64 - (off + i)) % 2 ^ 64 ≤ c.max_file_size_)) :
    c.scan_hit data n off types i =
      some ⟨sig, off + i, (c.determine_end sig (off + i)).1,
        ((c.determine_end sig (off + i)).1 + 2 ^ 64 - (off + i)) % 2 ^ 64,
        (c.determine_end sig (off + i)).2⟩ := by
  have hty : ¬ ((!types.isEmpty && !types.contains sig.name) = true) := by
    rcases ht with ht | ht
    · simp [ht]
    · simp [ht]
  unfold scan_hit
  rw [hd]
  simp only []
  rw [if_neg hty, if_neg (by omega), if_neg (by omega)]

theorem filter_start_cores (l : List CarvedFile) (p : Nat) :
    (l.filter (fun r => decide (r.start_offset = p))).map CarvedFile.core =
      (l.map CarvedFile.core).filter (fun x => decide (x.2.1 = p)) := by
  rw [List.filter_map]
  rfl

end FileCarver

theorem id3_in_filler_length (a b : Nat) : (id3_in_filler a b).length = a + 3 + b := by
  simp only [id3_in_filler, List.length_append, List.length_replicate, List.length_cons,
    List.length_nil]
  omega

theorem id3_in_filler_drop_low (a b q : Nat) (hq : q < a) :
    ∃ t, (id3_in_filler a b).drop q = 0xAA :: t := by
  unfold id3_in_filler
  rw [List.drop_append_of_le_length (by rw [List.length_replicate]; omega), List.drop_replicate]
  obtain ⟨k, hk⟩ : ∃ k, a - q = k + 1 := ⟨a - q - 1, by omega⟩
  rw [hk, List.replicate_succ]
  exact ⟨_, rfl⟩

theorem id3_in_filler_drop_header (a b j : Nat) :
    (id3_in_filler a b).drop (a + j) =
      ([0x49, 0x44, 0x33] ++ List.replicate b 0xAA).drop j := by
  unfold id3_in_filler
  rw [List.drop_append_eq_append_drop, List.length_replicate,
    List.drop_eq_nil_of_le (by rw [List.length_replicate]; omega), List.nil_append,
    Nat.add_sub_cancel_left]

theorem id3_in_filler_drop_high (a b q : Nat) (hq : a + 3 ≤ q) (hq2 : q < a + 3 + b) :
    ∃ t, (id3_in_filler a b).drop q = 0xAA :: t := by
  obtain ⟨j, hj⟩ : ∃ j, q = a + (j + 3) := ⟨q - a - 3, by omega⟩
  rw [hj, id3_in_filler_drop_header]
  simp only [List.cons_append, List.nil_append, List.drop_succ_cons]
  rw [List.drop_replicate]
  obtain ⟨k, hk⟩ : ∃ k, b - j = k + 1 := ⟨b - j - 1, by omega⟩
  rw [hk, List.replicate_succ]
  exact ⟨_, rfl⟩

theorem detect_header_AA (t : List Byte) (m : Nat) :
    detect_header initialize_common_signatures (0xAA :: t) m = none := by
  simp [detect_header, initialize_common_signatures, List.isPrefixOf]

theorem detect_header_44 (t : List Byte) (m : Nat) :
    detect_header initialize_common_signatures (0x44 :: t) m = none := by
  simp [detect_header, initialize_common_signatures, List.isPrefixOf]

theorem detect_header_33 (t : List Byte) (m : Nat) :
    detect_header initialize_common_signatures (0x33 :: t) m = none := by
  simp [detect_header, initialize_common_signatures, List.isPrefixOf]

theorem detect_header_ID3 (t : List Byte) (m : Nat) (hm : 3 ≤ m) :
    detect_header initialize_common_signatures (0x49 :: 0x44 :: 0x33 :: t) m
      = some mp3_signature := by
  simp [detect_header, initialize_common_signatures, List.isPrefixOf, mp3_signature, hm]

/-- Away from the header start, no signature is detected in `id3_in_filler`. -/
theorem id3_in_filler_detect_none (a b q m : Nat) (hq : q ≠ a) (hq2 : q < a + 3 + b)
    (hm : 1 ≤ m) :
    detect_header initialize_common_signatures (((id3_in_filler a b).drop q).take m) m
      = none := by
  obtain ⟨k, hk⟩ : ∃ k, m = k + 1 := ⟨m - 1, by omega⟩
  by_cases h1 : q < a
  · obtain ⟨t, ht⟩ := id3_in_filler_drop_low a b q h1
    rw [ht, hk, List.take_succ_cons]
    exact detect_header_AA _ _
  · by_cases h2 : a + 3 ≤ q
    · obtain ⟨t, ht⟩ := id3_in_filler_drop_high a b q h2 hq2
      rw [ht, hk, List.take_succ_cons]
      exact detect_header_AA _ _
    · have hcase : q = a + 1 ∨ q = a + 2 := by omega
      rcases hcase with h | h
      · rw [h, id3_in_filler_drop_header, hk]
        simp only [List.cons_append, List.nil_append, List.drop_succ_cons, List.drop_zero,
          List.take_succ_cons]
        exact detect_header_44 _ _
      · rw [h, id3_in_filler_drop_header, hk]
        simp only [List.cons_append, List.nil_append, List.drop_succ_cons, List.drop_zero,
          List.take_succ_cons]
        exact detect_header_33 _ _

/-- At the header start the MP3 signature is detected. -/
theorem id3_in_filler_detect_header (a b m : Nat) (hm : 3 ≤ m) :
    detect_header initialize_common_signatures (((id3_in_filler a b).drop a).take m) m
      = some mp3_signature := by
  obtain ⟨k, hk⟩ : ∃ k, m = k + 3 := ⟨m - 3, by omega⟩
  have h := id3_in_filler_drop_header a b 0
  rw [Nat.add_zero] at h
  rw [h, hk]
  simp only [List.cons_append, List.nil_append, List.drop_zero, List.take_succ_cons]
  exact detect_header_ID3 _ _ (by omega)

namespace FileCarver

theorem id3_scan_hit_none (a b S L off i : Nat) (hne : S + i ≠ a) (hlt : S + i < a + 3 + b)
    (hi : i < L) :
    (default_carver.started (id3_in_filler a b)).scan_hit
      (((id3_in_filler a b).drop S).take L) L off [] i = none := by
  unfold scan_hit
  rw [slice_drop]
  have hsig : (default_carver.started (id3_in_filler a b)).signatures
      = initialize_common_signatures := rfl
  rw [hsig, id3_in_filler_detect_none a b (S + i) (L - i) hne hlt (by omega)]

theorem id3_determine_end (a b s : Nat) (h1 : a + 3 + b ≤ s + 1048576)
    (h2 : s + 1048576 < 2 ^ 64) :
    (default_carver.started (id3_in_filler a b)).determine_end mp3_signature s
      = (a + 3 + b, false) := by
  rw [determine_end_window _ _ _ (by
    intro h
    have hf : mp3_signature.has_footer = false := rfl
    rw [hf, Bool.and_false] at h
    exact absurd h (by decide))]
  have hsz : (default_carver.started (id3_in_filler a b)).chunk_reader_.file_size_
      = a + 3 + b := by
    rw [started_reader]
    exact id3_in_filler_length a b
  have hsw : (default_carver.started (id3_in_filler a b)).search_window_ = 1048576 := rfl
  rw [hsz, hsw, Nat.mod_eq_of_lt h2, min_eq_right h1]

theorem id3_scan_hit_header (a b S L off i : Nat) (he : S + i = a) (hi : i + 3 ≤ L)
    (h1 : a + 3 + b ≤ off + i + 1048576) (h2 : off + i + 1048576 < 2 ^ 64)
    (h3 : off + i + 512 ≤ a + 3 + b) :
    (default_carver.started (id3_in_filler a b)).scan_hit
      (((id3_in_filler a b).drop S).take L) L off [] i =
      some ⟨mp3_signature, off + i, a + 3 + b, a + 3 + b - (off + i), false⟩ := by
  have hd : detect_header (default_carver.started (id3_in_filler a b)).signatures
      ((((id3_in_filler a b).drop S).take L).drop i) (L - i) = some mp3_signature := by
    rw [slice_drop, he]
    exact id3_in_filler_detect_header a b (L - i) (by omega)
  have hfs : (a + 3 + b + 2 ^ 64 - (off + i)) % 2 ^ 64 = a + 3 + b - (off + i) := by
    have e : a + 3 + b + 2 ^ 64 - (off + i) = (a + 3 + b - (off + i)) + 2 ^ 64 := by omega
    rw [e, Nat.add_mod_right, Nat.mod_eq_of_lt (by omega)]
  have hmin : (default_carver.started (id3_in_filler a b)).min_file_size_ = 512 := rfl
  have hmax : (default_carver.started (id3_in_filler a b)).max_file_size_ = 0 := rfl
  rw [scan_hit_of_pass _ _ _ _ _ _ _ hd (Or.inl rfl) (by
    rw [id3_determine_end a b (off + i) h1 h2, hmin, hmax]
    simp only []
    rw [hfs]
    exact ⟨by omega, Or.inl trivial⟩)]
  rw [id3_determine_end a b (off + i) h1 h2]
  simp only []
  rw [hfs]

theorem id3_scan_window_hit (a b S L off : Nat) (hS : S ≤ a) (hL : a + 4 ≤ S + L)
    (hN : S + L ≤ a + 3 + b)
    (h1 : a + 3 + b ≤ off + (a - S) + 1048576) (h2 : off + (a - S) + 1048576 < 2 ^ 64)
    (h3 : off + (a - S) + 512 ≤ a + 3 + b) :
    (default_carver.started (id3_in_filler a b)).scan_window []
      (((id3_in_filler a b).drop S).take L) L off =
      [⟨mp3_signature, off + (a - S), a + 3 + b, a + 3 + b - (off + (a - S)), false⟩] := by
  unfold scan_window
  refine filterMap_range_single _ _ (a - S) _ (by omega) ?_ ?_
  · exact id3_scan_hit_header a b S L off (a - S) (by omega) (by omega) h1 h2 h3
  · intro i hi hne
    exact id3_scan_hit_none a b S L off i (by omega) (by omega) (by omega)

theorem id3_scan_window_none (a b S L off : Nat) (hL : 4 ≤ L) (hN : S + L ≤ a + 3 + b)
    (hout : a < S ∨ S + L < a + 4) :
    (default_carver.started (id3_in_filler a b)).scan_window []
      (((id3_in_filler a b).drop S).take L) L off = [] := by
  unfold scan_window
  rw [List.filterMap_eq_nil_iff]
  intro i hi
  rw [List.mem_range] at hi
  exact id3_scan_hit_none a b S L off i (by omega) (by omega) (by omega)

end FileCarver

/-- The three `process_chunk` calls made by the default reader (chunk size
65536, overlap size 4096) on an input of 131672 bytes. -/
theorem chunk_calls_three_windows (input : List Byte) (hlen : input.length = 131672) :
    chunk_calls (input.length + 1) (reader_at input 65536 4096 0 0 0 0) [] 0 =
      Except.ok
        ([⟨(input.drop 0).take 65536, 65536, 0, reader_at input 65536 4096 65536 4096 65536 1⟩,
          ⟨(input.drop 61440).take 69632, 69632, 65536,
            reader_at input 65536 4096 131072 4096 131072 2⟩,
          ⟨(input.drop 126976).take 4696, 4696, 131072,
            reader_at input 65536 4096 131672 0 131672 3⟩],
          reader_at input 65536 4096 131672 0 131672 3) := by
  have s0 : (reader_at input 65536 4096 0 0 0 0).read_chunk [] =
      (true, (input.drop 0).take 65536, 65536, reader_at input 65536 4096 65536 4096 65536 1) := by
    rw [read_chunk_reader_at input 65536 4096 0 0 0 0 [] (by omega) (by omega), hlen]
    norm_num
  have s1 : (reader_at input 65536 4096 65536 4096 65536 1).read_chunk
      ((input.drop 0).take 65536) =
      (true, (input.drop 61440).take 69632, 69632,
        reader_at input 65536 4096 131072 4096 131072 2) := by
    rw [read_chunk_reader_at input 65536 4096 65536 4096 65536 1 _ (by omega) (by omega), hlen]
    norm_num
  have s2 : (reader_at input 65536 4096 131072 4096 131072 2).read_chunk
      ((input.drop 61440).take 69632) =
      (true, (input.drop 126976).take 4696, 4696,
        reader_at input 65536 4096 131672 0 131672 3) := by
    rw [read_chunk_reader_at input 65536 4096 131072 4096 131072 2 _ (by omega) (by omega), hlen]
    norm_num
  have s3 : (reader_at input 65536 4096 131672 0 131672 3).read_chunk
      ((input.drop 126976).take 4696) =
      (false, (input.drop 126976).take 4696, 0,
        reader_at input 65536 4096 131672 0 131672 3) :=
    read_chunk_reader_at_eof input 65536 4096 131672 0 131672 3 _ (by omega)
  have hfuel : input.length + 1 = 4 + 131669 := by omega
  rw [hfuel]
  apply chunk_calls_mono
  rw [chunk_calls_succ, s0]
  simp only [if_true, ChunkReader.tell, reader_at]
  rw [if_neg (by omega)]
  have e1 := s1
  simp only [reader_at] at e1
  rw [chunk_calls_succ, e1]
  simp only [if_true, ChunkReader.tell]
  rw [if_neg (by omega)]
  have e2 := s2
  simp only [reader_at] at e2
  rw [chunk_calls_succ, e2]
  simp only [if_true, ChunkReader.tell]
  rw [if_neg (by omega)]
  have e3 := s3
  simp only [reader_at] at e3
  rw [chunk_calls_succ, e3]
  rfl

theorem three_window_length : three_window_input.length = 131672 :=
  id3_in_filler_length 126976 4693

namespace FileCarver

/-- A completed reader loop gives a completed carve with these record cores. -/
theorem carved_after_of_calls (c : FileCarver) (input : List Byte) (types : List String)
    (res : List Call × ChunkReader)
    (h : chunk_calls (input.length + 1)
        (reader_at input c.chunk_reader_.chunk_size_ c.chunk_reader_.overlap_size_ 0 0 0 0)
        [] 0 = Except.ok res) :
    (∃ c', c.carve_file_types (some input) types = Except.ok (true, c')) ∧
    (carved_after (c.carve_file_types (some input) types)).map CarvedFile.core =
      res.1.flatMap (fun call => ((c.started input).scan_window types call.data
        call.chunk_size call.file_offset).map Hit.core) := by
  have hok : ∃ c', c.carve_file_types (some input) types = Except.ok (true, c') := by
    rw [carve_file_types_some, h]
    exact ⟨_, rfl⟩
  refine ⟨hok, ?_⟩
  obtain ⟨c', hc'⟩ := hok
  obtain ⟨res2, h1, -, h3, -⟩ := carve_file_types_cores c input types true c' hc'
  rw [h] at h1
  simp only [Except.ok.injEq] at h1
  rw [hc']
  show c'.carved_files_.map CarvedFile.core = _
  rw [h3, ← h1]

/-- Cores of the records the default engine carves from `three_window_input`. -/
theorem three_window_cores :
    (carved_after (default_carver.carve_file_types (some three_window_input) [])).map
        CarvedFile.core =
      [("MP3", 131072, 131672, 600, false), ("MP3", 131072, 131672, 600, false)] := by
  have hcalls := chunk_calls_three_windows three_window_input three_window_length
  rw [(carved_after_of_calls default_carver three_window_input [] _ hcalls).2]
  simp only [List.flatMap_cons, List.flatMap_nil, List.append_nil]
  have w0 := id3_scan_window_none 126976 4693 0 65536 0 (by omega) (by omega) (by omega)
  have w1 := id3_scan_window_hit 126976 4693 61440 69632 65536 (by omega) (by omega) (by omega)
    (by omega) (by omega) (by omega)
  have w2 := id3_scan_window_hit 126976 4693 126976 4696 131072 (by omega) (by omega) (by omega)
    (by omega) (by omega) (by omega)
  have e : three_window_input = id3_in_filler 126976 4693 := rfl
  rw [e, w0, w1, w2]
  rfl

/-- The whole of `three_window_input` scanned as one window at offset 0. -/
theorem three_window_single_scan :
    ((default_carver.started three_window_input).scan_window [] three_window_input
        three_window_input.length 0).map Hit.core = [("MP3", 126976, 131672, 4696, false)] := by
  have hw : three_window_input = ((id3_in_filler 126976 4693).drop 0).take 131672 := by
    rw [List.drop_zero]
    exact (List.take_of_length_le (by rw [three_window_length])).symm
  have w := id3_scan_window_hit 126976 4693 0 131672 0 (by omega) (by omega) (by omega)
    (by omega) (by omega) (by omega)
  rw [← hw] at w
  rw [three_window_length]
  have e : id3_in_filler 126976 4693 = three_window_input := rfl
  rw [e] at w
  rw [w]
  rfl

end FileCarver

theorem replicate_take_three (n : Nat) (x : Byte) :
    (List.replicate (n + 3) x).take 3 = [x, x, x] := rfl

theorem three_window_bytes_at_131072 :
    (three_window_input.drop 131072).take 3 = [0xAA, 0xAA, 0xAA] := by
  have e : three_window_input = id3_in_filler 126976 4693 := rfl
  have h : 131072 = 126976 + (4093 + 3) := by norm_num
  rw [e, h, id3_in_filler_drop_header]
  simp only [List.cons_append, List.nil_append, List.drop_succ_cons]
  rw [List.drop_replicate]
  have h2 : 4693 - 4093 = 597 + 3 := by norm_num
  rw [h2]
  exact replicate_take_three 597 0xAA

theorem three_window_bytes_at_126976 :
    (three_window_input.drop 126976).take 3 = [0x49, 0x44, 0x33] := by
  have e : three_window_input = id3_in_filler 126976 4693 := rfl
  have h := id3_in_filler_drop_header 126976 4693 0
  rw [Nat.add_zero] at h
  rw [e, h]
  rfl

theorem two_records_of_cores (l : List CarvedFile) (x y : String × Nat × Nat × Nat × Bool)
    (h : l.map CarvedFile.core = [x, y]) :
    ∃ a b, l = [a, b] ∧ a.core = x ∧ b.core = y := by
  match l, h with
  | [a, b], h =>
    simp only [List.map_cons, List.map_nil, List.cons.injEq, and_true] at h
    exact ⟨a, b, rfl, h.1, h.2⟩

theorem chunk_calls_fuel_aux (input : List Byte) (cs os : Nat) (hcs : 1 ≤ cs) (n : Nat) :
    ∀ (pos k tb cr : Nat) (d : List Byte) (off : Nat), input.length - pos ≤ n → k ≤ pos →
      chunk_calls (n + 1) (reader_at input cs os pos k tb cr) d off
        ≠ Except.error Fault.out_of_fuel := by
  induction n with
  | zero =>
    intro pos k tb cr d off hn hk
    rw [chunk_calls_succ, read_chunk_reader_at_eof input cs os pos k tb cr d (by omega)]
    simp
  | succ n ih =>
    intro pos k tb cr d off hn hk
    by_cases hpos : input.length ≤ pos
    · rw [chunk_calls_succ, read_chunk_reader_at_eof input cs os pos k tb cr d hpos]
      simp
    · rw [chunk_calls_succ, read_chunk_reader_at input cs os pos k tb cr d (by omega) hk]
      simp only []
      have hm : 1 ≤ min cs (input.length - pos) := by omega
      have hdec : decide (k + min cs (input.length - pos) > 0) = true := by
        simp; omega
      rw [hdec, if_pos rfl]
      split
      · simp
      · have hrec := ih (pos + min cs (input.length - pos))
          (if os ≤ min cs (input.length - pos) ∧
              pos + min cs (input.length - pos) < input.length then os else 0)
          (tb + min cs (input.length - pos)) (cr + 1)
          ((input.drop (pos - k)).take (k + min cs (input.length - pos)))
          (reader_at input cs os (pos + min cs (input.length - pos))
            (if os ≤ min cs (input.length - pos) ∧
                pos + min cs (input.length - pos) < input.length then os else 0)
            (tb + min cs (input.length - pos)) (cr + 1)).tell
          (by omega) (by split <;> omega)
        cases hc : chunk_calls (n + 1)
            (reader_at input cs os (pos + min cs (input.length - pos))
              (if os ≤ min cs (input.length - pos) ∧
                  pos + min cs (input.length - pos) < input.length then os else 0)
              (tb + min cs (input.length - pos)) (cr + 1))
            ((input.drop (pos - k)).take (k + min cs (input.length - pos)))
            (reader_at input cs os (pos + min cs (input.length - pos))
              (if os ≤ min cs (input.length - pos) ∧
                  pos + min cs (input.length - pos) < input.length then os else 0)
              (tb + min cs (input.length - pos)) (cr + 1)).tell with
        | error e =>
          simp only []
          intro h
          apply hrec
          rw [hc]
          exact h
        | ok rest => simp

/-- The fuel given by `carve_file_types` is never exhausted. -/
theorem chunk_calls_fuel (input : List Byte) (cs os : Nat) :
    chunk_calls (input.length + 1) (reader_at input cs os 0 0 0 0) [] 0
      ≠ Except.error Fault.out_of_fuel := by
  by_cases hcs : 1 ≤ cs
  · exact chunk_calls_fuel_aux input cs os hcs input.length 0 0 0 0 [] 0 (by omega) (le_refl _)
  · have hz : cs = 0 := by omega
    subst hz
    by_cases hpos : input.length ≤ 0
    · rw [chunk_calls_succ, read_chunk_reader_at_eof input 0 os 0 0 0 0 [] hpos]
      simp
    · rw [chunk_calls_succ, read_chunk_reader_at input 0 os 0 0 0 0 [] (by omega) (le_refl _)]
      simp

namespace FileCarver

/-- The main loop of `carve_file_types` always ends by `read_chunk` returning
false or by the fault of a short window, never by lack of fuel. -/
theorem carve_file_types_fuel (c : FileCarver) (input : Option (List Byte))
    (types : List String) :
    c.carve_file_types input types ≠ Except.error Fault.out_of_fuel := by
  cases input with
  | none =>
    intro h
    have h2 : c.carve_file_types none types
        = Except.ok (false, { c.clear_results with
            chunk_reader_ := (c.clear_results.chunk_reader_.open none).2 }) := rfl
    rw [h2] at h
    simp at h
  | some bytes =>
    rw [carve_file_types_some]
    have hf := chunk_calls_fuel bytes c.chunk_reader_.chunk_size_ c.chunk_reader_.overlap_size_
    cases hc : chunk_calls (bytes.length + 1)
        (reader_at bytes c.chunk_reader_.chunk_size_ c.chunk_reader_.overlap_size_ 0 0 0 0)
        [] 0 with
    | error e =>
      simp only []
      intro h
      apply hf
      rw [hc]
      simp only [Except.error.injEq] at h
      rw [h]
    | ok res => simp

end FileCarver

/-- Tail that `read_chunk` prepends: the retained tail, except at cursor 0. -/
theorem read_chunk_head (c : Nat) (t : List Byte) :
    (if (decide (c > 0) && !t.isEmpty) = true then t else []) = if c = 0 then [] else t := by
  by_cases hc : c = 0
  · subst hc; simp
  · rw [if_neg hc]
    cases t with
    | nil => simp
    | cons a l => simp; omega

/-- One `read_chunk` on a reader open on `input` with its cursor inside the
input, whatever tail it retains. -/
theorem read_chunk_open (r : ChunkReader) (input : List Byte) (ho : r.OpenOn input)
    (d : List Byte) (hpos : r.current_position_ < input.length) :
    r.read_chunk d =
      (decide ((if r.current_position_ = 0 then [] else r.overlap_buffer_).length +
          min r.chunk_size_ (input.length - r.current_position_) > 0),
        (if r.current_position_ = 0 then [] else r.overlap_buffer_) ++
          (input.drop r.current_position_).take
            (min r.chunk_size_ (input.length - r.current_position_)),
        (if r.current_position_ = 0 then [] else r.overlap_buffer_).length +
          min r.chunk_size_ (input.length - r.current_position_),
        { r with
            current_position_ := r.current_position_ +
              min r.chunk_size_ (input.length - r.current_position_),
            total_bytes_read_ := r.total_bytes_read_ +
              min r.chunk_size_ (input.length - r.current_position_),
            chunks_read_ := r.chunks_read_ + 1,
            overlap_buffer_ :=
              if min r.chunk_size_ (input.length - r.current_position_) ≥ r.overlap_size_ ∧
                  r.current_position_ + min r.chunk_size_ (input.length - r.current_position_)
                    < input.length then
                ((if r.current_position_ = 0 then [] else r.overlap_buffer_) ++
                  (input.drop r.current_position_).take
                    (min r.chunk_size_ (input.length - r.current_position_))).drop
                  ((if r.current_position_ = 0 then [] else r.overlap_buffer_).length +
                    min r.chunk_size_ (input.length - r.current_position_) - r.overlap_size_)
              else [] }) := by
  obtain ⟨h1, h2, h3⟩ := ho
  have hfresh : ((input.drop r.current_position_).take
      (min r.chunk_size_ (input.length - r.current_position_))).length
      = min r.chunk_size_ (input.length - r.current_position_) :=
    slice_length input _ _ (by omega)
  have hhead := read_chunk_head r.current_position_ r.overlap_buffer_
  generalize hH : (if r.current_position_ = 0 then [] else r.overlap_buffer_) = H at hhead ⊢
  have hpad : (ChunkReader.resize d (min r.chunk_size_ (input.length - r.current_position_)
      + H.length)).drop (H.length + min r.chunk_size_ (input.length - r.current_position_)) = [] :=
    resize_drop _ _ _ (by omega)
  have hlen : (H ++ (input.drop r.current_position_).take
      (min r.chunk_size_ (input.length - r.current_position_))).length
      = H.length + min r.chunk_size_ (input.length - r.current_position_) := by
    rw [List.length_append, hfresh]
  have hnot : ¬ (r.current_position_ ≥ input.length) := by omega
  unfold ChunkReader.read_chunk
  simp only [h1, ChunkReader.is_eof, h3, ChunkReader.stream_read, h2, hhead, hfresh, hpad,
    List.append_nil, Bool.not_true, Bool.false_eq_true, if_false, Bool.false_or,
    decide_eq_true_eq, hnot, resize_of_length _ _ hlen]

/-- The stream position does not influence `read_chunk`: with the position
explicit, the method returns what `ChunkReader.read_chunk` returns. -/
theorem stream_read_chunk_eq (s : StreamReader) (d : List Byte) :
    (s.read_chunk d).1 = (s.reader.read_chunk d).1 ∧
    (s.read_chunk d).2.1 = (s.reader.read_chunk d).2.1 ∧
    (s.read_chunk d).2.2.1 = (s.reader.read_chunk d).2.2.1 ∧
    (s.read_chunk d).2.2.2.reader = (s.reader.read_chunk d).2.2.2 := by
  unfold StreamReader.read_chunk ChunkReader.read_chunk
  split
  · exact ⟨rfl, rfl, rfl, rfl⟩
  · split
    · exact ⟨rfl, rfl, rfl, rfl⟩
    · exact ⟨rfl, rfl, rfl, rfl⟩

/-- With the stream position explicit, `read_at_position` returns what
`ChunkReader.read_at_position` returns and leaves the reader fields alone. -/
theorem stream_read_at_position_eq (s : StreamReader) (position size : Nat) (d : List Byte) :
    (s.read_at_position position size d).1 = (s.reader.read_at_position position size d).1 ∧
    (s.read_at_position position size d).2.1 = (s.reader.read_at_position position size d).2 ∧
    (s.read_at_position position size d).2.2.reader = s.reader := by
  unfold StreamReader.read_at_position ChunkReader.read_at_position
  split
  · exact ⟨rfl, rfl, rfl⟩
  · exact ⟨rfl, rfl, rfl⟩

/-- The state `open` leaves is `reader_at` offset 0 with nothing retained. -/
theorem open_reader_at (r : ChunkReader) (input : List Byte) :
    (r.open (some input)).2 = reader_at input r.chunk_size_ r.overlap_size_ 0 0 0 0 := rfl

/-- The ceiling of `N / cs` is the least number of chunks that cover `N` bytes. -/
theorem ceil_div_le (N cs n : Nat) (hcs : 1 ≤ cs) : (N + cs - 1) / cs ≤ n ↔ N ≤ n * cs := by
  rw [← Nat.lt_succ_iff, Nat.div_lt_iff_lt_mul (by omega), Nat.succ_mul]
  omega

theorem after_reads_succ (r : ChunkReader) (d : List Byte) (n : Nat) :
    (ChunkReader.after_reads r d (n + 1)).1 = (ChunkReader.nth_read r d n).2.2.2 := rfl

/-- Reader state after `n` successive `read_chunk` calls on a freshly opened
reader with `chunk_size >= 1`: the cursor is at `min(n * chunk_size, N)`, the
bytes counted are as many, the reads counted are `min(n, ceil(N / chunk_size))`
and `overlap_size` bytes are retained while the cursor is inside the input. -/
theorem after_reads_closed (input : List Byte) (cs os : Nat) (hcs : 1 ≤ cs) (d : List Byte)
    (n : Nat) :
    (ChunkReader.after_reads (reader_at input cs os 0 0 0 0) d n).1 =
      reader_at input cs os (min (n * cs) input.length)
        (if 0 < n ∧ os ≤ cs ∧ n * cs < input.length then os else 0)
        (min (n * cs) input.length) (min n ((input.length + cs - 1) / cs)) := by
  induction n with
  | zero =>
    show reader_at input cs os 0 0 0 0 = _
    congr 1
    · simp
    · simp
    · simp
  | succ n ih =>
    rw [after_reads_succ]
    unfold ChunkReader.nth_read
    rw [ih]
    have hceil := ceil_div_le input.length cs n hcs
    have hceil2 := ceil_div_le input.length cs (n + 1) hcs
    have hmul : (n + 1) * cs = n * cs + cs := Nat.succ_mul n cs
    have hge : 0 < n → cs ≤ n * cs := fun h => Nat.le_mul_of_pos_left cs h
    by_cases hin : n * cs < input.length
    · have hk : (if 0 < n ∧ os ≤ cs ∧ n * cs < input.length then os else 0)
          ≤ min (n * cs) input.length := by
        split
        · rename_i h; have := hge h.1; omega
        · omega
      rw [read_chunk_reader_at input cs os _ _ _ _ _ (by omega) hk]
      show reader_at _ _ _ _ _ _ _ = _
      have hmin : min (n * cs) input.length = n * cs := by omega
      rw [hmin]
      congr 1
      · omega
      · by_cases hc : os ≤ cs ∧ (n + 1) * cs < input.length
        · rw [if_pos (by omega), if_pos ⟨by omega, hc.1, hc.2⟩]
        · rw [if_neg (by omega), if_neg (by omega)]
      · omega
      · omega
    · rw [read_chunk_reader_at_eof input cs os _ _ _ _ _ (by omega)]
      show reader_at _ _ _ _ _ _ _ = _
      congr 1
      · omega
      · rw [if_neg (by omega), if_neg (by omega)]
      · omega
      · omega

/-- The `(n + 1)`-th read on a freshly opened reader, while `n` chunks do not
cover the input: the window starts with the retained tail. -/
theorem nth_read_inside (input : List Byte) (cs os : Nat) (hcs : 1 ≤ cs) (d : List Byte)
    (n : Nat) (hin : n * cs < input.length) :
    ChunkReader.nth_read (reader_at input cs os 0 0 0 0) d n =
      (true,
        (input.drop (n * cs - (if 0 < n ∧ os ≤ cs then os else 0))).take
          ((if 0 < n ∧ os ≤ cs then os else 0) + min cs (input.length - n * cs)),
        (if 0 < n ∧ os ≤ cs then os else 0) + min cs (input.length - n * cs),
        (ChunkReader.after_reads (reader_at input cs os 0 0 0 0) d (n + 1)).1) := by
  have hstate : ChunkReader.nth_read (reader_at input cs os 0 0 0 0) d n
      = ((ChunkReader.nth_read (reader_at input cs os 0 0 0 0) d n).1,
        (ChunkReader.nth_read (reader_at input cs os 0 0 0 0) d n).2.1,
        (ChunkReader.nth_read (reader_at input cs os 0 0 0 0) d n).2.2.1,
        (ChunkReader.after_reads (reader_at input cs os 0 0 0 0) d (n + 1)).1) := rfl
  rw [hstate]
  unfold ChunkReader.nth_read
  rw [after_reads_closed input cs os hcs d n]
  have hge : 0 < n → cs ≤ n * cs := fun h => Nat.le_mul_of_pos_left cs h
  have hk : (if 0 < n ∧ os ≤ cs ∧ n * cs < input.length then os else 0)
      ≤ min (n * cs) input.length := by
    split
    · rename_i h; have := hge h.1; omega
    · omega
  rw [read_chunk_reader_at input cs os _ _ _ _ _ (by omega) hk]
  have hmin : min (n * cs) input.length = n * cs := by omega
  have hkk : (if 0 < n ∧ os ≤ cs ∧ n * cs < input.length then os else 0)
      = if 0 < n ∧ os ≤ cs then os else 0 := by
    by_cases hc : 0 < n ∧ os ≤ cs
    · rw [if_pos ⟨hc.1, hc.2, hin⟩, if_pos hc]
    · rw [if_neg (by tauto), if_neg hc]
  rw [hmin, hkk]
  have hdec : decide ((if 0 < n ∧ os ≤ cs then os else 0) + min cs (input.length - n * cs) > 0)
      = true := by
    rw [decide_eq_true_eq]; omega
  rw [hdec]

/-- Every read on a freshly opened reader once `n` chunks cover the input
returns false and leaves the reader and the output vector alone. -/
theorem nth_read_end (input : List Byte) (cs os : Nat) (hcs : 1 ≤ cs) (d : List Byte)
    (n : Nat) (hin : input.length ≤ n * cs) :
    (ChunkReader.nth_read (reader_at input cs os 0 0 0 0) d n).1 = false ∧
    (ChunkReader.nth_read (reader_at input cs os 0 0 0 0) d n).2.2.1 = 0 ∧
    (ChunkReader.nth_read (reader_at input cs os 0 0 0 0) d n).2.2.2
      = (ChunkReader.after_reads (reader_at input cs os 0 0 0 0) d n).1 := by
  unfold ChunkReader.nth_read
  rw [after_reads_closed input cs os hcs d n,
    read_chunk_reader_at_eof input cs os _ _ _ _ _ (by omega)]
  exact ⟨rfl, rfl, rfl⟩

/-- State before and result of the `(n + 1)`-th read on a freshly opened reader
while `n` chunks do not cover the input, with `k` the length of the retained
tail (`overlap_size` after the first read when it fits in a chunk). -/
theorem after_reads_inside (input : List Byte) (cs os : Nat) (hcs : 1 ≤ cs) (d : List Byte)
    (n : Nat) (hin : n * cs < input.length) :
    (ChunkReader.after_reads (reader_at input cs os 0 0 0 0) d n).1.current_position_ = n * cs ∧
    (ChunkReader.after_reads (reader_at input cs os 0 0 0 0) d n).1.overlap_buffer_.length
      = (if 0 < n ∧ os ≤ cs then os else 0) ∧
    (if 0 < n ∧ os ≤ cs then os else 0) ≤ n * cs ∧
    (ChunkReader.after_reads (reader_at input cs os 0 0 0 0) d n).1.window_start
      = n * cs - (if 0 < n ∧ os ≤ cs then os else 0) ∧
    (ChunkReader.nth_read (reader_at input cs os 0 0 0 0) d n).1 = true ∧
    (ChunkReader.nth_read (reader_at input cs os 0 0 0 0) d n).2.1 =
      (input.drop (n * cs - (if 0 < n ∧ os ≤ cs then os else 0))).take
        ((if 0 < n ∧ os ≤ cs then os else 0) + min cs (input.length - n * cs)) ∧
    (ChunkReader.nth_read (reader_at input cs os 0 0 0 0) d n).2.1.length
      = (if 0 < n ∧ os ≤ cs then os else 0) + min cs (input.length - n * cs) ∧
    (ChunkReader.nth_read (reader_at input cs os 0 0 0 0) d n).2.2.1
      = (if 0 < n ∧ os ≤ cs then os else 0) + min cs (input.length - n * cs) := by
  have hge : 0 < n → cs ≤ n * cs := fun h => Nat.le_mul_of_pos_left cs h
  have hkk : (if 0 < n ∧ os ≤ cs ∧ n * cs < input.length then os else 0)
      = if 0 < n ∧ os ≤ cs then os else 0 := by
    by_cases hc : 0 < n ∧ os ≤ cs
    · rw [if_pos ⟨hc.1, hc.2, hin⟩, if_pos hc]
    · rw [if_neg (by tauto), if_neg hc]
  have hk : (if 0 < n ∧ os ≤ cs then os else 0) ≤ n * cs := by
    split
    · rename_i h; have := hge h.1; omega
    · omega
  have hmin : min (n * cs) input.length = n * cs := by omega
  have hov : (ChunkReader.after_reads (reader_at input cs os 0 0 0 0) d n).1.overlap_buffer_.length
      = (if 0 < n ∧ os ≤ cs then os else 0) := by
    rw [after_reads_closed input cs os hcs d n, hkk, hmin]
    exact slice_length input _ _ (by omega)
  have hcur : (ChunkReader.after_reads (reader_at input cs os 0 0 0 0) d n).1.current_position_
      = n * cs := by
    rw [after_reads_closed input cs os hcs d n]
    exact hmin
  refine ⟨hcur, hov, hk, ?_, ?_, ?_, ?_, ?_⟩
  · unfold ChunkReader.window_start
    rw [hcur, hov]
  · rw [nth_read_inside input cs os hcs d n hin]
  · rw [nth_read_inside input cs os hcs d n hin]
  · rw [nth_read_inside input cs os hcs d n hin]
    exact slice_length input _ _ (by omega)
  · rw [nth_read_inside input cs os hcs d n hin]

/-- State of a freshly opened reader once `n` chunks cover the input: the
cursor is at the end, nothing is retained, every byte was counted once and
`ceil(N / chunk_size)` reads were counted. -/
theorem after_reads_end (input : List Byte) (cs os : Nat) (hcs : 1 ≤ cs) (d : List Byte)
    (n : Nat) (hin : input.length ≤ n * cs) :
    (ChunkReader.after_reads (reader_at input cs os 0 0 0 0) d n).1.current_position_
      = input.length ∧
    (ChunkReader.after_reads (reader_at input cs os 0 0 0 0) d n).1.overlap_buffer_ = [] ∧
    (ChunkReader.after_reads (reader_at input cs os 0 0 0 0) d n).1.total_bytes_read_
      = input.length ∧
    (ChunkReader.after_reads (reader_at input cs os 0 0 0 0) d n).1.chunks_read_
      = (input.length + cs - 1) / cs := by
  have hceil := (ceil_div_le input.length cs n hcs).mpr hin
  have hmin : min (n * cs) input.length = input.length := by omega
  have hk : (if 0 < n ∧ os ≤ cs ∧ n * cs < input.length then os else 0) = 0 := by
    rw [if_neg (by omega)]
  rw [after_reads_closed input cs os hcs d n, hmin, hk]
  refine ⟨rfl, rfl, rfl, ?_⟩
  show min n _ = _
  omega

/-- On a closed reader `read_chunk` returns false and changes nothing. -/
theorem read_chunk_closed (r : ChunkReader) (d : List Byte) (h : r.is_open_ = false) :
    r.read_chunk d = (false, d, 0, r) := by
  unfold ChunkReader.read_chunk
  simp [h]

/-- On a reader whose cursor is not before the recorded size `read_chunk`
returns false and changes nothing. -/
theorem read_chunk_at_end (r : ChunkReader) (d : List Byte)
    (h : r.file_size_ ≤ r.current_position_) : r.read_chunk d = (false, d, 0, r) := by
  unfold ChunkReader.read_chunk
  cases ho : r.is_open_ <;> simp [ChunkReader.is_eof, h, ho]

/-- With `chunk_size >= 1`, `read_chunk` returns false exactly on a closed
reader or at the end of the stream. -/
theorem read_chunk_eq_false_iff (r : ChunkReader) (d : List Byte) (hcs : 1 ≤ r.chunk_size_)
    (hs : r.file_size_ = r.file_.length) (hc : r.current_position_ ≤ r.file_size_) :
    (r.read_chunk d).1 = false ↔ (r.is_open_ = false ∨ r.current_position_ = r.file_size_) := by
  cases ho : r.is_open_ with
  | false =>
    rw [read_chunk_closed r d ho]
    simp
  | true =>
    by_cases hp : r.current_position_ < r.file_.length
    · have h := read_chunk_open r r.file_ ⟨ho, rfl, hs⟩ d hp
      have h1 : (r.read_chunk d).1 = true := by
        rw [h]
        show decide _ = true
        rw [decide_eq_true_eq]
        omega
      rw [h1]
      constructor
      · intro hf; exact absurd hf (by simp)
      · intro hf
        rcases hf with hf | hf
        · exact absurd hf (by simp)
        · omega
    · rw [read_chunk_at_end r d (by omega)]
      constructor
      · intro _; right; omega
      · intro _; rfl

/-- The reader stays open on its input across `read_chunk`. -/
theorem read_chunk_openOn (r : ChunkReader) (input : List Byte) (ho : r.OpenOn input)
    (d : List Byte) : (r.read_chunk d).2.2.2.OpenOn input :=
  openOn_of_base _ r input (read_chunk_base r d) ho

/-- The cursor never passes the end of the input in `read_chunk`. -/
theorem read_chunk_cursor_le (r : ChunkReader) (input : List Byte) (ho : r.OpenOn input)
    (d : List Byte) (hc : r.current_position_ ≤ input.length) :
    (r.read_chunk d).2.2.2.current_position_ ≤ input.length := by
  by_cases hp : r.current_position_ < input.length
  · rw [read_chunk_open r input ho d hp]
    show r.current_position_ + _ ≤ _
    omega
  · rw [read_chunk_at_end r d (by rw [ho.2.2]; omega)]
    exact hc

/-- The reader stays open on its input across `seek`, which clamps the cursor. -/
theorem seek_openOn (r : ChunkReader) (input : List Byte) (ho : r.OpenOn input)
    (position : Nat) :
    (r.seek position).2.OpenOn input ∧
    (r.seek position).2.current_position_ ≤ input.length := by
  obtain ⟨h1, h2, h3⟩ := ho
  unfold ChunkReader.seek
  simp only [h1, Bool.not_true, Bool.false_eq_true, if_false]
  refine ⟨⟨rfl, h2, h3⟩, ?_⟩
  show (if position > r.file_size_ then r.file_size_ else position) ≤ input.length
  split <;> omega

/-- Every reader state reachable from `open` by `read_chunk`,
`read_at_position` and `seek` is open on the input with its cursor inside. -/
theorem reachable_inv (r0 : StreamReader) (input : List Byte) (s : StreamReader)
    (hs : StreamReader.Reachable r0 input s) :
    s.reader.OpenOn input ∧ s.reader.current_position_ ≤ input.length := by
  induction hs with
  | opened => exact ⟨⟨rfl, rfl, rfl⟩, Nat.zero_le _⟩
  | read_chunk s d _ ih =>
    rw [(stream_read_chunk_eq s d).2.2.2]
    exact ⟨read_chunk_openOn _ input ih.1 d, read_chunk_cursor_le _ input ih.1 d ih.2⟩
  | read_at_position s position size d _ ih =>
    rw [(stream_read_at_position_eq s position size d).2.2]
    exact ih
  | seek s position _ ih =>
    exact seek_openOn s.reader input ih.1 position

theorem round_half_even_bounds (x : ℚ) :
    ⌊x⌋ ≤ round_half_even x ∧ round_half_even x ≤ ⌊x⌋ + 1 := by
  unfold round_half_even
  split_ifs <;> constructor <;> omega

theorem round_half_even_intCast (z : ℤ) : round_half_even (z : ℚ) = z := by
  unfold round_half_even
  rw [Int.floor_intCast, sub_self, if_pos (by norm_num)]

theorem round_half_even_mono (x y : ℚ) (h : x ≤ y) : round_half_even x ≤ round_half_even y := by
  have hf : ⌊x⌋ ≤ ⌊y⌋ := Int.floor_mono h
  rcases lt_or_eq_of_le hf with hlt | heq
  · have h1 := (round_half_even_bounds x).2
    have h2 := (round_half_even_bounds y).1
    omega
  · unfold round_half_even
    rw [heq]
    have hxy : x - (⌊y⌋ : ℚ) ≤ y - (⌊y⌋ : ℚ) := by linarith
    split_ifs <;> first | omega | (exfalso; linarith)

/-- A value within a half of an integer rounds to it. -/
theorem round_half_even_near (x : ℚ) (z : ℤ) (h1 : (z : ℚ) - 1 / 2 < x)
    (h2 : x < (z : ℚ) + 1 / 2) : round_half_even x = z := by
  unfold round_half_even
  by_cases hz : (z : ℚ) ≤ x
  · have hfl : ⌊x⌋ = z := Int.floor_eq_iff.mpr ⟨hz, by linarith⟩
    rw [hfl, if_pos (by linarith)]
  · have hfl : ⌊x⌋ = z - 1 := Int.floor_eq_iff.mpr ⟨by push_cast; linarith, by push_cast; linarith⟩
    rw [hfl, if_neg (by push_cast; linarith), if_pos (by push_cast; linarith)]
    omega

theorem two_zpow_pos (e : ℤ) : (0 : ℚ) < 2 ^ e := zpow_pos (by norm_num) e

/-- The binade of a positive value between two consecutive powers of two. -/
theorem binade_eq (x : ℚ) (e : ℤ) (he : -1022 ≤ e) (h1 : (2 : ℚ) ^ e ≤ x)
    (h2 : x < (2 : ℚ) ^ (e + 1)) : binade x = e := by
  have hx : 0 < x := lt_of_lt_of_le (two_zpow_pos e) h1
  have hlog : Int.log 2 x = e := by
    apply le_antisymm
    · have := (Int.lt_zpow_iff_log_lt (R := ℚ) (b := 2) (by norm_num) hx).mp
        (by exact_mod_cast h2)
      omega
    · exact (Int.zpow_le_iff_le_log (R := ℚ) (b := 2) (by norm_num) hx).mp
        (by exact_mod_cast h1)
  unfold binade
  rw [abs_of_pos hx, hlog]
  exact max_eq_left he

theorem to_double_zero : to_double 0 = 0 := by
  unfold to_double
  rw [zero_div]
  have : round_half_even (0 : ℚ) = 0 := by
    have := round_half_even_intCast 0
    simpa using this
  rw [this]
  simp

theorem to_double_nonneg (x : ℚ) (h : 0 ≤ x) : 0 ≤ to_double x := by
  unfold to_double
  have hu := two_zpow_pos (binade x - 52)
  have h0 : (0 : ℚ) ≤ x / 2 ^ (binade x - 52) := div_nonneg h hu.le
  have h1 : (0 : ℤ) ≤ round_half_even (x / 2 ^ (binade x - 52)) := by
    have := round_half_even_mono 0 _ h0
    have e0 : round_half_even (0 : ℚ) = 0 := by
      have := round_half_even_intCast 0
      simpa using this
    rw [e0] at this
    exact this
  have h2 : (0 : ℚ) ≤ (round_half_even (x / 2 ^ (binade x - 52)) : ℚ) := by exact_mod_cast h1
  exact mul_nonneg h2 hu.le

/-- A value between two consecutive powers of two, from exponent -1022 on, is
rounded on the grid of step `2 ^ (e - 52)`. -/
theorem to_double_of_binade (x : ℚ) (e : ℤ) (he : -1022 ≤ e) (h1 : (2 : ℚ) ^ e ≤ x)
    (h2 : x < (2 : ℚ) ^ (e + 1)) :
    to_double x = (round_half_even (x / 2 ^ (e - 52)) : ℚ) * 2 ^ (e - 52) := by
  unfold to_double
  rw [binade_eq x e he h1 h2]

/-- Rounding to `double` is monotone on the non-negative values. -/
theorem to_double_mono (x y : ℚ) (hx : 0 ≤ x) (h : x ≤ y) : to_double x ≤ to_double y := by
  rcases eq_or_lt_of_le hx with h0 | hpos
  · rw [← h0, to_double_zero]
    exact to_double_nonneg y (le_trans hx h)
  · have hy : 0 < y := lt_of_lt_of_le hpos h
    have hlog : Int.log 2 x ≤ Int.log 2 y := Int.log_mono_right hpos h
    have hbx : binade x = max (Int.log 2 x) (-1022) := by unfold binade; rw [abs_of_pos hpos]
    have hby : binade y = max (Int.log 2 y) (-1022) := by unfold binade; rw [abs_of_pos hy]
    have hble : binade x ≤ binade y := by
      rw [hbx, hby]
      exact max_le_max hlog (le_refl _)
    rcases eq_or_lt_of_le hble with heq | hlt
    · unfold to_double
      rw [heq]
      have hu := two_zpow_pos (binade y - 52)
      have hdiv : x / 2 ^ (binade y - 52) ≤ y / 2 ^ (binade y - 52) :=
        div_le_div_of_nonneg_right h hu.le
      have hr := round_half_even_mono _ _ hdiv
      have hr2 : (round_half_even (x / 2 ^ (binade y - 52)) : ℚ)
          ≤ (round_half_even (y / 2 ^ (binade y - 52)) : ℚ) := by exact_mod_cast hr
      exact mul_le_mul_of_nonneg_right hr2 hu.le
    · -- the values lie in different binades
      have hux := two_zpow_pos (binade x - 52)
      have huy := two_zpow_pos (binade y - 52)
      have hxlt : x < (2 : ℚ) ^ (binade x + 1) := by
        have h1 : x < ((2 : ℕ) : ℚ) ^ (Int.log 2 x + 1) :=
          Int.lt_zpow_succ_log_self (by norm_num) x
        have h2 : ((2 : ℕ) : ℚ) ^ (Int.log 2 x + 1) ≤ (2 : ℚ) ^ (binade x + 1) := by
          push_cast
          apply zpow_le_zpow_right₀ (by norm_num)
          rw [hbx]
          have := le_max_left (Int.log 2 x) (-1022)
          omega
        exact lt_of_lt_of_le h1 h2
      have hsplit : (2 : ℚ) ^ (binade x + 1) = 2 ^ (53 : ℤ) * 2 ^ (binade x - 52) := by
        rw [← zpow_add₀ (by norm_num)]
        congr 1
        omega
      have hA : to_double x ≤ (2 : ℚ) ^ (binade x + 1) := by
        unfold to_double
        rw [hsplit]
        apply mul_le_mul_of_nonneg_right _ hux.le
        have hq : x / 2 ^ (binade x - 52) ≤ (((2 : ℤ) ^ 53 : ℤ) : ℚ) := by
          rw [div_le_iff₀ hux]
          have e53 : ((((2 : ℤ) ^ 53 : ℤ)) : ℚ) = (2 : ℚ) ^ (53 : ℤ) := by norm_num
          rw [e53, ← hsplit]
          exact hxlt.le
        have hr := round_half_even_mono _ _ hq
        rw [round_half_even_intCast] at hr
        have hr2 : (round_half_even (x / 2 ^ (binade x - 52)) : ℚ) ≤ (((2 : ℤ) ^ 53 : ℤ) : ℚ) := by
          exact_mod_cast hr
        have e53 : ((((2 : ℤ) ^ 53 : ℤ)) : ℚ) = (2 : ℚ) ^ (53 : ℤ) := by norm_num
        rw [e53] at hr2
        exact hr2
      have hylog : binade y = Int.log 2 y := by
        rw [hby]
        apply max_eq_left
        have h1 : -1022 ≤ binade x := by rw [hbx]; exact le_max_right _ _
        rw [hby] at hlt
        rcases max_cases (Int.log 2 y) (-1022) with ⟨hm, _⟩ | ⟨hm, _⟩
        · rw [hm] at hlt; omega
        · rw [hm] at hlt; omega
      have hyge : (2 : ℚ) ^ (binade y) ≤ y := by
        rw [hylog]
        have := Int.zpow_log_le_self (R := ℚ) (b := 2) (by norm_num) hy
        exact_mod_cast this
      have hsplit2 : (2 : ℚ) ^ (binade y) = 2 ^ (52 : ℤ) * 2 ^ (binade y - 52) := by
        rw [← zpow_add₀ (by norm_num)]
        congr 1
        omega
      have hB : (2 : ℚ) ^ (binade y) ≤ to_double y := by
        unfold to_double
        rw [hsplit2]
        apply mul_le_mul_of_nonneg_right _ huy.le
        have e52 : ((((2 : ℤ) ^ 52 : ℤ)) : ℚ) = (2 : ℚ) ^ (52 : ℤ) := by norm_num
        have hq : (((2 : ℤ) ^ 52 : ℤ) : ℚ) ≤ y / 2 ^ (binade y - 52) := by
          rw [le_div_iff₀ huy, e52, ← hsplit2]
          exact hyge
        have hr := round_half_even_mono _ _ hq
        rw [round_half_even_intCast] at hr
        have hr2 : (((2 : ℤ) ^ 52 : ℤ) : ℚ) ≤ (round_half_even (y / 2 ^ (binade y - 52)) : ℚ) := by
          exact_mod_cast hr
        rw [e52] at hr2
        exact hr2
      have hmid : (2 : ℚ) ^ (binade x + 1) ≤ 2 ^ (binade y) :=
        zpow_le_zpow_right₀ (by norm_num) (by omega)
      exact le_trans hA (le_trans hmid hB)

/-- A natural number below `2 ^ 53` is a `double`. -/
theorem to_double_one : to_double 1 = 1 := by
  rw [to_double_of_binade 1 0 (by norm_num) (by norm_num) (by norm_num)]
  have e : (1 : ℚ) / 2 ^ ((0 : ℤ) - 52) = (((2 : ℤ) ^ 52 : ℤ) : ℚ) := by norm_num
  rw [e, round_half_even_intCast]
  norm_num

theorem to_double_hundred : to_double 100 = 100 := by
  rw [to_double_of_binade 100 6 (by norm_num) (by norm_num) (by norm_num)]
  have e : (100 : ℚ) / 2 ^ ((6 : ℤ) - 52) = (((100 * 2 ^ 46 : ℤ)) : ℚ) := by norm_num
  rw [e, round_half_even_intCast]
  norm_num

theorem to_double_three : to_double 3 = 3 := by
  rw [to_double_of_binade 3 1 (by norm_num) (by norm_num) (by norm_num)]
  have e : (3 : ℚ) / 2 ^ ((1 : ℤ) - 52) = (((3 * 2 ^ 51 : ℤ)) : ℚ) := by norm_num
  rw [e, round_half_even_intCast]
  norm_num

/-- The quotient `1.0 / 3.0` in `double`. -/
theorem to_double_third :
    to_double (1 / 3) = 6004799503160661 / 18014398509481984 := by
  rw [to_double_of_binade (1 / 3) (-2) (by norm_num) (by norm_num) (by norm_num)]
  rw [round_half_even_near _ 6004799503160661 (by norm_num) (by norm_num)]
  norm_num

/-- The product of the `double` quotient `1.0 / 3.0` with `100.0`. -/
theorem to_double_third_percent :
    to_double (6004799503160661 / 18014398509481984 * 100)
      = 2345624805922133 / 70368744177664 := by
  rw [to_double_of_binade _ 5 (by norm_num) (by norm_num) (by norm_num)]
  rw [round_half_even_near _ 4691249611844266 (by norm_num) (by norm_num)]
  norm_num

/-- Progress of a reader whose cursor is not past the recorded size. -/
theorem get_progress_range (r : ChunkReader) (hc : r.current_position_ ≤ r.file_size_) :
    0 ≤ r.get_progress ∧ r.get_progress ≤ 100 ∧
    (r.file_size_ = 0 → r.get_progress = 0) ∧
    (0 < r.file_size_ →
      r.get_progress = to_double (to_double (to_double (r.current_position_ : ℚ)
        / to_double (r.file_size_ : ℚ)) * 100)) ∧
    (0 < r.file_size_ → r.current_position_ = r.file_size_ → r.get_progress = 100) := by
  unfold ChunkReader.get_progress
  by_cases hz : r.file_size_ = 0
  · rw [if_pos hz]
    refine ⟨le_refl _, by norm_num, fun _ => rfl, fun h => absurd hz (by omega),
      fun h => absurd hz (by omega)⟩
  · rw [if_neg hz]
    have hone : (1 : ℚ) ≤ (r.file_size_ : ℚ) := by
      have : 1 ≤ r.file_size_ := Nat.pos_of_ne_zero hz
      exact_mod_cast this
    have hle : (r.current_position_ : ℚ) ≤ (r.file_size_ : ℚ) := by exact_mod_cast hc
    have h0 : (0 : ℚ) ≤ (r.current_position_ : ℚ) := by exact_mod_cast Nat.zero_le _
    have hb1 : 1 ≤ to_double (r.file_size_ : ℚ) := by
      have := to_double_mono 1 _ (by norm_num) hone
      rwa [to_double_one] at this
    have hpos : 0 < to_double (r.file_size_ : ℚ) := by linarith
    have ha0 : 0 ≤ to_double (r.current_position_ : ℚ) := to_double_nonneg _ h0
    have hab : to_double (r.current_position_ : ℚ) ≤ to_double (r.file_size_ : ℚ) :=
      to_double_mono _ _ h0 hle
    have hq0 : 0 ≤ to_double (r.current_position_ : ℚ) / to_double (r.file_size_ : ℚ) :=
      div_nonneg ha0 hpos.le
    have hq1 : to_double (r.current_position_ : ℚ) / to_double (r.file_size_ : ℚ) ≤ 1 :=
      (div_le_one hpos).mpr hab
    have hf0 : 0 ≤ to_double
        (to_double (r.current_position_ : ℚ) / to_double (r.file_size_ : ℚ)) :=
      to_double_nonneg _ hq0
    have hf1 : to_double
        (to_double (r.current_position_ : ℚ) / to_double (r.file_size_ : ℚ)) ≤ 1 := by
      have := to_double_mono _ _ hq0 hq1
      rwa [to_double_one] at this
    refine ⟨to_double_nonneg _ (by linarith), ?_, fun h => absurd h hz, fun _ => rfl, ?_⟩
    · have := to_double_mono _ 100 (by linarith : (0 : ℚ) ≤ to_double
        (to_double (r.current_position_ : ℚ) / to_double (r.file_size_ : ℚ)) * 100)
        (by linarith)
      rwa [to_double_hundred] at this
    · intro _ heq
      rw [heq, div_self (ne_of_gt hpos), to_double_one, one_mul, to_double_hundred]

/-- A leftmost occurrence of a non-empty pattern inside `size` is what
`find_pattern` returns. -/
theorem find_pattern_first (data : List Byte) (size : Nat) (pat : List Byte) (f : Nat)
    (hne : pat ≠ []) (hocc : f + pat.length ≤ size)
    (hpre : pat.isPrefixOf (data.drop f) = true)
    (hleft : ∀ j, j < f → pat.isPrefixOf (data.drop j) = false) :
    find_pattern data size pat = f := by
  unfold find_pattern
  have hc : ¬ ((pat.isEmpty || decide (size < pat.length)) = true) := by
    simp only [Bool.or_eq_true, List.isEmpty_iff, decide_eq_true_eq, not_or, not_lt]
    exact ⟨hne, by omega⟩
  rw [if_neg hc]
  rcases find_pattern_loop_spec data pat 0 (size - pat.length + 1) with ⟨-, h2⟩ | ⟨-, -, h3, h4⟩
  · have := h2 f (Nat.zero_le _) (by omega)
    rw [hpre] at this
    exact absurd this (by simp)
  · rcases Nat.lt_trichotomy (find_pattern_loop data pat 0 (size - pat.length + 1)) f
      with hlt | heq | hgt
    · have := hleft _ hlt
      rw [h3] at this
      exact absurd this (by simp)
    · exact heq
    · have := h4 f (Nat.zero_le _) hgt
      rw [hpre] at this
      exact absurd this (by simp)

/-- When no occurrence of the pattern lies inside `size`, `find_pattern`
returns `SIZE_MAX`. -/
theorem find_pattern_absent (data : List Byte) (size : Nat) (pat : List Byte)
    (habs : ∀ j, j + pat.length ≤ size → pat.isPrefixOf (data.drop j) = false) :
    find_pattern data size pat = SIZE_MAX := by
  by_contra hne
  obtain ⟨p1, p2, p3, -⟩ := find_pattern_found data size pat hne
  have := habs _ p2
  rw [p3] at this
  exact absurd this (by simp)

namespace FileCarver

/-- The footer search returns the absolute offset of the leftmost occurrence
of the footer in the bytes read at the start. -/
theorem find_footer_first (c : FileCarver) (input : List Byte)
    (ho : c.chunk_reader_.OpenOn input) (hN : input.length < 2 ^ 64)
    (s : Nat) (sig : FileSignature) (sw f : Nat)
    (hf : sig.has_footer = true) (hne : sig.footer ≠ [])
    (hocc : f + sig.footer.length ≤ (c.chunk_reader_.read_at_position s sw []).1)
    (hpre : ((c.chunk_reader_.read_at_position s sw []).2.drop f).take sig.footer.length
      = sig.footer)
    (hleft : ∀ j, j < f →
      ((c.chunk_reader_.read_at_position s sw []).2.drop j).take sig.footer.length
        ≠ sig.footer) :
    c.find_footer s sig sw = s + f ∧ s + f + sig.footer.length ≤ input.length := by
  have hlen : 0 < sig.footer.length := List.length_pos.mpr hne
  have hs : s < input.length := by
    by_contra hc
    rw [read_at_position_eof _ input ho _ _ _ (by omega)] at hocc
    simp only [] at hocc
    omega
  have hfp := find_pattern_first (c.chunk_reader_.read_at_position s sw []).2
    (c.chunk_reader_.read_at_position s sw []).1 sig.footer f hne hocc
    ((isPrefixOf_iff_take _ _).mpr hpre)
    (fun j hj => by
      exact Bool.eq_false_iff.mpr (fun hp => hleft j hj ((isPrefixOf_iff_take _ _).mp hp)))
  have hact : (c.chunk_reader_.read_at_position s sw []).1 = min sw (input.length - s) := by
    rw [read_at_position_open _ input ho _ _ _ hs]
  unfold find_footer
  simp only [hf, Bool.not_true, Bool.false_eq_true, if_false]
  rw [if_neg (by omega), hfp]
  have hfm : f ≠ SIZE_MAX := by
    unfold SIZE_MAX
    omega
  simp only [ne_eq, hfm, not_false_eq_true, if_true]
  exact ⟨trivial, by omega⟩

/-- End of a candidate whose footer is found: right after the leftmost
occurrence in the bytes read at the start. -/
theorem determine_end_first (c : FileCarver) (input : List Byte)
    (ho : c.chunk_reader_.OpenOn input) (hN : input.length < 2 ^ 64)
    (sig : FileSignature) (s f : Nat)
    (hu : c.use_footers_ = true) (hf : sig.has_footer = true) (hne : sig.footer ≠ [])
    (hocc : f + sig.footer.length
      ≤ (c.chunk_reader_.read_at_position s c.search_window_ []).1)
    (hpre : ((c.chunk_reader_.read_at_position s c.search_window_ []).2.drop f).take
      sig.footer.length = sig.footer)
    (hleft : ∀ j, j < f →
      ((c.chunk_reader_.read_at_position s c.search_window_ []).2.drop j).take
        sig.footer.length ≠ sig.footer) :
    c.determine_end sig s = (s + f + sig.footer.length, true) := by
  obtain ⟨h1, h2⟩ := find_footer_first c input ho hN s sig _ f hf hne hocc hpre hleft
  have hlen : 0 < sig.footer.length := List.length_pos.mpr hne
  have hfm : c.find_footer s sig c.search_window_ ≠ SIZE_MAX := by
    rw [h1]; unfold SIZE_MAX; omega
  rw [determine_end_footer c sig s (by simp [hu, hf]) hfm, h1, ho.2.2, min_eq_left h2]


/-- End of a candidate for which no footer is found: the start plus the search
window, reduced modulo `2 ^ 64` and clamped to the file size. -/
theorem determine_end_miss (c : FileCarver) (input : List Byte)
    (ho : c.chunk_reader_.OpenOn input) (sig : FileSignature) (s : Nat)
    (hmiss : c.use_footers_ = false ∨ sig.has_footer = false ∨
      ∀ j, j + sig.footer.length ≤ (c.chunk_reader_.read_at_position s c.search_window_ []).1 →
        ((c.chunk_reader_.read_at_position s c.search_window_ []).2.drop j).take
          sig.footer.length ≠ sig.footer) :
    c.determine_end sig s = (min ((s + c.search_window_) % 2 ^ 64) input.length, false) := by
  rw [determine_end_window c sig s, ho.2.2]
  intro hb
  simp only [Bool.and_eq_true] at hb
  rcases hmiss with h | h | h
  · rw [h] at hb; exact absurd hb.1 (by simp)
  · rw [h] at hb; exact absurd hb.2 (by simp)
  · unfold find_footer
    simp only [hb.2, Bool.not_true, Bool.false_eq_true, if_false]
    split
    · rfl
    · have := find_pattern_absent (c.chunk_reader_.read_at_position s c.search_window_ []).2
        (c.chunk_reader_.read_at_position s c.search_window_ []).1 sig.footer
        (fun j hj => Bool.eq_false_iff.mpr
          (fun hp => h j hj ((isPrefixOf_iff_take _ _).mp hp)))
      simp only [this, ne_eq, not_true_eq_false, if_false]

/-- With `use_footers = false` no record of a carve has a valid footer. -/
theorem carved_after_no_footers (c : FileCarver) (input : Option (List Byte))
    (types : List String) (hu : c.use_footers_ = false) (r : CarvedFile)
    (hr : r ∈ carved_after (c.carve_file_types input types)) :
    r.has_valid_footer = false := by
  cases input with
  | none => simp [carve_file_types_none] at hr
  | some bytes =>
    obtain ⟨res, call, j, h, -, -, -, hs, hcore⟩ := carved_after_origin c bytes types r hr
    obtain ⟨-, -, -, -, s5, -, -, -⟩ := scan_hit_some _ _ _ _ _ _ _ hs
    simp only [CarvedFile.core, Hit.core, Prod.mk.injEq] at hcore
    rw [hcore.2.2.2.2, s5,
      determine_end_miss (c.started bytes) bytes (started_openOn c bytes) h.signature _
        (Or.inl hu)]

/-- In an input scanned as one window, the records that start at a detected
header which passes the filters: exactly one, with the values of the hit. -/
theorem one_window_at (c : FileCarver) (input : List Byte) (types : List String)
    (p : Nat) (sig : FileSignature)
    (h4 : 4 ≤ input.length) (hcs : input.length ≤ c.chunk_reader_.chunk_size_)
    (hp : p + 4 ≤ input.length)
    (hd : detect_header c.signatures (input.drop p) (input.length - p) = some sig)
    (ht : types = [] ∨ sig.name ∈ types)
    (hs : c.min_file_size_ ≤ (((c.started input).determine_end sig p).1 + 2 ^ 64 - p) % 2 ^ 64 ∧
      (c.max_file_size_ = 0 ∨
        (((c.started input).determine_end sig p).1 + 2 ^ 64 - p) % 2 ^ 64 ≤ c.max_file_size_)) :
    ((carved_after (c.carve_file_types (some input) types)).filter
        (fun r => decide (r.start_offset = p))).map CarvedFile.core =
      [(sig.name, p, ((c.started input).determine_end sig p).1,
        (((c.started input).determine_end sig p).1 + 2 ^ 64 - p) % 2 ^ 64,
        ((c.started input).determine_end sig p).2)] := by
  have hok : ∃ c', c.carve_file_types (some input) types = Except.ok (true, c') := by
    rw [carve_file_types_some, chunk_calls_single input _ _ h4 hcs]
    exact ⟨_, rfl⟩
  have hcores : (carved_after (c.carve_file_types (some input) types)).map CarvedFile.core =
      ((c.started input).scan_window types input input.length 0).map Hit.core := by
    obtain ⟨c', hc'⟩ := hok
    obtain ⟨res, h1, -, h3, -⟩ := carve_file_types_cores c input types true c' hc'
    rw [chunk_calls_single input _ _ h4 hcs] at h1
    simp only [Except.ok.injEq] at h1
    rw [hc']
    show c'.carved_files_.map CarvedFile.core = _
    rw [h3, ← h1]
    simp
  have hhit := scan_hit_of_pass (c.started input) input input.length 0 types p sig hd ht
    (by simpa using hs)
  have hfil : ((c.started input).scan_window types input input.length 0).filter
      (fun h => decide (h.start_offset = p)) =
      [⟨sig, 0 + p, ((c.started input).determine_end sig (0 + p)).1,
        (((c.started input).determine_end sig (0 + p)).1 + 2 ^ 64 - (0 + p)) % 2 ^ 64,
        ((c.started input).determine_end sig (0 + p)).2⟩] := by
    unfold scan_window
    rw [List.filter_filterMap]
    refine filterMap_range_single _ _ p _ (by omega) ?_ ?_
    · rw [hhit]; simp [Option.filter]
    · intro i _ hip
      cases hi : (c.started input).scan_hit input input.length 0 types i with
      | none => rfl
      | some h =>
        have := scan_hit_start _ _ _ _ _ _ _ hi
        simp [Option.filter, this, hip]
  have hmap := filter_start_cores (carved_after (c.carve_file_types (some input) types)) p
  rw [hcores, List.filter_map] at hmap
  have hmap2 : ((carved_after (c.carve_file_types (some input) types)).filter
      (fun r => decide (r.start_offset = p))).map CarvedFile.core =
      (((c.started input).scan_window types input input.length 0).filter
        (fun h => decide (h.start_offset = p))).map Hit.core := hmap
  rw [hmap2, hfil]
  simp [Hit.core]

end FileCarver

theorem detect_header_PNG (t : List Byte) (m : Nat) (hm : 8 ≤ m) :
    detect_header initialize_common_signatures (png_signature.header ++ t) m
      = some png_signature := by
  simp [detect_header, initialize_common_signatures, List.isPrefixOf, png_signature, hm]

theorem filterMap_range_at {β : Type} (g : Nat → Option β) (m p : Nat) (hp : p < m)
    (hne : ∀ i, i < m → i ≠ p → g i = none) :
    (List.range m).filterMap g = (g p).toList := by
  cases hg : g p with
  | some b => exact filterMap_range_single g m p b hp hg hne
  | none =>
    rw [List.filterMap_eq_nil_iff.mpr]
    · rfl
    · intro i hi
      rw [List.mem_range] at hi
      by_cases hip : i = p
      · rw [hip]; exact hg
      · exact hne i hi hip

/-- First byte of an input slice that equals a pattern. -/
theorem slice_first_byte (l : List Byte) (q n : Nat) (x : Byte) (t : List Byte) (hn : 0 < n)
    (h : (l.drop q).take n = x :: t) : l[q]? = some x := by
  have h0 : ((l.drop q).take n)[0]? = (x :: t)[0]? := by rw [h]
  rw [List.getElem?_take_of_lt hn, List.getElem?_drop] at h0
  simpa using h0

/-- In filler `AA` followed by the PNG header and bytes without `89`, the
header occurs at the end of the filler only. -/
theorem png_header_position (a : Nat) (rest : List Byte) (hrest : (0x89 : Byte) ∉ rest)
    (q : Nat) :
    ((List.replicate a 0xAA ++ (png_signature.header ++ rest)).drop q).take 8
      = png_signature.header ↔ q = a := by
  constructor
  · intro h
    have hb := slice_first_byte _ q 8 0x89 [0x50, 0x4E, 0x47, 0x0D, 0x0A, 0x1A, 0x0A]
      (by omega) h
    by_cases hq : q < a
    · rw [List.getElem?_append_left (by rw [List.length_replicate]; exact hq),
        List.getElem?_replicate, if_pos hq] at hb
      exact absurd hb (by decide)
    · rw [List.getElem?_append_right (by rw [List.length_replicate]; omega),
        List.length_replicate] at hb
      obtain ⟨k, hk⟩ : ∃ k, q - a = k := ⟨_, rfl⟩
      rw [hk] at hb
      cases k with
      | zero => omega
      | succ k =>
        exfalso
        have hh : png_signature.header ++ rest
            = 0x89 :: ([0x50, 0x4E, 0x47, 0x0D, 0x0A, 0x1A, 0x0A] ++ rest) := rfl
        rw [hh, List.getElem?_cons_succ] at hb
        have hm := List.getElem?_mem hb
        rw [List.mem_append] at hm
        rcases hm with hm | hm
        · exact absurd hm (by decide)
        · exact hrest hm
  · intro h
    subst h
    rw [List.drop_left' (List.length_replicate _ _)]
    exact List.take_left' (rfl : png_signature.header.length = 8)

/-- A list without the byte `49` holds no PNG footer. -/
theorem png_footer_absent (l : List Byte) (h : (0x49 : Byte) ∉ l) (q : Nat) :
    (l.drop q).take 8 ≠ png_signature.footer := by
  intro hf
  have hb := slice_first_byte l q 8 0x49 [0x45, 0x4E, 0x44, 0xAE, 0x42, 0x60, 0x82]
    (by omega) hf
  exact h (List.getElem?_mem hb)

theorem png_in_filler_length (a b : Nat) : (png_in_filler a b).length = a + 8 + b := by
  unfold png_in_filler
  rw [List.length_append, List.length_append, List.length_replicate, List.length_replicate]
  show a + (8 + b) = a + 8 + b
  omega

theorem png_in_filler_header (a b q : Nat) :
    ((png_in_filler a b).drop q).take 8 = png_signature.header ↔ q = a := by
  unfold png_in_filler
  refine png_header_position a _ ?_ q
  intro h
  have := List.eq_of_mem_replicate h
  exact absurd this (by decide)

theorem png_in_filler_footer (a b q : Nat) :
    ((png_in_filler a b).drop q).take 8 ≠ png_signature.footer := by
  refine png_footer_absent _ ?_ q
  unfold png_in_filler
  intro h
  rw [List.mem_append, List.mem_append] at h
  rcases h with h | h | h
  · exact absurd (List.eq_of_mem_replicate h) (by decide)
  · exact absurd h (by decide)
  · exact absurd (List.eq_of_mem_replicate h) (by decide)

theorem png_iend_in_filler_length (a b c : Nat) :
    (png_iend_in_filler a b c).length = a + 8 + b + 8 + c := by
  unfold png_iend_in_filler
  simp only [List.length_append, List.length_replicate]
  show a + (8 + (b + (8 + c))) = a + 8 + b + 8 + c
  omega

theorem png_iend_in_filler_header (a b c q : Nat) :
    ((png_iend_in_filler a b c).drop q).take 8 = png_signature.header ↔ q = a := by
  unfold png_iend_in_filler
  refine png_header_position a _ ?_ q
  intro h
  rw [List.mem_append, List.mem_append] at h
  rcases h with h | h | h
  · exact absurd (List.eq_of_mem_replicate h) (by decide)
  · exact absurd h (by decide)
  · exact absurd (List.eq_of_mem_replicate h) (by decide)

theorem png_iend_in_filler_footer (a b c : Nat) :
    ((png_iend_in_filler a b c).drop (a + 8 + b)).take 8 = png_signature.footer := by
  have e : png_iend_in_filler a b c
      = (List.replicate a 0xAA ++ png_signature.header ++ List.replicate b 0xAA) ++
        (png_signature.footer ++ List.replicate c 0xAA) := by
    unfold png_iend_in_filler
    simp only [List.append_assoc]
  rw [e, List.drop_left' (by
    simp only [List.length_append, List.length_replicate]
    rfl)]
  exact List.take_left' (rfl : png_signature.footer.length = 8)

/-- The two `process_chunk` calls made by the default reader (chunk size 65536,
overlap size 4096) on an input of 131072 bytes. -/
theorem chunk_calls_two_windows (input : List Byte) (hlen : input.length = 131072) :
    chunk_calls (input.length + 1) (reader_at input 65536 4096 0 0 0 0) [] 0 =
      Except.ok
        ([⟨(input.drop 0).take 65536, 65536, 0, reader_at input 65536 4096 65536 4096 65536 1⟩,
          ⟨(input.drop 61440).take 69632, 69632, 65536,
            reader_at input 65536 4096 131072 0 131072 2⟩],
          reader_at input 65536 4096 131072 0 131072 2) := by
  have s0 : (reader_at input 65536 4096 0 0 0 0).read_chunk [] =
      (true, (input.drop 0).take 65536, 65536, reader_at input 65536 4096 65536 4096 65536 1) := by
    rw [read_chunk_reader_at input 65536 4096 0 0 0 0 [] (by omega) (by omega), hlen]
    norm_num
  have s1 : (reader_at input 65536 4096 65536 4096 65536 1).read_chunk
      ((input.drop 0).take 65536) =
      (true, (input.drop 61440).take 69632, 69632,
        reader_at input 65536 4096 131072 0 131072 2) := by
    rw [read_chunk_reader_at input 65536 4096 65536 4096 65536 1 _ (by omega) (by omega), hlen]
    norm_num
  have s2 : (reader_at input 65536 4096 131072 0 131072 2).read_chunk
      ((input.drop 61440).take 69632) =
      (false, (input.drop 61440).take 69632, 0,
        reader_at input 65536 4096 131072 0 131072 2) :=
    read_chunk_reader_at_eof input 65536 4096 131072 0 131072 2 _ (by omega)
  have hfuel : input.length + 1 = 3 + 131070 := by omega
  rw [hfuel]
  apply chunk_calls_mono
  rw [chunk_calls_succ, s0]
  simp only [if_true, ChunkReader.tell, reader_at]
  rw [if_neg (by omega)]
  have e1 := s1
  simp only [reader_at] at e1
  rw [chunk_calls_succ, e1]
  simp only [if_true, ChunkReader.tell]
  rw [if_neg (by omega)]
  have e2 := s2
  simp only [reader_at] at e2
  rw [chunk_calls_succ, e2]
  rfl

/-- The PNG entry is the only entry of the built-in registry named `PNG`. -/
theorem registry_named_PNG (sig : FileSignature) (hm : sig ∈ initialize_common_signatures)
    (hn : sig.name = "PNG") : sig = png_signature := by
  simp only [initialize_common_signatures, List.mem_cons, List.mem_singleton,
    List.not_mem_nil, or_false] at hm
  rcases hm with h | h | h | h | h | h | h | h | h | h | h | h | h | h | h | h | h | h | h <;>
    subst h <;> first | rfl | exact absurd hn (by decide)

/-- A detected signature named `PNG` is the PNG entry, and the data start with
the PNG header. -/
theorem detect_header_named_PNG (data : List Byte) (m : Nat) (sig : FileSignature)
    (h : detect_header initialize_common_signatures data m = some sig)
    (hn : sig.name = "PNG") :
    sig = png_signature ∧ data.take 8 = png_signature.header := by
  unfold detect_header at h
  have hp := List.find?_some h
  have hs := registry_named_PNG sig (List.mem_of_find?_eq_some h) hn
  refine ⟨hs, ?_⟩
  rw [hs] at hp
  simp only [Bool.and_eq_true] at hp
  exact (isPrefixOf_iff_take _ _).mp hp.2

theorem filter_type_cores (l : List CarvedFile) (T : String) :
    (l.filter (fun r => decide (r.type = T))).map CarvedFile.core =
      (l.map CarvedFile.core).filter (fun x => decide (x.1 = T)) := by
  rw [List.filter_map]
  rfl

namespace FileCarver

/-- A hit of type PNG in a window that is the input slice `[S, S + L)` lies at
an occurrence of the PNG header in the input. -/
theorem png_hit_in_window (c : FileCarver) (hc : c.signatures = initialize_common_signatures)
    (input : List Byte) (S L off : Nat) (types : List String) (i : Nat) (h : Hit)
    (hh : c.scan_hit ((input.drop S).take L) L off types i = some h)
    (hn : h.signature.name = "PNG") :
    h.signature = png_signature ∧ (input.drop (S + i)).take 8 = png_signature.header := by
  obtain ⟨s1, -⟩ := scan_hit_some _ _ _ _ _ _ _ hh
  rw [hc] at s1
  obtain ⟨d1, d2⟩ := detect_header_named_PNG _ _ _ s1 hn
  refine ⟨d1, ?_⟩
  rw [slice_drop, List.take_take] at d2
  have hl := congrArg List.length d2
  rw [List.length_take] at hl
  have h8 : png_signature.header.length = 8 := rfl
  rw [h8] at hl
  have hmin : min 8 (L - i) = 8 := by omega
  rw [hmin] at d2
  exact d2

/-- Without the size filter passed, no hit. -/
theorem scan_hit_of_small (c : FileCarver) (data : List Byte) (n off : Nat)
    (types : List String) (i : Nat) (sig : FileSignature)
    (hd : detect_header c.signatures (data.drop i) (n - i) = some sig)
    (hs : ((c.determine_end sig (off + i)).1 + 2 ^ 64 - (off + i)) % 2 ^ 64 < c.min_file_size_) :
    c.scan_hit data n off types i = none := by
  unfold scan_hit
  rw [hd]
  simp only []
  rw [if_pos hs]
  split <;> rfl

/-- Records of type PNG that the default engine carves from an input of 128 KiB
whose only PNG header is at 65533: what the second window yields at index
4093. -/
theorem straddle_png_cores (input : List Byte) (types : List String)
    (hlen : input.length = 131072)
    (honly : ∀ q, (input.drop q).take 8 = png_signature.header ↔ q = 65533) :
    (∃ c', default_carver.carve_file_types (some input) types = Except.ok (true, c')) ∧
    ((carved_after (default_carver.carve_file_types (some input) types)).map
        CarvedFile.core).filter (fun x => decide (x.1 = "PNG")) =
      (((default_carver.started input).scan_hit ((input.drop 61440).take 69632) 69632 65536
        types 4093).toList).map Hit.core ∧
    detect_header (default_carver.started input).signatures
      (((input.drop 61440).take 69632).drop 4093) (69632 - 4093) = some png_signature := by
  have hcalls := chunk_calls_two_windows input hlen
  obtain ⟨hok, hcores⟩ := carved_after_of_calls default_carver input types _ hcalls
  have hsig : (default_carver.started input).signatures = initialize_common_signatures := rfl
  have hdet : detect_header (default_carver.started input).signatures
      (((input.drop 61440).take 69632).drop 4093) (69632 - 4093) = some png_signature := by
    rw [hsig, slice_drop]
    have hx : (input.drop (61440 + 4093)).take (69632 - 4093)
        = png_signature.header ++ ((input.drop (61440 + 4093)).take (69632 - 4093)).drop 8 := by
      have h8 : ((input.drop (61440 + 4093)).take (69632 - 4093)).take 8
          = png_signature.header := by
        rw [List.take_take]
        exact (honly 65533).mpr rfl
      have := (List.take_append_drop 8 ((input.drop (61440 + 4093)).take (69632 - 4093))).symm
      rw [h8] at this
      exact this
    rw [hx]
    exact detect_header_PNG _ _ (by omega)
  refine ⟨hok, ?_, hdet⟩
  rw [hcores]
  simp only [List.flatMap_cons, List.flatMap_nil, List.append_nil]
  rw [List.filter_append, List.filter_map, List.filter_map]
  unfold scan_window
  rw [List.filter_filterMap, List.filter_filterMap]
  have w1 : (List.range (65536 - 4 + 1)).filterMap (fun i =>
      Option.filter ((fun x => decide (x.1 = "PNG")) ∘ Hit.core)
        ((default_carver.started input).scan_hit ((input.drop 0).take 65536) 65536 0 types i))
      = [] := by
    rw [List.filterMap_eq_nil_iff]
    intro i hi
    rw [List.mem_range] at hi
    cases hs : (default_carver.started input).scan_hit ((input.drop 0).take 65536) 65536 0
        types i with
    | none => rfl
    | some h =>
      by_cases hn : h.signature.name = "PNG"
      · have := (png_hit_in_window _ hsig input 0 65536 0 types i h hs hn).2
        have := (honly (0 + i)).mp this
        omega
      · simp [Option.filter, Hit.core, hn]
  have w2 : (List.range (69632 - 4 + 1)).filterMap (fun i =>
      Option.filter ((fun x => decide (x.1 = "PNG")) ∘ Hit.core)
        ((default_carver.started input).scan_hit ((input.drop 61440).take 69632) 69632 65536
          types i))
      = ((default_carver.started input).scan_hit ((input.drop 61440).take 69632) 69632 65536
          types 4093).toList := by
    rw [filterMap_range_at _ _ 4093 (by omega)]
    · cases hs : (default_carver.started input).scan_hit ((input.drop 61440).take 69632) 69632
          65536 types 4093 with
      | none => rfl
      | some h =>
        obtain ⟨s1, -⟩ := scan_hit_some _ _ _ _ _ _ _ hs
        rw [hdet] at s1
        have hsg : h.signature = png_signature := (Option.some.inj s1).symm
        have hn : h.signature.name = "PNG" := by rw [hsg]; rfl
        simp [Option.filter, Hit.core, hn]
    · intro i hi hne
      cases hs : (default_carver.started input).scan_hit ((input.drop 61440).take 69632) 69632
          65536 types i with
      | none => rfl
      | some h =>
        by_cases hn : h.signature.name = "PNG"
        · have := (png_hit_in_window _ hsig input 61440 69632 65536 types i h hs hn).2
          have := (honly (61440 + i)).mp this
          omega
        · simp [Option.filter, Hit.core, hn]
  rw [w1, w2]
  rfl


/-- Bytes the default engine reads for the footer search from offset 69629 of
an input of 128 KiB. -/
theorem straddle_footer_read (input : List Byte) (hlen : input.length = 131072) :
    (default_carver.started input).chunk_reader_.read_at_position 69629
      (default_carver.started input).search_window_ []
      = (61443, (input.drop 69629).take 61443) := by
  rw [read_at_position_open _ input (started_openOn _ _) _ _ _ (by omega), hlen]
  have hsw : (default_carver.started input).search_window_ = 1048576 := rfl
  rw [hsw]
  have hm : min 1048576 (131072 - 69629) = 61443 := by decide
  rw [hm]

/-- When the PNG footer starts at 69629, the offset reported for the header
that the second window holds at index 4093, the candidate has 8 bytes and the
size filter of the default engine rejects it. -/
theorem straddle_hit_rejected (input : List Byte) (types : List String)
    (hlen : input.length = 131072)
    (hd : detect_header (default_carver.started input).signatures
      (((input.drop 61440).take 69632).drop 4093) (69632 - 4093) = some png_signature)
    (hfoot : (input.drop 69629).take 8 = png_signature.footer) :
    (default_carver.started input).scan_hit ((input.drop 61440).take 69632) 69632 65536
      types 4093 = none := by
  have hrd := straddle_footer_read input hlen
  have h8 : png_signature.footer.length = 8 := rfl
  have hend : (default_carver.started input).determine_end png_signature 69629
      = (69629 + 0 + png_signature.footer.length, true) := by
    refine determine_end_first _ input (started_openOn _ _) (by rw [hlen]; norm_num)
      png_signature 69629 0 rfl rfl (by decide) ?_ ?_ ?_
    · rw [hrd, h8]
      show 0 + 8 ≤ 61443
      omega
    · rw [hrd, h8, List.drop_zero, List.take_take]
      exact hfoot
    · intro j hj
      omega
  have hmin : (default_carver.started input).min_file_size_ = 512 := rfl
  refine scan_hit_of_small _ _ _ _ _ _ png_signature hd ?_
  have hs : 65536 + 4093 = 69629 := by decide
  rw [hs, hend, hmin, h8]
  show (69629 + 0 + 8 + 2 ^ 64 - 69629) % 2 ^ 64 < 512
  norm_num

/-- When the PNG footer occurs nowhere, the header that the second window
holds at index 4093 yields a candidate that ends at the end of the input. -/
theorem straddle_hit_accepted (input : List Byte) (types : List String)
    (hlen : input.length = 131072)
    (hd : detect_header (default_carver.started input).signatures
      (((input.drop 61440).take 69632).drop 4093) (69632 - 4093) = some png_signature)
    (ht : types = [] ∨ "PNG" ∈ types)
    (hnone : ∀ q, (input.drop q).take 8 ≠ png_signature.footer) :
    (default_carver.started input).scan_hit ((input.drop 61440).take 69632) 69632 65536
      types 4093 = some ⟨png_signature, 69629, 131072, 61443, false⟩ := by
  have hrd := straddle_footer_read input hlen
  have h8 : png_signature.footer.length = 8 := rfl
  have hsw : (default_carver.started input).search_window_ = 1048576 := rfl
  have hmin : (default_carver.started input).min_file_size_ = 512 := rfl
  have hs : 65536 + 4093 = 69629 := by decide
  have hend : (default_carver.started input).determine_end png_signature 69629
      = (131072, false) := by
    rw [determine_end_miss _ input (started_openOn _ _) png_signature 69629
      (Or.inr (Or.inr (by
        intro j hj
        rw [hrd] at hj ⊢
        rw [h8] at hj ⊢
        have hj2 : j + 8 ≤ 61443 := hj
        rw [slice_drop, List.take_take, min_eq_left (by omega)]
        exact hnone _))), hlen, hsw]
    norm_num
  have hsize : ((131072 : Nat) + 2 ^ 64 - 69629) % 2 ^ 64 = 61443 := by norm_num
  rw [scan_hit_of_pass _ _ _ _ types 4093 png_signature hd ht (by
    rw [hs, hend, hmin]
    show 512 ≤ (131072 + 2 ^ 64 - 69629) % 2 ^ 64 ∧ _
    rw [hsize]
    exact ⟨by omega, Or.inl rfl⟩), hs, hend]
  show some (Hit.mk png_signature 69629 131072 ((131072 + 2 ^ 64 - 69629) % 2 ^ 64) false) = _
  rw [hsize]

end FileCarver

/-- The test `detect_header` applies to a signature is the prefix test on the
buffer: the `size` bytes at the pointer. -/
theorem detect_header_test (data : List Byte) (n : Nat) (header : List Byte) :
    (decide (n ≥ header.length) && header.isPrefixOf data)
      = starts_with (data.take n) header := by
  unfold starts_with
  rw [Bool.eq_iff_iff]
  simp only [Bool.and_eq_true, decide_eq_true_eq, isPrefixOf_iff_take, List.length_take,
    List.take_take]
  constructor
  · rintro ⟨h1, h2⟩
    have hl := congrArg List.length h2
    rw [List.length_take] at hl
    refine ⟨by omega, ?_⟩
    rw [min_eq_left h1]
    exact h2
  · rintro ⟨h1, h2⟩
    have h3 : header.length ≤ n := by omega
    refine ⟨h3, ?_⟩
    rw [min_eq_left h3] at h2
    exact h2

/-- The comparison `find_pattern` makes at index `i` inside its loop bound is an
occurrence of the pattern in the buffer: the `n` bytes at the pointer. -/
theorem find_pattern_test (data : List Byte) (n : Nat) (pattern : List Byte) (i : Nat)
    (hp : pattern ≠ []) (hi : i + pattern.length ≤ n) :
    pattern.isPrefixOf (data.drop i) = true ↔ occurs_at (data.take n) pattern i := by
  have hlen : 0 < pattern.length := List.length_pos.mpr hp
  unfold occurs_at
  rw [isPrefixOf_iff_take, List.length_take, List.drop_take, List.take_take]
  have hm : min pattern.length (n - i) = pattern.length := by omega
  rw [hm]
  constructor
  · intro h
    have hl := congrArg List.length h
    rw [List.length_take, List.length_drop] at hl
    exact ⟨by omega, h⟩
  · intro h
    exact h.2

/-- An occurrence in the buffer lies inside the loop bound of `find_pattern`. -/
theorem occurs_at_bound (data : List Byte) (n : Nat) (pattern : List Byte) (i : Nat)
    (h : occurs_at (data.take n) pattern i) : i + pattern.length ≤ n := by
  have := h.1
  rw [List.length_take] at this
  omega

/-- The scan list after the `add_signature` calls for a list of entries. -/
theorem foldl_add_signature_signatures (l : List FileSignature) (d : FileSignatureDetector) :
    (l.foldl FileSignatureDetector.add_signature d).signatures_ = d.signatures_ ++ l := by
  induction l generalizing d with
  | nil => simp
  | cons s rest ih =>
    rw [List.foldl_cons, ih]
    show d.signatures_ ++ [s] ++ rest = d.signatures_ ++ s :: rest
    simp

/-- The constructor leaves the built-in entries, in source order, as scan list. -/
theorem new_signatures : FileSignatureDetector.new.signatures_ = initialize_common_signatures := by
  unfold FileSignatureDetector.new FileSignatureDetector.initialize_common_signatures
  rw [foldl_add_signature_signatures]
  rfl

/-- On data that start with the DOCX magic the built-in registry yields ZIP. -/
theorem detect_header_docx_magic (t : List Byte) (n : Nat) (hn : 4 ≤ n) :
    detect_header initialize_common_signatures
      ([0x50, 0x4B, 0x03, 0x04, 0x14, 0x00, 0x06, 0x00] ++ t) n = some zip_signature := by
  simp [detect_header, initialize_common_signatures, List.isPrefixOf, zip_signature, hn]

/-- The built-in registry never yields an entry named `DOCX`. -/
theorem detect_header_not_docx (data : List Byte) (n : Nat) (S : FileSignature)
    (h : detect_header initialize_common_signatures data n = some S) : S.name ≠ "DOCX" := by
  intro hn
  unfold detect_header at h
  rw [List.find?_eq_some] at h
  obtain ⟨hp, before, after, he, hb⟩ := h
  have hmem : S ∈ initialize_common_signatures := by
    rw [he]; simp
  have hS : S = docx_signature := by
    simp only [initialize_common_signatures, List.mem_cons, List.mem_singleton,
      List.not_mem_nil, or_false] at hmem
    rcases hmem with h | h | h | h | h | h | h | h | h | h | h | h | h | h | h | h | h | h | h <;>
      subst h <;> first | rfl | exact absurd hn (by decide)
  subst hS
  have hidx : ∀ k, k < 19 → initialize_common_signatures[k]? = some docx_signature → k = 8 := by
    decide
  have hlen := congrArg List.length he
  rw [List.length_append, List.length_cons] at hlen
  have h19 : initialize_common_signatures.length = 19 := rfl
  have hget : initialize_common_signatures[before.length]? = some docx_signature := by
    rw [he, List.getElem?_append_right (le_refl _), Nat.sub_self]
    simp
  have h8 : before.length = 8 := hidx _ (by omega) hget
  have hbefore : before = initialize_common_signatures.take 8 := by
    rw [he, ← h8, List.take_left]
  have hzip : zip_signature ∈ before := by
    rw [hbefore]; decide
  have hz := hb zip_signature hzip
  simp only [Bool.and_eq_true, decide_eq_true_eq, docx_signature, zip_signature,
    Bool.not_eq_true', Bool.and_eq_false_iff, decide_eq_false_iff_not] at hp hz
  obtain ⟨hp1, hp2⟩ := hp
  rcases hz with hz | hz
  · simp only [List.length_cons, List.length_nil] at hp1 hz
    omega
  · have hpre : ([0x50, 0x4B, 0x03, 0x04] : List Byte).isPrefixOf
        [0x50, 0x4B, 0x03, 0x04, 0x14, 0x00, 0x06, 0x00] = true := by decide
    rw [List.isPrefixOf_iff_prefix] at hpre hp2
    rw [← Bool.not_eq_true, List.isPrefixOf_iff_prefix] at hz
    exact hz (hpre.trans hp2)

namespace FileCarver

/-- No record carved on the built-in registry is of type `DOCX`. -/
theorem carved_after_not_docx (c : FileCarver) (hc : c.signatures = initialize_common_signatures)
    (input : Option (List Byte)) (types : List String) (r : CarvedFile)
    (hr : r ∈ carved_after (c.carve_file_types input types)) : r.type ≠ "DOCX" := by
  cases input with
  | none => simp [carve_file_types_none] at hr
  | some bytes =>
    obtain ⟨res, call, j, h, -, -, -, hs, hcore⟩ := carved_after_origin c bytes types r hr
    obtain ⟨s1, -⟩ := scan_hit_some _ _ _ _ _ _ _ hs
    have hsig : (c.started bytes).signatures = initialize_common_signatures := hc
    rw [hsig] at s1
    simp only [CarvedFile.core, Hit.core, Prod.mk.injEq] at hcore
    rw [hcore.1]
    exact detect_header_not_docx _ _ _ s1

/-- Every record of a carve passes the type filter. -/
theorem carved_after_type_mem (c : FileCarver) (input : Option (List Byte))
    (types : List String) (r : CarvedFile)
    (hr : r ∈ carved_after (c.carve_file_types input types)) : types = [] ∨ r.type ∈ types := by
  cases input with
  | none => simp [carve_file_types_none] at hr
  | some bytes =>
    obtain ⟨res, call, j, h, -, -, -, hs, hcore⟩ := carved_after_origin c bytes types r hr
    obtain ⟨-, s2, -⟩ := scan_hit_some _ _ _ _ _ _ _ hs
    simp only [CarvedFile.core, Hit.core, Prod.mk.injEq] at hcore
    rw [hcore.1]
    exact s2

end FileCarver

/-- In a registry built by `add_signature` calls every stored index is inside
the scan list, and name lookup returns the last entry of that name. -/
theorem built_lookup (d : FileSignatureDetector) (hd : d.Built) (name : String) :
    (∀ i, d.name_to_index_ name = some i → i < d.signatures_.length) ∧
    d.get_signature name = d.signatures_.reverse.find? (fun s => s.name == name) := by
  induction hd with
  | empty => exact ⟨fun i h => by simp [FileSignatureDetector.empty] at h, rfl⟩
  | add d s _ ih =>
    obtain ⟨ih1, ih2⟩ := ih
    have hlen : (d.signatures_ ++ [s]).length - 1 = d.signatures_.length := by
      rw [List.length_append]; rfl
    by_cases hk : name = s.name
    · constructor
      · intro i hi
        simp only [FileSignatureDetector.add_signature, hk, if_true, Option.some.injEq] at hi
        rw [← hi]
        show (d.signatures_ ++ [s]).length - 1 < (d.signatures_ ++ [s]).length
        rw [List.length_append, List.length_singleton]
        omega
      · unfold FileSignatureDetector.get_signature FileSignatureDetector.add_signature
        simp only [hk, if_true, hlen]
        rw [List.getElem?_append_right (le_refl _), Nat.sub_self, List.reverse_append]
        simp
    · constructor
      · intro i hi
        simp only [FileSignatureDetector.add_signature, hk, if_false] at hi
        have := ih1 i hi
        show i < (d.signatures_ ++ [s]).length
        rw [List.length_append]
        omega
      · have hne : (s.name == name) = false := by
          rw [beq_eq_false_iff_ne]
          exact fun e => hk e.symm
        have hrhs : (d.signatures_ ++ [s]).reverse.find? (fun s => s.name == name)
            = d.signatures_.reverse.find? (fun s => s.name == name) := by
          rw [List.reverse_append]
          simp [hne]
        show (d.add_signature s).get_signature name
          = (d.signatures_ ++ [s]).reverse.find? (fun s => s.name == name)
        rw [hrhs, ← ih2]
        unfold FileSignatureDetector.get_signature FileSignatureDetector.add_signature
        simp only [hk, if_false]
        cases hidx : d.name_to_index_ name with
        | none => rfl
        | some i =>
          simp only []
          rw [List.getElem?_append_left (ih1 i hidx)]

/-- Registries obtained by a series of `add_signature` calls are built. -/
theorem foldl_add_signature_built (l : List FileSignature) (d : FileSignatureDetector)
    (hd : d.Built) : (l.foldl FileSignatureDetector.add_signature d).Built := by
  induction l generalizing d with
  | nil => exact hd
  | cons s rest ih => exact ih _ (FileSignatureDetector.Built.add d s hd)

theorem new_built : FileSignatureDetector.new.Built :=
  foldl_add_signature_built _ _ FileSignatureDetector.Built.empty

namespace FileCarver

theorem lookup_filter_ne (m : List (String × Nat)) (k k' : String) (h : k' ≠ k) :
    (m.filter (fun p => p.1 != k)).lookup k' = m.lookup k' := by
  induction m with
  | nil => rfl
  | cons p rest ih =>
    obtain ⟨a, b⟩ := p
    by_cases hp : a = k
    · have hne : (k' == a) = false := by
        rw [beq_eq_false_iff_ne]
        intro e
        exact h (e.trans hp)
      rw [List.filter_cons_of_neg (by simp [hp]), ih, List.lookup_cons, hne]
    · rw [List.filter_cons_of_pos (by simp [hp]), List.lookup_cons, List.lookup_cons, ih]

/-- Reading the counter that was just stored. -/
theorem counter_get_set_same (m : List (String × Nat)) (k : String) (v : Nat) :
    counter_get (counter_set m k v) k = v := by
  unfold counter_get counter_set
  rw [List.lookup_cons]
  simp

/-- Storing a counter leaves the counters of other names alone. -/
theorem counter_get_set_other (m : List (String × Nat)) (k k' : String) (v : Nat)
    (h : k' ≠ k) : counter_get (counter_set m k v) k' = counter_get m k' := by
  unfold counter_get counter_set
  have hne : (k' == k) = false := by
    rw [beq_eq_false_iff_ne]; exact h
  rw [List.lookup_cons, hne]
  simp only []
  rw [lookup_filter_ne m k k' h]

/-- An emission appends one record, named by `generate_unique_filename` and
typed by the signature, and advances the counter of that name by one. -/
theorem emit_candidate_named (st : FileCarver) (sig : FileSignature) (s e fs : Nat) (b : Bool) :
    (∃ r, (st.emit_candidate sig s e fs b).carved_files_ = st.carved_files_ ++ [r] ∧
      r.type = sig.name ∧
      r.filename = sig.name ++ "_" ++ pad6 (counter_get st.world.counters sig.name)
        ++ sig.extension) ∧
    (st.emit_candidate sig s e fs b).world.counters
      = counter_set st.world.counters sig.name (counter_get st.world.counters sig.name + 1) ∧
    (st.emit_candidate sig s e fs b).signatures = st.signatures := by
  refine ⟨?_, ?_, ?_⟩
  · obtain ⟨ex, h1, -⟩ := emit_candidate_effect st sig s e fs b
    exact ⟨_, h1, rfl, rfl⟩
  · unfold emit_candidate
    simp only [validate_carved_file, if_true]
    split
    · unfold extract_file
      simp only []
      split
      · rfl
      · split <;> rfl
    · rfl
  · unfold emit_candidate
    simp only [validate_carved_file, if_true]
    split <;> rfl

/-- A hit's signature is an entry of the registry. -/
theorem scan_hit_mem (c : FileCarver) (data : List Byte) (n off : Nat) (types : List String)
    (i : Nat) (h : Hit) (hh : c.scan_hit data n off types i = some h) :
    h.signature ∈ c.signatures := by
  obtain ⟨s1, -⟩ := scan_hit_some _ _ _ _ _ _ _ hh
  unfold detect_header at s1
  exact List.mem_of_find?_eq_some s1

theorem frame_signatures (a b : FileCarver) (h : a.frame = b.frame) :
    a.signatures = b.signatures := by
  have := congrArg FileCarver.signatures h
  exact this


/-- Names and counters over a completed carve: for every type name `T`, the
counter of `T` has advanced by the number of records of type `T`, and the
`j`-th such record is named with the counter value at the start plus `j`. -/
theorem carve_names (c : FileCarver) (input : List Byte) (types : List String) (b : Bool)
    (c' : FileCarver) (h : c.carve_file_types (some input) types = Except.ok (b, c'))
    (T : String) :
    counter_get c'.world.counters T = counter_get c.world.counters T +
      (c'.carved_files_.filter (fun r => decide (r.type = T))).length ∧
    ∀ j r, (c'.carved_files_.filter (fun r => decide (r.type = T)))[j]? = some r →
      ∃ sig ∈ c.signatures, sig.name = T ∧
        r.filename = T ++ "_" ++ pad6 (counter_get c.world.counters T + j) ++ sig.extension := by
  refine carve_file_types_inv (fun (st : FileCarver) =>
    counter_get st.world.counters T = counter_get c.world.counters T +
      (st.carved_files_.filter (fun r => decide (r.type = T))).length ∧
    ∀ (j : Nat) (r : CarvedFile),
      (st.carved_files_.filter (fun r => decide (r.type = T)))[j]? = some r →
      ∃ sig ∈ c.signatures, sig.name = T ∧
        r.filename = T ++ "_" ++ pad6 (counter_get c.world.counters T + j) ++ sig.extension)
    c input types (fun st r hP => hP) (fun st k hP => hP) ?_ ?_ b c' h
  · intro st data n off i hit hf hP hh
    obtain ⟨hP1, hP2⟩ := hP
    have hsig : st.signatures = c.signatures := frame_signatures st (c.started input) hf
    have hmem : hit.signature ∈ c.signatures := by
      rw [← hsig]; exact scan_hit_mem st data n off types i hit hh
    obtain ⟨⟨r, e1, e2, e3⟩, e4, -⟩ := emit_candidate_named st hit.signature hit.start_offset
      hit.end_offset hit.file_size hit.has_valid_footer
    show counter_get (st.emit_candidate hit.signature hit.start_offset hit.end_offset
        hit.file_size hit.has_valid_footer).world.counters T = counter_get c.world.counters T +
        ((st.emit_candidate hit.signature hit.start_offset hit.end_offset hit.file_size
          hit.has_valid_footer).carved_files_.filter (fun r => decide (r.type = T))).length ∧
      ∀ (j : Nat) (r : CarvedFile),
        ((st.emit_candidate hit.signature hit.start_offset hit.end_offset hit.file_size
          hit.has_valid_footer).carved_files_.filter (fun r => decide (r.type = T)))[j]? = some r →
        ∃ sig ∈ c.signatures, sig.name = T ∧
          r.filename = T ++ "_" ++ pad6 (counter_get c.world.counters T + j) ++ sig.extension
    rw [e1, e4, List.filter_append]
    by_cases hT : hit.signature.name = T
    · have hf1 : [r].filter (fun r => decide (r.type = T)) = [r] := by
        simp [e2, hT]
      rw [hf1, hT, counter_get_set_same, List.length_append, List.length_singleton]
      refine ⟨by omega, ?_⟩
      intro j r' hj
      by_cases hlt : j < (st.carved_files_.filter (fun r => decide (r.type = T))).length
      · rw [List.getElem?_append_left hlt] at hj
        exact hP2 j r' hj
      · rw [List.getElem?_append_right (by omega)] at hj
        have hj0 : j - (st.carved_files_.filter (fun r => decide (r.type = T))).length = 0 := by
          by_contra hne
          obtain ⟨k, hk⟩ : ∃ k, j - (st.carved_files_.filter
              (fun r => decide (r.type = T))).length = k + 1 := ⟨_, (Nat.succ_pred_eq_of_ne_zero hne).symm⟩
          rw [hk] at hj
          simp at hj
        rw [hj0] at hj
        simp only [List.getElem?_cons_zero, Option.some.injEq] at hj
        subst hj
        refine ⟨hit.signature, hmem, hT, ?_⟩
        rw [e3, hT, hP1]
        have : counter_get c.world.counters T +
            (st.carved_files_.filter (fun r => decide (r.type = T))).length
            = counter_get c.world.counters T + j := by omega
        rw [this]
    · have hf1 : [r].filter (fun r => decide (r.type = T)) = [] := by
        simp [e2, hT]
      rw [hf1, List.append_nil, counter_get_set_other _ _ _ _ (fun e => hT e.symm)]
      exact ⟨hP1, hP2⟩
  · refine ⟨?_, ?_⟩
    · show counter_get c.world.counters T = _ + ([] : List CarvedFile).length
      rfl
    · intro j r hj
      have : (([] : List CarvedFile).filter (fun r => decide (r.type = T)))[j]? = some r := hj
      simp at this

end FileCarver

theorem digitChar_decimal (d : Nat) (h : d < 10) :
    (Nat.digitChar d).toNat - 48 = d ∧ (Nat.digitChar d).isDigit = true := by
  interval_cases d <;> exact ⟨rfl, rfl⟩

theorem toDigitsCore_append (f n : Nat) (ds : List Char) :
    Nat.toDigitsCore 10 f n ds = Nat.toDigitsCore 10 f n [] ++ ds := by
  induction f generalizing n ds with
  | zero => rfl
  | succ f ih =>
    simp only [Nat.toDigitsCore]
    split
    · rfl
    · rw [ih (n / 10) (Nat.digitChar (n % 10) :: ds), ih (n / 10) [Nat.digitChar (n % 10)]]
      simp

theorem decimal_value_snoc (l : List Char) (c : Char) :
    decimal_value (l ++ [c]) = 10 * decimal_value l + (c.toNat - 48) := by
  unfold decimal_value
  rw [List.foldl_append]
  rfl

theorem decimal_value_zeros (z : Nat) (l : List Char) :
    decimal_value (List.replicate z '0' ++ l) = decimal_value l := by
  induction z with
  | zero => rfl
  | succ z ih =>
    rw [List.replicate_succ, List.cons_append]
    unfold decimal_value at ih ⊢
    rw [List.foldl_cons]
    exact ih

/-- The digits that `Nat.toDigits` produces denote the number, and all of them
are decimal digits. -/
theorem toDigitsCore_decimal (f n : Nat) (h : n < f) :
    decimal_value (Nat.toDigitsCore 10 f n []) = n ∧
    ∀ c ∈ Nat.toDigitsCore 10 f n [], c.isDigit = true := by
  induction f generalizing n with
  | zero => omega
  | succ f ih =>
    simp only [Nat.toDigitsCore]
    have hd := digitChar_decimal (n % 10) (Nat.mod_lt _ (by omega))
    split
    · rename_i h0
      constructor
      · show 10 * 0 + ((Nat.digitChar (n % 10)).toNat - 48) = n
        rw [hd.1]
        omega
      · intro c hc
        rw [List.mem_singleton] at hc
        rw [hc]; exact hd.2
    · rename_i h0
      obtain ⟨i1, i2⟩ := ih (n / 10) (by omega)
      rw [toDigitsCore_append]
      constructor
      · rw [decimal_value_snoc, i1, hd.1]
        omega
      · intro c hc
        rw [List.mem_append, List.mem_singleton] at hc
        rcases hc with hc | hc
        · exact i2 c hc
        · rw [hc]; exact hd.2

/-- Characters of the padded counter: decimal digits that denote the counter. -/
theorem pad6_decimal (n : Nat) :
    decimal_value (FileCarver.pad6 n).data = n ∧
    (∀ c ∈ (FileCarver.pad6 n).data, c.isDigit = true) ∧
    (FileCarver.pad6 n).data ≠ [] := by
  have hdata : (FileCarver.pad6 n).data
      = List.replicate (6 - (Nat.repr n).length) '0' ++ Nat.toDigits 10 n := by
    unfold FileCarver.pad6
    rw [String.data_append]
    rfl
  obtain ⟨t1, t2⟩ := toDigitsCore_decimal (n + 1) n (by omega)
  have hne : Nat.toDigits 10 n ≠ [] := by
    unfold Nat.toDigits
    simp only [Nat.toDigitsCore]
    split
    · simp
    · rw [toDigitsCore_append]; simp
  rw [hdata]
  refine ⟨?_, ?_, ?_⟩
  · rw [decimal_value_zeros]
    exact t1
  · intro c hc
    rw [List.mem_append] at hc
    rcases hc with hc | hc
    · rw [List.eq_of_mem_replicate hc]; rfl
    · exact t2 c hc
  · intro h
    rw [List.append_eq_nil] at h
    exact hne h.2

theorem pad6_injective (a b : Nat) (h : FileCarver.pad6 a = FileCarver.pad6 b) : a = b := by
  have := congrArg (fun s => decimal_value s.data) h
  simp only [(pad6_decimal a).1, (pad6_decimal b).1] at this
  exact this

/-- Two names of the form stem, underscore, digits, extension that are equal
have the same stem, when the extensions hold no underscore. -/
theorem stem_of_name_eq (N1 N2 P1 P2 E1 E2 : List Char)
    (hP1 : ∀ c ∈ P1, c.isDigit = true) (hP2 : ∀ c ∈ P2, c.isDigit = true)
    (hE1 : '_' ∉ E1) (hE2 : '_' ∉ E2)
    (h : N1 ++ '_' :: (P1 ++ E1) = N2 ++ '_' :: (P2 ++ E2)) : N1 = N2 := by
  have hno : ∀ (P E : List Char), (∀ c ∈ P, c.isDigit = true) → '_' ∉ E → '_' ∉ P ++ E := by
    intro P E hP hE hm
    rw [List.mem_append] at hm
    rcases hm with hm | hm
    · exact absurd (hP _ hm) (by decide)
    · exact hE hm
  rw [List.append_eq_append_iff] at h
  rcases h with ⟨a, ha1, ha2⟩ | ⟨a, ha1, ha2⟩
  · cases a with
    | nil => simpa using ha1.symm
    | cons x a =>
      exfalso
      rw [List.cons_append, List.cons.injEq] at ha2
      apply hno P1 E1 hP1 hE1
      rw [ha2.2]
      simp
  · cases a with
    | nil => simpa using ha1
    | cons x a =>
      exfalso
      rw [List.cons_append, List.cons.injEq] at ha2
      apply hno P2 E2 hP2 hE2
      rw [ha2.2]
      simp

/-- On the built-in registry the generated name determines the signature name
and the counter value. -/
theorem builtin_filename_inj (s1 s2 : FileSignature)
    (h1 : s1 ∈ initialize_common_signatures) (h2 : s2 ∈ initialize_common_signatures)
    (k1 k2 : Nat)
    (h : s1.name ++ "_" ++ FileCarver.pad6 k1 ++ s1.extension
      = s2.name ++ "_" ++ FileCarver.pad6 k2 ++ s2.extension) :
    s1.name = s2.name ∧ k1 = k2 := by
  have hext : ∀ s ∈ initialize_common_signatures, '_' ∉ s.extension.data := by decide
  have hnd : (initialize_common_signatures.map FileSignature.name).Nodup := by decide
  have hd := congrArg String.data h
  simp only [String.data_append] at hd
  simp only [List.append_assoc, List.singleton_append] at hd
  obtain ⟨p1, p2, -⟩ := pad6_decimal k1
  obtain ⟨q1, q2, -⟩ := pad6_decimal k2
  have hN := stem_of_name_eq _ _ _ _ _ _ p2 q2 (hext s1 h1) (hext s2 h2) hd
  have hname : s1.name = s2.name := String.ext hN
  have hs : s1 = s2 := List.inj_on_of_nodup_map hnd h1 h2 hname
  subst hs
  refine ⟨rfl, ?_⟩
  rw [List.append_cancel_left_eq] at hd
  have hd2 : '_' :: ((FileCarver.pad6 k1).data ++ s1.extension.data)
      = '_' :: ((FileCarver.pad6 k2).data ++ s1.extension.data) := hd
  rw [List.cons.injEq, List.append_cancel_right_eq] at hd2
  exact pad6_injective k1 k2 (String.ext hd2.2)

namespace FileCarver

/-- Over a carve on the built-in registry the names stay pairwise distinct, and
each is generated from a registry entry and a value below the current counter
of that entry's name. -/
theorem carve_names_nodup (c : FileCarver) (hc : c.signatures = initialize_common_signatures)
    (input : List Byte) (types : List String) (b : Bool) (c' : FileCarver)
    (h : c.carve_file_types (some input) types = Except.ok (b, c')) :
    (c'.carved_files_.map CarvedFile.filename).Nodup ∧
    ∀ r ∈ c'.carved_files_, ∃ sig ∈ initialize_common_signatures, ∃ k,
      k < counter_get c'.world.counters sig.name ∧
      r.filename = sig.name ++ "_" ++ pad6 k ++ sig.extension := by
  refine carve_file_types_inv (fun (st : FileCarver) =>
    (st.carved_files_.map CarvedFile.filename).Nodup ∧
    ∀ r ∈ st.carved_files_, ∃ sig ∈ initialize_common_signatures, ∃ k,
      k < counter_get st.world.counters sig.name ∧
      r.filename = sig.name ++ "_" ++ pad6 k ++ sig.extension)
    c input types (fun st r hP => hP) (fun st k hP => hP) ?_ ?_ b c' h
  · intro st data n off i hit hf hP hh
    obtain ⟨hP1, hP2⟩ := hP
    have hsig : st.signatures = initialize_common_signatures :=
      (frame_signatures st (c.started input) hf).trans hc
    have hmem : hit.signature ∈ initialize_common_signatures := by
      rw [← hsig]; exact scan_hit_mem st data n off types i hit hh
    obtain ⟨⟨r, e1, e2, e3⟩, e4, -⟩ := emit_candidate_named st hit.signature hit.start_offset
      hit.end_offset hit.file_size hit.has_valid_footer
    show ((st.emit_candidate hit.signature hit.start_offset hit.end_offset hit.file_size
        hit.has_valid_footer).carved_files_.map CarvedFile.filename).Nodup ∧
      ∀ r ∈ (st.emit_candidate hit.signature hit.start_offset hit.end_offset hit.file_size
        hit.has_valid_footer).carved_files_, ∃ sig ∈ initialize_common_signatures, ∃ k,
        k < counter_get (st.emit_candidate hit.signature hit.start_offset hit.end_offset
          hit.file_size hit.has_valid_footer).world.counters sig.name ∧
        r.filename = sig.name ++ "_" ++ pad6 k ++ sig.extension
    rw [e1, e4]
    constructor
    · rw [List.map_append, List.map_singleton, List.nodup_append]
      refine ⟨hP1, List.nodup_singleton _, ?_⟩
      intro name hold hnew
      rw [List.mem_singleton] at hnew
      rw [List.mem_map] at hold
      obtain ⟨r0, hr0, hr0n⟩ := hold
      obtain ⟨sig, hs, k, hk, hfn⟩ := hP2 r0 hr0
      have heq : sig.name ++ "_" ++ pad6 k ++ sig.extension
          = hit.signature.name ++ "_" ++ pad6 (counter_get st.world.counters hit.signature.name)
            ++ hit.signature.extension := by
        rw [← hfn, hr0n, hnew, e3]
      obtain ⟨i1, i2⟩ := builtin_filename_inj sig hit.signature hs hmem _ _ heq
      rw [i1] at hk
      omega
    · intro r' hr'
      rw [List.mem_append, List.mem_singleton] at hr'
      rcases hr' with hr' | hr'
      · obtain ⟨sig, hs, k, hk, hfn⟩ := hP2 r' hr'
        refine ⟨sig, hs, k, ?_, hfn⟩
        by_cases hn : sig.name = hit.signature.name
        · rw [hn, counter_get_set_same]
          rw [hn] at hk
          omega
        · rw [counter_get_set_other _ _ _ _ hn]
          exact hk
      · refine ⟨hit.signature, hmem, counter_get st.world.counters hit.signature.name, ?_, ?_⟩
        · rw [counter_get_set_same]; omega
        · rw [hr', e3]
  · exact ⟨List.nodup_nil, fun r hr => absurd hr (List.not_mem_nil r)⟩


theorem emit_candidate_bytes (c : FileCarver) (sig : FileSignature) (s e fs : Nat) (b : Bool) :
    (c.emit_candidate sig s e fs b).bytes_processed_ = c.bytes_processed_ := by
  unfold emit_candidate
  simp only [validate_carved_file, if_true]
  split <;> rfl

theorem foldl_process_position_bytes (data : List Byte) (n off : Nat) (types : List String)
    (is : List Nat) (c : FileCarver) :
    (is.foldl (process_position data n off types) c).bytes_processed_ = c.bytes_processed_ := by
  induction is generalizing c with
  | nil => rfl
  | cons i rest ih =>
    rw [List.foldl_cons, ih, process_position_eq]
    cases c.scan_hit data n off types i with
    | none => rfl
    | some h => exact emit_candidate_bytes _ _ _ _ _ _

/-- One loop iteration adds the length of the whole window to the counter. -/
theorem apply_call_bytes (types : List String) (c : FileCarver) (call : Call) :
    (apply_call types c call).bytes_processed_ = c.bytes_processed_ + call.chunk_size := by
  unfold apply_call
  show ((List.range (call.chunk_size - 4 + 1)).foldl
    (process_position call.data call.chunk_size call.file_offset types)
    { c with chunk_reader_ := call.reader }).bytes_processed_ + call.chunk_size = _
  rw [foldl_process_position_bytes]

theorem foldl_apply_call_bytes (types : List String) (calls : List Call) (c : FileCarver) :
    (calls.foldl (apply_call types) c).bytes_processed_ =
      c.bytes_processed_ + (calls.map Call.chunk_size).sum := by
  induction calls generalizing c with
  | nil => simp
  | cons call rest ih =>
    rw [List.foldl_cons, ih, apply_call_bytes, List.map_cons, List.sum_cons]
    omega

/-- After a completed carve the counter holds the sum of the window lengths. -/
theorem carve_bytes_processed (c : FileCarver) (input : List Byte) (types : List String)
    (res : List Call × ChunkReader)
    (h : chunk_calls (input.length + 1)
      (reader_at input c.chunk_reader_.chunk_size_ c.chunk_reader_.overlap_size_ 0 0 0 0)
      [] 0 = Except.ok res) :
    ∃ c', c.carve_file_types (some input) types = Except.ok (true, c') ∧
      c'.bytes_processed_ = (res.1.map Call.chunk_size).sum ∧
      c'.chunk_reader_ = res.2.close := by
  rw [carve_file_types_some, h]
  refine ⟨_, rfl, ?_, rfl⟩
  show (res.1.foldl (apply_call types) (c.started input)).bytes_processed_ = _
  rw [foldl_apply_call_bytes]
  show 0 + _ = _
  omega

end FileCarver

/-- The two `process_chunk` calls made by a reader with chunk size 1024 and
overlap size 16 on an input of 2048 bytes. -/
theorem chunk_calls_small_windows (input : List Byte) (hlen : input.length = 2048) :
    chunk_calls (input.length + 1) (reader_at input 1024 16 0 0 0 0) [] 0 =
      Except.ok
        ([⟨(input.drop 0).take 1024, 1024, 0, reader_at input 1024 16 1024 16 1024 1⟩,
          ⟨(input.drop 1008).take 1040, 1040, 1024,
            reader_at input 1024 16 2048 0 2048 2⟩],
          reader_at input 1024 16 2048 0 2048 2) := by
  have s0 : (reader_at input 1024 16 0 0 0 0).read_chunk [] =
      (true, (input.drop 0).take 1024, 1024, reader_at input 1024 16 1024 16 1024 1) := by
    rw [read_chunk_reader_at input 1024 16 0 0 0 0 [] (by omega) (by omega), hlen]
    norm_num
  have s1 : (reader_at input 1024 16 1024 16 1024 1).read_chunk
      ((input.drop 0).take 1024) =
      (true, (input.drop 1008).take 1040, 1040,
        reader_at input 1024 16 2048 0 2048 2) := by
    rw [read_chunk_reader_at input 1024 16 1024 16 1024 1 _ (by omega) (by omega), hlen]
    norm_num
  have s2 : (reader_at input 1024 16 2048 0 2048 2).read_chunk
      ((input.drop 1008).take 1040) =
      (false, (input.drop 1008).take 1040, 0,
        reader_at input 1024 16 2048 0 2048 2) :=
    read_chunk_reader_at_eof input 1024 16 2048 0 2048 2 _ (by omega)
  have hfuel : input.length + 1 = 3 + 2046 := by omega
  rw [hfuel]
  apply chunk_calls_mono
  rw [chunk_calls_succ, s0]
  simp only [if_true, ChunkReader.tell, reader_at]
  rw [if_neg (by omega)]
  have e1 := s1
  simp only [reader_at] at e1
  rw [chunk_calls_succ, e1]
  simp only [if_true, ChunkReader.tell]
  rw [if_neg (by omega)]
  have e2 := s2
  simp only [reader_at] at e2
  rw [chunk_calls_succ, e2]
  rfl

/-- At an offset inside the window the matcher of the every-offset scan is
`detect_header` on the remaining tail. -/
theorem every_offset_detect (signatures : List FileSignature) (buf : List Byte) (i : Nat) :
    signatures.find? (fun S => starts_with (buf.drop i) S.header) =
      detect_header signatures (buf.drop i) (buf.length - i) := by
  unfold detect_header
  congr 1
  funext S
  rw [detect_header_test, List.take_of_length_le (by rw [List.length_drop])]

theorem header_hits_every_offset_eq (signatures : List FileSignature) (buf : List Byte) :
    header_hits_every_offset signatures buf =
      (List.range buf.length).filterMap (fun i =>
        (detect_header signatures (buf.drop i) (buf.length - i)).map (fun sig => (i, sig))) := by
  unfold header_hits_every_offset
  congr 1
  funext i
  rw [every_offset_detect]

/-- A hit of the every-offset scan: its offset, and the header fits in the tail. -/
theorem header_hits_every_offset_mem (signatures : List FileSignature) (buf : List Byte)
    (h : Nat × FileSignature) (hh : h ∈ header_hits_every_offset signatures buf) :
    h.1 < buf.length ∧ h.2 ∈ signatures ∧ h.1 + h.2.header.length ≤ buf.length ∧
      detect_header signatures (buf.drop h.1) (buf.length - h.1) = some h.2 := by
  rw [header_hits_every_offset_eq, List.mem_filterMap] at hh
  obtain ⟨i, hi, hm⟩ := hh
  rw [List.mem_range] at hi
  cases hd : detect_header signatures (buf.drop i) (buf.length - i) with
  | none => rw [hd] at hm; exact absurd hm (by simp)
  | some sig =>
    rw [hd] at hm
    simp only [Option.map_some', Option.some.injEq] at hm
    subst hm
    refine ⟨hi, List.mem_of_find?_eq_some hd, ?_, hd⟩
    have := List.find?_some hd
    simp only [Bool.and_eq_true, decide_eq_true_eq] at this
    have h1 := this.1
    show i + sig.header.length ≤ buf.length
    omega

theorem header_hits_eq_filter (signatures : List FileSignature) (buf : List Byte)
    (h4 : 4 ≤ buf.length) :
    header_hits signatures buf buf.length =
      (header_hits_every_offset signatures buf).filter
        (fun h => decide (h.1 + 4 ≤ buf.length)) := by
  rw [header_hits_every_offset_eq, List.filter_filterMap]
  unfold header_hits
  have hsplit : buf.length = (buf.length - 4 + 1) + 3 := by omega
  conv_rhs => rw [hsplit, List.range_add, List.filterMap_append]
  rw [← hsplit]
  have hsecond : List.filterMap
      (fun i => Option.filter (fun h => decide (h.1 + 4 ≤ buf.length))
        (Option.map (fun sig => (i, sig))
          (detect_header signatures (List.drop i buf) (buf.length - i))))
      (List.map (fun x => buf.length - 4 + 1 + x) (List.range 3)) = [] := by
    rw [List.filterMap_eq_nil_iff]
    intro i hi
    rw [List.mem_map] at hi
    obtain ⟨x, _, hx⟩ := hi
    cases hd : detect_header signatures (List.drop i buf) (buf.length - i) with
    | none => rfl
    | some sig =>
      simp only [Option.map_some', Option.filter]
      rw [if_neg]
      simp only [decide_eq_true_eq]
      omega
  rw [hsecond, List.append_nil]
  apply List.filterMap_congr
  intro i hi
  rw [List.mem_range] at hi
  cases hd : detect_header signatures (List.drop i buf) (buf.length - i) with
  | none => rfl
  | some sig =>
    simp only [Option.map_some', Option.filter]
    rw [if_pos]
    simp only [decide_eq_true_eq]
    omega

namespace FileCarver

theorem emit_candidate_extract_flag (st : FileCarver) (sig : FileSignature) (s e fs : Nat)
    (b : Bool) : (st.emit_candidate sig s e fs b).extract_files_ = st.extract_files_ := by
  unfold emit_candidate
  simp only [validate_carved_file, if_true]
  split <;> rfl

theorem emit_candidate_stats (st : FileCarver) (sig : FileSignature) (s e fs : Nat) (b : Bool)
    (h : st.StatsAgree) : (st.emit_candidate sig s e fs b).StatsAgree := by
  obtain ⟨h1, h2, h3⟩ := h
  obtain ⟨ex, hl, _, _⟩ := emit_candidate_effect st sig s e fs b
  have hflag := emit_candidate_extract_flag st sig s e fs b
  have hfound := emit_candidate_found st sig s e fs b
  have hext : (st.emit_candidate sig s e fs b).files_extracted_ =
      st.files_extracted_ + (if ex = true ∧ st.extract_files_ = true then 1 else 0) ∧
      (st.extract_files_ = false → ex = false) := by
    unfold emit_candidate at hl ⊢
    simp only [validate_carved_file, if_true] at hl ⊢
    cases hx : st.extract_files_ with
    | false =>
      rw [hx] at hl
      simp only [Bool.false_eq_true, if_false, and_false] at hl ⊢
      have hl2 := List.append_cancel_left hl
      simp only [List.cons.injEq, CarvedFile.mk.injEq, and_true, true_and] at hl2
      exact ⟨rfl, fun _ => hl2.symm⟩
    | true =>
      rw [hx] at hl
      simp only [if_true, and_true] at hl ⊢
      have hl2 := List.append_cancel_left hl
      simp only [List.cons.injEq, CarvedFile.mk.injEq, and_true, true_and] at hl2
      refine ⟨?_, fun h => absurd h (by decide)⟩
      rw [← hl2]
      split <;> rfl
  refine ⟨?_, ?_, ?_⟩
  · rw [hfound, hl, List.length_append, List.length_singleton, h1]
  · rw [hext.1, hl, List.filter_append, List.length_append, h2]
    cases ex with
    | false => simp
    | true =>
      cases hx : st.extract_files_ with
      | false => exact absurd (hext.2 hx) (by decide)
      | true => simp
  · intro hf r hr
    rw [hflag] at hf
    rw [hl, List.mem_append, List.mem_singleton] at hr
    rcases hr with hr | hr
    · exact h3 hf r hr
    · rw [hr]
      exact hext.2 hf

theorem carve_stats_agree (c : FileCarver) (input : Option (List Byte)) (types : List String)
    (b : Bool) (c' : FileCarver) (h : c.carve_file_types input types = Except.ok (b, c')) :
    c'.StatsAgree ∧ c'.extract_files_ = c.extract_files_ := by
  cases input with
  | none =>
    have h2 : c.carve_file_types none types = Except.ok (false,
        { c.clear_results with chunk_reader_ := (c.clear_results.chunk_reader_.open none).2 }) :=
      rfl
    rw [h2] at h
    injection h with h
    injection h with _ h
    subst h
    exact ⟨⟨rfl, rfl, fun _ r hr => absurd hr (List.not_mem_nil r)⟩, rfl⟩
  | some bytes =>
    refine carve_file_types_inv
      (fun (st : FileCarver) => st.StatsAgree ∧ st.extract_files_ = c.extract_files_)
      c bytes types ?_ ?_ ?_ ?_ b c' h
    · intro st r hP; exact hP
    · intro st k hP; exact hP
    · intro st data n off i hit _ hP _
      exact ⟨emit_candidate_stats st hit.signature hit.start_offset hit.end_offset
        hit.file_size hit.has_valid_footer hP.1,
        (emit_candidate_extract_flag st hit.signature hit.start_offset hit.end_offset
          hit.file_size hit.has_valid_footer).trans hP.2⟩
    · exact ⟨⟨rfl, rfl, fun _ r hr => absurd hr (List.not_mem_nil r)⟩, rfl⟩


/-- The type of every record is the name of an entry of the registry. -/
theorem carved_after_type_registry (c : FileCarver) (input : Option (List Byte))
    (types : List String) (r : CarvedFile)
    (hr : r ∈ carved_after (c.carve_file_types input types)) :
    ∃ sig ∈ c.signatures, sig.name = r.type := by
  cases input with
  | none => simp [carve_file_types_none] at hr
  | some bytes =>
    obtain ⟨res, call, j, h, -, -, -, hs, hcore⟩ := carved_after_origin c bytes types r hr
    have hm := scan_hit_mem _ _ _ _ _ _ _ hs
    simp only [CarvedFile.core, Hit.core, Prod.mk.injEq] at hcore
    exact ⟨h.signature, hm, hcore.1.symm⟩

/-- A filter that names no entry of the registry leaves no record. -/
theorem carved_after_foreign_filter (c : FileCarver) (input : Option (List Byte))
    (types : List String) (hne : types ≠ [])
    (hforeign : ∀ sig ∈ c.signatures, sig.name ∉ types) :
    carved_after (c.carve_file_types input types) = [] := by
  rw [List.eq_nil_iff_forall_not_mem]
  intro r hr
  obtain ⟨sig, hm, hn⟩ := carved_after_type_registry c input types r hr
  rcases carved_after_type_mem c input types r hr with h | h
  · exact hne h
  · rw [← hn] at h
    exact hforeign sig hm h

end FileCarver

/-- Every built-in entry other than DOCX is returned for data that begin with
its header. -/
theorem detect_header_own (S : FileSignature) (hS : S ∈ initialize_common_signatures)
    (hne : S ≠ docx_signature) (t : List Byte) (n : Nat) (hn : S.header.length ≤ n) :
    detect_header initialize_common_signatures (S.header ++ t) n = some S := by
  simp only [initialize_common_signatures, List.mem_cons, List.mem_singleton,
    List.not_mem_nil, or_false] at hS
  rcases hS with h | h | h | h | h | h | h | h | h | h | h | h | h | h | h | h | h | h | h <;>
    subst h <;>
    first
    | exact absurd rfl hne
    | (simp only [List.length_cons, List.length_nil] at hn
       simp [detect_header, initialize_common_signatures, List.isPrefixOf]
       omega)

namespace FileCarver

/-- The decision at a window index, spelled out: a hit is the detected
signature that passes the type filter and the size filter. -/
theorem scan_hit_iff (c : FileCarver) (data : List Byte) (n off : Nat) (types : List String)
    (i : Nat) (h : Hit) :
    c.scan_hit data n off types i = some h ↔
      (detect_header c.signatures (data.drop i) (n - i) = some h.signature ∧
        (types = [] ∨ h.signature.name ∈ types) ∧
        h.start_offset = off + i ∧
        h.end_offset = (c.determine_end h.signature (off + i)).1 ∧
        h.has_valid_footer = (c.determine_end h.signature (off + i)).2 ∧
        h.file_size = (h.end_offset + 2 ^ 64 - h.start_offset) % 2 ^ 64 ∧
        c.min_file_size_ ≤ h.file_size ∧
        (c.max_file_size_ = 0 ∨ h.file_size ≤ c.max_file_size_)) := by
  constructor
  · exact scan_hit_some c data n off types i h
  · rintro ⟨hd, ht, hs, he, hf, hsz, hmin, hmax⟩
    rw [hs, he] at hsz
    have hpass := scan_hit_of_pass c data n off types i h.signature hd ht
      (by rw [← hsz]; exact ⟨hmin, hmax⟩)
    rw [hpass]
    congr 1
    cases h with
    | mk sig so eo fs vf =>
      simp only at hs he hf hsz
      rw [hs, he, hf, hsz]

/-- Records of an input that arrives as one window of at least four bytes. -/
theorem carved_after_single_window (c : FileCarver) (input : List Byte) (types : List String)
    (h4 : 4 ≤ input.length) (hcs : input.length ≤ c.chunk_reader_.chunk_size_) :
    (∃ c', c.carve_file_types (some input) types = Except.ok (true, c')) ∧
    (carved_after (c.carve_file_types (some input) types)).map CarvedFile.core =
      ((c.started input).scan_window types input input.length 0).map Hit.core := by
  have hcalls := chunk_calls_single input c.chunk_reader_.chunk_size_
    c.chunk_reader_.overlap_size_ h4 hcs
  obtain ⟨h1, h2⟩ := carved_after_of_calls c input types _ hcalls
  refine ⟨h1, ?_⟩
  rw [h2]
  simp


/-- A footer-delimited record is at least as long as the footer of the
signature that was matched. -/
theorem footer_record_size (c : FileCarver) (input : List Byte) (hN : input.length < 2 ^ 64)
    (types : List String) (r : CarvedFile)
    (hr : r ∈ carved_after (c.carve_file_types (some input) types))
    (hv : r.has_valid_footer = true) :
    ∃ sig ∈ c.signatures, sig.name = r.type ∧ sig.has_footer = true ∧
      r.start_offset + sig.footer.length ≤ r.end_offset ∧
      r.file_size = r.end_offset - r.start_offset ∧
      sig.footer.length ≤ r.file_size := by
  obtain ⟨res, call, i, h, hres, hcall, hi, hh, hcore⟩ := carved_after_origin c input types r hr
  obtain ⟨hd, _, hs, he, hf, hsz, _, _⟩ := scan_hit_some _ _ _ _ _ _ _ hh
  have hmem : h.signature ∈ c.signatures := List.mem_of_find?_eq_some hd
  have hcore2 : (r.type, r.start_offset, r.end_offset, r.file_size, r.has_valid_footer) =
      (h.signature.name, h.start_offset, h.end_offset, h.file_size, h.has_valid_footer) := hcore
  simp only [Prod.mk.injEq] at hcore2
  obtain ⟨ht, hst, hen, hfs, hvf⟩ := hcore2
  have hopen := started_openOn c input
  obtain ⟨hle, htrue, _⟩ := determine_end_spec (c.started input) input hopen h.signature
    (call.file_offset + i)
  rw [hv, hf] at hvf
  obtain ⟨_, hhas, _, _, hge, _, _⟩ := htrue hvf.symm
  rw [← he] at hge hle
  rw [← hs] at hge
  have hsize : h.file_size = h.end_offset - h.start_offset := by
    rw [hsz]
    have : h.end_offset + 2 ^ 64 - h.start_offset = (h.end_offset - h.start_offset) + 2 ^ 64 := by
      omega
    rw [this, Nat.add_mod_right, Nat.mod_eq_of_lt (by omega)]
  refine ⟨h.signature, hmem, ht.symm, hhas, ?_, ?_, ?_⟩
  · rw [hst, hen]; exact hge
  · rw [hfs, hst, hen]; exact hsize
  · rw [hfs, hsize]; omega

end FileCarver

theorem filterMap_range_two {β : Type} (g : Nat → Option β) (m p j : Nat) (hpj : p < j)
    (hj : j < m) (hne : ∀ i, i < m → i ≠ p → i ≠ j → g i = none) :
    (List.range m).filterMap g = (g p).toList ++ (g j).toList := by
  have hm : m = j + (m - j) := by omega
  rw [hm, List.range_add, List.filterMap_append, List.filterMap_map]
  rw [filterMap_range_at g j p hpj (fun i hi hip => hne i (by omega) hip (by omega))]
  rw [filterMap_range_at (g ∘ fun x => j + x) (m - j) 0 (by omega)
    (fun i hi hi0 => hne (j + i) (by omega) (by omega) (by omega))]
  rfl

namespace FileCarver

/-- End of a candidate whose footer first occurs `f` bytes after `s` in the
input, inside the search window. -/
theorem determine_end_at (c : FileCarver) (input : List Byte)
    (ho : c.chunk_reader_.OpenOn input) (hN : input.length < 2 ^ 64)
    (sig : FileSignature) (s f : Nat)
    (hu : c.use_footers_ = true) (hf : sig.has_footer = true) (hne : sig.footer ≠ [])
    (hs : s + f + sig.footer.length ≤ input.length)
    (hw : f + sig.footer.length ≤ c.search_window_)
    (hpre : (input.drop (s + f)).take sig.footer.length = sig.footer)
    (hleft : ∀ k, k < f → (input.drop (s + k)).take sig.footer.length ≠ sig.footer) :
    c.determine_end sig s = (s + f + sig.footer.length, true) := by
  have hpos : 0 < sig.footer.length := List.length_pos.mpr hne
  have hsN : s < input.length := by omega
  have hread := read_at_position_open c.chunk_reader_ input ho s c.search_window_ [] hsN
  have hslice : ∀ k, k + sig.footer.length ≤ min c.search_window_ (input.length - s) →
      (((input.drop s).take (min c.search_window_ (input.length - s))).drop k).take
        sig.footer.length = (input.drop (s + k)).take sig.footer.length := by
    intro k hk
    rw [slice_drop, List.take_take, min_eq_left (by omega)]
  apply determine_end_first c input ho hN sig s f hu hf hne
  · rw [hread]
    show f + sig.footer.length ≤ min c.search_window_ (input.length - s)
    omega
  · rw [hread]
    show (((input.drop s).take (min c.search_window_ (input.length - s))).drop f).take
      sig.footer.length = sig.footer
    rw [hslice f (by omega)]
    exact hpre
  · intro k hk
    rw [hread]
    show (((input.drop s).take (min c.search_window_ (input.length - s))).drop k).take
      sig.footer.length ≠ sig.footer
    rw [hslice k (by omega)]
    exact hleft k hk

/-- Emitting a record changes the decision at no index. -/
theorem scan_hit_after_emit (c : FileCarver) (sig : FileSignature) (s e fs : Nat) (b : Bool)
    (data : List Byte) (n off : Nat) (types : List String) (i : Nat) :
    (c.emit_candidate sig s e fs b).scan_hit data n off types i =
      c.scan_hit data n off types i :=
  scan_hit_congr (emit_candidate_frame c sig s e fs b) data n off types i


/-- Records of a one-window input whose only header hits are a PDF at `p` and
a JPEG at `j`, both with their footer inside the search window. -/
theorem nested_cores (c : FileCarver) (input : List Byte) (types : List String)
    (p j fp fj : Nat)
    (hcs : input.length ≤ c.chunk_reader_.chunk_size_) (hN : input.length < 2 ^ 64)
    (hpj : p < j) (hj : j + 4 ≤ input.length)
    (hpdf : detect_header c.signatures (input.drop p) (input.length - p) = some pdf_signature)
    (hjpeg : detect_header c.signatures (input.drop j) (input.length - j) = some jpeg_signature)
    (hnone : ∀ i, i + 4 ≤ input.length → i ≠ p → i ≠ j →
      detect_header c.signatures (input.drop i) (input.length - i) = none)
    (hfp : p + fp + 5 ≤ input.length ∧
      (input.drop (p + fp)).take 5 = pdf_signature.footer ∧
      ∀ k, k < fp → (input.drop (p + k)).take 5 ≠ pdf_signature.footer)
    (hfj : j + fj + 2 ≤ input.length ∧
      (input.drop (j + fj)).take 2 = jpeg_signature.footer ∧
      ∀ k, k < fj → (input.drop (j + k)).take 2 ≠ jpeg_signature.footer)
    (hu : c.use_footers_ = true)
    (hw : fp + 5 ≤ c.search_window_ ∧ fj + 2 ≤ c.search_window_)
    (hmin : c.min_file_size_ ≤ fp + 5 ∧ c.min_file_size_ ≤ fj + 2)
    (hmax : c.max_file_size_ = 0 ∨ (fp + 5 ≤ c.max_file_size_ ∧ fj + 2 ≤ c.max_file_size_))
    (ht : types = [] ∨ ("PDF" ∈ types ∧ "JPEG" ∈ types)) :
    (∃ c', c.carve_file_types (some input) types = Except.ok (true, c')) ∧
    (carved_after (c.carve_file_types (some input) types)).map CarvedFile.core =
      [("PDF", p, p + fp + 5, fp + 5, true), ("JPEG", j, j + fj + 2, fj + 2, true)] := by
  obtain ⟨h1, h2⟩ := carved_after_single_window c input types (by omega) hcs
  refine ⟨h1, ?_⟩
  rw [h2]
  have ho := started_openOn c input
  have hsize : ∀ s n : Nat, s + n < 2 ^ 64 → (s + n + 2 ^ 64 - s) % 2 ^ 64 = n := by
    intro s n h
    have : s + n + 2 ^ 64 - s = n + 2 ^ 64 := by omega
    rw [this, Nat.add_mod_right, Nat.mod_eq_of_lt (by omega)]
  have hep : (c.started input).determine_end pdf_signature (0 + p) = (p + fp + 5, true) := by
    rw [Nat.zero_add]
    exact determine_end_at (c.started input) input ho hN pdf_signature p fp hu rfl
      (by decide) hfp.1 hw.1 hfp.2.1 hfp.2.2
  have hej : (c.started input).determine_end jpeg_signature (0 + j) = (j + fj + 2, true) := by
    rw [Nat.zero_add]
    exact determine_end_at (c.started input) input ho hN jpeg_signature j fj hu rfl
      (by decide) hfj.1 hw.2 hfj.2.1 hfj.2.2
  have hhp : (c.started input).scan_hit input input.length 0 types p =
      some ⟨pdf_signature, p, p + fp + 5, fp + 5, true⟩ := by
    have := scan_hit_of_pass (c.started input) input input.length 0 types p pdf_signature hpdf
      (ht.imp id (fun h => h.1))
      (by
        rw [hep, Nat.zero_add]
        show c.min_file_size_ ≤ (p + fp + 5 + 2 ^ 64 - p) % 2 ^ 64 ∧
          (c.max_file_size_ = 0 ∨ (p + fp + 5 + 2 ^ 64 - p) % 2 ^ 64 ≤ c.max_file_size_)
        rw [show p + fp + 5 = p + (fp + 5) from by omega, hsize p (fp + 5) (by omega)]
        exact ⟨hmin.1, hmax.imp id (fun h => h.1)⟩)
    rw [this, hep, Nat.zero_add]
    show some (Hit.mk pdf_signature p (p + fp + 5) ((p + fp + 5 + 2 ^ 64 - p) % 2 ^ 64) true) = _
    rw [show p + fp + 5 = p + (fp + 5) from by omega, hsize p (fp + 5) (by omega)]
  have hhj : (c.started input).scan_hit input input.length 0 types j =
      some ⟨jpeg_signature, j, j + fj + 2, fj + 2, true⟩ := by
    have := scan_hit_of_pass (c.started input) input input.length 0 types j jpeg_signature hjpeg
      (ht.imp id (fun h => h.2))
      (by
        rw [hej, Nat.zero_add]
        show c.min_file_size_ ≤ (j + fj + 2 + 2 ^ 64 - j) % 2 ^ 64 ∧
          (c.max_file_size_ = 0 ∨ (j + fj + 2 + 2 ^ 64 - j) % 2 ^ 64 ≤ c.max_file_size_)
        rw [show j + fj + 2 = j + (fj + 2) from by omega, hsize j (fj + 2) (by omega)]
        exact ⟨hmin.2, hmax.imp id (fun h => h.2)⟩)
    rw [this, hej, Nat.zero_add]
    show some (Hit.mk jpeg_signature j (j + fj + 2) ((j + fj + 2 + 2 ^ 64 - j) % 2 ^ 64) true) = _
    rw [show j + fj + 2 = j + (fj + 2) from by omega, hsize j (fj + 2) (by omega)]
  have hothers : ∀ i, i < input.length - 4 + 1 → i ≠ p → i ≠ j →
      (c.started input).scan_hit input input.length 0 types i = none := by
    intro i hi hip hij
    unfold scan_hit
    have hd : detect_header (c.started input).signatures (input.drop i) (input.length - i) = none :=
      hnone i (by omega) hip hij
    rw [hd]
  unfold scan_window
  rw [filterMap_range_two _ _ p j hpj (by omega) hothers, hhp, hhj]
  rfl

end FileCarver

theorem nested_in_filler_length (a c : Nat) : (nested_in_filler a c).length = a + c + 16 := by
  unfold nested_in_filler
  simp only [List.length_append, List.length_replicate, List.length_cons, List.length_nil]
  omega

theorem drop_append_ge (l1 l2 : List Byte) (q : Nat) (h : l1.length ≤ q) :
    (l1 ++ l2).drop q = l2.drop (q - l1.length) := by
  rw [List.drop_append_eq_append_drop, List.drop_eq_nil_of_le h, List.nil_append]

theorem replicate_append_drop (n q : Nat) (rest : List Byte) (hq : q < n) :
    ∃ t, (List.replicate n 0xAA ++ rest).drop q = (0xAA : Byte) :: t := by
  rw [List.drop_append_of_le_length (by rw [List.length_replicate]; omega), List.drop_replicate]
  obtain ⟨k, hk⟩ : ∃ k, n - q = k + 1 := ⟨n - q - 1, by omega⟩
  rw [hk, List.replicate_succ]
  exact ⟨_, rfl⟩

/-- Inside the first filler run. -/
theorem nested_drop_first_filler (a c q : Nat) (h1 : 5 ≤ q) (h2 : q < 5 + a) :
    ∃ t, (nested_in_filler a c).drop q = (0xAA : Byte) :: t := by
  unfold nested_in_filler
  rw [drop_append_ge _ _ q (by simpa using h1)]
  exact replicate_append_drop a _ _ (by simp only [List.length_cons, List.length_nil]; omega)

/-- From the start of the JPEG on. -/
theorem nested_drop_jpeg (a c k : Nat) :
    (nested_in_filler a c).drop (5 + a + k) =
      ([0xFF, 0xD8, 0xFF, 0xAA, 0xFF, 0xD9] ++ (List.replicate c 0xAA ++
        [0x25, 0x25, 0x45, 0x4F, 0x46])).drop k := by
  unfold nested_in_filler
  rw [drop_append_ge _ _ _ (by simp only [List.length_cons, List.length_nil]; omega),
    drop_append_ge _ _ _ (by
      simp only [List.length_cons, List.length_nil, List.length_replicate]; omega)]
  congr 1
  simp only [List.length_cons, List.length_nil, List.length_replicate]
  omega

/-- Inside the second filler run. -/
theorem nested_drop_second_filler (a c q : Nat) (h1 : 11 + a ≤ q) (h2 : q < 11 + a + c) :
    ∃ t, (nested_in_filler a c).drop q = (0xAA : Byte) :: t := by
  obtain ⟨k, hk⟩ : ∃ k, q = 5 + a + (6 + k) := ⟨q - 11 - a, by omega⟩
  rw [hk, nested_drop_jpeg]
  have : ([0xFF, 0xD8, 0xFF, 0xAA, 0xFF, 0xD9] ++ (List.replicate c 0xAA ++
      [0x25, 0x25, 0x45, 0x4F, 0x46] : List Byte)).drop (6 + k) =
      (List.replicate c 0xAA ++ [0x25, 0x25, 0x45, 0x4F, 0x46] : List Byte).drop k := by
    rw [drop_append_ge _ _ _ (by simp only [List.length_cons, List.length_nil]; omega)]
    congr 1
    simp only [List.length_cons, List.length_nil]
    omega
  rw [this]
  exact replicate_append_drop c _ _ (by omega)

/-- From the start of the PDF footer on. -/
theorem nested_drop_footer (a c k : Nat) :
    (nested_in_filler a c).drop (11 + a + c + k) =
      ([0x25, 0x25, 0x45, 0x4F, 0x46] : List Byte).drop k := by
  have e : 11 + a + c + k = 5 + a + (6 + (c + k)) := by omega
  rw [e, nested_drop_jpeg,
    drop_append_ge _ _ _ (by simp only [List.length_cons, List.length_nil]; omega),
    drop_append_ge _ _ _ (by
      simp only [List.length_cons, List.length_nil, List.length_replicate]; omega)]
  congr 1
  simp only [List.length_cons, List.length_nil, List.length_replicate]
  omega

/-- What the input holds from offset `q` on. -/
theorem nested_drop_cases (a c q : Nat) (hq : q < a + c + 16) :
    (q = 0 ∧ ∃ t, (nested_in_filler a c).drop q = 0x25 :: 0x50 :: 0x44 :: 0x46 :: 0x2D :: t) ∨
    (q = 1 ∧ ∃ t, (nested_in_filler a c).drop q = 0x50 :: 0x44 :: t) ∨
    (q = 5 + a ∧ ∃ t, (nested_in_filler a c).drop q = 0xFF :: 0xD8 :: 0xFF :: 0xAA :: t) ∨
    (q = 7 + a ∧ ∃ t, (nested_in_filler a c).drop q = 0xFF :: 0xAA :: t) ∨
    (q = 9 + a ∧ ∃ t, (nested_in_filler a c).drop q = 0xFF :: 0xD9 :: t) ∨
    (q = 11 + a + c ∧ (nested_in_filler a c).drop q = [0x25, 0x25, 0x45, 0x4F, 0x46]) ∨
    (q = 12 + a + c ∧ (nested_in_filler a c).drop q = [0x25, 0x45, 0x4F, 0x46]) ∨
    (q ≠ 0 ∧ q ≠ 5 + a ∧ q ≠ 9 + a ∧ q ≠ 11 + a + c ∧
      ∃ b t, (nested_in_filler a c).drop q = b :: t ∧ inert b) := by
  by_cases hA : q < 5
  · interval_cases q
    · exact Or.inl ⟨rfl, _, rfl⟩
    · exact Or.inr (Or.inl ⟨rfl, _, rfl⟩)
    · refine Or.inr (Or.inr (Or.inr (Or.inr (Or.inr (Or.inr (Or.inr
        ⟨by omega, by omega, by omega, by omega, 0x44, _, rfl, Or.inl rfl⟩))))))
    · refine Or.inr (Or.inr (Or.inr (Or.inr (Or.inr (Or.inr (Or.inr
        ⟨by omega, by omega, by omega, by omega, 0x46, _, rfl, Or.inr (Or.inl rfl)⟩))))))
    · refine Or.inr (Or.inr (Or.inr (Or.inr (Or.inr (Or.inr (Or.inr
        ⟨by omega, by omega, by omega, by omega, 0x2D, _, rfl,
          Or.inr (Or.inr (Or.inl rfl))⟩))))))
  · by_cases hB : q < 5 + a
    · obtain ⟨t, ht⟩ := nested_drop_first_filler a c q (by omega) hB
      exact Or.inr (Or.inr (Or.inr (Or.inr (Or.inr (Or.inr (Or.inr
        ⟨by omega, by omega, by omega, by omega, 0xAA, t, ht,
          Or.inr (Or.inr (Or.inr (Or.inl rfl)))⟩))))))
    · by_cases hC : q < 11 + a
      · obtain ⟨k, hk, hk6⟩ : ∃ k, q = 5 + a + k ∧ k < 6 := ⟨q - 5 - a, by omega, by omega⟩
        subst hk
        rw [nested_drop_jpeg]
        interval_cases k
        · exact Or.inr (Or.inr (Or.inl ⟨rfl, _, rfl⟩))
        · refine Or.inr (Or.inr (Or.inr (Or.inr (Or.inr (Or.inr (Or.inr
            ⟨by omega, by omega, by omega, by omega, 0xD8, _, rfl,
              Or.inr (Or.inr (Or.inr (Or.inr (Or.inl rfl))))⟩))))))
        · exact Or.inr (Or.inr (Or.inr (Or.inl ⟨by omega, _, rfl⟩)))
        · refine Or.inr (Or.inr (Or.inr (Or.inr (Or.inr (Or.inr (Or.inr
            ⟨by omega, by omega, by omega, by omega, 0xAA, _, rfl,
              Or.inr (Or.inr (Or.inr (Or.inl rfl)))⟩))))))
        · exact Or.inr (Or.inr (Or.inr (Or.inr (Or.inl ⟨by omega, _, rfl⟩))))
        · refine Or.inr (Or.inr (Or.inr (Or.inr (Or.inr (Or.inr (Or.inr
            ⟨by omega, by omega, by omega, by omega, 0xD9, _, rfl,
              Or.inr (Or.inr (Or.inr (Or.inr (Or.inr (Or.inl rfl)))))⟩))))))
      · by_cases hD : q < 11 + a + c
        · obtain ⟨t, ht⟩ := nested_drop_second_filler a c q (by omega) hD
          exact Or.inr (Or.inr (Or.inr (Or.inr (Or.inr (Or.inr (Or.inr
            ⟨by omega, by omega, by omega, by omega, 0xAA, t, ht,
              Or.inr (Or.inr (Or.inr (Or.inl rfl)))⟩))))))
        · obtain ⟨k, hk, hk5⟩ : ∃ k, q = 11 + a + c + k ∧ k < 5 :=
            ⟨q - 11 - a - c, by omega, by omega⟩
          subst hk
          rw [nested_drop_footer]
          interval_cases k
          · exact Or.inr (Or.inr (Or.inr (Or.inr (Or.inr (Or.inl ⟨rfl, rfl⟩)))))
          · exact Or.inr (Or.inr (Or.inr (Or.inr (Or.inr (Or.inr (Or.inl
              ⟨by omega, rfl⟩))))))
          · refine Or.inr (Or.inr (Or.inr (Or.inr (Or.inr (Or.inr (Or.inr
              ⟨by omega, by omega, by omega, by omega, 0x45, _, rfl,
                Or.inr (Or.inr (Or.inr (Or.inr (Or.inr (Or.inr (Or.inl rfl))))))⟩))))))
          · refine Or.inr (Or.inr (Or.inr (Or.inr (Or.inr (Or.inr (Or.inr
              ⟨by omega, by omega, by omega, by omega, 0x4F, _, rfl,
                Or.inr (Or.inr (Or.inr (Or.inr (Or.inr (Or.inr (Or.inr rfl))))))⟩))))))
          · refine Or.inr (Or.inr (Or.inr (Or.inr (Or.inr (Or.inr (Or.inr
              ⟨by omega, by omega, by omega, by omega, 0x46, _, rfl,
                Or.inr (Or.inl rfl)⟩))))))

theorem detect_header_inert (b : Byte) (hb : inert b) (t : List Byte) (m : Nat) :
    detect_header initialize_common_signatures (b :: t) m = none := by
  rcases hb with h | h | h | h | h | h | h | h <;> subst h <;>
    simp [detect_header, initialize_common_signatures, List.isPrefixOf]

theorem detect_header_50_44 (t : List Byte) (m : Nat) :
    detect_header initialize_common_signatures (0x50 :: 0x44 :: t) m = none := by
  simp [detect_header, initialize_common_signatures, List.isPrefixOf]

theorem detect_header_FF_AA (t : List Byte) (m : Nat) :
    detect_header initialize_common_signatures (0xFF :: 0xAA :: t) m = none := by
  simp [detect_header, initialize_common_signatures, List.isPrefixOf]

theorem detect_header_FF_D9 (t : List Byte) (m : Nat) :
    detect_header initialize_common_signatures (0xFF :: 0xD9 :: t) m = none := by
  simp [detect_header, initialize_common_signatures, List.isPrefixOf]

theorem detect_header_25_25 (t : List Byte) (m : Nat) :
    detect_header initialize_common_signatures (0x25 :: 0x25 :: t) m = none := by
  simp [detect_header, initialize_common_signatures, List.isPrefixOf]

theorem detect_header_25_45 (t : List Byte) (m : Nat) :
    detect_header initialize_common_signatures (0x25 :: 0x45 :: t) m = none := by
  simp [detect_header, initialize_common_signatures, List.isPrefixOf]

theorem detect_header_PDF (t : List Byte) (m : Nat) (hm : 5 ≤ m) :
    detect_header initialize_common_signatures (0x25 :: 0x50 :: 0x44 :: 0x46 :: 0x2D :: t) m
      = some pdf_signature := by
  simp [detect_header, initialize_common_signatures, List.isPrefixOf, pdf_signature, hm]

theorem detect_header_JPEG (t : List Byte) (m : Nat) (hm : 3 ≤ m) :
    detect_header initialize_common_signatures (0xFF :: 0xD8 :: 0xFF :: t) m
      = some jpeg_signature := by
  simp [detect_header, initialize_common_signatures, List.isPrefixOf, jpeg_signature, hm]

/-- The matcher looks at no byte beyond `size`. -/
theorem detect_header_take (signatures : List FileSignature) (l : List Byte) (m : Nat) :
    detect_header signatures (l.take m) m = detect_header signatures l m := by
  unfold detect_header
  congr 1
  funext sig
  by_cases h : sig.header.length ≤ m
  · have e : sig.header.isPrefixOf (l.take m) = sig.header.isPrefixOf l := by
      rw [Bool.eq_iff_iff, isPrefixOf_iff_take, isPrefixOf_iff_take, List.take_take,
        min_eq_left h]
    rw [e]
  · have : decide (m ≥ sig.header.length) = false := decide_eq_false h
    rw [this, Bool.false_and, Bool.false_and]

/-- Header detection on the nested input: the PDF at 0, the JPEG at `5 + a`. -/
theorem nested_detect (a c q m : Nat) (hq : q < a + c + 16) (hm : 3 ≤ m) (h0 : q = 0 → 5 ≤ m) :
    detect_header initialize_common_signatures ((nested_in_filler a c).drop q) m =
      if q = 0 then some pdf_signature
      else if q = 5 + a then some jpeg_signature else none := by
  rcases nested_drop_cases a c q hq with ⟨h, t, e⟩ | ⟨h, t, e⟩ | ⟨h, t, e⟩ | ⟨h, t, e⟩ |
    ⟨h, t, e⟩ | ⟨h, e⟩ | ⟨h, e⟩ | ⟨h1, h2, h3, h4, b, t, e, hb⟩
  · rw [e, if_pos h]; exact detect_header_PDF _ _ (h0 h)
  · rw [e, if_neg (by omega), if_neg (by omega)]; exact detect_header_50_44 _ _
  · rw [e, if_neg (by omega), if_pos h]; exact detect_header_JPEG _ _ hm
  · rw [e, if_neg (by omega), if_neg (by omega)]; exact detect_header_FF_AA _ _
  · rw [e, if_neg (by omega), if_neg (by omega)]; exact detect_header_FF_D9 _ _
  · rw [e, if_neg (by omega), if_neg (by omega)]; exact detect_header_25_25 _ _
  · rw [e, if_neg (by omega), if_neg (by omega)]; exact detect_header_25_45 _ _
  · rw [e, if_neg h1, if_neg h2]; exact detect_header_inert b hb _ _

/-- The PDF footer `%%EOF` starts at offset `11 + a + c` and nowhere else. -/
theorem nested_pdf_footer (a c q : Nat) :
    ((nested_in_filler a c).drop q).take 5 = pdf_signature.footer ↔ q = 11 + a + c := by
  constructor
  · intro h
    by_cases hq : q < a + c + 16
    · have h2 : ((nested_in_filler a c).drop q).take 2 = [0x25, 0x25] := by
        have := congrArg (List.take 2) h
        rw [List.take_take] at this
        exact this
      rcases nested_drop_cases a c q hq with ⟨_, t, e⟩ | ⟨_, t, e⟩ | ⟨_, t, e⟩ | ⟨_, t, e⟩ |
        ⟨_, t, e⟩ | ⟨h, _⟩ | ⟨_, e⟩ | ⟨_, _, _, _, b, t, e, hb⟩
      · rw [e] at h2; simp [jpeg_signature] at h2
      · rw [e] at h2; simp [jpeg_signature] at h2
      · rw [e] at h2; simp [jpeg_signature] at h2
      · rw [e] at h2; simp [jpeg_signature] at h2
      · rw [e] at h2; simp [jpeg_signature] at h2
      · exact h
      · rw [e] at h2; simp [jpeg_signature] at h2
      · rw [e] at h2
        exfalso
        have hb25 : b = 0x25 := by
          have := congrArg List.head? h2
          simpa using this
        rcases hb with h | h | h | h | h | h | h | h <;> rw [h] at hb25 <;>
          exact absurd hb25 (by decide)
    · rw [List.drop_eq_nil_of_le (by rw [nested_in_filler_length]; omega)] at h
      exact absurd h (by decide)
  · intro h
    have := nested_drop_footer a c 0
    rw [Nat.add_zero] at this
    rw [h, this]
    rfl

/-- The JPEG footer `FF D9` starts at offset `9 + a` and nowhere else. -/
theorem nested_jpeg_footer (a c q : Nat) :
    ((nested_in_filler a c).drop q).take 2 = jpeg_signature.footer ↔ q = 9 + a := by
  constructor
  · intro h2
    by_cases hq : q < a + c + 16
    · rcases nested_drop_cases a c q hq with ⟨_, t, e⟩ | ⟨_, t, e⟩ | ⟨_, t, e⟩ | ⟨_, t, e⟩ |
        ⟨h, _⟩ | ⟨_, e⟩ | ⟨_, e⟩ | ⟨_, _, _, _, b, t, e, hb⟩
      · rw [e] at h2; simp [jpeg_signature] at h2
      · rw [e] at h2; simp [jpeg_signature] at h2
      · rw [e] at h2; simp [jpeg_signature] at h2
      · rw [e] at h2; simp [jpeg_signature] at h2
      · exact h
      · rw [e] at h2; simp [jpeg_signature] at h2
      · rw [e] at h2; simp [jpeg_signature] at h2
      · rw [e] at h2
        exfalso
        have hbFF : b = 0xFF := by
          have := congrArg List.head? h2
          simpa [jpeg_signature] using this
        rcases hb with h | h | h | h | h | h | h | h <;> rw [h] at hbFF <;>
          exact absurd hbFF (by decide)
    · rw [List.drop_eq_nil_of_le (by rw [nested_in_filler_length]; omega)] at h2
      exact absurd h2 (by decide)
  · intro h
    have := nested_drop_jpeg a c 4
    rw [h, show 9 + a = 5 + a + 4 from by omega, this]
    rfl

namespace FileCarver

theorem nested_scan_hit_none (a c S L off i : Nat) (hne0 : S + i ≠ 0) (hnej : S + i ≠ 5 + a)
    (hlt : S + i < a + c + 16) (hi : i + 3 ≤ L) :
    (small_files_carver.started (nested_in_filler a c)).scan_hit
      (((nested_in_filler a c).drop S).take L) L off [] i = none := by
  unfold scan_hit
  rw [slice_drop]
  have hsig : (small_files_carver.started (nested_in_filler a c)).signatures
      = initialize_common_signatures := rfl
  rw [hsig, detect_header_take, nested_detect a c (S + i) (L - i) hlt (by omega)
    (fun h => absurd h hne0), if_neg hne0, if_neg hnej]

theorem nested_detect_window (a c S L i : Nat) (hlt : S + i < a + c + 16) (hi : i + 5 ≤ L) :
    detect_header (small_files_carver.started (nested_in_filler a c)).signatures
      ((((nested_in_filler a c).drop S).take L).drop i) (L - i) =
      if S + i = 0 then some pdf_signature
      else if S + i = 5 + a then some jpeg_signature else none := by
  rw [slice_drop]
  have hsig : (small_files_carver.started (nested_in_filler a c)).signatures
      = initialize_common_signatures := rfl
  rw [hsig, detect_header_take, nested_detect a c (S + i) (L - i) hlt (by omega)
    (fun _ => by omega)]

theorem nested_end_pdf (a c : Nat) (hN : a + c + 16 ≤ 1048576) :
    (small_files_carver.started (nested_in_filler a c)).determine_end pdf_signature 0
      = (a + c + 16, true) := by
  have h := determine_end_at (small_files_carver.started (nested_in_filler a c))
    (nested_in_filler a c) (started_openOn _ _)
    (by rw [nested_in_filler_length]; omega) pdf_signature 0 (11 + a + c) rfl rfl (by decide)
    (by
      rw [nested_in_filler_length]
      show 0 + (11 + a + c) + 5 ≤ a + c + 16
      omega)
    (by
      show 11 + a + c + 5 ≤ 1024 * 1024
      omega)
    (by
      rw [Nat.zero_add]
      exact (nested_pdf_footer a c _).mpr rfl)
    (by
      intro k hk hf
      rw [Nat.zero_add] at hf
      have := (nested_pdf_footer a c k).mp hf
      omega)
  rw [h]
  show (0 + (11 + a + c) + 5, true) = (a + c + 16, true)
  congr 1
  omega

theorem nested_end_jpeg (a c : Nat) (hN : a + c + 16 < 2 ^ 64) :
    (small_files_carver.started (nested_in_filler a c)).determine_end jpeg_signature (5 + a)
      = (a + 11, true) := by
  have h := determine_end_at (small_files_carver.started (nested_in_filler a c))
    (nested_in_filler a c) (started_openOn _ _)
    (by rw [nested_in_filler_length]; exact hN) jpeg_signature (5 + a) 4 rfl rfl (by decide)
    (by
      rw [nested_in_filler_length]
      show 5 + a + 4 + 2 ≤ a + c + 16
      omega)
    (by
      show 4 + 2 ≤ 1024 * 1024
      omega)
    ((nested_jpeg_footer a c _).mpr (by omega))
    (by
      intro k hk hf
      have := (nested_jpeg_footer a c _).mp hf
      omega)
  rw [h]
  show (5 + a + 4 + 2, true) = (a + 11, true)
  congr 1
  omega

/-- A JPEG candidate based after the JPEG footer is window-bounded. -/
theorem nested_end_jpeg_late (a c s : Nat) (hs : 9 + a < s)
    (h1 : a + c + 16 ≤ s + 1048576) (h2 : s + 1048576 < 2 ^ 64) :
    (small_files_carver.started (nested_in_filler a c)).determine_end jpeg_signature s
      = (a + c + 16, false) := by
  have ho := started_openOn small_files_carver (nested_in_filler a c)
  rw [determine_end_miss _ (nested_in_filler a c) ho jpeg_signature s (Or.inr (Or.inr (by
    intro j hj hf
    by_cases hsN : s < (nested_in_filler a c).length
    · rw [read_at_position_open _ _ ho s _ [] hsN] at hj hf
      simp only [] at hj hf
      rw [slice_drop, List.take_take, min_eq_left (by
        show jpeg_signature.footer.length ≤ _
        have : jpeg_signature.footer.length = 2 := rfl
        omega)] at hf
      have := (nested_jpeg_footer a c _).mp hf
      omega
    · rw [read_at_position_eof _ _ ho s _ [] (by omega)] at hj
      simp only [] at hj
      have : jpeg_signature.footer.length = 2 := rfl
      omega)))]
  rw [nested_in_filler_length]
  have hsw : (small_files_carver.started (nested_in_filler a c)).search_window_ = 1048576 := rfl
  rw [hsw, Nat.mod_eq_of_lt h2, min_eq_right h1]

theorem size_of_span (e s : Nat) (h : s ≤ e) (he : e < 2 ^ 64) :
    (e + 2 ^ 64 - s) % 2 ^ 64 = e - s := by
  have : e + 2 ^ 64 - s = (e - s) + 2 ^ 64 := by omega
  rw [this, Nat.add_mod_right, Nat.mod_eq_of_lt (by omega)]

theorem nested_hit_pdf (a c L : Nat) (hL : 5 ≤ L) (hN : a + c + 16 ≤ 1048576) :
    (small_files_carver.started (nested_in_filler a c)).scan_hit
      (((nested_in_filler a c).drop 0).take L) L 0 [] 0 =
      some ⟨pdf_signature, 0, a + c + 16, a + c + 16, true⟩ := by
  have hd := nested_detect_window a c 0 L 0 (by omega) (by omega)
  rw [if_pos (by omega)] at hd
  have hsz : (a + c + 16 + 2 ^ 64 - (0 + 0)) % 2 ^ 64 = a + c + 16 := by
    rw [size_of_span _ _ (by omega) (by omega)]
    omega
  have hmin : (small_files_carver.started (nested_in_filler a c)).min_file_size_ = 1 := rfl
  have hmax : (small_files_carver.started (nested_in_filler a c)).max_file_size_ = 0 := rfl
  rw [scan_hit_of_pass _ _ _ _ _ _ _ hd (Or.inl rfl) (by
    rw [show (0 : Nat) + 0 = 0 from rfl, nested_end_pdf a c hN, hmin, hmax]
    simp only []
    rw [show (0 : Nat) + 0 = 0 from rfl] at hsz
    rw [hsz]
    exact ⟨by omega, Or.inl trivial⟩)]
  rw [show (0 : Nat) + 0 = 0 from rfl, nested_end_pdf a c hN]
  simp only []
  rw [show (0 : Nat) + 0 = 0 from rfl] at hsz
  rw [hsz]

theorem nested_hit_jpeg (a c L : Nat) (hL : a + 10 ≤ L) (hN : a + c + 16 < 2 ^ 64) :
    (small_files_carver.started (nested_in_filler a c)).scan_hit
      (((nested_in_filler a c).drop 0).take L) L 0 [] (5 + a) =
      some ⟨jpeg_signature, 5 + a, a + 11, 6, true⟩ := by
  have hd := nested_detect_window a c 0 L (5 + a) (by omega) (by omega)
  rw [if_neg (by omega), if_pos (by omega)] at hd
  have hsz : (a + 11 + 2 ^ 64 - (0 + (5 + a))) % 2 ^ 64 = 6 := by
    rw [size_of_span _ _ (by omega) (by omega)]
    omega
  have hmin : (small_files_carver.started (nested_in_filler a c)).min_file_size_ = 1 := rfl
  have hmax : (small_files_carver.started (nested_in_filler a c)).max_file_size_ = 0 := rfl
  have hs : 0 + (5 + a) = 5 + a := by omega
  rw [scan_hit_of_pass _ _ _ _ _ _ _ hd (Or.inl rfl) (by
    rw [hs, nested_end_jpeg a c hN, hmin, hmax]
    simp only []
    rw [hs] at hsz
    rw [hsz]
    exact ⟨by omega, Or.inl trivial⟩)]
  rw [hs, nested_end_jpeg a c hN]
  simp only []
  rw [hs] at hsz
  rw [hsz]

theorem nested_hit_jpeg_late (a c S L off i : Nat) (he : S + i = 5 + a) (hi : i + 5 ≤ L)
    (hlate : 9 + a < off + i) (hin : off + i < a + c + 16)
    (hN : a + c + 16 ≤ 1048576) :
    (small_files_carver.started (nested_in_filler a c)).scan_hit
      (((nested_in_filler a c).drop S).take L) L off [] i =
      some ⟨jpeg_signature, off + i, a + c + 16, a + c + 16 - (off + i), false⟩ := by
  have hd := nested_detect_window a c S L i (by omega) hi
  rw [if_neg (by omega), if_pos he] at hd
  have hsz : (a + c + 16 + 2 ^ 64 - (off + i)) % 2 ^ 64 = a + c + 16 - (off + i) :=
    size_of_span _ _ (by omega) (by omega)
  have hmin : (small_files_carver.started (nested_in_filler a c)).min_file_size_ = 1 := rfl
  have hmax : (small_files_carver.started (nested_in_filler a c)).max_file_size_ = 0 := rfl
  have hend := nested_end_jpeg_late a c (off + i) hlate (by omega) (by omega)
  rw [scan_hit_of_pass _ _ _ _ _ _ _ hd (Or.inl rfl) (by
    rw [hend, hmin, hmax]
    simp only []
    rw [hsz]
    exact ⟨by omega, Or.inl trivial⟩)]
  rw [hend]
  simp only []
  rw [hsz]

/-- First window of a nested input longer than one chunk: the PDF and the JPEG. -/
theorem nested_first_window (a c : Nat) (ha : a + 10 ≤ 65536) (hlen : 65536 ≤ a + c + 16)
    (hN : a + c + 16 ≤ 1048576) :
    (small_files_carver.started (nested_in_filler a c)).scan_window []
      (((nested_in_filler a c).drop 0).take 65536) 65536 0 =
      [⟨pdf_signature, 0, a + c + 16, a + c + 16, true⟩,
        ⟨jpeg_signature, 5 + a, a + 11, 6, true⟩] := by
  unfold scan_window
  rw [filterMap_range_two _ _ 0 (5 + a) (by omega) (by omega) (by
    intro i hi h0 hj
    exact nested_scan_hit_none a c 0 65536 0 i (by omega) (by omega) (by omega) (by omega)),
    nested_hit_pdf a c 65536 (by omega) hN, nested_hit_jpeg a c 65536 (by omega) (by omega)]
  rfl

/-- Second window, based at the cursor 65536 while it starts at 61440: the JPEG
in the retained tail is found again and based 4096 bytes too far. -/
theorem nested_second_window (a c L : Nat) (ha1 : 61440 ≤ 5 + a) (ha2 : a + 10 ≤ 65536)
    (hL : 61440 + L = a + c + 16) (hN : a + c + 16 ≤ 1048576) (hc : 4096 ≤ c) :
    (small_files_carver.started (nested_in_filler a c)).scan_window []
      (((nested_in_filler a c).drop 61440).take L) L 65536 =
      [⟨jpeg_signature, 65536 + (5 + a - 61440), a + c + 16,
        a + c + 16 - (65536 + (5 + a - 61440)), false⟩] := by
  unfold scan_window
  refine filterMap_range_single _ _ (5 + a - 61440) _ (by omega) ?_ ?_
  · exact nested_hit_jpeg_late a c 61440 L 65536 (5 + a - 61440) (by omega) (by omega)
      (by omega) (by omega) hN
  · intro i hi hne
    exact nested_scan_hit_none a c 61440 L 65536 i (by omega) (by omega) (by omega) (by omega)

end FileCarver

/-- The two `process_chunk` calls made by the default reader (chunk size 65536,
overlap size 4096) on an input of 80000 bytes. -/
theorem chunk_calls_80000 (input : List Byte) (hlen : input.length = 80000) :
    chunk_calls (input.length + 1) (reader_at input 65536 4096 0 0 0 0) [] 0 =
      Except.ok
        ([⟨(input.drop 0).take 65536, 65536, 0, reader_at input 65536 4096 65536 4096 65536 1⟩,
          ⟨(input.drop 61440).take 18560, 18560, 65536,
            reader_at input 65536 4096 80000 0 80000 2⟩],
          reader_at input 65536 4096 80000 0 80000 2) := by
  have s0 : (reader_at input 65536 4096 0 0 0 0).read_chunk [] =
      (true, (input.drop 0).take 65536, 65536, reader_at input 65536 4096 65536 4096 65536 1) := by
    rw [read_chunk_reader_at input 65536 4096 0 0 0 0 [] (by omega) (by omega), hlen]
    norm_num
  have s1 : (reader_at input 65536 4096 65536 4096 65536 1).read_chunk
      ((input.drop 0).take 65536) =
      (true, (input.drop 61440).take 18560, 18560,
        reader_at input 65536 4096 80000 0 80000 2) := by
    rw [read_chunk_reader_at input 65536 4096 65536 4096 65536 1 _ (by omega) (by omega), hlen]
    norm_num
  have s2 : (reader_at input 65536 4096 80000 0 80000 2).read_chunk
      ((input.drop 61440).take 18560) =
      (false, (input.drop 61440).take 18560, 0,
        reader_at input 65536 4096 80000 0 80000 2) :=
    read_chunk_reader_at_eof input 65536 4096 80000 0 80000 2 _ (by omega)
  have hfuel : input.length + 1 = 3 + 79998 := by omega
  rw [hfuel]
  apply chunk_calls_mono
  rw [chunk_calls_succ, s0]
  simp only [if_true, ChunkReader.tell, reader_at]
  rw [if_neg (by omega)]
  have e1 := s1
  simp only [reader_at] at e1
  rw [chunk_calls_succ, e1]
  simp only [if_true, ChunkReader.tell]
  rw [if_neg (by omega)]
  have e2 := s2
  simp only [reader_at] at e2
  rw [chunk_calls_succ, e2]
  rfl

theorem nested_two_window_length : nested_two_window_input.length = 80000 :=
  nested_in_filler_length 61995 17989

namespace FileCarver

/-- Cores of the records that the engine with `min_file_size = 1` carves from
`nested_two_window_input`. -/
theorem nested_two_window_cores :
    (carved_after (small_files_carver.carve_file_types (some nested_two_window_input) [])).map
        CarvedFile.core =
      [("PDF", 0, 80000, 80000, true), ("JPEG", 62000, 62006, 6, true),
        ("JPEG", 66096, 80000, 13904, false)] := by
  have hcalls := chunk_calls_80000 nested_two_window_input nested_two_window_length
  rw [(carved_after_of_calls small_files_carver nested_two_window_input [] _ hcalls).2]
  simp only [List.flatMap_cons, List.flatMap_nil, List.append_nil]
  have w1 := nested_first_window 61995 17989 (by omega) (by omega) (by omega)
  have w2 := nested_second_window 61995 17989 18560 (by omega) (by omega) (by omega) (by omega)
    (by omega)
  have e : nested_two_window_input = nested_in_filler 61995 17989 := rfl
  rw [e, w1, w2]
  rfl

end FileCarver

/-! ## The claims -/

namespace FileCarver

/-- C1 (header witness) evaluated on `three_window_input` with the default
engine: both records are of type MP3 with `start_offset = 131072`, but the
input bytes at `[131072, 131075)` are `AA AA AA`, not the MP3 header
`49 44 33`; the header is at offset 126976. -/
theorem header_witness_three_windows :
    (carved_after (default_carver.carve_file_types (some three_window_input) [])).map
        CarvedFile.core =
      [("MP3", 131072, 131672, 600, false), ("MP3", 131072, 131672, 600, false)] ∧
    (∃ r ∈ carved_after (default_carver.carve_file_types (some three_window_input) []),
      ∃ sig ∈ default_carver.signatures, sig.name = r.type ∧
        (three_window_input.drop r.start_offset).take sig.header.length ≠ sig.header) ∧
    (three_window_input.drop 126976).take 3 = [0x49, 0x44, 0x33] := by
  refine ⟨three_window_cores, ?_, three_window_bytes_at_126976⟩
  have hc := three_window_cores
  cases hl : carved_after (default_carver.carve_file_types (some three_window_input) []) with
  | nil => rw [hl] at hc; simp at hc
  | cons r rest =>
    rw [hl] at hc
    simp only [List.map_cons, List.cons.injEq, CarvedFile.core, Prod.mk.injEq] at hc
    obtain ⟨⟨h1, h2, -⟩, -⟩ := hc
    refine ⟨r, List.mem_cons_self _ _, mp3_signature, by decide, h1.symm, ?_⟩
    rw [h2]
    show (three_window_input.drop 131072).take 3 ≠ [0x49, 0x44, 0x33]
    rw [three_window_bytes_at_131072]
    decide

/-- C2 as stated fails: with `min_file_size = 0` and `search_window = 0` the
four bytes `FF D8 FF AA` yield a JPEG record with `start_offset = end_offset`. -/
theorem bounds_validity_counterexample :
    ∃ r ∈ carved_after ((((FileCarver.new "out" quiet_world).set_min_file_size 0).set_search_window 0).carve_file_types
        (some [0xFF, 0xD8, 0xFF, 0xAA]) []),
      ¬ (r.start_offset < r.end_offset ∧ r.end_offset ≤ 4) :=
  ⟨⟨"JPEG_000000.jpg", "JPEG", 0, 0, 0, false, false⟩, List.mem_singleton.mpr rfl, by decide⟩

/-- C2 (bounds validity), amended.  Every record of a carve of an `N`-byte
input has `end_offset <= N`.  It has `start_offset < end_offset` provided
`min_file_size >= 1` or `search_window >= 1`, `search_window + N < 2 ^ 64` and
its `start_offset` is a position of the input (`start_offset < N`); the latter
holds for every record when the input fits in one chunk (`N <= chunk_size`). -/
theorem bounds_validity_amended (c : FileCarver) (input : List Byte) (types : List String)
    (r : CarvedFile) (hr : r ∈ carved_after (c.carve_file_types (some input) types)) :
    r.end_offset ≤ input.length ∧
    ((1 ≤ c.min_file_size_ ∨ 1 ≤ c.search_window_) →
      c.search_window_ + input.length < 2 ^ 64 →
      r.start_offset < input.length → r.start_offset < r.end_offset) ∧
    (input.length ≤ c.chunk_reader_.chunk_size_ → r.start_offset < input.length) := by
  obtain ⟨res, call, i, h, hcalls, hcall, hi, hs, hcore⟩ := carved_after_origin c input types r hr
  obtain ⟨-, -, s3, s4, s5, s6, s7, -⟩ := scan_hit_some _ _ _ _ _ _ _ hs
  simp only [CarvedFile.core, Hit.core, Prod.mk.injEq] at hcore
  obtain ⟨-, k2, k3, k4, -⟩ := hcore
  have ho := started_openOn c input
  obtain ⟨d1, d2, d3⟩ := determine_end_spec (c.started input) input ho h.signature
    (call.file_offset + i)
  rw [← s4] at d1
  have hmin : (c.started input).min_file_size_ = c.min_file_size_ := rfl
  have hsw : (c.started input).search_window_ = c.search_window_ := rfl
  refine ⟨by rw [k3]; exact d1, ?_, ?_⟩
  · intro h1 hw hlt
    rw [k2, s3] at hlt
    have hge := determine_end_ge (c.started input) input ho h.signature (call.file_offset + i)
      hlt (by rw [hsw]; omega)
    rw [← s4] at hge
    rw [k2, k3, s3]
    rcases h1 with h1 | h1
    · rw [hmin] at s7
      rw [s3] at s6
      have hfs : h.file_size = h.end_offset - (call.file_offset + i) := by
        rw [s6]
        have e : h.end_offset + 2 ^ 64 - (call.file_offset + i)
            = (h.end_offset - (call.file_offset + i)) + 2 ^ 64 := by omega
        rw [e, Nat.add_mod_right, Nat.mod_eq_of_lt (by omega)]
      omega
    · cases hb : ((c.started input).determine_end h.signature (call.file_offset + i)).2 with
      | true =>
        obtain ⟨-, -, hne, -, hle, -, -⟩ := d2 hb
        rw [← s4] at hle
        have hpos : 0 < h.signature.footer.length := List.length_pos.mpr hne
        omega
      | false =>
        have he := d3 hb
        rw [← s4, hsw, Nat.mod_eq_of_lt (by omega)] at he
        rw [he]
        omega
  · intro hcs
    obtain ⟨o1, o2, -⟩ := chunk_calls_one_window input _ _ hcs res hcalls call hcall
    rw [k2, s3, o1]
    omega

/-- Instance of the amended bounds on the record of scenario S1. -/
theorem bounds_validity_S1 :
    record_S1 ∈ carved_after (small_files_carver.carve_file_types (some scenario_S1) []) ∧
    record_S1.end_offset ≤ scenario_S1.length ∧
    record_S1.start_offset < record_S1.end_offset ∧
    record_S1.start_offset < scenario_S1.length := by
  have h := bounds_validity_amended small_files_carver scenario_S1 [] record_S1
    (List.mem_singleton.mpr rfl)
  exact ⟨List.mem_singleton.mpr rfl, h.1, h.2.1 (Or.inl (by decide)) (by decide) (by decide),
    h.2.2 (by decide)⟩

/-- One window, one record.  For an input of `N` bytes that is
scanned as one window (`4 <= N <= chunk_size`), a header found by
`detect_header` at offset `p` with `p + 4 <= N` that passes the type filter
and the size filter produces exactly one record with `start_offset = p`, of
the type of the detected signature; the carve completes. -/
theorem one_window_single_record (c : FileCarver) (input : List Byte) (types : List String)
    (p : Nat) (sig : FileSignature)
    (h4 : 4 ≤ input.length) (hcs : input.length ≤ c.chunk_reader_.chunk_size_)
    (hp : p + 4 ≤ input.length)
    (hd : detect_header c.signatures (input.drop p) (input.length - p) = some sig)
    (ht : types = [] ∨ sig.name ∈ types)
    (hs : c.min_file_size_ ≤ (((c.started input).determine_end sig p).1 + 2 ^ 64 - p) % 2 ^ 64 ∧
      (c.max_file_size_ = 0 ∨
        (((c.started input).determine_end sig p).1 + 2 ^ 64 - p) % 2 ^ 64 ≤ c.max_file_size_)) :
    (∃ c', c.carve_file_types (some input) types = Except.ok (true, c')) ∧
    ∃ r, (carved_after (c.carve_file_types (some input) types)).filter
        (fun r => decide (r.start_offset = p)) = [r] ∧ r.type = sig.name := by
  have hok : ∃ c', c.carve_file_types (some input) types = Except.ok (true, c') := by
    rw [carve_file_types_some, chunk_calls_single input _ _ h4 hcs]
    exact ⟨_, rfl⟩
  refine ⟨hok, ?_⟩
  have hcores : (carved_after (c.carve_file_types (some input) types)).map CarvedFile.core =
      ((c.started input).scan_window types input input.length 0).map Hit.core := by
    obtain ⟨c', hc'⟩ := hok
    obtain ⟨res, h1, -, h3, -⟩ := carve_file_types_cores c input types true c' hc'
    rw [chunk_calls_single input _ _ h4 hcs] at h1
    simp only [Except.ok.injEq] at h1
    rw [hc']
    show c'.carved_files_.map CarvedFile.core = _
    rw [h3, ← h1]
    simp
  have hhit := scan_hit_of_pass (c.started input) input input.length 0 types p sig hd ht
    (by simpa using hs)
  have hfil : ((c.started input).scan_window types input input.length 0).filter
      (fun h => decide (h.start_offset = p)) =
      [⟨sig, 0 + p, ((c.started input).determine_end sig (0 + p)).1,
        (((c.started input).determine_end sig (0 + p)).1 + 2 ^ 64 - (0 + p)) % 2 ^ 64,
        ((c.started input).determine_end sig (0 + p)).2⟩] := by
    unfold scan_window
    rw [List.filter_filterMap]
    refine filterMap_range_single _ _ p _ (by omega) ?_ ?_
    · rw [hhit]; simp [Option.filter]
    · intro i _ hip
      cases hi : (c.started input).scan_hit input input.length 0 types i with
      | none => rfl
      | some h =>
        have := scan_hit_start _ _ _ _ _ _ _ hi
        simp [Option.filter, this, hip]
  have hmap := filter_start_cores (carved_after (c.carve_file_types (some input) types)) p
  rw [hcores, List.filter_map] at hmap
  have hmap2 : ((carved_after (c.carve_file_types (some input) types)).filter
      (fun r => decide (r.start_offset = p))).map CarvedFile.core =
      (((c.started input).scan_window types input input.length 0).filter
        (fun h => decide (h.start_offset = p))).map Hit.core := hmap
  rw [hfil] at hmap2
  cases hl : (carved_after (c.carve_file_types (some input) types)).filter
      (fun r => decide (r.start_offset = p)) with
  | nil => rw [hl] at hmap2; simp at hmap2
  | cons r rest =>
    rw [hl] at hmap2
    simp only [List.map_cons, List.map_nil, List.cons.injEq, List.map_eq_nil_iff] at hmap2
    obtain ⟨hr, hrest⟩ := hmap2
    subst hrest
    refine ⟨r, rfl, ?_⟩
    simp only [CarvedFile.core, Hit.core, Prod.mk.injEq] at hr
    exact hr.1

/-- Instance of the one-window count: the JPEG header at offset 3 of scenario S1. -/
theorem one_window_single_record_S1 :
    4 ≤ scenario_S1.length ∧
    scenario_S1.length ≤ small_files_carver.chunk_reader_.chunk_size_ ∧
    3 + 4 ≤ scenario_S1.length ∧
    detect_header small_files_carver.signatures (scenario_S1.drop 3) (scenario_S1.length - 3)
      = some jpeg_signature ∧
    (∃ c', small_files_carver.carve_file_types (some scenario_S1) [] = Except.ok (true, c')) ∧
    ∃ r, (carved_after (small_files_carver.carve_file_types (some scenario_S1) [])).filter
        (fun r => decide (r.start_offset = 3)) = [r] ∧ r.type = jpeg_signature.name := by
  have h := one_window_single_record small_files_carver scenario_S1 [] 3 jpeg_signature
    (by decide) (by decide) (by decide) rfl (Or.inl rfl) (by decide)
  exact ⟨by decide, by decide, by decide, rfl, h.1, h.2⟩

end FileCarver

namespace FileCarver

/-- C4 evaluated on `three_window_input` with the default engine: scanning the
whole input as one window at offset 0 emits the pair `(126976, MP3)`, while
`carve_file_types` with the engine's reader emits `(131072, MP3)` twice. -/
theorem chunking_three_windows :
    (∃ c1, (default_carver.started three_window_input).process_chunk three_window_input
        three_window_input.length 0 [] = Except.ok c1 ∧
      c1.carved_files_.map (fun r => (r.start_offset, r.type)) = [(126976, "MP3")]) ∧
    (carved_after (default_carver.carve_file_types (some three_window_input) [])).map
      (fun r => (r.start_offset, r.type)) = [(131072, "MP3"), (131072, "MP3")] := by
  refine ⟨?_, ?_⟩
  · have h4 : ¬ three_window_input.length < 4 := by rw [three_window_length]; omega
    refine ⟨_, by unfold process_chunk; rw [if_neg h4], ?_⟩
    obtain ⟨-, -, h3, -⟩ := foldl_process_position three_window_input three_window_input.length
      0 [] (List.range (three_window_input.length - 4 + 1)) (default_carver.started three_window_input)
    have hs := three_window_single_scan
    unfold scan_window at hs
    rw [hs] at h3
    have he : (default_carver.started three_window_input).carved_files_ = [] := rfl
    rw [he] at h3
    have hm : ∀ l : List CarvedFile, l.map (fun r => (r.start_offset, r.type))
        = (l.map CarvedFile.core).map (fun x => (x.2.1, x.1)) := by
      intro l; rw [List.map_map]; rfl
    rw [hm, h3]
    rfl
  · have hm : ∀ l : List CarvedFile, l.map (fun r => (r.start_offset, r.type))
        = (l.map CarvedFile.core).map (fun x => (x.2.1, x.1)) := by
      intro l; rw [List.map_map]; rfl
    rw [hm, three_window_cores]
    rfl

/-- C5 (footer witness).  For every input and configuration, a record with
`has_valid_footer = true` ends right after an occurrence of the footer of a
registry signature named `r.type`: the input bytes at
`[end_offset - len(footer), end_offset)` are that footer.  When the registry
names are pairwise distinct, that signature is the only one named `r.type`. -/
theorem footer_witness (c : FileCarver) (input : List Byte) (types : List String)
    (r : CarvedFile) (hr : r ∈ carved_after (c.carve_file_types (some input) types))
    (hv : r.has_valid_footer = true) :
    ∃ sig ∈ c.signatures, sig.name = r.type ∧ sig.has_footer = true ∧
      sig.footer.length ≤ r.end_offset ∧ r.end_offset ≤ input.length ∧
      (input.drop (r.end_offset - sig.footer.length)).take sig.footer.length = sig.footer ∧
      ((c.signatures.map FileSignature.name).Nodup →
        ∀ sig2 ∈ c.signatures, sig2.name = r.type → sig2 = sig) := by
  obtain ⟨res, call, i, h, -, -, -, hs, hcore⟩ := carved_after_origin c input types r hr
  obtain ⟨s1, -, s3, s4, s5, -, -, -⟩ := scan_hit_some _ _ _ _ _ _ _ hs
  simp only [CarvedFile.core, Hit.core, Prod.mk.injEq] at hcore
  obtain ⟨k1, k2, k3, k4, k5⟩ := hcore
  have hmem : h.signature ∈ c.signatures := by
    have := List.mem_of_find?_eq_some s1
    simpa [started, clear_results] using this
  obtain ⟨d1, d2, -⟩ := determine_end_spec (c.started input) input (started_openOn c input)
    h.signature (call.file_offset + i)
  rw [← s4] at d1
  rw [← s5, ← k5, hv] at d2
  obtain ⟨-, e2, -, -, e5, -, e7⟩ := d2 rfl
  rw [← s4] at e5 e7
  refine ⟨h.signature, hmem, k1.symm, e2, ?_, ?_, ?_, ?_⟩
  · rw [k3]; omega
  · rw [k3]; exact d1
  · rw [k3]; exact e7
  · intro hnd sig2 hm2 hn2
    have hinj := List.inj_on_of_nodup_map hnd
    exact hinj hm2 hmem (by rw [hn2, k1])

/-- Instance of the footer witness on the record of scenario S1. -/
theorem footer_witness_S1 :
    record_S1 ∈ carved_after (small_files_carver.carve_file_types (some scenario_S1) []) ∧
    record_S1.has_valid_footer = true ∧
    ∃ sig ∈ small_files_carver.signatures, sig.name = record_S1.type ∧ sig.has_footer = true ∧
      sig.footer.length ≤ record_S1.end_offset ∧ record_S1.end_offset ≤ scenario_S1.length ∧
      (scenario_S1.drop (record_S1.end_offset - sig.footer.length)).take sig.footer.length
        = sig.footer ∧
      ((small_files_carver.signatures.map FileSignature.name).Nodup →
        ∀ sig2 ∈ small_files_carver.signatures, sig2.name = record_S1.type → sig2 = sig) :=
  ⟨List.mem_singleton.mpr rfl, rfl,
    footer_witness small_files_carver scenario_S1 [] record_S1 (List.mem_singleton.mpr rfl) rfl⟩

/-- C6 (size filter).  A header hit that passed the type filter, with computed
size `file_size = end - start`, is appended to the results exactly when
`min_file_size <= file_size` and (`max_file_size = 0` or
`file_size <= max_file_size`); otherwise the engine state is left unchanged.
Hence every record of a carve satisfies both bounds. -/
theorem size_filter (c : FileCarver) (data : List Byte) (n off : Nat) (types : List String)
    (i : Nat) (sig : FileSignature)
    (hd : detect_header c.signatures (data.drop i) (n - i) = some sig)
    (ht : types = [] ∨ sig.name ∈ types) :
    ((c.min_file_size_ ≤ ((c.determine_end sig (off + i)).1 + 2 ^ 64 - (off + i)) % 2 ^ 64 ∧
        (c.max_file_size_ = 0 ∨
          ((c.determine_end sig (off + i)).1 + 2 ^ 64 - (off + i)) % 2 ^ 64 ≤ c.max_file_size_)) →
      ∃ r, (process_position data n off types c i).carved_files_ = c.carved_files_ ++ [r] ∧
        r.type = sig.name ∧ r.start_offset = off + i ∧
        r.end_offset = (c.determine_end sig (off + i)).1 ∧
        r.file_size = ((c.determine_end sig (off + i)).1 + 2 ^ 64 - (off + i)) % 2 ^ 64) ∧
    (¬ (c.min_file_size_ ≤ ((c.determine_end sig (off + i)).1 + 2 ^ 64 - (off + i)) % 2 ^ 64 ∧
        (c.max_file_size_ = 0 ∨
          ((c.determine_end sig (off + i)).1 + 2 ^ 64 - (off + i)) % 2 ^ 64 ≤ c.max_file_size_)) →
      process_position data n off types c i = c) ∧
    (∀ (input : Option (List Byte)) (filter : List String) (r : CarvedFile),
      r ∈ carved_after (c.carve_file_types input filter) →
        c.min_file_size_ ≤ r.file_size ∧
        (c.max_file_size_ = 0 ∨ r.file_size ≤ c.max_file_size_)) := by
  refine ⟨?_, ?_, ?_⟩
  · intro hp
    rw [process_position_pass data n off types c i sig hd ht, if_pos hp]
    obtain ⟨r, h1, h2⟩ := emit_candidate_append c sig (off + i) (c.determine_end sig (off + i)).1
      (((c.determine_end sig (off + i)).1 + 2 ^ 64 - (off + i)) % 2 ^ 64)
      (c.determine_end sig (off + i)).2
    simp only [CarvedFile.core, Prod.mk.injEq] at h2
    exact ⟨r, h1, h2.1, h2.2.1, h2.2.2.1, h2.2.2.2.1⟩
  · intro hp
    rw [process_position_pass data n off types c i sig hd ht, if_neg hp]
  · intro input filter r hr
    cases input with
    | none => simp [carve_file_types_none] at hr
    | some bytes =>
      obtain ⟨res, call, j, h, -, -, -, hs, hcore⟩ := carved_after_origin c bytes filter r hr
      obtain ⟨-, -, -, -, -, -, s7, s8⟩ := scan_hit_some _ _ _ _ _ _ _ hs
      simp only [CarvedFile.core, Hit.core, Prod.mk.injEq] at hcore
      rw [hcore.2.2.2.1]
      exact ⟨s7, s8⟩

/-- Instance of the size filter on scenario S1, at window index 3. -/
theorem size_filter_S1 :
    detect_header (small_files_carver.started scenario_S1).signatures (scenario_S1.drop 3)
        (19 - 3) = some jpeg_signature ∧
    (([] : List String) = [] ∨ jpeg_signature.name ∈ ([] : List String)) ∧
    (∃ r, (process_position scenario_S1 19 0 [] (small_files_carver.started scenario_S1)
          3).carved_files_ = (small_files_carver.started scenario_S1).carved_files_ ++ [r] ∧
        r.type = "JPEG" ∧ r.start_offset = 3 ∧ r.end_offset = 17 ∧ r.file_size = 14) ∧
    (∀ r ∈ carved_after (small_files_carver.carve_file_types (some scenario_S1) []),
      1 ≤ r.file_size) := by
  have h := size_filter (small_files_carver.started scenario_S1) scenario_S1 19 0 [] 3
    jpeg_signature rfl (Or.inl rfl)
  refine ⟨rfl, Or.inl rfl, h.1 (by decide), ?_⟩
  intro r hr
  have h3 := h.2.2 (some scenario_S1) [] r hr
  exact h3.1

/-- C7 (type filter).  For every engine state, input (also one that cannot be
opened) and type name `T`, `carve_file_types(input, [T])` and
`carve_file(input)` end the same way (same fault, or same result flag), and the
sequence of `(type, start_offset, end_offset, file_size, has_valid_footer)`
tuples of the filtered run is the subsequence of the tuples of the unfiltered
run whose type is `T`; `files_found` of the filtered run is the number of those
tuples. -/
theorem type_filter (c : FileCarver) (input : Option (List Byte)) (T : String) :
    (c.carve_file_types input [T]).map
        (fun p => (p.1, p.2.carved_files_.map CarvedFile.core, p.2.files_found_)) =
      (c.carve_file input).map
        (fun p => (p.1, (p.2.carved_files_.map CarvedFile.core).filter (fun x => x.1 == T),
          ((p.2.carved_files_.map CarvedFile.core).filter (fun x => x.1 == T)).length)) := by
  cases input with
  | none => rfl
  | some bytes =>
    unfold carve_file
    rw [carve_file_types_some, carve_file_types_some]
    cases hc : chunk_calls (bytes.length + 1)
        (reader_at bytes c.chunk_reader_.chunk_size_ c.chunk_reader_.overlap_size_ 0 0 0 0)
        [] 0 with
    | error e => rfl
    | ok res =>
      have hbase := (chunk_calls_base _ _ _ _ _ hc).1
      rw [← started_reader] at hbase
      obtain ⟨-, a2, a3⟩ := foldl_apply_call_spec [T] res.1 (c.started bytes) hbase
      obtain ⟨-, b2, -⟩ := foldl_apply_call_spec [] res.1 (c.started bytes) hbase
      have hempty : (c.started bytes).carved_files_ = [] := rfl
      have hzero : (c.started bytes).files_found_ = 0 := rfl
      rw [hempty] at a2 b2
      rw [hzero] at a3
      simp only [List.map_nil, List.nil_append, Nat.zero_add] at a2 a3 b2
      have key : (res.1.flatMap fun call => ((c.started bytes).scan_window [T] call.data
            call.chunk_size call.file_offset).map Hit.core) =
          (res.1.flatMap fun call => ((c.started bytes).scan_window [] call.data
            call.chunk_size call.file_offset).map Hit.core).filter (fun x => x.1 == T) := by
        rw [List.filter_flatMap]
        congr 1
        funext call
        exact scan_window_single_type _ _ _ _ _
      show Except.ok (true, _, _) = Except.ok (true, _, _)
      simp only [a2, a3, b2, key]

/-- C8 as stated fails on `three_window_input` with the default engine: the
two records are consecutive, have the same start offset 131072 and the same
type, hence the same registry index 9. -/
theorem offset_monotonicity_counterexample :
    ∃ a b, carved_after (default_carver.carve_file_types (some three_window_input) []) = [a, b] ∧
      a.start_offset = b.start_offset ∧
      (default_carver.signatures.map FileSignature.name).indexOf a.type = 9 ∧
      (default_carver.signatures.map FileSignature.name).indexOf b.type = 9 := by
  obtain ⟨a, b, hl, ha, hb⟩ := two_records_of_cores _ _ _ three_window_cores
  simp only [CarvedFile.core, Prod.mk.injEq] at ha hb
  refine ⟨a, b, hl, by rw [ha.2.1, hb.2.1], ?_, ?_⟩
  · rw [ha.1]; decide
  · rw [hb.1]; decide

/-- C8 (offset monotonicity), amended.  The records appended by one
`process_chunk` call (one window) have strictly increasing start offsets, so
two records of the same window never share a start offset; and for an input
that fits in one chunk (`N <= chunk_size`) the whole result list has strictly
increasing start offsets. -/
theorem offset_monotonicity_amended (c : FileCarver) (data : List Byte) (n off : Nat)
    (types : List String) :
    (∀ c', c.process_chunk data n off types = Except.ok c' →
      ∃ new, c'.carved_files_ = c.carved_files_ ++ new ∧
        new.Pairwise (fun a b => a.start_offset < b.start_offset)) ∧
    (∀ input : List Byte, input.length ≤ c.chunk_reader_.chunk_size_ →
      (carved_after (c.carve_file_types (some input) types)).Pairwise
        (fun a b => a.start_offset < b.start_offset)) := by
  refine ⟨?_, ?_⟩
  · intro c' h
    unfold process_chunk at h
    split at h
    · simp at h
    · simp only [Except.ok.injEq] at h
      obtain ⟨new, h1, h2⟩ := foldl_process_position_append data n off types
        (List.range (n - 4 + 1)) c
      rw [h] at h1
      refine ⟨new, h1, ?_⟩
      have hs := scan_window_sorted c types data n off
      have hm : (new.map CarvedFile.core).Pairwise (fun x y => x.2.1 < y.2.1) := by
        rw [h2]
        exact List.Pairwise.map _ (fun a b hab => hab) hs
      exact List.Pairwise.of_map CarvedFile.core (fun a b hab => hab) hm
  · intro input hcs
    have hs := scan_window_sorted (c.started input) types input input.length 0
    have hm : ((carved_after (c.carve_file_types (some input) types)).map
        CarvedFile.core).Pairwise (fun x y => x.2.1 < y.2.1) := by
      rcases carved_after_one_window c input types hcs with h | ⟨-, h⟩
      · rw [h]; exact List.Pairwise.nil
      · rw [h]; exact List.Pairwise.map _ (fun a b hab => hab) hs
    exact List.Pairwise.of_map CarvedFile.core (fun a b hab => hab) hm

/-- Instance of the one-window ordering: scenario S1 fits in one chunk. -/
theorem offset_monotonicity_S1 :
    scenario_S1.length ≤ small_files_carver.chunk_reader_.chunk_size_ ∧
    (carved_after (small_files_carver.carve_file_types (some scenario_S1) [])).Pairwise
      (fun a b => a.start_offset < b.start_offset) :=
  ⟨by decide, (offset_monotonicity_amended small_files_carver [] 0 0 []).2 scenario_S1
    (by decide)⟩

/-- C9 (extraction round-trip).  For every input of `N` bytes and every
configuration with `search_window + N < 2 ^ 64`, the data written to output
files during a completed carve are, in order, one write per record with
`extracted = true`, to `output_directory/filename` of that record, of exactly
the bytes `input[start_offset .. end_offset)`; and for such a record
`file_size = end_offset - start_offset` with
`start_offset < end_offset <= N`. -/
theorem extraction_round_trip (c : FileCarver) (input : List Byte) (types : List String)
    (hw : c.search_window_ + input.length < 2 ^ 64) (b : Bool) (c' : FileCarver)
    (h : c.carve_file_types (some input) types = Except.ok (b, c')) :
    writes c'.world.disk_log = writes c.world.disk_log ++
        (c'.carved_files_.filter (fun r => r.extracted)).map (fun r =>
          (c.output_directory_ ++ "/" ++ r.filename,
            (input.drop r.start_offset).take (r.end_offset - r.start_offset))) ∧
    ∀ r ∈ c'.carved_files_, r.extracted = true →
      r.file_size = r.end_offset - r.start_offset ∧ r.start_offset < r.end_offset ∧
      r.end_offset ≤ input.length := by
  refine carve_file_types_inv (fun st =>
    writes st.world.disk_log = writes c.world.disk_log ++
        (st.carved_files_.filter (fun r => r.extracted)).map (fun r =>
          (c.output_directory_ ++ "/" ++ r.filename,
            (input.drop r.start_offset).take (r.end_offset - r.start_offset))) ∧
    ∀ r ∈ st.carved_files_, r.extracted = true →
      r.file_size = r.end_offset - r.start_offset ∧ r.start_offset < r.end_offset ∧
      r.end_offset ≤ input.length) c input types ?_ ?_ ?_ ?_ b c' h
  · intro st r hP; exact hP
  · intro st k hP; exact hP
  · intro st data n off i hit hf hP hh
    obtain ⟨hP1, hP2⟩ := hP
    have ho : st.chunk_reader_.OpenOn input :=
      openOn_of_base _ _ input (by have := congrArg FileCarver.chunk_reader_ hf; exact this)
        (started_openOn c input)
    have hdir : st.output_directory_ = c.output_directory_ := by
      have := congrArg FileCarver.output_directory_ hf; exact this
    have hsw : st.search_window_ = c.search_window_ := by
      have := congrArg FileCarver.search_window_ hf; exact this
    obtain ⟨-, -, s3, s4, -, s6, -, -⟩ := scan_hit_some _ _ _ _ _ _ _ hh
    obtain ⟨d1, -, -⟩ := determine_end_spec st input ho hit.signature (off + i)
    rw [← s4] at d1
    obtain ⟨ex, e1, e2, e3⟩ := emit_candidate_effect st hit.signature hit.start_offset
      hit.end_offset hit.file_size hit.has_valid_footer
    rw [e1, e2]
    cases ex with
    | false =>
      refine ⟨?_, ?_⟩
      · simp [List.filter_append, hP1]
      · intro r hr hx
        rw [List.mem_append, List.mem_singleton] at hr
        rcases hr with hr | hr
        · exact hP2 r hr hx
        · subst hr; simp at hx
    | true =>
      have hne := e3 rfl
      have hlt : hit.start_offset < input.length := by
        by_contra hge
        rw [read_at_position_eof _ input ho _ _ _ (by omega)] at hne
        exact hne rfl
      have hge : hit.start_offset ≤ hit.end_offset := by
        have := determine_end_ge st input ho hit.signature (off + i)
          (by rw [← s3]; exact hlt) (by rw [hsw, ← s3]; omega)
        rw [← s4, ← s3] at this
        exact this
      have hfs : hit.file_size = hit.end_offset - hit.start_offset := by
        rw [s6]
        have e : hit.end_offset + 2 ^ 64 - hit.start_offset
            = (hit.end_offset - hit.start_offset) + 2 ^ 64 := by omega
        rw [e, Nat.add_mod_right, Nat.mod_eq_of_lt (by omega)]
      rw [read_at_position_open _ input ho _ _ _ hlt] at hne ⊢
      simp only [] at hne ⊢
      have hmin : min hit.file_size (input.length - hit.start_offset)
          = hit.end_offset - hit.start_offset := by omega
      rw [hmin] at hne ⊢
      refine ⟨?_, ?_⟩
      · simp only [List.filter_append, List.map_append, hP1, if_true, List.filter_cons,
          List.filter_nil, List.map_cons, List.map_nil, List.append_assoc, hdir,
          List.take_take, min_self]
      · intro r hr hx
        rw [List.mem_append, List.mem_singleton] at hr
        rcases hr with hr | hr
        · exact hP2 r hr hx
        · subst hr
          simp only []
          exact ⟨hfs, by omega, d1⟩
  · exact ⟨by simp [started, clear_results], by simp [started, clear_results]⟩

/-- Instance of the extraction round-trip: scenario S1 writes the 14 bytes of
the embedded JPEG to `out/JPEG_000000.jpg`. -/
theorem extraction_round_trip_S1 :
    small_files_carver.search_window_ + scenario_S1.length < 2 ^ 64 ∧
    small_files_carver.carve_file_types (some scenario_S1) [] =
      Except.ok (true, state_after (small_files_carver.carve_file_types (some scenario_S1) [])
        small_files_carver) ∧
    writes (state_after (small_files_carver.carve_file_types (some scenario_S1) [])
        small_files_carver).world.disk_log =
      [("out/JPEG_000000.jpg",
        [0xFF, 0xD8, 0xFF, 0xE0, 0x00, 0x10, 0x4A, 0x46, 0x49, 0x46, 0x00, 0x01, 0xFF, 0xD9])] ∧
    ∀ r ∈ (state_after (small_files_carver.carve_file_types (some scenario_S1) [])
        small_files_carver).carved_files_, r.extracted = true →
      r.file_size = r.end_offset - r.start_offset ∧ r.start_offset < r.end_offset ∧
      r.end_offset ≤ scenario_S1.length := by
  have h := extraction_round_trip small_files_carver scenario_S1 [] (by decide) true
    (state_after (small_files_carver.carve_file_types (some scenario_S1) []) small_files_carver)
    rfl
  exact ⟨by decide, rfl, h.1.trans rfl, h.2⟩

/-- C10 evaluated on `three_window_input` with the default reader: the three
`process_chunk` calls receive `file_offset` 0, 65536 and 131072, while the
windows are the input slices starting at 0, 61440 and 126976.  In the second
window byte 65536 is `49` (the input byte at 126976 = 61440 + 65536), whereas
the input byte at `file_offset + 65536 = 131072` is `AA`. -/
theorem window_base_offset_three_windows :
    ∃ res, chunk_calls (three_window_input.length + 1)
        (reader_at three_window_input default_carver.chunk_reader_.chunk_size_
          default_carver.chunk_reader_.overlap_size_ 0 0 0 0) [] 0 = Except.ok res ∧
      res.1.map (fun call => (call.file_offset, call.chunk_size)) =
        [(0, 65536), (65536, 69632), (131072, 4696)] ∧
      res.1.map Call.data =
        [(three_window_input.drop 0).take 65536, (three_window_input.drop 61440).take 69632,
          (three_window_input.drop 126976).take 4696] ∧
      (((three_window_input.drop 61440).take 69632).drop 65536).take 3 = [0x49, 0x44, 0x33] ∧
      (three_window_input.drop (65536 + 65536)).take 3 = [0xAA, 0xAA, 0xAA] := by
  refine ⟨_, chunk_calls_three_windows three_window_input three_window_length, ?_, ?_, ?_, ?_⟩
  · simp only [List.map_cons, List.map_nil]
  · simp only [List.map_cons, List.map_nil]
  · rw [slice_drop, List.take_take]
    exact three_window_bytes_at_126976
  · exact three_window_bytes_at_131072


/-- C11 (footer-delimited end).  On an open file of fewer than `2 ^ 64` bytes,
when `use_footers` is true
and the matched signature `S` has a (non-empty) footer whose leftmost occurrence
in the bytes that `read_at_position(start, search_window)` returns is at
relative offset `f`, the end of the candidate is
`start + f + len(S.footer)` with `has_valid_footer = true`, and the record that
`process_chunk` appends when the size `f + len(S.footer)` passes the size filter
has these values.  On the 19-byte input of scenario S1, with any
`min_file_size <= 14`, the results are exactly one record: type JPEG,
start 3, end 17, file_size 14, has_valid_footer true. -/
theorem footer_delimited_end (c : FileCarver) (input : List Byte)
    (ho : c.chunk_reader_.OpenOn input) (hN : input.length < 2 ^ 64)
    (sig : FileSignature) (start f : Nat)
    (hu : c.use_footers_ = true) (hf : sig.has_footer = true) (hne : sig.footer ≠ [])
    (hocc : f + sig.footer.length
      ≤ (c.chunk_reader_.read_at_position start c.search_window_ []).1)
    (hpre : ((c.chunk_reader_.read_at_position start c.search_window_ []).2.drop f).take
      sig.footer.length = sig.footer)
    (hleft : ∀ j, j < f →
      ((c.chunk_reader_.read_at_position start c.search_window_ []).2.drop j).take
        sig.footer.length ≠ sig.footer) :
    c.determine_end sig start = (start + f + sig.footer.length, true) ∧
    (∀ (data : List Byte) (n off i : Nat) (types : List String),
      detect_header c.signatures (data.drop i) (n - i) = some sig →
      (types = [] ∨ sig.name ∈ types) → off + i = start →
      c.min_file_size_ ≤ f + sig.footer.length →
      (c.max_file_size_ = 0 ∨ f + sig.footer.length ≤ c.max_file_size_) →
      ∃ r, (process_position data n off types c i).carved_files_ = c.carved_files_ ++ [r] ∧
        r.core = (sig.name, start, start + f + sig.footer.length, f + sig.footer.length, true)) ∧
    (∀ m : Nat, m ≤ 14 →
      (carved_after (((FileCarver.new "out" quiet_world).set_min_file_size m).carve_file_types
        (some scenario_S1) [])).map CarvedFile.core = [("JPEG", 3, 17, 14, true)]) := by
  have hend := determine_end_first c input ho hN sig start f hu hf hne hocc hpre hleft
  have hle := (find_footer_first c input ho hN start sig _ f hf hne hocc hpre hleft).2
  refine ⟨hend, ?_, ?_⟩
  · intro data n off i types hd ht hst hmin hmax
    have hsize : (start + f + sig.footer.length + 2 ^ 64 - start) % 2 ^ 64
        = f + sig.footer.length := by
      have : start + f + sig.footer.length + 2 ^ 64 - start
          = (f + sig.footer.length) + 2 ^ 64 := by omega
      rw [this, Nat.add_mod_right, Nat.mod_eq_of_lt (by omega)]
    rw [process_position_pass data n off types c i sig hd ht, hst, hend]
    simp only [hsize]
    rw [if_pos ⟨hmin, hmax⟩]
    exact emit_candidate_append c sig start _ _ true
  · intro m hm
    interval_cases m <;> rfl

/-- Instance of the footer-delimited end on scenario S1: the JPEG header is at
3 and the leftmost `FF D9` in the bytes read from there is at relative
offset 12. -/
theorem footer_delimited_end_S1 :
    (small_files_carver.started scenario_S1).determine_end jpeg_signature 3 = (17, true) ∧
    ∃ r, (process_position scenario_S1 19 0 [] (small_files_carver.started scenario_S1)
        3).carved_files_ = (small_files_carver.started scenario_S1).carved_files_ ++ [r] ∧
      r.core = ("JPEG", 3, 17, 14, true) :=
  ⟨(footer_delimited_end (small_files_carver.started scenario_S1) scenario_S1
      ⟨rfl, rfl, rfl⟩ (by decide) jpeg_signature 3 12 rfl rfl (by decide) (by decide) rfl
      (by decide)).1,
    (footer_delimited_end (small_files_carver.started scenario_S1) scenario_S1
      ⟨rfl, rfl, rfl⟩ (by decide) jpeg_signature 3 12 rfl rfl (by decide) (by decide) rfl
      (by decide)).2.1 scenario_S1 19 0 3 [] rfl (Or.inl rfl) rfl (by decide) (Or.inl rfl)⟩


/-- C12 (window-bounded end), evaluated on the code.  `process_chunk` adds
`start_offset + search_window_` in `size_t` and clamps the sum to the file size
only afterwards, so with `search_window = 2 ^ 64 - 1` the sum wraps before the
clamp: on the five bytes `AA 42 4D AA AA` the BMP header at offset 1 (a
signature without footer) is recorded with `end_offset = 0`, below its start,
and `file_size = 2 ^ 64 - 1`, where `min(start + search_window, input_size)`
is 5.  The command line
`chunked_carver -i image.dd --search-window 18446744073709551615` reaches the
same record through `main`. -/
theorem window_bounded_end_overflow :
    (carved_after (((FileCarver.new "out" quiet_world).set_search_window
        18446744073709551615).carve_file_types (some [0xAA, 0x42, 0x4D, 0xAA, 0xAA]) [])).map
      CarvedFile.core = [("BMP", 1, 0, 18446744073709551615, false)] ∧
    (0 : Nat) ≠ min (1 + 18446744073709551615) 5 ∧
    (main ["chunked_carver", "-i", "image.dd", "--search-window", "18446744073709551615"]
        (fun _ => true) (fun _ => some [0xAA, 0x42, 0x4D, 0xAA, 0xAA]) (fun _ => true)
        quiet_world).map
        (fun out => (out.1, out.2.map (fun c => c.get_carved_files.map CarvedFile.core)))
      = Except.ok (0, some [("BMP", 1, 0, 18446744073709551615, false)]) :=
  ⟨rfl, by decide, rfl⟩

/-- Window-bounded end where the sum does not wrap.  On an open file of `N`
bytes, for a start and a search window with `start + search_window < 2 ^ 64`,
whenever the end is not determined by a footer hit (`use_footers` is false, or
the signature has no footer, or the footer does not occur in the bytes that
`read_at_position(start, search_window)` returns), `determine_end` gives
`end_offset = min(start + search_window, N)` and `has_valid_footer = false`.
With `use_footers = false` every record of a carve has
`has_valid_footer = false`.  For the PNG header followed by 200 bytes in which
the PNG footer does not occur, with `search_window = 256` and
`min_file_size = 1`, the record at offset 0 is: type PNG, start 0, end 208,
file_size 208, has_valid_footer false. -/
theorem determine_end_below_wrap (c : FileCarver) (input : List Byte)
    (ho : c.chunk_reader_.OpenOn input) (sig : FileSignature) (start : Nat)
    (hlt : start + c.search_window_ < 2 ^ 64)
    (hmiss : c.use_footers_ = false ∨ sig.has_footer = false ∨
      ∀ j, j + sig.footer.length
          ≤ (c.chunk_reader_.read_at_position start c.search_window_ []).1 →
        ((c.chunk_reader_.read_at_position start c.search_window_ []).2.drop j).take
          sig.footer.length ≠ sig.footer) :
    c.determine_end sig start = (min (start + c.search_window_) input.length, false) ∧
    (c.use_footers_ = false →
      ∀ (input2 : Option (List Byte)) (types : List String) (r : CarvedFile),
        r ∈ carved_after (c.carve_file_types input2 types) → r.has_valid_footer = false) ∧
    (∀ tail : List Byte, tail.length = 200 →
      (∀ j, j + 8 ≤ 208 → ((scenario_S2 tail).drop j).take 8 ≠ png_signature.footer) →
      ((carved_after (window_256_carver.carve_file_types (some (scenario_S2 tail)) [])).filter
          (fun r => decide (r.start_offset = 0))).map CarvedFile.core
        = [("PNG", 0, 208, 208, false)]) := by
  have hend := determine_end_miss c input ho sig start hmiss
  refine ⟨?_, ?_, ?_⟩
  · rw [hend, Nat.mod_eq_of_lt hlt]
  · intro hu input2 types r hr
    exact carved_after_no_footers c input2 types hu r hr
  · intro tail htail habs
    have hlen : (scenario_S2 tail).length = 208 := by
      unfold scenario_S2
      rw [List.length_append, htail]
      rfl
    have hrd : (window_256_carver.started (scenario_S2 tail)).chunk_reader_.read_at_position 0
        (window_256_carver.started (scenario_S2 tail)).search_window_ []
        = (208, scenario_S2 tail) := by
      rw [read_at_position_open _ (scenario_S2 tail) (started_openOn _ _) _ _ _ (by omega), hlen]
      have hsw : (window_256_carver.started (scenario_S2 tail)).search_window_ = 256 := rfl
      rw [hsw]
      have hm : min 256 (208 - 0) = 208 := by decide
      rw [hm, List.drop_zero, List.take_of_length_le (by omega)]
    have hde : (window_256_carver.started (scenario_S2 tail)).determine_end png_signature 0
        = (208, false) := by
      rw [determine_end_miss _ (scenario_S2 tail) (started_openOn _ _) png_signature 0
        (Or.inr (Or.inr (by
          rw [hrd]
          exact habs))), hlen]
      rfl
    have h := one_window_at window_256_carver (scenario_S2 tail) [] 0 png_signature
      (by omega) (by rw [hlen]; decide) (by omega)
      (by
        rw [hlen]
        exact detect_header_PNG tail 208 (by decide))
      (Or.inl rfl)
      (by
        rw [hde]
        exact ⟨by decide, Or.inl rfl⟩)
    rw [h, hde]
    rfl

/-- Instance of the window-bounded end: the PNG header followed by four zero
bytes holds no PNG footer, and with `search_window = 256` the candidate at 0
ends at the input size 12. -/
theorem determine_end_below_wrap_S2 :
    (window_256_carver.started (scenario_S2 [0, 0, 0, 0])).determine_end png_signature 0
      = (12, false) :=
  (determine_end_below_wrap (window_256_carver.started (scenario_S2 [0, 0, 0, 0]))
    (scenario_S2 [0, 0, 0, 0]) ⟨rfl, rfl, rfl⟩ png_signature 0 (by decide)
    (Or.inr (Or.inr (by
      intro j hj
      have hj2 : j + 8 ≤ 12 := hj
      have hj3 : j < 5 := by omega
      interval_cases j <;> decide)))).1

end FileCarver

/-- C13, counterexample.  A reader constructed with `chunk_size = 0` and opened
on four bytes is open with its cursor at 0 < 4, yet `read_chunk` returns false:
it reads `min(0, 4) = 0` bytes and returns `bytes_read > 0`. -/
theorem read_chunk_window_counterexample :
    (((ChunkReader.new 0 4096).open (some [1, 2, 3, 4])).2).OpenOn [1, 2, 3, 4] ∧
    (((ChunkReader.new 0 4096).open (some [1, 2, 3, 4])).2).current_position_ < 4 ∧
    ((((ChunkReader.new 0 4096).open (some [1, 2, 3, 4])).2).read_chunk []).1 = false ∧
    ((((ChunkReader.new 0 4096).open (some [1, 2, 3, 4])).2).read_chunk []).2.1 = [] :=
  ⟨⟨rfl, rfl, rfl⟩, by decide, rfl, rfl⟩

/-- C13 (read_chunk window content), amended.  For a reader open on an input
of `N` bytes with cursor `c < N` and retained tail `t`, `read_chunk` returns the
window `t ++ input[c .. c + min(chunk_size, N - c))` (`t` is not prepended when
`c = 0`), reports `bytes_read = len(window)`, advances the cursor by exactly
`min(chunk_size, N - c)`, and returns true exactly when the window is not empty,
which is the case whenever `chunk_size >= 1`. -/
theorem read_chunk_window (r : ChunkReader) (input : List Byte) (ho : r.OpenOn input)
    (d : List Byte) (hpos : r.current_position_ < input.length) :
    (r.read_chunk d).2.1 =
      (if r.current_position_ = 0 then [] else r.overlap_buffer_) ++
        (input.drop r.current_position_).take
          (min r.chunk_size_ (input.length - r.current_position_)) ∧
    ((input.drop r.current_position_).take
      (min r.chunk_size_ (input.length - r.current_position_))).length
        = min r.chunk_size_ (input.length - r.current_position_) ∧
    (r.read_chunk d).2.2.1 = (r.read_chunk d).2.1.length ∧
    (r.read_chunk d).2.2.2.current_position_ =
      r.current_position_ + min r.chunk_size_ (input.length - r.current_position_) ∧
    ((r.read_chunk d).1 = true ↔ (r.read_chunk d).2.1 ≠ []) ∧
    (1 ≤ r.chunk_size_ → (r.read_chunk d).1 = true) := by
  have hfresh : ((input.drop r.current_position_).take
      (min r.chunk_size_ (input.length - r.current_position_))).length
      = min r.chunk_size_ (input.length - r.current_position_) :=
    slice_length input _ _ (by omega)
  rw [read_chunk_open r input ho d hpos]
  refine ⟨rfl, hfresh, ?_, rfl, ?_, ?_⟩
  · show _ = List.length (_ ++ _)
    rw [List.length_append, hfresh]
  · show decide _ = true ↔ (_ ++ _) ≠ []
    rw [decide_eq_true_eq, ← List.length_pos, List.length_append, hfresh]
  · intro hcs
    show decide _ = true
    rw [decide_eq_true_eq]
    omega

/-- Instance of the window content on a reader with chunk size 4 and overlap
size 2 whose cursor is at 4 of 10 bytes. -/
theorem read_chunk_window_ten_bytes :
    ten_byte_reader.OpenOn [10, 11, 12, 13, 14, 15, 16, 17, 18, 19] ∧
    ten_byte_reader.current_position_ < [10, 11, 12, 13, 14, 15, 16, 17, 18, 19].length ∧
    (ten_byte_reader.read_chunk []).2.1 = [12, 13] ++ [14, 15, 16, 17] ∧
    (ten_byte_reader.read_chunk []).2.2.1 = 6 ∧
    (ten_byte_reader.read_chunk []).2.2.2.current_position_ = 8 ∧
    (ten_byte_reader.read_chunk []).1 = true :=
  ⟨⟨rfl, rfl, rfl⟩, by decide,
    (read_chunk_window ten_byte_reader [10, 11, 12, 13, 14, 15, 16, 17, 18, 19]
      ⟨rfl, rfl, rfl⟩ [] (by decide)).1,
    rfl, rfl, rfl⟩

/-- C14 (overlap retention).  For a reader with `0 < overlap_size < chunk_size`
that is open on an input of `N` bytes with its cursor before `N`, `read_chunk`
returns true with a window `w`, and afterwards the retained tail is exactly the last
`min(overlap_size, len(w))` bytes of `w` if bytes remain in the source (new
cursor `< N`) and is empty if the cursor has reached `N`; the cursor never
passes `N`. -/
theorem overlap_retention (r : ChunkReader) (input : List Byte) (ho : r.OpenOn input)
    (d : List Byte) (hpos : r.current_position_ < input.length)
    (h0 : 0 < r.overlap_size_) (h1 : r.overlap_size_ < r.chunk_size_) :
    (r.read_chunk d).1 = true ∧
    (r.read_chunk d).2.2.2.current_position_ ≤ input.length ∧
    ((r.read_chunk d).2.2.2.current_position_ < input.length →
      (r.read_chunk d).2.2.2.overlap_buffer_ =
        (r.read_chunk d).2.1.drop
          ((r.read_chunk d).2.1.length - min r.overlap_size_ (r.read_chunk d).2.1.length) ∧
      (r.read_chunk d).2.2.2.overlap_buffer_.length
        = min r.overlap_size_ (r.read_chunk d).2.1.length) ∧
    ((r.read_chunk d).2.2.2.current_position_ = input.length →
      (r.read_chunk d).2.2.2.overlap_buffer_ = []) := by
  have hfresh : ((input.drop r.current_position_).take
      (min r.chunk_size_ (input.length - r.current_position_))).length
      = min r.chunk_size_ (input.length - r.current_position_) :=
    slice_length input _ _ (by omega)
  rw [read_chunk_open r input ho d hpos]
  generalize (if r.current_position_ = 0 then [] else r.overlap_buffer_) = H
  have hlen : (H ++ (input.drop r.current_position_).take
      (min r.chunk_size_ (input.length - r.current_position_))).length
      = H.length + min r.chunk_size_ (input.length - r.current_position_) := by
    rw [List.length_append, hfresh]
  refine ⟨?_, ?_, ?_, ?_⟩
  · show decide _ = true
    rw [decide_eq_true_eq]; omega
  · show r.current_position_ + _ ≤ _
    omega
  · intro hlt
    have hlt2 : r.current_position_ + min r.chunk_size_ (input.length - r.current_position_)
        < input.length := hlt
    have hc : min r.chunk_size_ (input.length - r.current_position_) ≥ r.overlap_size_ ∧
        r.current_position_ + min r.chunk_size_ (input.length - r.current_position_)
          < input.length := ⟨by omega, hlt2⟩
    simp only [if_pos hc, hlen]
    have hmin : min r.overlap_size_
        (H.length + min r.chunk_size_ (input.length - r.current_position_))
        = r.overlap_size_ := by omega
    rw [hmin]
    refine ⟨rfl, ?_⟩
    rw [List.length_drop, hlen]
    omega
  · intro heq
    have heq2 : r.current_position_ + min r.chunk_size_ (input.length - r.current_position_)
        = input.length := heq
    have hc : ¬ (min r.chunk_size_ (input.length - r.current_position_) ≥ r.overlap_size_ ∧
        r.current_position_ + min r.chunk_size_ (input.length - r.current_position_)
          < input.length) := by omega
    simp only [if_neg hc]

/-- Instance of the overlap retention on a reader with chunk size 4 and overlap
size 2 whose cursor is at 4 of 10 bytes: the window read is `12 .. 17` and the
retained tail its last two bytes. -/
theorem overlap_retention_ten_bytes :
    ten_byte_reader.OpenOn [10, 11, 12, 13, 14, 15, 16, 17, 18, 19] ∧
    ten_byte_reader.current_position_ < [10, 11, 12, 13, 14, 15, 16, 17, 18, 19].length ∧
    0 < ten_byte_reader.overlap_size_ ∧
    ten_byte_reader.overlap_size_ < ten_byte_reader.chunk_size_ ∧
    (ten_byte_reader.read_chunk []).2.2.2.current_position_ = 8 ∧
    (ten_byte_reader.read_chunk []).2.2.2.overlap_buffer_ = [16, 17] ∧
    ((ten_byte_reader.read_chunk []).1 = true ∧
      (ten_byte_reader.read_chunk []).2.2.2.current_position_
        ≤ [10, 11, 12, 13, 14, 15, 16, 17, 18, 19].length) :=
  ⟨⟨rfl, rfl, rfl⟩, by decide, by decide, by decide, rfl, rfl,
    (overlap_retention ten_byte_reader [10, 11, 12, 13, 14, 15, 16, 17, 18, 19]
      ⟨rfl, rfl, rfl⟩ [] (by decide) (by decide) (by decide)).1,
    (overlap_retention ten_byte_reader [10, 11, 12, 13, 14, 15, 16, 17, 18, 19]
      ⟨rfl, rfl, rfl⟩ [] (by decide) (by decide) (by decide)).2.1⟩

/-- C15 (window adjacency).  For a reader with `0 < overlap_size < chunk_size`
opened on an input and driven only by `read_chunk`, every emitted window of
length `L` equals the contiguous input slice `input[S .. S + L)` where `S` is
the cursor before the call minus the length of the retained tail; and whenever
further bytes remain after the call, the next call emits a window that starts at
absolute offset `S + (L - overlap_size)`, so that the last `overlap_size` bytes
of the window are the first `overlap_size` bytes of the next one, which is
longer than `overlap_size`. -/
theorem window_adjacency (r0 : ChunkReader) (input d : List Byte)
    (h0 : 0 < r0.overlap_size_) (h1 : r0.overlap_size_ < r0.chunk_size_) (n : Nat)
    (hw : (ChunkReader.nth_read (r0.opened input) d n).1 = true) :
    (ChunkReader.nth_read (r0.opened input) d n).2.1 =
      (input.drop (ChunkReader.after_reads (r0.opened input) d n).1.window_start).take
        (ChunkReader.nth_read (r0.opened input) d n).2.1.length ∧
    (ChunkReader.after_reads (r0.opened input) d n).1.overlap_buffer_.length
      ≤ (ChunkReader.after_reads (r0.opened input) d n).1.current_position_ ∧
    (ChunkReader.after_reads (r0.opened input) d n).1.window_start
      + (ChunkReader.nth_read (r0.opened input) d n).2.1.length ≤ input.length ∧
    ((ChunkReader.nth_read (r0.opened input) d n).2.2.2.current_position_ < input.length →
      (ChunkReader.nth_read (r0.opened input) d (n + 1)).1 = true ∧
      (ChunkReader.after_reads (r0.opened input) d (n + 1)).1.window_start
        = (ChunkReader.after_reads (r0.opened input) d n).1.window_start
          + ((ChunkReader.nth_read (r0.opened input) d n).2.1.length - r0.overlap_size_) ∧
      r0.overlap_size_ ≤ (ChunkReader.nth_read (r0.opened input) d n).2.1.length ∧
      r0.overlap_size_ < (ChunkReader.nth_read (r0.opened input) d (n + 1)).2.1.length ∧
      (ChunkReader.nth_read (r0.opened input) d n).2.1.drop
          ((ChunkReader.nth_read (r0.opened input) d n).2.1.length - r0.overlap_size_)
        = (ChunkReader.nth_read (r0.opened input) d (n + 1)).2.1.take r0.overlap_size_) := by
  have hR : r0.opened input = reader_at input r0.chunk_size_ r0.overlap_size_ 0 0 0 0 := rfl
  rw [hR] at hw ⊢
  generalize r0.chunk_size_ = cs at *
  generalize r0.overlap_size_ = os at *
  have hcs : 1 ≤ cs := by omega
  have hin : n * cs < input.length := by
    by_contra hc
    have := (nth_read_end input cs os hcs d n (by omega)).1
    rw [this] at hw
    exact Bool.false_ne_true hw
  obtain ⟨a1, a2, a3, a4, a5, a6, a7, a8⟩ := after_reads_inside input cs os hcs d n hin
  have hmul : (n + 1) * cs = n * cs + cs := Nat.succ_mul n cs
  refine ⟨?_, ?_, ?_, ?_⟩
  · rw [a4, a7]; exact a6
  · rw [a1, a2]; exact a3
  · rw [a4, a7]; omega
  · intro hrem
    have hnext : (ChunkReader.nth_read (reader_at input cs os 0 0 0 0) d n).2.2.2
        = (ChunkReader.after_reads (reader_at input cs os 0 0 0 0) d (n + 1)).1 := rfl
    rw [hnext] at hrem
    have hin2 : (n + 1) * cs < input.length := by
      by_contra hc
      have := (after_reads_end input cs os hcs d (n + 1) (by omega)).1
      omega
    obtain ⟨b1, b2, b3, b4, b5, b6, b7, b8⟩ := after_reads_inside input cs os hcs d (n + 1) hin2
    have hk : (if 0 < n + 1 ∧ os ≤ cs then os else 0) = os := by
      rw [if_pos ⟨by omega, by omega⟩]
    rw [hk] at b4 b6 b7
    have hm : min cs (input.length - n * cs) = cs := by omega
    rw [hm] at a6 a7
    refine ⟨b5, ?_, ?_, ?_, ?_⟩
    · rw [b4, a4, a7]; omega
    · rw [a7]; omega
    · rw [b7]; omega
    · rw [a7, a6, b6, slice_drop, List.take_take]
      congr 1
      · omega
      · congr 1
        omega

/-- Instance of the window adjacency on ten bytes read with chunk size 4 and
overlap size 2: the second window is `input[2 .. 8)`, the third one starts at
offset 6 and the two share the bytes 16 and 17. -/
theorem window_adjacency_ten_bytes :
    (ChunkReader.nth_read ((ChunkReader.new 4 2).opened [10, 11, 12, 13, 14, 15, 16, 17, 18, 19])
      [] 1).1 = true ∧
    (ChunkReader.nth_read ((ChunkReader.new 4 2).opened [10, 11, 12, 13, 14, 15, 16, 17, 18, 19])
      [] 1).2.1 = [12, 13, 14, 15, 16, 17] ∧
    (ChunkReader.after_reads ((ChunkReader.new 4 2).opened
      [10, 11, 12, 13, 14, 15, 16, 17, 18, 19]) [] 1).1.window_start = 2 ∧
    (ChunkReader.after_reads ((ChunkReader.new 4 2).opened
      [10, 11, 12, 13, 14, 15, 16, 17, 18, 19]) [] 2).1.window_start = 6 ∧
    (ChunkReader.nth_read ((ChunkReader.new 4 2).opened [10, 11, 12, 13, 14, 15, 16, 17, 18, 19])
      [] 2).2.1 = [16, 17, 18, 19] ∧
    (ChunkReader.after_reads ((ChunkReader.new 4 2).opened
        [10, 11, 12, 13, 14, 15, 16, 17, 18, 19]) [] 1).1.window_start
      + (ChunkReader.nth_read ((ChunkReader.new 4 2).opened
        [10, 11, 12, 13, 14, 15, 16, 17, 18, 19]) [] 1).2.1.length
      ≤ [10, 11, 12, 13, 14, 15, 16, 17, 18, 19].length :=
  ⟨rfl, rfl, rfl, rfl, rfl,
    (window_adjacency (ChunkReader.new 4 2) [10, 11, 12, 13, 14, 15, 16, 17, 18, 19] []
      (by decide) (by decide) 1 rfl).2.2.1⟩

/-- C16, counterexample.  On the empty input, with chunk size 4 and overlap
size 2, the length `h = 0` and the offset `p = 0` satisfy `h <= overlap_size + 1`
and `p + h <= N`, but no `read_chunk` call emits a window, so no window contains
the range. -/
theorem boundary_coverage_counterexample :
    0 < (ChunkReader.new 4 2).overlap_size_ ∧
    (ChunkReader.new 4 2).overlap_size_ < (ChunkReader.new 4 2).chunk_size_ ∧
    0 ≤ (ChunkReader.new 4 2).overlap_size_ + 1 ∧
    0 + 0 ≤ ([] : List Byte).length ∧
    ∀ n : Nat, (ChunkReader.nth_read ((ChunkReader.new 4 2).opened []) [] n).1 = false :=
  ⟨by decide, by decide, by decide, by decide,
    fun n => (nth_read_end [] 4 2 (by decide) [] n (Nat.zero_le _)).1⟩

/-- C16 (boundary coverage by the reader), amended.  For every non-empty input
of `N` bytes, every `0 < overlap_size < chunk_size`, every length
`h <= overlap_size + 1` and every absolute offset `p` with `p + h <= N`, some
window emitted by repeated `read_chunk` on the opened reader contains the whole
range `[p, p + h)`: with `S` the absolute start of that window and `L` its
length, `S <= p`, `p + h <= S + L`, and the `h` bytes of the window from index
`p - S` on are the input bytes at `[p, p + h)`.  (On the empty input no window
is emitted, and the only range is the empty one at offset 0.) -/
theorem boundary_coverage (r0 : ChunkReader) (input d : List Byte)
    (h0 : 0 < r0.overlap_size_) (h1 : r0.overlap_size_ < r0.chunk_size_)
    (hne : 0 < input.length) (h p : Nat) (hh : h ≤ r0.overlap_size_ + 1)
    (hp : p + h ≤ input.length) :
    ∃ n : Nat,
      (ChunkReader.nth_read (r0.opened input) d n).1 = true ∧
      (ChunkReader.after_reads (r0.opened input) d n).1.window_start ≤ p ∧
      p + h ≤ (ChunkReader.after_reads (r0.opened input) d n).1.window_start
        + (ChunkReader.nth_read (r0.opened input) d n).2.1.length ∧
      (((ChunkReader.nth_read (r0.opened input) d n).2.1).drop
          (p - (ChunkReader.after_reads (r0.opened input) d n).1.window_start)).take h
        = (input.drop p).take h := by
  have hR : r0.opened input = reader_at input r0.chunk_size_ r0.overlap_size_ 0 0 0 0 := rfl
  rw [hR]
  generalize r0.chunk_size_ = cs at *
  generalize r0.overlap_size_ = os at *
  have hcs : 1 ≤ cs := by omega
  have q1 : min p (input.length - 1) / cs * cs ≤ min p (input.length - 1) :=
    Nat.div_mul_le_self _ _
  have q2 : min p (input.length - 1) < min p (input.length - 1) / cs * cs + cs :=
    Nat.lt_div_mul_add (by omega)
  generalize min p (input.length - 1) / cs = q at q1 q2
  have hmul : (q + 1) * cs = q * cs + cs := Nat.succ_mul q cs
  have key : ∀ n : Nat, n * cs < input.length →
      n * cs - (if 0 < n ∧ os ≤ cs then os else 0) ≤ p →
      p + h ≤ n * cs + min cs (input.length - n * cs) →
      (ChunkReader.nth_read (reader_at input cs os 0 0 0 0) d n).1 = true ∧
      (ChunkReader.after_reads (reader_at input cs os 0 0 0 0) d n).1.window_start ≤ p ∧
      p + h ≤ (ChunkReader.after_reads (reader_at input cs os 0 0 0 0) d n).1.window_start
        + (ChunkReader.nth_read (reader_at input cs os 0 0 0 0) d n).2.1.length ∧
      (((ChunkReader.nth_read (reader_at input cs os 0 0 0 0) d n).2.1).drop
          (p - (ChunkReader.after_reads (reader_at input cs os 0 0 0 0) d n).1.window_start)).take h
        = (input.drop p).take h := by
    intro n hin hS hE
    obtain ⟨a1, a2, a3, a4, a5, a6, a7, a8⟩ := after_reads_inside input cs os hcs d n hin
    refine ⟨a5, ?_, ?_, ?_⟩
    · rw [a4]; exact hS
    · rw [a4, a7]; omega
    · rw [a4, a6, slice_drop, List.take_take]
      congr 1
      · omega
      · congr 1
        omega
  by_cases hA : p + h ≤ q * cs + min cs (input.length - q * cs)
  · exact ⟨q, key q (by omega) (by split <;> omega) hA⟩
  · refine ⟨q + 1, key (q + 1) (by omega) ?_ (by omega)⟩
    rw [if_pos ⟨by omega, by omega⟩]
    omega

/-- Instance of the boundary coverage on ten bytes read with chunk size 4 and
overlap size 2: the three bytes at `[3, 6)` straddle the first read-unit
boundary and lie in one window at index `3 - S`. -/
theorem boundary_coverage_ten_bytes :
    ∃ n : Nat,
      (ChunkReader.nth_read ((ChunkReader.new 4 2).opened
        [10, 11, 12, 13, 14, 15, 16, 17, 18, 19]) [] n).1 = true ∧
      (ChunkReader.after_reads ((ChunkReader.new 4 2).opened
        [10, 11, 12, 13, 14, 15, 16, 17, 18, 19]) [] n).1.window_start ≤ 3 ∧
      3 + 3 ≤ (ChunkReader.after_reads ((ChunkReader.new 4 2).opened
          [10, 11, 12, 13, 14, 15, 16, 17, 18, 19]) [] n).1.window_start
        + (ChunkReader.nth_read ((ChunkReader.new 4 2).opened
          [10, 11, 12, 13, 14, 15, 16, 17, 18, 19]) [] n).2.1.length ∧
      (((ChunkReader.nth_read ((ChunkReader.new 4 2).opened
          [10, 11, 12, 13, 14, 15, 16, 17, 18, 19]) [] n).2.1).drop
          (3 - (ChunkReader.after_reads ((ChunkReader.new 4 2).opened
            [10, 11, 12, 13, 14, 15, 16, 17, 18, 19]) [] n).1.window_start)).take 3
        = ([10, 11, 12, 13, 14, 15, 16, 17, 18, 19].drop 3).take 3 :=
  boundary_coverage (ChunkReader.new 4 2) [10, 11, 12, 13, 14, 15, 16, 17, 18, 19] []
    (by decide) (by decide) (by decide) 3 3 (by decide) (by decide)

namespace FileCarver

/-- C17, counterexample.  The 131072-byte input `straddle_input_with_footer`
holds the PNG header at 65533 only and the PNG footer at 69629.  The default
engine completes the carve without any record of type PNG: the header is found
in the second window, its candidate ends right after the footer, and the size
filter (`min_file_size = 512`) rejects the 8 bytes. -/
theorem straddling_header_counterexample :
    straddle_input_with_footer.length = 131072 ∧
    (∀ q, (straddle_input_with_footer.drop q).take 8 = png_signature.header ↔ q = 65533) ∧
    (∃ c', default_carver.carve_file_types (some straddle_input_with_footer) []
      = Except.ok (true, c')) ∧
    (carved_after (default_carver.carve_file_types (some straddle_input_with_footer) [])).filter
      (fun r => decide (r.type = "PNG")) = [] := by
  have hlen : straddle_input_with_footer.length = 131072 :=
    png_iend_in_filler_length 65533 4088 61435
  have honly : ∀ q, (straddle_input_with_footer.drop q).take 8 = png_signature.header
      ↔ q = 65533 := png_iend_in_filler_header 65533 4088 61435
  have hfoot : (straddle_input_with_footer.drop 69629).take 8 = png_signature.footer :=
    png_iend_in_filler_footer 65533 4088 61435
  obtain ⟨hok, hcores, hd⟩ := straddle_png_cores straddle_input_with_footer [] hlen honly
  refine ⟨hlen, honly, hok, ?_⟩
  rw [straddle_hit_rejected straddle_input_with_footer [] hlen hd hfoot] at hcores
  rw [← filter_type_cores] at hcores
  exact List.map_eq_nil_iff.mp hcores

/-- C17 (straddling header detected once), amended.  For every 131072-byte
input in which the PNG header occurs only at absolute offset 65533, carving with
the default engine (chunk size 65536, overlap size 4096, `min_file_size = 512`)
and a type filter that admits PNG completes with at most one record of type
PNG, and with exactly one when the PNG footer occurs nowhere in the input. -/
theorem straddling_header_once (input : List Byte) (types : List String)
    (hlen : input.length = 131072)
    (honly : ∀ q, (input.drop q).take 8 = png_signature.header ↔ q = 65533)
    (ht : types = [] ∨ "PNG" ∈ types) :
    (∃ c', default_carver.carve_file_types (some input) types = Except.ok (true, c')) ∧
    ((carved_after (default_carver.carve_file_types (some input) types)).filter
      (fun r => decide (r.type = "PNG"))).length ≤ 1 ∧
    ((∀ q, (input.drop q).take 8 ≠ png_signature.footer) →
      ((carved_after (default_carver.carve_file_types (some input) types)).filter
        (fun r => decide (r.type = "PNG"))).length = 1) := by
  obtain ⟨hok, hcores, hd⟩ := straddle_png_cores input types hlen honly
  rw [← filter_type_cores] at hcores
  have hl := congrArg List.length hcores
  rw [List.length_map, List.length_map] at hl
  refine ⟨hok, ?_, ?_⟩
  · rw [hl]
    cases (default_carver.started input).scan_hit ((input.drop 61440).take 69632) 69632 65536
        types 4093 with
    | none => exact Nat.zero_le _
    | some h => exact Nat.le_refl _
  · intro hnone
    rw [hl, straddle_hit_accepted input types hlen hd ht hnone]
    rfl

/-- Instance of the straddling header on `straddle_input`: filler bytes with the
PNG header at 65533 and no PNG footer give one record of type PNG. -/
theorem straddling_header_once_filler :
    straddle_input.length = 131072 ∧
    (∀ q, (straddle_input.drop q).take 8 = png_signature.header ↔ q = 65533) ∧
    (∀ q, (straddle_input.drop q).take 8 ≠ png_signature.footer) ∧
    ((carved_after (default_carver.carve_file_types (some straddle_input) [])).filter
      (fun r => decide (r.type = "PNG"))).length = 1 :=
  ⟨png_in_filler_length 65533 65531, png_in_filler_header 65533 65531,
    png_in_filler_footer 65533 65531,
    (straddling_header_once straddle_input [] (png_in_filler_length 65533 65531)
      (png_in_filler_header 65533 65531) (Or.inl rfl)).2.2 (png_in_filler_footer 65533 65531)⟩

end FileCarver

/-- C18 (read_at_position is a pure bounded slice read).  On a reader open on
an input of `N` bytes, `read_at_position(position, size)` returns
`min(size, N - position)` bytes, the slice
`input[position .. position + min(size, N - position))`, when `position < N`,
and returns 0 bytes and leaves the output vector alone when `position >= N`;
on a closed reader it returns 0 bytes.  In every case the reader keeps its
cursor, its retained tail and its statistics (only the position of the
underlying stream moves), and a following `read_chunk` returns what it would
have returned without the call. -/
theorem read_at_position_pure (s : StreamReader) (position size : Nat) (data : List Byte) :
    (∀ input : List Byte, s.reader.OpenOn input → position < input.length →
      (s.read_at_position position size data).1 = min size (input.length - position) ∧
      (s.read_at_position position size data).2.1 =
        (input.drop position).take (min size (input.length - position))) ∧
    (∀ input : List Byte, s.reader.OpenOn input → input.length ≤ position →
      (s.read_at_position position size data).1 = 0 ∧
      (s.read_at_position position size data).2.1 = data) ∧
    (s.reader.is_open_ = false →
      (s.read_at_position position size data).1 = 0 ∧
      (s.read_at_position position size data).2.1 = data) ∧
    (s.read_at_position position size data).2.2.reader.current_position_
      = s.reader.current_position_ ∧
    (s.read_at_position position size data).2.2.reader.overlap_buffer_
      = s.reader.overlap_buffer_ ∧
    (s.read_at_position position size data).2.2.reader.total_bytes_read_
      = s.reader.total_bytes_read_ ∧
    (s.read_at_position position size data).2.2.reader.chunks_read_ = s.reader.chunks_read_ ∧
    (∀ d : List Byte,
      ((s.read_at_position position size data).2.2.read_chunk d).1 = (s.read_chunk d).1 ∧
      ((s.read_at_position position size data).2.2.read_chunk d).2.1 = (s.read_chunk d).2.1 ∧
      ((s.read_at_position position size data).2.2.read_chunk d).2.2.1
        = (s.read_chunk d).2.2.1 ∧
      ((s.read_at_position position size data).2.2.read_chunk d).2.2.2.reader
        = (s.read_chunk d).2.2.2.reader) := by
  obtain ⟨e1, e2, e3⟩ := stream_read_at_position_eq s position size data
  refine ⟨?_, ?_, ?_, by rw [e3], by rw [e3], by rw [e3], by rw [e3], ?_⟩
  · intro input ho hp
    rw [e1, e2, read_at_position_open _ input ho _ _ _ hp]
    exact ⟨rfl, rfl⟩
  · intro input ho hp
    rw [e1, e2, read_at_position_eof _ input ho _ _ _ hp]
    exact ⟨rfl, rfl⟩
  · intro hc
    rw [e1, e2]
    unfold ChunkReader.read_at_position
    simp [hc]
  · intro d
    obtain ⟨a1, a2, a3, a4⟩ := stream_read_chunk_eq (s.read_at_position position size data).2.2 d
    obtain ⟨b1, b2, b3, b4⟩ := stream_read_chunk_eq s d
    rw [a1, a2, a3, a4, b1, b2, b3, b4, e3]
    exact ⟨rfl, rfl, rfl, rfl⟩

/-- Instance of the slice read on a reader over ten bytes whose cursor is at 4
and which retains two bytes: reading four bytes at offset 3 returns
`13 14 15 16` and leaves the cursor and the retained tail as they were. -/
theorem read_at_position_pure_ten_bytes :
    ((StreamReader.mk ten_byte_reader 4).read_at_position 3 4 []).1 = 4 ∧
    ((StreamReader.mk ten_byte_reader 4).read_at_position 3 4 []).2.1 = [13, 14, 15, 16] ∧
    ((StreamReader.mk ten_byte_reader 4).read_at_position 3 4 []).2.2.reader.current_position_
      = 4 ∧
    ((StreamReader.mk ten_byte_reader 4).read_at_position 3 4 []).2.2.reader.overlap_buffer_
      = [12, 13] :=
  ⟨((read_at_position_pure ⟨ten_byte_reader, 4⟩ 3 4 []).1
      [10, 11, 12, 13, 14, 15, 16, 17, 18, 19] ⟨rfl, rfl, rfl⟩ (by decide)).1,
    ((read_at_position_pure ⟨ten_byte_reader, 4⟩ 3 4 []).1
      [10, 11, 12, 13, 14, 15, 16, 17, 18, 19] ⟨rfl, rfl, rfl⟩ (by decide)).2,
    (read_at_position_pure ⟨ten_byte_reader, 4⟩ 3 4 []).2.2.2.1,
    (read_at_position_pure ⟨ten_byte_reader, 4⟩ 3 4 []).2.2.2.2.1⟩

/-- C19, counterexample.  A reader constructed with `chunk_size = 0` and opened
on one byte is open with its cursor at 0, not at the total length 1, yet
`read_chunk` returns false. -/
theorem end_of_stream_counterexample :
    (((ChunkReader.new 0 0).opened [7]).read_chunk []).1 = false ∧
    ((ChunkReader.new 0 0).opened [7]).is_open_ = true ∧
    ((ChunkReader.new 0 0).opened [7]).current_position_ = 0 ∧
    ((ChunkReader.new 0 0).opened [7]).file_size_ = 1 :=
  ⟨rfl, rfl, rfl, rfl⟩

/-- C19 (end of stream and termination), amended.  For a reader with
`chunk_size >= 1` whose recorded size is the length of its stream and whose
cursor is not past it, `read_chunk` returns false exactly when the reader is
closed or its cursor equals the total length.  For a reader with
`chunk_size >= 1` opened on an input of `N` bytes, the `(n + 1)`-th of repeated
`read_chunk` calls returns true exactly when `n < ceil(N / chunk_size)`, so the
calls return exactly `ceil(N / chunk_size)` windows and then false; from then
on the cursor is `N`, `total_bytes_read` is `N` and `chunks_read` is
`ceil(N / chunk_size)`. -/
theorem end_of_stream (r : ChunkReader) (d : List Byte) (hcs : 1 ≤ r.chunk_size_) :
    (r.file_size_ = r.file_.length → r.current_position_ ≤ r.file_size_ →
      ((r.read_chunk d).1 = false ↔
        (r.is_open_ = false ∨ r.current_position_ = r.file_size_))) ∧
    ∀ input : List Byte,
      (∀ n : Nat, (ChunkReader.nth_read (r.opened input) d n).1 = true ↔
        n < (input.length + r.chunk_size_ - 1) / r.chunk_size_) ∧
      (∀ n : Nat, (input.length + r.chunk_size_ - 1) / r.chunk_size_ ≤ n →
        (ChunkReader.after_reads (r.opened input) d n).1.current_position_ = input.length ∧
        (ChunkReader.after_reads (r.opened input) d n).1.total_bytes_read_ = input.length ∧
        (ChunkReader.after_reads (r.opened input) d n).1.chunks_read_
          = (input.length + r.chunk_size_ - 1) / r.chunk_size_ ∧
        (ChunkReader.nth_read (r.opened input) d n).2.2.2
          = (ChunkReader.after_reads (r.opened input) d n).1) := by
  constructor
  · intro hs hc
    exact read_chunk_eq_false_iff r d hcs hs hc
  · intro input
    have hR : r.opened input = reader_at input r.chunk_size_ r.overlap_size_ 0 0 0 0 := rfl
    rw [hR]
    generalize r.chunk_size_ = cs at *
    generalize r.overlap_size_ = os at *
    constructor
    · intro n
      have hceil := ceil_div_le input.length cs n hcs
      by_cases hin : n * cs < input.length
      · have h1 := (after_reads_inside input cs os hcs d n hin).2.2.2.2.1
        rw [h1]
        constructor
        · intro _; omega
        · intro _; rfl
      · have h1 := (nth_read_end input cs os hcs d n (by omega)).1
        rw [h1]
        constructor
        · intro hf; exact absurd hf (by simp)
        · intro hf; omega
    · intro n hn
      have hin : input.length ≤ n * cs := (ceil_div_le input.length cs n hcs).mp hn
      obtain ⟨e1, -, e3, e4⟩ := after_reads_end input cs os hcs d n hin
      exact ⟨e1, e3, e4, (nth_read_end input cs os hcs d n hin).2.2⟩

/-- Instance of the termination on ten bytes read with chunk size 4: three
windows, then false, with the cursor and both counters at their final values. -/
theorem end_of_stream_ten_bytes :
    ((ChunkReader.new 4 2).opened [10, 11, 12, 13, 14, 15, 16, 17, 18, 19]).chunk_size_ = 4 ∧
    (ChunkReader.nth_read ((ChunkReader.new 4 2).opened
      [10, 11, 12, 13, 14, 15, 16, 17, 18, 19]) [] 2).1 = true ∧
    (ChunkReader.nth_read ((ChunkReader.new 4 2).opened
      [10, 11, 12, 13, 14, 15, 16, 17, 18, 19]) [] 3).1 = false ∧
    (ChunkReader.after_reads ((ChunkReader.new 4 2).opened
      [10, 11, 12, 13, 14, 15, 16, 17, 18, 19]) [] 3).1.current_position_ = 10 ∧
    (ChunkReader.after_reads ((ChunkReader.new 4 2).opened
      [10, 11, 12, 13, 14, 15, 16, 17, 18, 19]) [] 3).1.total_bytes_read_ = 10 ∧
    (ChunkReader.after_reads ((ChunkReader.new 4 2).opened
      [10, 11, 12, 13, 14, 15, 16, 17, 18, 19]) [] 3).1.chunks_read_ = 3 ∧
    ((((ChunkReader.new 4 2).opened [10, 11, 12, 13, 14, 15, 16, 17, 18, 19]).read_chunk []).1
        = false ↔
      (((ChunkReader.new 4 2).opened [10, 11, 12, 13, 14, 15, 16, 17, 18, 19]).is_open_ = false ∨
        ((ChunkReader.new 4 2).opened [10, 11, 12, 13, 14, 15, 16, 17, 18, 19]).current_position_
          = ((ChunkReader.new 4 2).opened
            [10, 11, 12, 13, 14, 15, 16, 17, 18, 19]).file_size_)) :=
  ⟨rfl, rfl, rfl, rfl, rfl, rfl,
    (end_of_stream ((ChunkReader.new 4 2).opened [10, 11, 12, 13, 14, 15, 16, 17, 18, 19]) []
      (by decide)).1 rfl (by decide)⟩

/-- C20, counterexample.  A reader constructed with `chunk_size = 0` and opened
on the one-byte input `07` is in a reachable state; its `read_chunk` returns
false with the cursor still at 0, and `get_progress` is then 0, not 100.
Besides, `get_progress` computes in `double`: a reader with chunk size 1 opened
on three bytes has its cursor at 1 after the first read, and `get_progress` is
then the `double` 2345624805922133 / 2 ^ 46 (33.33333333333333), which is not
`100 * 1 / 3`. -/
theorem progress_range_counterexample :
    StreamReader.Reachable ⟨ChunkReader.new 0 4096, 0⟩ [7]
      ((StreamReader.mk (ChunkReader.new 0 4096) 0).open (some [7])).2 ∧
    ((((StreamReader.mk (ChunkReader.new 0 4096) 0).open (some [7])).2).read_chunk []).1
      = false ∧
    ((((StreamReader.mk (ChunkReader.new 0 4096) 0).open
      (some [7])).2).read_chunk []).2.2.2.reader.current_position_ = 0 ∧
    ((((StreamReader.mk (ChunkReader.new 0 4096) 0).open
      (some [7])).2).read_chunk []).2.2.2.reader.get_progress = 0 ∧
    StreamReader.Reachable ⟨ChunkReader.new 1 0, 0⟩ [7, 8, 9]
      ((((StreamReader.mk (ChunkReader.new 1 0) 0).open (some [7, 8, 9])).2).read_chunk
        []).2.2.2 ∧
    ((((StreamReader.mk (ChunkReader.new 1 0) 0).open (some [7, 8, 9])).2).read_chunk
      []).2.2.2.reader.current_position_ = 1 ∧
    ((((StreamReader.mk (ChunkReader.new 1 0) 0).open (some [7, 8, 9])).2).read_chunk
      []).2.2.2.reader.get_progress = 2345624805922133 / 70368744177664 ∧
    (2345624805922133 / 70368744177664 : ℚ) ≠ 100 * 1 / 3 := by
  refine ⟨StreamReader.Reachable.opened, rfl, rfl, ?_,
    StreamReader.Reachable.read_chunk _ _ StreamReader.Reachable.opened, rfl, ?_,
    by norm_num⟩
  · have h : ((((StreamReader.mk (ChunkReader.new 0 4096) 0).open
        (some [7])).2).read_chunk []).2.2.2.reader.current_position_ = 0 := rfl
    unfold ChunkReader.get_progress
    rw [h]
    have hN : ((((StreamReader.mk (ChunkReader.new 0 4096) 0).open
        (some [7])).2).read_chunk []).2.2.2.reader.file_size_ = 1 := rfl
    rw [hN, if_neg (by decide)]
    simp only [Nat.cast_zero, Nat.cast_one]
    rw [to_double_zero, zero_div, to_double_zero, zero_mul, to_double_zero]
  · have h : ((((StreamReader.mk (ChunkReader.new 1 0) 0).open (some [7, 8, 9])).2).read_chunk
        []).2.2.2.reader.current_position_ = 1 := rfl
    have hN : ((((StreamReader.mk (ChunkReader.new 1 0) 0).open (some [7, 8, 9])).2).read_chunk
        []).2.2.2.reader.file_size_ = 3 := rfl
    unfold ChunkReader.get_progress
    rw [h, hN, if_neg (by decide)]
    simp only [Nat.cast_one, Nat.cast_ofNat]
    rw [to_double_one, to_double_three, to_double_third, to_double_third_percent]

/-- C20 (progress range), amended.  In every reader state reachable from `open`
on an input of `N` bytes by `read_chunk`, `read_at_position` and `seek`, the
reader is open with `total_length = N` and `cursor <= total_length`, so
`get_progress` lies in `[0, 100]`; when `N > 0` it is the `double` that
`(double(cursor) / double(total_length)) * 100.0` gives, every conversion and
operation rounded to nearest, and it is 0 when `N = 0`; and when
`chunk_size >= 1` and the input is not empty, `get_progress` is exactly 100
once `read_chunk` has returned false. -/
theorem progress_range (r0 : StreamReader) (input : List Byte) (s : StreamReader)
    (hs : StreamReader.Reachable r0 input s) :
    s.reader.file_size_ = input.length ∧
    s.reader.current_position_ ≤ s.reader.file_size_ ∧
    0 ≤ s.reader.get_progress ∧ s.reader.get_progress ≤ 100 ∧
    (0 < input.length →
      s.reader.get_progress = to_double (to_double
        (to_double (s.reader.current_position_ : ℚ) / to_double (input.length : ℚ)) * 100)) ∧
    (input.length = 0 → s.reader.get_progress = 0) ∧
    (∀ d : List Byte, 1 ≤ s.reader.chunk_size_ → 0 < input.length →
      (s.read_chunk d).1 = false → (s.read_chunk d).2.2.2.reader.get_progress = 100) := by
  obtain ⟨ho, hc⟩ := reachable_inv r0 input s hs
  have hsz : s.reader.file_size_ = input.length := ho.2.2
  have hc2 : s.reader.current_position_ ≤ s.reader.file_size_ := by omega
  obtain ⟨p1, p2, p3, p4, p5⟩ := get_progress_range s.reader hc2
  refine ⟨hsz, hc2, p1, p2, ?_, ?_, ?_⟩
  · intro hN
    rw [p4 (by omega), hsz]
  · intro hN
    exact p3 (by omega)
  · intro d hcs hN hf
    obtain ⟨e1, -, -, e4⟩ := stream_read_chunk_eq s d
    rw [e1] at hf
    rw [e4]
    have hend := (read_chunk_eq_false_iff s.reader d hcs (by rw [hsz, ho.2.1]) hc2).mp hf
    have hcur : s.reader.current_position_ = s.reader.file_size_ := by
      rcases hend with h | h
      · rw [ho.1] at h; exact absurd h (by simp)
      · exact h
    rw [read_chunk_at_end s.reader d (by omega)]
    exact p5 (by omega) hcur

/-- Instance of the progress range: a reader with chunk size 4 opened on four
bytes has progress 100 after its first read, and its second read returns false
with the progress still 100. -/
theorem progress_range_four_bytes :
    StreamReader.Reachable ⟨ChunkReader.new 4 2, 0⟩ [1, 2, 3, 4]
      ((((StreamReader.mk (ChunkReader.new 4 2) 0).open (some [1, 2, 3, 4])).2).read_chunk
        []).2.2.2 ∧
    ((((StreamReader.mk (ChunkReader.new 4 2) 0).open (some [1, 2, 3, 4])).2).read_chunk
      []).2.2.2.reader.current_position_ = 4 ∧
    ((((StreamReader.mk (ChunkReader.new 4 2) 0).open (some [1, 2, 3, 4])).2).read_chunk
      []).2.2.2.reader.get_progress ≤ 100 ∧
    ((((((StreamReader.mk (ChunkReader.new 4 2) 0).open (some [1, 2, 3, 4])).2).read_chunk
      []).2.2.2).read_chunk []).2.2.2.reader.get_progress = 100 :=
  ⟨StreamReader.Reachable.read_chunk _ _ StreamReader.Reachable.opened, rfl,
    (progress_range ⟨ChunkReader.new 4 2, 0⟩ [1, 2, 3, 4] _
      (StreamReader.Reachable.read_chunk _ [] StreamReader.Reachable.opened)).2.2.2.1,
    (progress_range ⟨ChunkReader.new 4 2, 0⟩ [1, 2, 3, 4] _
      (StreamReader.Reachable.read_chunk _ [] StreamReader.Reachable.opened)).2.2.2.2.2.2
      [] (by decide) (by decide) rfl⟩

/-- C21 (first-match header detection).  For every registry and every buffer
(the `n` bytes at the data pointer), `detect_header` returns the first signature
`S` in insertion order such that `n >= len(S.header)` and the first
`len(S.header)` bytes of the buffer equal `S.header`: every signature before it
in the registry fails that test; and it returns null if and only if no
signature of the registry passes the test.  The method of
`FileSignatureDetector` is this search on its scan list. -/
theorem first_match_detection (signatures : List FileSignature) (data : List Byte) (n : Nat) :
    detect_header signatures data n
      = signatures.find? (fun S => starts_with (data.take n) S.header) ∧
    (∀ S, detect_header signatures data n = some S ↔
      (starts_with (data.take n) S.header = true ∧
        ∃ before after, signatures = before ++ S :: after ∧
          ∀ T ∈ before, starts_with (data.take n) T.header = false)) ∧
    (detect_header signatures data n = none ↔
      ∀ S ∈ signatures, starts_with (data.take n) S.header = false) ∧
    (∀ d : FileSignatureDetector,
      d.detect_header data n = detect_header d.get_signatures data n) := by
  have h1 : detect_header signatures data n
      = signatures.find? (fun S => starts_with (data.take n) S.header) := by
    unfold detect_header
    congr 1
    funext S
    exact detect_header_test data n S.header
  refine ⟨h1, ?_, ?_, fun d => rfl⟩
  · intro S
    rw [h1, List.find?_eq_some]
    constructor
    · rintro ⟨hp, before, after, he, hb⟩
      refine ⟨hp, before, after, he, ?_⟩
      intro T hT
      have := hb T hT
      simpa using this
    · rintro ⟨hp, before, after, he, hb⟩
      refine ⟨hp, before, after, he, ?_⟩
      intro T hT
      simp [hb T hT]
  · rw [h1, List.find?_eq_none]
    constructor
    · intro h S hS
      have := h S hS
      simpa using this
    · intro h S hS
      simp [h S hS]

/-- Instance of the first match: on the buffer `50 4B 03 04 14 00 06 00` the
built-in registry yields the ZIP entry, the sixth one, and the five entries
before it fail the prefix test. -/
theorem first_match_detection_zip :
    detect_header initialize_common_signatures [0x50, 0x4B, 0x03, 0x04, 0x14, 0x00, 0x06, 0x00] 8
      = some ⟨"ZIP", ".zip", [0x50, 0x4B, 0x03, 0x04], [0x50, 0x4B, 0x05, 0x06], 0, true⟩ ∧
    starts_with ([0x50, 0x4B, 0x03, 0x04, 0x14, 0x00, 0x06, 0x00].take 8)
      [0x50, 0x4B, 0x03, 0x04] = true ∧
    ∃ before after, initialize_common_signatures
        = before ++ ⟨"ZIP", ".zip", [0x50, 0x4B, 0x03, 0x04], [0x50, 0x4B, 0x05, 0x06], 0, true⟩
          :: after ∧
      ∀ T ∈ before,
        starts_with ([0x50, 0x4B, 0x03, 0x04, 0x14, 0x00, 0x06, 0x00].take 8) T.header = false :=
  ⟨rfl,
    ((first_match_detection initialize_common_signatures
      [0x50, 0x4B, 0x03, 0x04, 0x14, 0x00, 0x06, 0x00] 8).2.1 _).mp rfl⟩

/-- C22 (leftmost pattern search).  For every buffer (the `n` bytes at the data
pointer, `n` a `size_t`) and every non-empty pattern that occurs in the buffer,
`find_pattern` returns the smallest index `i` with `i + len(pattern) <= n` and
`buffer[i .. i + len(pattern)) = pattern`; and `find_pattern` returns `SIZE_MAX`
if and only if the pattern is empty, or `len(pattern) > n`, or the pattern does
not occur in the buffer. -/
theorem leftmost_pattern_search (data : List Byte) (n : Nat) (pattern : List Byte)
    (hn : n ≤ SIZE_MAX) :
    (pattern ≠ [] → ∀ i, occurs_at (data.take n) pattern i →
      occurs_at (data.take n) pattern (find_pattern data n pattern) ∧
      find_pattern data n pattern ≤ i ∧
      find_pattern data n pattern + pattern.length ≤ n ∧
      ∀ j, j < find_pattern data n pattern → ¬ occurs_at (data.take n) pattern j) ∧
    (find_pattern data n pattern = SIZE_MAX ↔
      (pattern = [] ∨ n < pattern.length ∨ ∀ i, ¬ occurs_at (data.take n) pattern i)) := by
  have hfound : find_pattern data n pattern ≠ SIZE_MAX →
      pattern ≠ [] ∧ find_pattern data n pattern + pattern.length ≤ n ∧
      occurs_at (data.take n) pattern (find_pattern data n pattern) ∧
      ∀ j, j < find_pattern data n pattern → ¬ occurs_at (data.take n) pattern j := by
    intro hne
    obtain ⟨p1, p2, p3, p4⟩ := find_pattern_found data n pattern hne
    refine ⟨p1, p2, (find_pattern_test data n pattern _ p1 p2).mp p3, ?_⟩
    intro j hj ho
    have := (find_pattern_test data n pattern j p1 (occurs_at_bound data n pattern j ho)).mpr ho
    rw [p4 j hj] at this
    exact absurd this (by simp)
  have habsent : (∀ i, ¬ occurs_at (data.take n) pattern i) →
      find_pattern data n pattern = SIZE_MAX := by
    intro h
    by_contra hne
    exact h _ (hfound hne).2.2.1
  have hocc : pattern ≠ [] → ∀ i, occurs_at (data.take n) pattern i →
      find_pattern data n pattern ≠ SIZE_MAX := by
    intro hp i hi heq
    have hb := occurs_at_bound data n pattern i hi
    have hlen : 0 < pattern.length := List.length_pos.mpr hp
    unfold find_pattern at heq
    have hc : ¬ ((pattern.isEmpty || decide (n < pattern.length)) = true) := by
      simp only [Bool.or_eq_true, List.isEmpty_iff, decide_eq_true_eq, not_or, not_lt]
      exact ⟨hp, by omega⟩
    rw [if_neg hc] at heq
    rcases find_pattern_loop_spec data pattern 0 (n - pattern.length + 1)
      with ⟨-, h2⟩ | ⟨-, h2, -, -⟩
    · have := h2 i (Nat.zero_le _) (by omega)
      rw [(find_pattern_test data n pattern i hp hb).mpr hi] at this
      exact absurd this (by simp)
    · rw [heq] at h2
      unfold SIZE_MAX at h2 hn
      omega
  constructor
  · intro hp i hi
    obtain ⟨-, q2, q3, q4⟩ := hfound (hocc hp i hi)
    refine ⟨q3, ?_, q2, q4⟩
    by_contra hlt
    exact q4 i (by omega) hi
  · constructor
    · intro heq
      by_cases hp : pattern = []
      · exact Or.inl hp
      · right; right
        intro i hi
        exact hocc hp i hi heq
    · rintro (h | h | h)
      · unfold find_pattern
        simp [h]
      · unfold find_pattern
        simp [h]
      · exact habsent h

/-- Instance of the leftmost search: in `FF D9 00 FF D9` the pattern `FF D9`
occurs at 0 and at 3, and index 0 is returned. -/
theorem leftmost_pattern_search_footer :
    occurs_at ([0xFF, 0xD9, 0x00, 0xFF, 0xD9].take 5) [0xFF, 0xD9] 3 ∧
    find_pattern [0xFF, 0xD9, 0x00, 0xFF, 0xD9] 5 [0xFF, 0xD9] = 0 ∧
    find_pattern [0xFF, 0xD9, 0x00, 0xFF, 0xD9] 5 [0xFF, 0xD9] ≤ 3 :=
  ⟨⟨by decide, by decide⟩, rfl,
    ((leftmost_pattern_search [0xFF, 0xD9, 0x00, 0xFF, 0xD9] 5 [0xFF, 0xD9] (by decide)).1
      (by decide) 3 ⟨by decide, by decide⟩).2.1⟩

/-- C23 (built-in registry).  A freshly constructed `FileSignatureDetector`
holds exactly 19 signatures, named JPEG, PNG, GIF87a, GIF89a, PDF, ZIP, RAR,
7ZIP, DOCX, MP3, MP3_ALT, MP4, AVI, BMP, TIFF_LE, TIFF_BE, DOC, EXE, SQLITE in
this insertion order, each with the header bytes, footer bytes and `has_footer`
flag of the built-in signature set of the specification; for each of them the
header is non-empty and `has_footer` is true iff the footer is non-empty.  The
registry of a freshly constructed `FileCarver` is this list. -/
theorem builtin_registry :
    FileSignatureDetector.new.signatures_.map FileSignature.listed = builtin_signature_set ∧
    FileSignatureDetector.new.signatures_.length = 19 ∧
    FileSignatureDetector.new.signatures_.map FileSignature.name =
      ["JPEG", "PNG", "GIF87a", "GIF89a", "PDF", "ZIP", "RAR", "7ZIP", "DOCX", "MP3", "MP3_ALT",
        "MP4", "AVI", "BMP", "TIFF_LE", "TIFF_BE", "DOC", "EXE", "SQLITE"] ∧
    (FileSignatureDetector.new.signatures_.all
      (fun s => decide (s.header ≠ []) && decide (s.has_footer = true ↔ s.footer ≠ []))) = true ∧
    (FileSignatureDetector.new.signatures_.map FileSignature.name).Nodup ∧
    FileSignatureDetector.new.signatures_ = initialize_common_signatures ∧
    (∀ (output_dir : String) (w : World),
      (FileCarver.new output_dir w).signatures = FileSignatureDetector.new.signatures_) := by
  rw [new_signatures]
  exact ⟨by decide, rfl, rfl, by decide, by decide, rfl, fun _ _ => rfl⟩

namespace FileCarver

/-- C24 (ZIP wins over DOCX).  With the built-in registry, for every buffer that
begins with the DOCX magic `50 4B 03 04 14 00 06 00`, `detect_header` returns
the ZIP signature; `detect_header` never returns the DOCX signature; no carve on
the built-in registry emits a record of type DOCX; and `carve_file_types` with
filter `["DOCX"]` yields no results for any input. -/
theorem zip_wins_over_docx (c : FileCarver) (hc : c.signatures = initialize_common_signatures) :
    (∀ (t : List Byte) (n : Nat), 8 ≤ n →
      detect_header c.signatures ([0x50, 0x4B, 0x03, 0x04, 0x14, 0x00, 0x06, 0x00] ++ t) n
        = some zip_signature ∧
      FileSignatureDetector.new.detect_header
        ([0x50, 0x4B, 0x03, 0x04, 0x14, 0x00, 0x06, 0x00] ++ t) n = some zip_signature) ∧
    (∀ (data : List Byte) (n : Nat) (S : FileSignature),
      detect_header c.signatures data n = some S → S.name ≠ "DOCX") ∧
    (∀ (input : Option (List Byte)) (types : List String) (r : CarvedFile),
      r ∈ carved_after (c.carve_file_types input types) → r.type ≠ "DOCX") ∧
    (∀ input : Option (List Byte), carved_after (c.carve_file_types input ["DOCX"]) = []) := by
  refine ⟨?_, ?_, ?_, ?_⟩
  · intro t n hn
    rw [hc]
    refine ⟨detect_header_docx_magic t n (by omega), ?_⟩
    unfold FileSignatureDetector.detect_header
    rw [new_signatures]
    exact detect_header_docx_magic t n (by omega)
  · intro data n S h
    rw [hc] at h
    exact detect_header_not_docx data n S h
  · intro input types r hr
    exact carved_after_not_docx c hc input types r hr
  · intro input
    rw [List.eq_nil_iff_forall_not_mem]
    intro r hr
    have h1 := carved_after_not_docx c hc input ["DOCX"] r hr
    rcases carved_after_type_mem c input ["DOCX"] r hr with h2 | h2
    · exact absurd h2 (by simp)
    · rw [List.mem_singleton] at h2
      exact h1 h2

/-- Instance of the tie-break on the default engine: the eight bytes of the
DOCX magic are detected as ZIP, and a carve of the DOCX magic followed by 600
zero bytes with filter `["DOCX"]` yields nothing. -/
theorem zip_wins_over_docx_default :
    detect_header default_carver.signatures
      ([0x50, 0x4B, 0x03, 0x04, 0x14, 0x00, 0x06, 0x00] ++ []) 8 = some zip_signature ∧
    carved_after (default_carver.carve_file_types
      (some ([0x50, 0x4B, 0x03, 0x04, 0x14, 0x00, 0x06, 0x00] ++ List.replicate 600 0))
      ["DOCX"]) = [] :=
  ⟨((zip_wins_over_docx default_carver rfl).1 [] 8 (by decide)).1,
    (zip_wins_over_docx default_carver rfl).2.2.2 _⟩

end FileCarver

/-- C25 (registry add and get).  For every registry the program can build (the
constructor's and any later `add_signature` calls), `add_signature(sig)` appends
`sig` at the end of the scan list and leaves every earlier entry unchanged, also
when an entry of the same name exists; afterwards `get_signature(sig.name)`
returns `sig`, and lookups of other names are unchanged.  In general
`get_signature(name)` returns the most recently added signature of that name
(the last one in the scan list), and returns null exactly for the names that no
added signature has.  The freshly constructed registry is such a registry. -/
theorem registry_add_get (d : FileSignatureDetector) (hd : d.Built) (sig : FileSignature) :
    (d.add_signature sig).signatures_ = d.signatures_ ++ [sig] ∧
    (d.add_signature sig).get_signature sig.name = some sig ∧
    (∀ name, name ≠ sig.name → (d.add_signature sig).get_signature name = d.get_signature name) ∧
    (∀ name, d.get_signature name = d.signatures_.reverse.find? (fun s => s.name == name)) ∧
    (∀ name, d.get_signature name = none ↔ ∀ s ∈ d.signatures_, s.name ≠ name) ∧
    FileSignatureDetector.new.Built := by
  have hadd := FileSignatureDetector.Built.add d sig hd
  refine ⟨rfl, ?_, ?_, fun name => (built_lookup d hd name).2, ?_, new_built⟩
  · rw [(built_lookup _ hadd sig.name).2]
    show (d.signatures_ ++ [sig]).reverse.find? _ = _
    rw [List.reverse_append]
    simp
  · intro name hne
    rw [(built_lookup _ hadd name).2, (built_lookup d hd name).2]
    show (d.signatures_ ++ [sig]).reverse.find? _ = _
    rw [List.reverse_append]
    have : (sig.name == name) = false := by
      rw [beq_eq_false_iff_ne]
      exact fun e => hne e.symm
    simp [this]
  · intro name
    rw [(built_lookup d hd name).2, List.find?_eq_none]
    constructor
    · intro h s hs
      have := h s (List.mem_reverse.mpr hs)
      simpa using this
    · intro h s hs
      have := h s (List.mem_reverse.mp hs)
      simpa using this

/-- Instance of add and get on the freshly constructed registry: a second
signature named `JPEG` is appended as twentieth entry, the built-in JPEG entry
stays first, and the name `JPEG` now looks up the new one. -/
theorem registry_add_get_duplicate :
    (FileSignatureDetector.new.add_signature ⟨"JPEG", ".jpeg", [0xFF, 0xD8], [], 0, false⟩).signatures_
      = FileSignatureDetector.new.signatures_ ++ [⟨"JPEG", ".jpeg", [0xFF, 0xD8], [], 0, false⟩] ∧
    (FileSignatureDetector.new.add_signature
      ⟨"JPEG", ".jpeg", [0xFF, 0xD8], [], 0, false⟩).get_signature "JPEG"
      = some ⟨"JPEG", ".jpeg", [0xFF, 0xD8], [], 0, false⟩ ∧
    FileSignatureDetector.new.get_signature "JPEG" = some jpeg_signature ∧
    FileSignatureDetector.new.get_signature "GIF" = none :=
  ⟨(registry_add_get FileSignatureDetector.new new_built
      ⟨"JPEG", ".jpeg", [0xFF, 0xD8], [], 0, false⟩).1,
    (registry_add_get FileSignatureDetector.new new_built
      ⟨"JPEG", ".jpeg", [0xFF, 0xD8], [], 0, false⟩).2.1,
    by decide, by decide⟩

namespace FileCarver

/-- C26 (filename format).  Emitting a candidate appends exactly one record,
typed with the name of the matched signature and named
`name ++ "_" ++ d ++ extension`, where `name` and `extension` are those of the
matched signature and `d` is the value of the counter of that name in decimal,
left-padded with zeros to six digits; the emission advances that counter by
exactly 1.  For every engine, input and type filter, every record of a carve is
so named after a registry signature whose name is the record's type, and the
counter values of the successive records of one type increase by exactly 1: the
`j`-th record of type `T` carries the value the counter of `T` had before the
carve plus `j`.  Whenever the reader loop completes, the carve holds one record
per candidate that passes the filters, typed in scan order with the names of
the matched signatures, so every such candidate is named.  The padding `pad6`
renders 0 as `000000`, 42 as `000042` and 1234567 as `1234567`. -/
theorem filename_format (c : FileCarver) (input : Option (List Byte)) (types : List String) :
    (∀ (sig : FileSignature) (s e fs : Nat) (b : Bool),
      ∃ r, (c.emit_candidate sig s e fs b).carved_files_ = c.carved_files_ ++ [r] ∧
        r.type = sig.name ∧
        r.filename = sig.name ++ "_" ++ pad6 (counter_get c.world.counters sig.name)
          ++ sig.extension ∧
        counter_get (c.emit_candidate sig s e fs b).world.counters sig.name
          = counter_get c.world.counters sig.name + 1) ∧
    (∀ (T : String) (j : Nat) (r : CarvedFile),
      ((carved_after (c.carve_file_types input types)).filter
        (fun r => decide (r.type = T)))[j]? = some r →
      ∃ sig ∈ c.signatures, sig.name = T ∧
        r.filename = sig.name ++ "_" ++ pad6 (counter_get c.world.counters T + j)
          ++ sig.extension) ∧
    (∀ r ∈ carved_after (c.carve_file_types input types),
      ∃ sig ∈ c.signatures, ∃ k, sig.name = r.type ∧
        r.filename = sig.name ++ "_" ++ pad6 k ++ sig.extension) ∧
    (∀ (bytes : List Byte) (res : List Call × ChunkReader), input = some bytes →
      chunk_calls (bytes.length + 1)
        (reader_at bytes c.chunk_reader_.chunk_size_ c.chunk_reader_.overlap_size_ 0 0 0 0)
        [] 0 = Except.ok res →
      (carved_after (c.carve_file_types input types)).map CarvedFile.type =
        res.1.flatMap (fun call => ((c.started bytes).scan_window types call.data
          call.chunk_size call.file_offset).map (fun h => h.signature.name))) ∧
    pad6 0 = "000000" ∧ pad6 42 = "000042" ∧ pad6 999999 = "999999" ∧
    pad6 1234567 = "1234567" := by
  have h1 : ∀ (T : String) (j : Nat) (r : CarvedFile),
      ((carved_after (c.carve_file_types input types)).filter
        (fun r => decide (r.type = T)))[j]? = some r →
      ∃ sig ∈ c.signatures, sig.name = T ∧
        r.filename = sig.name ++ "_" ++ pad6 (counter_get c.world.counters T + j)
          ++ sig.extension := by
    intro T j r hr
    cases input with
    | none => simp [carve_file_types_none] at hr
    | some bytes =>
      cases hc : c.carve_file_types (some bytes) types with
      | error e => rw [hc] at hr; simp [carved_after] at hr
      | ok p =>
        rw [hc] at hr
        obtain ⟨sig, hm, hn, hf⟩ := (carve_names c bytes types p.1 p.2 hc T).2 j r hr
        exact ⟨sig, hm, hn, by rw [hn]; exact hf⟩
  refine ⟨?_, h1, ?_, ?_, by decide, by decide, by decide, by decide⟩
  · intro sig s e fs b
    obtain ⟨⟨r, e1, e2, e3⟩, e4, -⟩ := emit_candidate_named c sig s e fs b
    exact ⟨r, e1, e2, e3, by rw [e4, counter_get_set_same]⟩
  · intro r hr
    have hmem : r ∈ (carved_after (c.carve_file_types input types)).filter
        (fun x => decide (x.type = r.type)) := by
      rw [List.mem_filter]
      exact ⟨hr, by simp⟩
    obtain ⟨j, hj⟩ := List.getElem?_of_mem hmem
    obtain ⟨sig, hm, hn, hf⟩ := h1 r.type j r hj
    exact ⟨sig, hm, _, hn, hf⟩
  · intro bytes res hin hres
    subst hin
    have h := congrArg (List.map (fun x : String × Nat × Nat × Nat × Bool => x.1))
      (carved_after_of_calls c bytes types res hres).2
    rw [List.map_map, List.map_flatMap] at h
    have e1 : ((fun x : String × Nat × Nat × Nat × Bool => x.1) ∘ CarvedFile.core)
        = CarvedFile.type := rfl
    rw [e1] at h
    rw [h]
    congr 1
    funext call
    rw [List.map_map]
    rfl

/-- Instance of the filename format on `mixed_types_input` (a JPEG, the PNG
header and a second JPEG in sixteen bytes) with `min_file_size = 1` and fresh
counters: the carve names its three records `JPEG_000000.jpg`,
`PNG_000000.png` and `JPEG_000001.jpg`, the second JPEG record being the one at
index 1 among the records of type JPEG. -/
theorem filename_format_mixed_types :
    (carved_after (small_files_carver.carve_file_types (some mixed_types_input) [])).map
        (fun r => (r.filename, r.type, r.start_offset))
      = [("JPEG_000000.jpg", "JPEG", 0), ("PNG_000000.png", "PNG", 4),
          ("JPEG_000001.jpg", "JPEG", 12)] ∧
    ∀ r, ((carved_after (small_files_carver.carve_file_types (some mixed_types_input) [])).filter
        (fun r => decide (r.type = "JPEG")))[1]? = some r →
      ∃ sig ∈ small_files_carver.signatures, sig.name = "JPEG" ∧
        r.filename = sig.name ++ "_"
          ++ pad6 (counter_get small_files_carver.world.counters "JPEG" + 1) ++ sig.extension :=
  ⟨rfl, (filename_format small_files_carver (some mixed_types_input) []).2.1 "JPEG" 1⟩


/-- C27 (filename uniqueness).  For every input, configuration, type filter and
earlier state of the counters, the records produced by one carve run on the
built-in registry have pairwise distinct filenames, between records of one type
as well as between records of different types. -/
theorem filename_uniqueness (c : FileCarver) (hc : c.signatures = initialize_common_signatures)
    (input : Option (List Byte)) (types : List String) :
    ((carved_after (c.carve_file_types input types)).map CarvedFile.filename).Nodup := by
  cases input with
  | none => simp [carve_file_types_none]
  | some bytes =>
    cases h : c.carve_file_types (some bytes) types with
    | error e => simp [carved_after]
    | ok p => exact (carve_names_nodup c hc bytes types p.1 p.2 h).1

/-- Instance of the uniqueness on `three_window_input`, where the default
engine emits two records of type MP3 for one header. -/
theorem filename_uniqueness_three_windows :
    ((carved_after (default_carver.carve_file_types (some three_window_input) [])).map
      CarvedFile.filename).Nodup ∧
    ((carved_after (default_carver.carve_file_types (some three_window_input) [])).map
      CarvedFile.filename).length = 2 :=
  ⟨filename_uniqueness default_carver rfl (some three_window_input) [], by
    have h := congrArg List.length three_window_cores
    rw [List.length_map] at h
    rw [List.length_map, h]
    rfl⟩


/-- C28, counterexample.  A first engine carves scenario S1 and names its
record `JPEG_000000.jpg`.  A second engine, constructed afterwards in the same
process (on the world the first run left), carves the same input and names its
first JPEG record `JPEG_000001.jpg`: the counter map is a function-local
`static` of `generate_unique_filename`, not a member of the engine. -/
theorem counter_reset_counterexample :
    (carved_after (small_files_carver.carve_file_types (some scenario_S1) [])).map
      CarvedFile.filename = ["JPEG_000000.jpg"] ∧
    (carved_after (((FileCarver.new "second"
        (state_after (small_files_carver.carve_file_types (some scenario_S1) [])
          small_files_carver).world).set_min_file_size 1).carve_file_types
        (some scenario_S1) [])).map CarvedFile.filename = ["JPEG_000001.jpg"] :=
  ⟨rfl, rfl⟩

/-- C28 (filename counter), amended.  The per-type filename counter is
process-wide state: constructing a `FileCarver` and `clear_results` leave it as
it is, and a carve advances the counter of each type by the number of records
of that type.  Hence the `j`-th record of type `T` of a carve is named with the
value the counter of `T` had in the process before the carve plus `j`, whichever
engine made the earlier emissions; in a process without earlier emissions the
first record of type `T` is named `T_000000<ext>`. -/
theorem counter_process_wide (c : FileCarver) (input : Option (List Byte))
    (types : List String) :
    (∀ (output_dir : String) (w : World),
      (FileCarver.new output_dir w).world.counters = w.counters) ∧
    c.clear_results.world.counters = c.world.counters ∧
    (∀ (T : String) (j : Nat) (r : CarvedFile),
      ((carved_after (c.carve_file_types input types)).filter
        (fun r => decide (r.type = T)))[j]? = some r →
      ∃ sig ∈ c.signatures, sig.name = T ∧
        r.filename = T ++ "_" ++ pad6 (counter_get c.world.counters T + j) ++ sig.extension) ∧
    (∀ (b : Bool) (c' : FileCarver), c.carve_file_types input types = Except.ok (b, c') →
      ∀ T, counter_get c'.world.counters T = counter_get c.world.counters T +
        (c'.carved_files_.filter (fun r => decide (r.type = T))).length) ∧
    (c.world.counters = [] → ∀ (T : String) (r : CarvedFile),
      ((carved_after (c.carve_file_types input types)).filter
        (fun r => decide (r.type = T)))[0]? = some r →
      ∃ sig ∈ c.signatures, sig.name = T ∧
        r.filename = T ++ "_" ++ "000000" ++ sig.extension) := by
  have h3 : ∀ (T : String) (j : Nat) (r : CarvedFile),
      ((carved_after (c.carve_file_types input types)).filter
        (fun r => decide (r.type = T)))[j]? = some r →
      ∃ sig ∈ c.signatures, sig.name = T ∧
        r.filename = T ++ "_" ++ pad6 (counter_get c.world.counters T + j)
          ++ sig.extension := by
    intro T j r hr
    cases input with
    | none => simp [carve_file_types_none] at hr
    | some bytes =>
      cases hc : c.carve_file_types (some bytes) types with
      | error e => rw [hc] at hr; simp [carved_after] at hr
      | ok p =>
        rw [hc] at hr
        exact (carve_names c bytes types p.1 p.2 hc T).2 j r hr
  refine ⟨fun _ _ => rfl, rfl, h3, ?_, ?_⟩
  · intro b c' hc T
    cases input with
    | none =>
      have hn : c.carve_file_types none types = Except.ok (false,
          { c.clear_results with
              chunk_reader_ := (c.clear_results.chunk_reader_.open none).2 }) := rfl
      rw [hn] at hc
      simp only [Except.ok.injEq, Prod.mk.injEq] at hc
      rw [← hc.2]
      rfl
    | some bytes => exact (carve_names c bytes types b c' hc T).1
  · intro h0 T r hr
    obtain ⟨sig, hm, hn, hf⟩ := h3 T 0 r hr
    refine ⟨sig, hm, hn, ?_⟩
    have hp : pad6 (counter_get [] T + 0) = "000000" := by
      show pad6 0 = "000000"
      decide
    rw [hf, h0, hp]

/-- Instance of the process-wide counter: the second engine of the
counterexample starts from the counter value 1 that the first engine left for
`JPEG`. -/
theorem counter_process_wide_second_engine :
    ∃ sig ∈ ((FileCarver.new "second"
        (state_after (small_files_carver.carve_file_types (some scenario_S1) [])
          small_files_carver).world).set_min_file_size 1).signatures,
      sig.name = "JPEG" ∧
      "JPEG_000001.jpg" = "JPEG" ++ "_" ++ pad6 (counter_get ((FileCarver.new "second"
        (state_after (small_files_carver.carve_file_types (some scenario_S1) [])
          small_files_carver).world).set_min_file_size 1).world.counters "JPEG" + 0)
          ++ sig.extension :=
  (counter_process_wide ((FileCarver.new "second"
      (state_after (small_files_carver.carve_file_types (some scenario_S1) [])
        small_files_carver).world).set_min_file_size 1) (some scenario_S1) []).2.2.1
    "JPEG" 0 ⟨"JPEG_000001.jpg", "JPEG", 3, 17, 14, true, true⟩ rfl


/-- C29 (bytes_processed accounting), evaluated on the code.  The default engine
(chunk size 65536, overlap size 4096) completes the carve of
`three_window_input`, an input of N = 131672 bytes, in three windows of 65536,
69632 and 4696 bytes.  `carve_file_types` adds the length of the whole window in
each iteration, retained overlap included, so `bytes_processed_` ends at
65536 + 69632 + 4696 = 139864, not at N; the reader's own counter
`total_bytes_read_`, which adds the newly read bytes only, ends at N. -/
theorem bytes_processed_three_windows :
    three_window_input.length = 131672 ∧
    ∃ c', default_carver.carve_file_types (some three_window_input) [] =
        Except.ok (true, c') ∧
      c'.bytes_processed_ = 139864 ∧
      c'.chunk_reader_.total_bytes_read_ = 131672 := by
  refine ⟨three_window_length, ?_⟩
  obtain ⟨c', h1, h2, h3⟩ := carve_bytes_processed default_carver three_window_input [] _
    (chunk_calls_three_windows three_window_input three_window_length)
  refine ⟨c', h1, ?_, ?_⟩
  · rw [h2]; rfl
  · rw [h3]; rfl


/-- C30 (configured chunking), evaluated on the code.  `configure_carver` calls
the five setters for the size limits, extraction, footers and search window and
leaves the reader of the engine as the constructor built it.  For the valid
configuration `small_chunk_config` (chunk size 1024, overlap size 16) the
configured engine still reads with chunk size 65536 and overlap size 4096, and
an input of 2048 bytes is scanned as one window of 2048 bytes, where a reader
with the configured sizes hands out a window of 1024 and one of 1040 bytes. -/
theorem configured_chunking_ignored :
    (1024 ≤ small_chunk_config.chunk_size ∧
      small_chunk_config.overlap_size < small_chunk_config.chunk_size) ∧
    (∀ (carver : FileCarver) (config : CarverConfig),
      (configure_carver carver config).chunk_reader_ = carver.chunk_reader_) ∧
    (configure_carver (FileCarver.new small_chunk_config.output_directory quiet_world)
      small_chunk_config).chunk_reader_.chunk_size_ = 65536 ∧
    (configure_carver (FileCarver.new small_chunk_config.output_directory quiet_world)
      small_chunk_config).chunk_reader_.overlap_size_ = 4096 ∧
    (id3_in_filler 1000 1045).length = 2048 ∧
    (∃ res, chunk_calls ((id3_in_filler 1000 1045).length + 1)
        (reader_at (id3_in_filler 1000 1045)
          (configure_carver (FileCarver.new small_chunk_config.output_directory quiet_world)
            small_chunk_config).chunk_reader_.chunk_size_
          (configure_carver (FileCarver.new small_chunk_config.output_directory quiet_world)
            small_chunk_config).chunk_reader_.overlap_size_ 0 0 0 0) [] 0 = Except.ok res ∧
      res.1.map Call.chunk_size = [2048]) ∧
    (∃ res, chunk_calls ((id3_in_filler 1000 1045).length + 1)
        (reader_at (id3_in_filler 1000 1045) small_chunk_config.chunk_size
          small_chunk_config.overlap_size 0 0 0 0) [] 0 = Except.ok res ∧
      res.1.map Call.chunk_size = [1024, 1040]) := by
  have hlen : (id3_in_filler 1000 1045).length = 2048 := id3_in_filler_length 1000 1045
  refine ⟨⟨by decide, by decide⟩, fun _ _ => rfl, rfl, rfl, hlen, ?_, ?_⟩
  · refine ⟨_, chunk_calls_single (id3_in_filler 1000 1045) 65536 4096 (by omega) (by omega), ?_⟩
    show [(id3_in_filler 1000 1045).length] = [2048]
    rw [hlen]
  · exact ⟨_, chunk_calls_small_windows (id3_in_filler 1000 1045) hlen, rfl⟩

end FileCarver

/-- C31 (config validation).  For a configuration whose `input_file` is
non-empty and exists, `validate_config` returns false if and only if
`chunk_size < 1024`, or `overlap_size >= chunk_size`, or `max_file_size > 0`
and `min_file_size > max_file_size`.  `parse` returns this verdict: when its
argument loop runs to the end with configuration `parsed`, it returns what
`validate_config` says about `parsed`.  A false verdict of `parse` makes `main`
exit with code 1 before an engine is constructed, so before any scanning. -/
theorem config_validation (config : CarverConfig) (file_exists : String → Bool)
    (hne : config.input_file.isEmpty = false) (hex : file_exists config.input_file = true) :
    (validate_config config file_exists = false ↔
      (config.chunk_size < 1024 ∨ config.overlap_size ≥ config.chunk_size ∨
        (config.max_file_size > 0 ∧ config.min_file_size > config.max_file_size))) ∧
    (∀ (argv : List String) (parsed : CarverConfig), 2 ≤ argv.length →
      parse_arguments argv.tail CarverConfig.default = some parsed →
      parse argv file_exists =
        if validate_config parsed file_exists then some parsed else none) ∧
    (∀ (argv : List String) (content : String → Option (List Byte))
      (can_create_directories : String → Bool) (w : World),
      parse argv file_exists = none →
      main argv file_exists content can_create_directories w = Except.ok (1, none)) := by
  refine ⟨?_, ?_, ?_⟩
  · unfold validate_config
    rw [hne, hex]
    simp only [Bool.false_eq_true, if_false, Bool.not_true]
    by_cases h1 : config.chunk_size < 1024
    · simp [h1]
    · by_cases h2 : config.overlap_size ≥ config.chunk_size
      · simp [h1, h2]
      · by_cases h3 : config.max_file_size > 0 ∧ config.min_file_size > config.max_file_size
        · simp [h1, h2, h3]
        · rw [if_neg h1, if_neg h2, if_neg h3]
          simp only [Bool.true_eq_false, false_iff, not_or]
          exact ⟨h1, h2, h3⟩
  · intro argv parsed hlen hp
    unfold parse
    rw [if_neg (by omega), hp]
  · intro argv content can_create_directories w hp
    unfold main
    rw [hp]

/-- Instance of C31: `--chunk-size 512` on an existing input is rejected by
`parse`, and `main` exits with code 1 without an engine. -/
theorem config_validation_small_chunk :
    validate_config { CarverConfig.default with input_file := "image.dd", chunk_size := 512 }
      (fun _ => true) = false ∧
    parse ["chunked_carver", "-i", "image.dd", "--chunk-size", "512"] (fun _ => true) = none ∧
    main ["chunked_carver", "-i", "image.dd", "--chunk-size", "512"] (fun _ => true)
      (fun _ => some scenario_S1) (fun _ => true) quiet_world = Except.ok (1, none) :=
  ⟨((config_validation { CarverConfig.default with input_file := "image.dd", chunk_size := 512 }
      (fun _ => true) rfl rfl).1).mpr (Or.inl (by decide)),
    rfl,
    (config_validation { CarverConfig.default with input_file := "image.dd", chunk_size := 512 }
      (fun _ => true) rfl rfl).2.2
      ["chunked_carver", "-i", "image.dd", "--chunk-size", "512"]
      (fun _ => some scenario_S1) (fun _ => true) quiet_world rfl⟩

namespace FileCarver

/-- C32, counterexample.  Scenario S3 in 18 bytes (a PDF at 0 with `%%EOF` at
13 that contains a JPEG at 6 with `FF D9` at 10, no other magic), each time with
`min_file_size = 1`.  With `search_window = 8` the PDF footer lies outside the
bytes searched and the PDF record has `has_valid_footer = false`; with
`use_footers = false` neither record has a valid footer; with
`max_file_size = 10` the PDF candidate of 18 bytes is dropped and one record
is left; with the type filter `["JPEG"]` only the JPEG is reported.  On
`nested_two_window_input` (80000 bytes, two windows, the JPEG at 62000 inside
the retained tail) the default reader delivers the JPEG header twice and the
carve yields three records: the PDF, the JPEG `(62000, 62006)` and a second
JPEG record `(66096, 80000)` without a valid footer. -/
theorem nested_candidates_counterexample :
    (carved_after ((small_files_carver.set_search_window 8).carve_file_types
      (some scenario_S3) [])).map CarvedFile.core =
      [("PDF", 0, 8, 8, false), ("JPEG", 6, 12, 6, true)] ∧
    (carved_after ((small_files_carver.set_use_footers false).carve_file_types
      (some scenario_S3) [])).map CarvedFile.core =
      [("PDF", 0, 18, 18, false), ("JPEG", 6, 18, 12, false)] ∧
    (carved_after ((small_files_carver.set_max_file_size 10).carve_file_types
      (some scenario_S3) [])).map CarvedFile.core = [("JPEG", 6, 12, 6, true)] ∧
    (carved_after (small_files_carver.carve_file_types (some scenario_S3) ["JPEG"])).map
      CarvedFile.core = [("JPEG", 6, 12, 6, true)] ∧
    (nested_two_window_input.length = 80000 ∧
      (carved_after (small_files_carver.carve_file_types (some nested_two_window_input)
        [])).map CarvedFile.core =
        [("PDF", 0, 80000, 80000, true), ("JPEG", 62000, 62006, 6, true),
          ("JPEG", 66096, 80000, 13904, false)]) :=
  ⟨rfl, rfl, rfl, rfl, nested_two_window_length, nested_two_window_cores⟩

/-- C32 (nested candidates are all reported), amended.  Emitting a record for
a header at a window index never changes the decision at any other index.  For
an input that is scanned as one window, in which `detect_header` finds a PDF
header at `p`, a JPEG header at `j > p` and no other header, with
`use_footers = true`, the first `%%EOF` at or after `p` and the first `FF D9`
at or after `j` inside the search window, both sizes admitted by the size
filter and both types admitted by the type filter, the results are exactly two
records: the PDF from `p` to the end of its footer and the JPEG from `j` to the
end of its footer, both with `has_valid_footer = true`, the PDF first. -/
theorem nested_candidates (c : FileCarver) (input : List Byte) (types : List String)
    (p j fp fj : Nat)
    (hcs : input.length ≤ c.chunk_reader_.chunk_size_) (hN : input.length < 2 ^ 64)
    (hpj : p < j) (hj : j + 4 ≤ input.length)
    (hpdf : detect_header c.signatures (input.drop p) (input.length - p) = some pdf_signature)
    (hjpeg : detect_header c.signatures (input.drop j) (input.length - j) = some jpeg_signature)
    (hnone : ∀ i, i + 4 ≤ input.length → i ≠ p → i ≠ j →
      detect_header c.signatures (input.drop i) (input.length - i) = none)
    (hfp : p + fp + 5 ≤ input.length ∧
      (input.drop (p + fp)).take 5 = pdf_signature.footer ∧
      ∀ k, k < fp → (input.drop (p + k)).take 5 ≠ pdf_signature.footer)
    (hfj : j + fj + 2 ≤ input.length ∧
      (input.drop (j + fj)).take 2 = jpeg_signature.footer ∧
      ∀ k, k < fj → (input.drop (j + k)).take 2 ≠ jpeg_signature.footer)
    (hu : c.use_footers_ = true)
    (hw : fp + 5 ≤ c.search_window_ ∧ fj + 2 ≤ c.search_window_)
    (hmin : c.min_file_size_ ≤ fp + 5 ∧ c.min_file_size_ ≤ fj + 2)
    (hmax : c.max_file_size_ = 0 ∨ (fp + 5 ≤ c.max_file_size_ ∧ fj + 2 ≤ c.max_file_size_))
    (ht : types = [] ∨ ("PDF" ∈ types ∧ "JPEG" ∈ types)) :
    (∀ (st : FileCarver) (sig : FileSignature) (s e fs : Nat) (b : Bool) (data : List Byte)
      (n off i : Nat),
      (st.emit_candidate sig s e fs b).scan_hit data n off types i =
        st.scan_hit data n off types i) ∧
    (∃ c', c.carve_file_types (some input) types = Except.ok (true, c')) ∧
    (carved_after (c.carve_file_types (some input) types)).map CarvedFile.core =
      [("PDF", p, p + fp + 5, fp + 5, true), ("JPEG", j, j + fj + 2, fj + 2, true)] ∧
    p < j :=
  ⟨fun st sig s e fs b data n off i => scan_hit_after_emit st sig s e fs b data n off types i,
    (nested_cores c input types p j fp fj hcs hN hpj hj hpdf hjpeg hnone hfp hfj hu hw hmin
      hmax ht).1,
    (nested_cores c input types p j fp fj hcs hN hpj hj hpdf hjpeg hnone hfp hfj hu hw hmin
      hmax ht).2, hpj⟩

/-- Instance of the amended C32: scenario S3 with the engine
`small_files_carver` yields the PDF record `(0, 18)` and the JPEG record
`(6, 12)`. -/
theorem nested_candidates_S3 :
    (carved_after (small_files_carver.carve_file_types (some scenario_S3) [])).map
      CarvedFile.core = [("PDF", 0, 0 + 13 + 5, 13 + 5, true), ("JPEG", 6, 6 + 4 + 2, 4 + 2, true)] :=
  (nested_candidates small_files_carver scenario_S3 [] 0 6 13 4 (by decide) (by decide)
    (by decide) (by decide) (by decide) (by decide)
    (by
      intro i hi hp hj
      have hi2 : i < 15 := by
        have : scenario_S3.length = 18 := rfl
        omega
      interval_cases i <;> first | rfl | exact absurd rfl hp | exact absurd rfl hj)
    ⟨by decide, by decide, by decide⟩ ⟨by decide, by decide, by decide⟩ rfl
    ⟨by decide, by decide⟩ ⟨by decide, by decide⟩ (Or.inl rfl) (Or.inl rfl)).2.2.1


/-- C33 (open failure produces no results).  If the reader cannot open the
input (`ChunkReader::open` returns false), `carve_file_types` returns false
and leaves the engine with an empty result list and `files_found`,
`files_extracted` and `bytes_processed` all 0, whatever the engine held before
the call: the call starts with `clear_results`. -/
theorem open_failure_no_results (c : FileCarver) (types : List String) :
    (c.chunk_reader_.open none).1 = false ∧
    ∃ c', c.carve_file_types none types = Except.ok (false, c') ∧
      c'.get_carved_files = [] ∧
      c'.get_statistics = (0, 0, 0) ∧
      c'.chunk_reader_.is_open_ = false :=
  ⟨rfl, _, rfl, rfl, rfl, rfl⟩

/-- Instance of C33: the engine that carved one record from scenario S1 is
then given an input that cannot be opened. -/
theorem open_failure_after_S1 :
    (state_after (small_files_carver.carve_file_types (some scenario_S1) [])
      small_files_carver).get_carved_files = [record_S1] ∧
    ∃ c', (state_after (small_files_carver.carve_file_types (some scenario_S1) [])
        small_files_carver).carve_file_types none [] = Except.ok (false, c') ∧
      c'.get_carved_files = [] ∧
      c'.get_statistics = (0, 0, 0) ∧
      c'.chunk_reader_.is_open_ = false :=
  ⟨rfl, (open_failure_no_results (state_after
    (small_files_carver.carve_file_types (some scenario_S1) []) small_files_carver) []).2⟩


/-- C34 (scan range safety), evaluated on the code.  For a window of
`4 <= L < 2^64` bytes the scan loop of `process_chunk` visits exactly the
indices `i` with `i + 4 <= L`, each with the size argument `L - i`.  For a window shorter than four bytes the loop
bound `chunk_size - 4` wraps in `size_t`: with `L = 3` it is `2^64 - 1`, so the
loop also visits index 4, which lies outside the window, and calls
`detect_header` there with the wrapped size `3 - 4 = 2^64 - 1`, which passes
every length check.  The run has no defined result: `process_chunk` on a window
shorter than four bytes, and with it the carve of the three-byte file
`FF D8 FF`, is undefined behaviour. -/
theorem scan_range_short_window :
    (∀ (L i : Nat), 4 ≤ L → L < 2 ^ 64 →
      (i ≤ scan_loop_bound L ↔ i + 4 ≤ L) ∧ (i ∈ List.range (L - 4 + 1) ↔ i + 4 ≤ L) ∧
      (i + 4 ≤ L → detect_size L i = L - i)) ∧
    (∀ (c : FileCarver) (data : List Byte) (L off : Nat) (types : List String), 4 ≤ L →
      c.process_chunk data L off types =
        Except.ok ((List.range (L - 4 + 1)).foldl (process_position data L off types) c)) ∧
    (scan_loop_bound 3 = 2 ^ 64 - 1 ∧ 4 ≤ scan_loop_bound 3 ∧ ¬ (4 + 4 ≤ 3) ∧
      detect_size 3 4 = 2 ^ 64 - 1 ∧
      ∀ S ∈ initialize_common_signatures, S.header.length ≤ detect_size 3 4) ∧
    (∀ (c : FileCarver) (data : List Byte) (L off : Nat) (types : List String), L < 4 →
      c.process_chunk data L off types = Except.error Fault.undefined_behaviour) ∧
    default_carver.carve_file_types (some [0xFF, 0xD8, 0xFF]) [] =
      Except.error Fault.undefined_behaviour := by
  refine ⟨?_, ?_, ⟨by decide, by decide, by decide, by decide, by decide⟩, ?_, rfl⟩
  · intro L i h4 hL
    refine ⟨?_, ?_, ?_⟩
    · unfold scan_loop_bound
      have h : L + 2 ^ 64 - 4 = (L - 4) + 2 ^ 64 := by omega
      rw [h, Nat.add_mod_right, Nat.mod_eq_of_lt (by omega)]
      omega
    · rw [List.mem_range]
      omega
    · intro hi
      unfold detect_size
      have h : L + 2 ^ 64 - i = (L - i) + 2 ^ 64 := by omega
      rw [h, Nat.add_mod_right, Nat.mod_eq_of_lt (by omega)]
  · intro c data L off types h4
    unfold process_chunk
    rw [if_neg (by omega)]
  · intro c data L off types hL
    unfold process_chunk
    rw [if_pos hL]

end FileCarver

/-- C35, counterexample.  On the window `AA AA AA AA 42 4D` the scan loop of
`process_chunk` visits the offsets 0, 1, 2 and finds no header, while the scan
of every offset finds the two-byte BMP header `42 4D` at offset 4, where it fits
in the remaining tail. -/
theorem scan_range_equivalence_counterexample :
    header_hits initialize_common_signatures [0xAA, 0xAA, 0xAA, 0xAA, 0x42, 0x4D] 6 = [] ∧
    header_hits_every_offset initialize_common_signatures [0xAA, 0xAA, 0xAA, 0xAA, 0x42, 0x4D] =
      [(4, ⟨"BMP", ".bmp", [0x42, 0x4D], [], 0, false⟩)] := by
  decide

/-- C35 (scan-range equivalence), amended.  For a window of at least four
bytes, the header hits of the scan of `process_chunk` (offsets
`0 .. len(buf) - 4`) are the header hits of the every-offset scan at those
offsets; the every-offset scan finds in addition exactly the headers shorter
than four bytes that start in the last three bytes of the window, which for the
built-in registry are those of JPEG, MP3, MP3_ALT, BMP and EXE.  The two scans
yield the same hits whenever no such hit exists, in particular for a registry
whose headers all have at least four bytes. -/
theorem scan_range_agreement (signatures : List FileSignature) (buf : List Byte)
    (h4 : 4 ≤ buf.length) :
    header_hits signatures buf buf.length =
      (header_hits_every_offset signatures buf).filter
        (fun h => decide (h.1 + 4 ≤ buf.length)) ∧
    (∀ h ∈ header_hits_every_offset signatures buf,
      h ∉ header_hits signatures buf buf.length →
        buf.length < h.1 + 4 ∧ h.1 < buf.length ∧ h.2.header.length < 4 ∧
        (signatures = initialize_common_signatures →
          h.2.name ∈ ["JPEG", "MP3", "MP3_ALT", "BMP", "EXE"])) ∧
    ((∀ h ∈ header_hits_every_offset signatures buf, h.1 + 4 ≤ buf.length) →
      header_hits signatures buf buf.length = header_hits_every_offset signatures buf) ∧
    ((∀ S ∈ signatures, 4 ≤ S.header.length) →
      header_hits signatures buf buf.length = header_hits_every_offset signatures buf) := by
  have hfilter := header_hits_eq_filter signatures buf h4
  have hall : (∀ h ∈ header_hits_every_offset signatures buf, h.1 + 4 ≤ buf.length) →
      header_hits signatures buf buf.length = header_hits_every_offset signatures buf := by
    intro hh
    rw [hfilter, List.filter_eq_self]
    intro h hm
    exact decide_eq_true (hh h hm)
  refine ⟨hfilter, ?_, hall, ?_⟩
  · intro h hm hnot
    obtain ⟨h1, h2, h3, _⟩ := header_hits_every_offset_mem signatures buf h hm
    have hlt : buf.length < h.1 + 4 := by
      by_contra hc
      apply hnot
      rw [hfilter, List.mem_filter]
      exact ⟨hm, decide_eq_true (by omega)⟩
    refine ⟨hlt, h1, by omega, ?_⟩
    intro hsig
    have hshort : h.2.header.length < 4 := by omega
    rw [hsig] at h2
    simp only [initialize_common_signatures, List.mem_cons, List.mem_singleton,
      List.not_mem_nil, or_false] at h2
    rcases h2 with e | e | e | e | e | e | e | e | e | e | e | e | e | e | e | e | e | e | e <;>
      rw [e] at hshort ⊢ <;>
      first
      | exact absurd hshort (by decide)
      | decide
  · intro hlong
    apply hall
    intro h hm
    obtain ⟨_, h2, h3, _⟩ := header_hits_every_offset_mem signatures buf h hm
    have := hlong h.2 h2
    omega

/-- Instance of the amended C35 on scenario S1: both scans find the JPEG header
at offset 3 and nothing else. -/
theorem scan_range_agreement_S1 :
    header_hits initialize_common_signatures scenario_S1 scenario_S1.length =
      header_hits_every_offset initialize_common_signatures scenario_S1 ∧
    header_hits initialize_common_signatures scenario_S1 scenario_S1.length =
      [(3, jpeg_signature)] :=
  ⟨(scan_range_agreement initialize_common_signatures scenario_S1 (by decide)).2.2.1
    (by decide), by decide⟩

namespace FileCarver

/-- C36 (statistics agree with the result list).  After every completed
`carve_file_types` call, `files_found` equals the number of records in
`get_carved_files()`, `files_extracted` equals the number of those records
with `extracted = true`, so `files_extracted <= files_found`; and when
`extract_files` is false every record has `extracted = false` and
`files_extracted = 0`.  The same agreement holds after `clear_results`, where
the list is empty and the counts are 0. -/
theorem statistics_agree (c : FileCarver) (input : Option (List Byte)) (types : List String)
    (b : Bool) (c' : FileCarver) (h : c.carve_file_types input types = Except.ok (b, c')) :
    c'.get_statistics.1 = c'.get_carved_files.length ∧
    c'.get_statistics.2.1 = (c'.get_carved_files.filter (fun r => r.extracted)).length ∧
    c'.get_statistics.2.1 ≤ c'.get_statistics.1 ∧
    (c.extract_files_ = false →
      (∀ r ∈ c'.get_carved_files, r.extracted = false) ∧ c'.get_statistics.2.1 = 0) ∧
    (c.clear_results.get_carved_files = [] ∧ c.clear_results.get_statistics = (0, 0, 0)) := by
  obtain ⟨⟨h1, h2, h3⟩, he⟩ := carve_stats_agree c input types b c' h
  refine ⟨h1, h2, ?_, ?_, rfl, rfl⟩
  · show c'.files_extracted_ ≤ c'.files_found_
    rw [h1, h2]
    exact List.length_filter_le _ _
  · intro hx
    have hall := h3 (he.trans hx)
    refine ⟨hall, ?_⟩
    show c'.files_extracted_ = 0
    rw [h2, List.length_eq_zero, List.filter_eq_nil_iff]
    intro r hr
    rw [hall r hr]
    decide

/-- Instance of C36 on scenario S1: one record, extracted. -/
theorem statistics_agree_S1 :
    (state_after (small_files_carver.carve_file_types (some scenario_S1) [])
      small_files_carver).get_statistics.1 = 1 ∧
    (state_after (small_files_carver.carve_file_types (some scenario_S1) [])
      small_files_carver).get_statistics.2.1 = 1 ∧
    (state_after (small_files_carver.carve_file_types (some scenario_S1) [])
      small_files_carver).get_statistics.1 =
      (state_after (small_files_carver.carve_file_types (some scenario_S1) [])
        small_files_carver).get_carved_files.length :=
  ⟨rfl, rfl, (statistics_agree small_files_carver (some scenario_S1) [] true
    (state_after (small_files_carver.carve_file_types (some scenario_S1) [])
      small_files_carver) rfl).1⟩


/-- C37 (help-listed types and `--types`), evaluated on the code.
`split_string` converts every item to upper case.  Sixteen of the eighteen names
that the help text lists are upper case already: for them `split_string`
yields the name itself, which is the name of a built-in signature.  For the
listed names `GIF87a` and `GIF89a` it yields `GIF87A` and `GIF89A`, which no
built-in signature has as its name, so the exact comparison of the type filter
in `process_chunk` rejects every hit: a carve on the built-in registry with the
filter of `--types GIF87a` has no results for any input.  On the nine-byte file
`gif87a_file` the run with `-t GIF87a --min-size 1` ends with exit code 0 and
no record, while the run without `-t` reports the GIF87a file. -/
theorem types_option_gif87a :
    (split_string "GIF87a" ',' = ["GIF87A"] ∧ split_string "GIF89a" ',' = ["GIF89A"]) ∧
    ("GIF87a" ∈ help_supported_types ∧ "GIF89a" ∈ help_supported_types) ∧
    (∀ S ∈ initialize_common_signatures, S.name ≠ "GIF87A" ∧ S.name ≠ "GIF89A") ∧
    (∀ name ∈ help_supported_types, name ≠ "GIF87a" → name ≠ "GIF89a" →
      split_string name ',' = [name] ∧
      name ∈ initialize_common_signatures.map FileSignature.name) ∧
    (∀ (c : FileCarver) (input : Option (List Byte)),
      c.signatures = initialize_common_signatures →
      carved_after (c.carve_file_types input (split_string "GIF87a" ',')) = [] ∧
      carved_after (c.carve_file_types input (split_string "GIF89a" ',')) = []) ∧
    ((main ["chunked_carver", "-i", "image.dd", "-t", "GIF87a", "--min-size", "1"]
        (fun _ => true) (fun _ => some gif87a_file) (fun _ => true) quiet_world).map
        (fun out => (out.1, out.2.map (fun c => c.get_carved_files.map CarvedFile.core)))
      = Except.ok (0, some []) ∧
     (main ["chunked_carver", "-i", "image.dd", "--min-size", "1"]
        (fun _ => true) (fun _ => some gif87a_file) (fun _ => true) quiet_world).map
        (fun out => (out.1, out.2.map (fun c => c.get_carved_files.map CarvedFile.core)))
      = Except.ok (0, some [("GIF87a", 0, 9, 9, true)])) := by
  refine ⟨⟨by decide, by decide⟩, ⟨by decide, by decide⟩, by decide, by decide, ?_, rfl, rfl⟩
  intro c input hc
  have h87 : split_string "GIF87a" ',' = ["GIF87A"] := by decide
  have h89 : split_string "GIF89a" ',' = ["GIF89A"] := by decide
  rw [h87, h89]
  refine ⟨carved_after_foreign_filter c input _ (by simp) ?_,
    carved_after_foreign_filter c input _ (by simp) ?_⟩
  · rw [hc]; decide
  · rw [hc]; decide

end FileCarver

/-- C38 (built-in headers are prefix-free except for ZIP and DOCX).  Among the
19 built-in signatures the only ordered pair `(A, B)` with `A` different from
`B` and `A.header` a prefix of `B.header` is `(ZIP, DOCX)`, and that pair is
one.  For every built-in signature `S` other than DOCX and every buffer that
begins with `S.header`, `detect_header` returns `S`. -/
theorem headers_prefix_free :
    (∀ A ∈ initialize_common_signatures, ∀ B ∈ initialize_common_signatures,
      A ≠ B → A.header.isPrefixOf B.header = true → A = zip_signature ∧ B = docx_signature) ∧
    (zip_signature ∈ initialize_common_signatures ∧
      docx_signature ∈ initialize_common_signatures ∧ zip_signature ≠ docx_signature ∧
      zip_signature.header.isPrefixOf docx_signature.header = true) ∧
    (∀ S ∈ initialize_common_signatures, S ≠ docx_signature →
      ∀ (t : List Byte) (n : Nat), S.header.length ≤ n →
        detect_header initialize_common_signatures (S.header ++ t) n = some S ∧
        FileSignatureDetector.new.detect_header (S.header ++ t) n = some S) := by
  refine ⟨by decide, by decide, ?_⟩
  intro S hS hne t n hn
  refine ⟨detect_header_own S hS hne t n hn, ?_⟩
  unfold FileSignatureDetector.detect_header
  rw [new_signatures]
  exact detect_header_own S hS hne t n hn

/-- Instance of C38: a buffer that begins with the GIF89a header. -/
theorem headers_prefix_free_gif89a :
    detect_header initialize_common_signatures
      ([0x47, 0x49, 0x46, 0x38, 0x39, 0x61] ++ [0x01, 0x00, 0x3B]) 9 =
      some ⟨"GIF89a", ".gif", [0x47, 0x49, 0x46, 0x38, 0x39, 0x61], [0x00, 0x3B], 0, true⟩ :=
  (headers_prefix_free.2.2 ⟨"GIF89a", ".gif", [0x47, 0x49, 0x46, 0x38, 0x39, 0x61],
    [0x00, 0x3B], 0, true⟩ (by decide) (by decide) [0x01, 0x00, 0x3B] 9 (by decide)).1

namespace FileCarver

/-- C39 (single-window correctness).  For every input of `N` bytes with
`4 <= N <= 65536` and every configuration of the engine (whose reader has the
chunk size 65536), `carve_file_types` completes, and its results are, in
increasing order of offset, one record for each offset `i` in `[0, N - 4]` at
which `detect_header(input[i..])` returns a signature that passes the type
filter and the size filter, each with `start_offset = i`; the start offsets are
strictly increasing, so no two records share one. -/
theorem single_window_correctness (c : FileCarver) (input : List Byte) (types : List String)
    (hcs : c.chunk_reader_.chunk_size_ = 65536) (h4 : 4 ≤ input.length)
    (hN : input.length ≤ 65536) :
    (∃ c', c.carve_file_types (some input) types = Except.ok (true, c')) ∧
    (carved_after (c.carve_file_types (some input) types)).map CarvedFile.core =
      ((List.range (input.length - 4 + 1)).filterMap
        ((c.started input).scan_hit input input.length 0 types)).map Hit.core ∧
    (∀ (i : Nat) (h : Hit),
      (c.started input).scan_hit input input.length 0 types i = some h ↔
        (detect_header c.signatures (input.drop i) (input.length - i) = some h.signature ∧
          (types = [] ∨ h.signature.name ∈ types) ∧
          h.start_offset = i ∧
          h.end_offset = ((c.started input).determine_end h.signature i).1 ∧
          h.has_valid_footer = ((c.started input).determine_end h.signature i).2 ∧
          h.file_size = (h.end_offset + 2 ^ 64 - h.start_offset) % 2 ^ 64 ∧
          c.min_file_size_ ≤ h.file_size ∧
          (c.max_file_size_ = 0 ∨ h.file_size ≤ c.max_file_size_))) ∧
    ((carved_after (c.carve_file_types (some input) types)).map
      CarvedFile.start_offset).Pairwise (fun a b => a < b) ∧
    (∀ r ∈ carved_after (c.carve_file_types (some input) types),
      r.start_offset + 4 ≤ input.length) := by
  obtain ⟨h1, h2⟩ := carved_after_single_window c input types h4 (by omega)
  have hstarts : (carved_after (c.carve_file_types (some input) types)).map
      CarvedFile.start_offset =
      ((c.started input).scan_window types input input.length 0).map Hit.start_offset := by
    have := congrArg (List.map (fun x : String × Nat × Nat × Nat × Bool => x.2.1)) h2
    simp only [List.map_map] at this
    exact this
  refine ⟨h1, h2, ?_, ?_, ?_⟩
  · intro i h
    have := scan_hit_iff (c.started input) input input.length 0 types i h
    simp only [Nat.zero_add] at this
    exact this
  · rw [hstarts, List.pairwise_map]
    exact scan_window_sorted _ _ _ _ _
  · intro r hr
    have hm : r.start_offset ∈ (carved_after (c.carve_file_types (some input) types)).map
        CarvedFile.start_offset := List.mem_map_of_mem _ hr
    rw [hstarts, List.mem_map] at hm
    obtain ⟨h, hh, hs⟩ := hm
    unfold scan_window at hh
    rw [List.mem_filterMap] at hh
    obtain ⟨i, hi, hsome⟩ := hh
    rw [List.mem_range] at hi
    have := scan_hit_start _ _ _ _ _ _ _ hsome
    omega

/-- Instance of C39 on scenario S1 with the engine `small_files_carver`. -/
theorem single_window_correctness_S1 :
    (carved_after (small_files_carver.carve_file_types (some scenario_S1) [])).map
        CarvedFile.core =
      ((List.range (scenario_S1.length - 4 + 1)).filterMap
        ((small_files_carver.started scenario_S1).scan_hit scenario_S1 scenario_S1.length
          0 [])).map Hit.core ∧
    (carved_after (small_files_carver.carve_file_types (some scenario_S1) [])).map
        CarvedFile.core = [("JPEG", 3, 17, 14, true)] :=
  ⟨(single_window_correctness small_files_carver scenario_S1 [] rfl (by decide)
    (by decide)).2.1, rfl⟩


/-- C40 (a footer match may overlap the header).  The footer search starts at
the first byte of the header.  On the four bytes `FF D8 FF D9`, with
`use_footers = true` and `min_file_size <= 4`, the carve emits one JPEG record
with `has_valid_footer = true` and `file_size = 4`, which is smaller than
`len(header) + len(footer) = 5`.  In general a footer-delimited record of an
input (of length below `2^64`) has `file_size = end_offset - start_offset` at
least the length of the footer of the matched signature; with a custom
signature whose footer equals its header that bound is attained. -/
theorem footer_overlaps_header (c : FileCarver) (input : List Byte) (hN : input.length < 2 ^ 64)
    (types : List String) (r : CarvedFile)
    (hr : r ∈ carved_after (c.carve_file_types (some input) types))
    (hv : r.has_valid_footer = true) :
    ((∀ m, m ≤ 4 →
        (carved_after (((FileCarver.new "out" quiet_world).set_min_file_size m).carve_file_types
          (some [0xFF, 0xD8, 0xFF, 0xD9]) [])).map CarvedFile.core = [("JPEG", 0, 4, 4, true)]) ∧
      (FileCarver.new "out" quiet_world).use_footers_ = true ∧
      jpeg_signature.header.length + jpeg_signature.footer.length = 5) ∧
    (∃ sig ∈ c.signatures, sig.name = r.type ∧ sig.has_footer = true ∧
      r.start_offset + sig.footer.length ≤ r.end_offset ∧
      r.file_size = r.end_offset - r.start_offset ∧
      sig.footer.length ≤ r.file_size) ∧
    (carved_after ((small_files_carver.add_custom_signature
        ⟨"X", ".x", [0x01, 0x02], [0x01, 0x02], 0, true⟩).carve_file_types
        (some [0x01, 0x02, 0xAA, 0xAA]) [])).map CarvedFile.core = [("X", 0, 2, 2, true)] :=
  ⟨⟨fun m hm => by interval_cases m <;> rfl, rfl, rfl⟩,
    footer_record_size c input hN types r hr hv, rfl⟩

/-- Instance of C40: the JPEG record of scenario S1 is footer-delimited and its
size 14 is at least the length of the JPEG footer. -/
theorem footer_overlaps_header_S1 :
    ∃ sig ∈ small_files_carver.signatures, sig.name = record_S1.type ∧ sig.has_footer = true ∧
      record_S1.start_offset + sig.footer.length ≤ record_S1.end_offset ∧
      record_S1.file_size = record_S1.end_offset - record_S1.start_offset ∧
      sig.footer.length ≤ record_S1.file_size :=
  (footer_overlaps_header small_files_carver scenario_S1 (by decide) [] record_S1
    (List.mem_singleton.mpr rfl) rfl).2.1

end FileCarver

end Carving
